import Mathlib

/-!
# AssocMulti: an associative array of pointers tolerating repeated keys

A shallow embedding of `lib/Basics/AssocMulti.h` (instantiated with
`IndexType = size_t`) together with a verification of its hashing, probing,
linked-list and hole-healing rules.

Conventions of the embedding:

* `Element*` is `Option E` (`none` is `nullptr`);
* an index field that may hold `INVALID_INDEX` is `Option Nat` (`none` is
  `INVALID_INDEX`, which is never a valid slot number);
* `Entry* _table` is a function from slot numbers to entries, together with the
  allocation size `_nrAlloc`;
* a loop that need not terminate is run with a bound; `none` is returned when
  the bound is exhausted.  For the read-only probe loops the bound is the number
  of slots, so that `none` is returned exactly when the loop of the source would
  run forever;
* `TRI_NearPrime` (declared in `Basics/prime-numbers.h`) is a parameter
  `nearPrime`;
* the counters and sizes of a table are natural numbers (they are bounded by the
  memory that the table occupies, far below the range of `size_t`); the
  arithmetic on the argument `size` of `resize`, which the caller chooses, is
  modulo `2 ^ 64`;
* memory allocation is assumed to succeed.
-/

namespace AssocMulti

/-- The callbacks stored in an `AssocMulti`: `_hashKey`, `_hashElement`,
`_isEqualKeyElement`, `_isEqualElementElement` and
`_isEqualElementElementByKey`. -/
structure Callbacks (K E : Type) where
  hashKey : K → Nat
  hashElement : E → Bool → Nat
  isEqualKeyElement : K → E → Bool
  isEqualElementElement : E → E → Bool
  isEqualElementElementByKey : E → E → Bool

/-- One slot of the hash table (`struct Entry`). -/
structure Entry (E : Type) where
  hashCache : Nat
  ptr : Option E
  next : Option Nat
  prev : Option Nat

/-- One bucket (`struct Bucket`). -/
structure Bucket (E : Type) where
  nrAlloc : Nat
  nrUsed : Nat
  nrCollisions : Nat
  table : Nat → Entry E

/-- The data members `_buckets` and `_bucketsMask` of the class. -/
structure Multi (E : Type) where
  buckets : List (Bucket E)
  bucketsMask : Nat

variable {K E : Type}

/-- The assignment `b._table[i] = x`. -/
def Bucket.set (b : Bucket E) (i : Nat) (x : Entry E) : Bucket E :=
  { b with table := fun k => if k = i then x else b.table k }

/-- Source `hashToIndex` for the 64 bit index type: the identity. -/
def hashToIndex (h : Nat) : Nat := h

/-- Source `incr`: increment by 1 modulo `_nrAlloc`. -/
def incr (b : Bucket E) (i : Nat) : Nat :=
  if i + 1 < b.nrAlloc then i + 1 else i + 1 - b.nrAlloc

/-- Source `isBetween`. -/
def isBetween (src x dst : Nat) : Bool :=
  if src < dst then (decide (src < x) && decide (x ≤ dst))
  else (decide (x > src) || decide (x ≤ dst))

/-- Source `invalidateEntry`. -/
def invalidateEntry (b : Bucket E) (i : Nat) : Bucket E :=
  b.set i ⟨0, none, none, none⟩

/-- A bucket with `n` freshly allocated slots, all of them invalidated with `invalidateEntry`,
and counters zero. -/
def emptyBucket (E : Type) (n : Nat) : Bucket E :=
  { nrAlloc := n, nrUsed := 0, nrCollisions := 0, table := fun _ => ⟨0, none, none, none⟩ }

/-- Source `moveEntry`. -/
def moveEntry (b : Bucket E) (src dst : Nat) : Bucket E :=
  let b1 := b.set dst (b.table src)
  let b2 := match (b1.table dst).prev with
    | some p => b1.set p { b1.table p with next := some dst }
    | none => b1
  let b3 := match (b2.table dst).next with
    | some q => b2.set q { b2.table q with prev := some dst }
    | none => b2
  invalidateEntry b3 src

/-- The loop of source `healHole`, with hole `i` and scan position `j`. -/
def healHoleLoop (cb : Callbacks K E) : Nat → Bucket E → Nat → Nat → Option (Bucket E)
  | 0, _, _, _ => none
  | fuel + 1, b, i, j =>
    match (b.table j).ptr with
    | none => some b
    | some e =>
      let hash := cb.hashElement e (b.table j).prev.isNone
      let k := hashToIndex hash % b.nrAlloc
      if !isBetween i k j then
        healHoleLoop cb fuel (moveEntry b j i) j (incr b j)
      else
        healHoleLoop cb fuel b i (incr b j)

/-- Source `healHole`.  Every move brings an entry closer to its home slot and
between two moves the scan meets the hole after at most `_nrAlloc` steps, so the
bound is never exhausted. -/
def healHole (cb : Callbacks K E) (b : Bucket E) (i : Nat) : Option (Bucket E) :=
  healHoleLoop cb (b.nrAlloc * b.nrAlloc * b.nrAlloc + 1) b i (incr b i)

/-- A probe loop `while (cont(b._table[i])) i = incr(b, i);`. -/
def probe (b : Bucket E) (cont : Entry E → Bool) : Nat → Nat → Option Nat
  | 0, _ => none
  | fuel + 1, i => if cont (b.table i) then probe b cont fuel (incr b i) else some i

/-- The loop condition of the search for the head of a linked list:
`ptr != nullptr && (prev != INVALID_INDEX || hashCache != hashByKey || ! eq(ptr))`. -/
def headCont (eq : E → Bool) (hashByKey : Nat) (x : Entry E) : Bool :=
  match x.ptr with
  | none => false
  | some p => x.prev.isSome || x.hashCache != hashByKey || !eq p

/-- The loop condition of source `findElementPlace`:
`ptr != nullptr && (! checkEquality || hashCache != hashByElm || ! eq(ptr))`. -/
def placeCont (eq : E → Bool) (checkEquality : Bool) (hashByElm : Nat) (x : Entry E) : Bool :=
  match x.ptr with
  | none => false
  | some p => !checkEquality || x.hashCache != hashByElm || !eq p

/-- The loop condition `ptr != nullptr`. -/
def usedCont (x : Entry E) : Bool := x.ptr.isSome

/-- Source `findElementPlace`; the result is the slot and `hashByElm`. -/
def findElementPlace (cb : Callbacks K E) (b : Bucket E) (element : E) (checkEquality : Bool) :
    Option (Nat × Nat) :=
  let hashByElm := cb.hashElement element false
  let i := hashToIndex hashByElm % b.nrAlloc
  (probe b (placeCont (cb.isEqualElementElement element) checkEquality hashByElm) b.nrAlloc i).map
    fun i => (i, hashByElm)

/-- Source `insertFirst`. -/
def insertFirst (b : Bucket E) (element : E) (hashByKey : Nat) : Option (Bucket E) :=
  let i := hashToIndex hashByKey % b.nrAlloc
  if (b.table i).ptr.isNone then
    some { b.set i ⟨hashByKey, some element, none, none⟩ with nrUsed := b.nrUsed + 1 }
  else
    (probe b usedCont b.nrAlloc i).map fun i =>
      { b.set i ⟨hashByKey, some element, none, none⟩ with nrUsed := b.nrUsed + 1 }

/-- The tail shared by source `insert` and `insertFurther`: put the element into the free
slot `j` and link it as second member of the list that starts in slot `i`. -/
def linkAfterHead (b : Bucket E) (element : E) (hashByElm i j : Nat) : Bucket E :=
  let b1 := b.set j ⟨hashByElm, some element, (b.table i).next, some i⟩
  let b2 := b1.set i { b1.table i with next := some j }
  let b3 := match (b2.table j).next with
    | some s => b2.set s { b2.table s with prev := some j }
    | none => b2
  { b3 with nrUsed := b3.nrUsed + 1, nrCollisions := b3.nrCollisions + 1 }

/-- Source `insertFurther`; a failing `TRI_ASSERT` yields `none`. -/
def insertFurther (cb : Callbacks K E) (b : Bucket E) (element : E) (hashByKey hashByElm : Nat) :
    Option (Bucket E) :=
  let i := hashToIndex hashByKey % b.nrAlloc
  if (b.table i).ptr.isNone then none else
  (probe b (headCont (cb.isEqualElementElementByKey element) hashByKey) b.nrAlloc i).bind fun i =>
  if (b.table i).ptr.isNone then none else
  let j := hashToIndex hashByElm % b.nrAlloc
  (probe b usedCont b.nrAlloc j).map fun j => linkAfterHead b element hashByElm i j

/-- The loop `while (oldTable[k].next != INVALID_INDEX) k = oldTable[k].next;` of source
`resizeInternal`. -/
def walkToEnd (oldTable : Nat → Entry E) : Nat → Nat → Option Nat
  | 0, _ => none
  | fuel + 1, k =>
    match (oldTable k).next with
    | none => some k
    | some k1 => walkToEnd oldTable fuel k1

/-- The loop `while (k != j) { insertFurther(...); k = oldTable[k].prev; }` of source
`resizeInternal`. -/
def insertBackwards (cb : Callbacks K E) (oldTable : Nat → Entry E) (hashByKey j : Nat) :
    Nat → Bucket E → Nat → Option (Bucket E)
  | 0, _, _ => none
  | fuel + 1, b, k =>
    if k = j then some b else
    match (oldTable k).ptr, (oldTable k).prev with
    | some e, some k1 =>
      (insertFurther cb b e hashByKey (oldTable k).hashCache).bind fun b1 =>
        insertBackwards cb oldTable hashByKey j fuel b1 k1
    | _, _ => none

/-- The body of the loop `for (j = 0; j < oldAlloc; j++)` of source `resizeInternal`. -/
def resizeStep (cb : Callbacks K E) (oldTable : Nat → Entry E) (oldAlloc : Nat)
    (b : Bucket E) (j : Nat) : Option (Bucket E) :=
  match (oldTable j).ptr, (oldTable j).prev with
  | some e, none =>
    (insertFirst b e (oldTable j).hashCache).bind fun b1 =>
    (walkToEnd oldTable oldAlloc j).bind fun k =>
      insertBackwards cb oldTable (oldTable j).hashCache j oldAlloc b1 k
  | _, _ => some b

/-- Source `resizeInternal`. -/
def resizeInternal (cb : Callbacks K E) (nearPrime : Nat → Nat) (b : Bucket E) (size : Nat) :
    Option (Bucket E) :=
  (List.range b.nrAlloc).foldlM (resizeStep cb b.table b.nrAlloc)
    (emptyBucket E (nearPrime size))

/-- The part of source `insert` after the check of the load of the bucket. -/
def insertCore (cb : Callbacks K E) (b : Bucket E) (element : E)
    (overwrite checkEquality : Bool) : Option (Bucket E × Option E) :=
  let hashByKey := cb.hashElement element true
  let i := hashToIndex hashByKey % b.nrAlloc
  if (b.table i).ptr.isNone then
    some ({ b.set i ⟨hashByKey, some element, none, none⟩ with nrUsed := b.nrUsed + 1 }, none)
  else
  (probe b (headCont (cb.isEqualElementElementByKey element) hashByKey) b.nrAlloc i).bind fun i =>
  match (b.table i).ptr with
  | none =>
    some ({ b.set i ⟨hashByKey, some element, none, none⟩ with nrUsed := b.nrUsed + 1 }, none)
  | some p =>
    if checkEquality && cb.isEqualElementElement element p then
      some (if overwrite then b.set i { b.table i with ptr := some element } else b, some p)
    else
    (findElementPlace cb b element checkEquality).bind fun r =>
    match (b.table r.1).ptr with
    | some old =>
      some (if overwrite then
              b.set r.1 { b.table r.1 with hashCache := r.2, ptr := some element }
            else b, some old)
    | none => some (linkAfterHead b element r.2 i r.1, none)

/-- The check of the load in source `insert`:
`if (2 * b._nrAlloc < 3 * b._nrUsed) { resizeInternal(b, 2 * b._nrAlloc + 1); }`. -/
def growBucket (cb : Callbacks K E) (nearPrime : Nat → Nat) (b : Bucket E) : Option (Bucket E) :=
  if 2 * b.nrAlloc < 3 * b.nrUsed then resizeInternal cb nearPrime b (2 * b.nrAlloc + 1)
  else some b

/-- The part of source `insert` that works on the bucket of the element: the bucket is extended
when it is more than 2/3 full, then the element is inserted. -/
def insertBucket (cb : Callbacks K E) (nearPrime : Nat → Nat) (b0 : Bucket E) (element : E)
    (overwrite checkEquality : Bool) : Option (Bucket E × Option E) :=
  (growBucket cb nearPrime b0).bind fun b =>
  insertCore cb b element overwrite checkEquality

/-- The part of source `lookupByElement` that works on the bucket of the element. -/
def lookupByElementBucket (cb : Callbacks K E) (b : Bucket E) (element : E) : Option Nat :=
  let hashByKey := cb.hashElement element true
  let i := hashToIndex hashByKey % b.nrAlloc
  (probe b (headCont (cb.isEqualElementElementByKey element) hashByKey) b.nrAlloc i).bind fun i =>
  match (b.table i).ptr with
  | some p =>
    if cb.isEqualElementElement element p then some i
    else (findElementPlace cb b element true).map Prod.fst
  | none => some i

/-- The loop `do { result->push_back(...); i = next; } while (i != INVALID_INDEX &&
(limit == 0 || result->size() < limit));` of the lookups by key. -/
def collect (b : Bucket E) (limit : Nat) : Nat → Nat → List (Option E) → Option (List (Option E))
  | 0, _, _ => none
  | fuel + 1, i, result =>
    let result1 := result ++ [(b.table i).ptr]
    match (b.table i).next with
    | none => some result1
    | some i1 =>
      if limit == 0 || result1.length < limit then collect b limit fuel i1 result1
      else some result1

/-- The part of the lookups by key after the bucket and the comparison are chosen. -/
def lookupHead (b : Bucket E) (eq : E → Bool) (hashByKey limit : Nat) :
    Option (List (Option E)) :=
  let i := hashToIndex hashByKey % b.nrAlloc
  (probe b (headCont eq hashByKey) b.nrAlloc i).bind fun i =>
  if (b.table i).ptr.isSome then collect b limit b.nrAlloc i [] else some []

/-- The loop `while (true) { i = next; if (...) break; result->push_back(...); }` of source
`lookupWithElementByKeyContinue`. -/
def collectAfter (b : Bucket E) (limit : Nat) :
    Nat → Nat → List (Option E) → Option (List (Option E))
  | 0, _, _ => none
  | fuel + 1, i, result =>
    match (b.table i).next with
    | none => some result
    | some i1 =>
      if limit != 0 && result.length ≥ limit then some result
      else collectAfter b limit fuel i1 (result ++ [(b.table i1).ptr])

/-- The part of source `lookupWithElementByKeyContinue` that works on the bucket; the inner
`none` is the null result. -/
def continueBucket (cb : Callbacks K E) (b : Bucket E) (element : E) (limit : Nat) :
    Option (Option (List (Option E))) :=
  let hashByKey := cb.hashElement element true
  (findElementPlace cb b element true).bind fun (i, _) =>
  if (b.table i).ptr.isNone then
    let i := hashToIndex hashByKey % b.nrAlloc
    (probe b (headCont (cb.isEqualElementElementByKey element) hashByKey) b.nrAlloc i).bind
      fun i =>
      if (b.table i).ptr.isNone then some none
      else (collectAfter b limit (b.nrAlloc + 1) i []).map some
  else (collectAfter b limit (b.nrAlloc + 1) i []).map some

/-- The statements of source `remove` for a first entry `i` that has the successor `j`:
`b->_table[j].prev = INVALID_INDEX; moveEntry(*b, j, i);` and the exchange of the cached hash
by that of the key.  The result is `none` if slot `i` then holds no element. -/
def promote (cb : Callbacks K E) (b : Bucket E) (i j : Nat) : Option (Bucket E) :=
  let b1 := b.set j { b.table j with prev := none }
  let b2 := moveEntry b1 j i
  match (b2.table i).ptr with
  | none => none
  | some p => some (b2.set i { b2.table i with hashCache := cb.hashElement p true })

/-- The statements of source `remove` for an entry `i` that is not the first of its list and
has the predecessor `pr`: the neighbours are linked with each other and the slot is
invalidated. -/
def spliceOut (b : Bucket E) (i pr : Nat) : Bucket E :=
  let b1 := b.set pr { b.table pr with next := (b.table i).next }
  let b2 := match (b1.table i).next with
    | some j => b1.set j { b1.table j with prev := (b1.table i).prev }
    | none => b1
  invalidateEntry b2 i

/-- The part of source `remove` that works on the bucket of the element. -/
def removeBucket (cb : Callbacks K E) (b : Bucket E) (element : E) :
    Option (Bucket E × Option E) :=
  (lookupByElementBucket cb b element).bind fun i =>
  match (b.table i).ptr with
  | none => some (b, none)
  | some old =>
    match (b.table i).prev with
    | none =>
      match (b.table i).next with
      | none =>
        (healHole cb (invalidateEntry b i) i).map fun b1 =>
          ({ b1 with nrUsed := b1.nrUsed - 1 }, some old)
      | some j =>
        (promote cb b i j).bind fun b3 =>
        (healHole cb b3 j).map fun b4 =>
          ({ b4 with nrCollisions := b4.nrCollisions - 1, nrUsed := b4.nrUsed - 1 }, some old)
    | some pr =>
      (healHole cb (spliceOut b i pr) i).map fun b3 =>
        ({ b3 with nrCollisions := b3.nrCollisions - 1, nrUsed := b3.nrUsed - 1 }, some old)

/-- The loop of the constructor that rounds the number of buckets to a power of two:
`while (numberBuckets > 0) { ex += 1; numberBuckets >>= 1; nr <<= 1; }`. -/
def bucketCountLoop : Nat → Nat → Nat → Nat
  | 0, _, nr => nr
  | fuel + 1, numberBuckets, nr =>
    if numberBuckets > 0 then bucketCountLoop fuel (numberBuckets >>> 1) (nr <<< 1) else nr

/-- The constructor of the class: `nr` buckets of `initialSize` invalidated slots each. -/
def Multi.mk0 (numberBuckets initialSize : Nat) : Multi E :=
  let nr := bucketCountLoop numberBuckets (numberBuckets >>> 1) 1
  { buckets := List.replicate nr (emptyBucket E initialSize), bucketsMask := nr - 1 }

/-- Source `size`. -/
def size (t : Multi E) : Nat := t.buckets.foldl (fun res b => res + b.nrUsed) 0

/-- Source `capacity`. -/
def capacity (t : Multi E) : Nat := t.buckets.foldl (fun res b => res + b.nrAlloc) 0

/-- Source `insert`. -/
def insert (cb : Callbacks K E) (nearPrime : Nat → Nat) (t : Multi E) (element : E)
    (overwrite checkEquality : Bool) : Option (Multi E × Option E) :=
  let hashByKey := cb.hashElement element true
  let n := hashByKey &&& t.bucketsMask
  t.buckets[n]?.bind fun b0 =>
  (insertBucket cb nearPrime b0 element overwrite checkEquality).map fun r =>
    ({ t with buckets := t.buckets.set n r.1 }, r.2)

/-- Source `lookupByElement`; the result is the number of the bucket and the slot. -/
def lookupByElement (cb : Callbacks K E) (t : Multi E) (element : E) : Option (Nat × Nat) :=
  let hashByKey := cb.hashElement element true
  let n := hashByKey &&& t.bucketsMask
  t.buckets[n]?.bind fun b => (lookupByElementBucket cb b element).map fun i => (n, i)

/-- Source `lookup`. -/
def lookup (cb : Callbacks K E) (t : Multi E) (element : E) : Option (Option E) :=
  (lookupByElement cb t element).bind fun r =>
  t.buckets[r.1]?.map fun b => (b.table r.2).ptr

/-- Source `lookupByKey`. -/
def lookupByKey (cb : Callbacks K E) (t : Multi E) (key : K) (limit : Nat) :
    Option (List (Option E)) :=
  let hashByKey := cb.hashKey key
  t.buckets[hashByKey &&& t.bucketsMask]?.bind fun b =>
  lookupHead b (cb.isEqualKeyElement key) hashByKey limit

/-- Source `lookupWithElementByKey`. -/
def lookupWithElementByKey (cb : Callbacks K E) (t : Multi E) (element : E) (limit : Nat) :
    Option (List (Option E)) :=
  let hashByKey := cb.hashElement element true
  t.buckets[hashByKey &&& t.bucketsMask]?.bind fun b =>
  lookupHead b (cb.isEqualElementElementByKey element) hashByKey limit

/-- Source `lookupWithElementByKeyContinue`. -/
def lookupWithElementByKeyContinue (cb : Callbacks K E) (t : Multi E) (element : E)
    (limit : Nat) : Option (Option (List (Option E))) :=
  let hashByKey := cb.hashElement element true
  t.buckets[hashByKey &&& t.bucketsMask]?.bind fun b => continueBucket cb b element limit

/-- Source `lookupByKeyContinue`. -/
def lookupByKeyContinue (cb : Callbacks K E) (t : Multi E) (element : E) (limit : Nat) :
    Option (Option (List (Option E))) :=
  lookupWithElementByKeyContinue cb t element limit

/-- Source `remove`. -/
def remove (cb : Callbacks K E) (t : Multi E) (element : E) : Option (Multi E × Option E) :=
  let hashByKey := cb.hashElement element true
  let n := hashByKey &&& t.bucketsMask
  t.buckets[n]?.bind fun b0 =>
  (removeBucket cb b0 element).map fun r => ({ t with buckets := t.buckets.set n r.1 }, r.2)

/-- The result codes of source `resize`. -/
inductive ErrorCode where
  | TRI_ERROR_NO_ERROR
  | TRI_ERROR_BAD_PARAMETER
  | TRI_ERROR_OUT_OF_MEMORY
  deriving DecidableEq, Repr

/-- The number of values of `IndexType` (`size_t`, 64 bits): the arithmetic on the argument
`size` of source `resize` is modulo this number. -/
def indexRange : Nat := 2 ^ 64

/-- The loop `for (auto& b : _buckets)` of source `resize`, on the buckets not yet visited.
The expressions `2 * size + 1` and `2 * (2 * size + 1)` are computed in `IndexType`. -/
def resizeBuckets (cb : Callbacks K E) (nearPrime : Nat → Nat) (size : Nat) :
    List (Bucket E) → Option (List (Bucket E) × ErrorCode)
  | [] => some ([], ErrorCode.TRI_ERROR_NO_ERROR)
  | b :: rest =>
    if (2 * ((2 * size + 1) % indexRange)) % indexRange < 3 * b.nrUsed then
      some (b :: rest, ErrorCode.TRI_ERROR_BAD_PARAMETER)
    else
      (resizeInternal cb nearPrime b ((2 * size + 1) % indexRange)).bind fun b1 =>
      (resizeBuckets cb nearPrime size rest).map fun r => (b1 :: r.1, r.2)

/-- Source `resize`. -/
def resize (cb : Callbacks K E) (nearPrime : Nat → Nat) (t : Multi E) (size : Nat) :
    Option (Multi E × ErrorCode) :=
  (resizeBuckets cb nearPrime (size / t.buckets.length) t.buckets).map fun r =>
    ({ t with buckets := r.1 }, r.2)

/-- The records visited by source `iterate` in one bucket, in the order of the visits. -/
def Bucket.elements (b : Bucket E) : List E :=
  (List.range b.nrAlloc).filterMap fun i => (b.table i).ptr

/-- The records visited by source `iterate`, in the order of the visits. -/
def elements (t : Multi E) : List E := t.buckets.flatMap Bucket.elements

/-! ## The ghost state of the verification: linked lists, invariants, reachable tables -/

/-- The number of `incr` steps that lead from slot `a` to slot `b` in a table of `n` slots. -/
def dist (n a b : Nat) : Nat := if a ≤ b then b - a else b + n - a

/-- The contract of the five callbacks: the two comparisons of elements are equivalence
relations, elements that are equal by their full identity are equal by key, equal elements have
equal hashes, and the comparison of a key with an element agrees with the comparison of
elements by key and with the hash of the key. -/
structure Contract (cb : Callbacks K E) : Prop where
  eq_refl : ∀ a, cb.isEqualElementElement a a = true
  eq_symm : ∀ a b, cb.isEqualElementElement a b = true → cb.isEqualElementElement b a = true
  eq_trans : ∀ a b c, cb.isEqualElementElement a b = true →
    cb.isEqualElementElement b c = true → cb.isEqualElementElement a c = true
  key_symm : ∀ a b, cb.isEqualElementElementByKey a b = true →
    cb.isEqualElementElementByKey b a = true
  key_trans : ∀ a b c, cb.isEqualElementElementByKey a b = true →
    cb.isEqualElementElementByKey b c = true → cb.isEqualElementElementByKey a c = true
  eq_key : ∀ a b, cb.isEqualElementElement a b = true → cb.isEqualElementElementByKey a b = true
  hash_key : ∀ a b, cb.isEqualElementElementByKey a b = true →
    cb.hashElement a true = cb.hashElement b true
  hash_elm : ∀ a b, cb.isEqualElementElement a b = true →
    cb.hashElement a false = cb.hashElement b false
  keyEl_hash : ∀ k a, cb.isEqualKeyElement k a = true → cb.hashKey k = cb.hashElement a true
  keyEl_congr : ∀ k a b, cb.isEqualKeyElement k a = true →
    cb.isEqualElementElementByKey a b = true → cb.isEqualKeyElement k b = true
  keyEl_key : ∀ k a b, cb.isEqualKeyElement k a = true → cb.isEqualKeyElement k b = true →
    cb.isEqualElementElementByKey a b = true

/-- A predicate on elements that selects the elements of one key, whose key hash is `hk`. -/
structure KeyPred (cb : Callbacks K E) (keyP : E → Bool) (hk : Nat) : Prop where
  hash : ∀ a, keyP a = true → cb.hashElement a true = hk
  congr : ∀ a b, keyP a = true → cb.isEqualElementElementByKey a b = true → keyP b = true
  key : ∀ a b, keyP a = true → keyP b = true → cb.isEqualElementElementByKey a b = true

/-- The list of the elements of one key: the slot and the element of its head and of its further
members, in the order of the links. -/
structure Group (E : Type) where
  head : Nat × E
  rest : List (Nat × E)

/-- The slots and elements of a group, head first. -/
def Group.cells (g : Group E) : List (Nat × E) := g.head :: g.rest

/-- The elements of a group, head first. -/
def Group.elems (g : Group E) : List E := g.cells.map Prod.snd

/-- The slots and elements of all groups. -/
def cells (gs : List (Group E)) : List (Nat × E) := gs.flatMap Group.cells

/-- The slots of all groups. -/
def slots (gs : List (Group E)) : List Nat := (cells gs).map Prod.fst

/-- The relation between two neighbours of a linked list. -/
def Linked (T : Nat → Entry E) (a c : Nat × E) : Prop :=
  (T a.1).next = some c.1 ∧ (T c.1).prev = some a.1

/-- The slots of the table form the doubly linked lists `gs`, each slot caches the right hash,
the lists are the classes of the elements under equality by key, and no two slots hold equal
elements. -/
structure Shape (cb : Callbacks K E) (b : Bucket E) (gs : List (Group E)) : Prop where
  cap_pos : 0 < b.nrAlloc
  lt : ∀ c ∈ cells gs, c.1 < b.nrAlloc
  nodup : (slots gs).Nodup
  cover : ∀ i, i < b.nrAlloc → (b.table i).ptr ≠ none → i ∈ slots gs
  ptrs : ∀ c ∈ cells gs, (b.table c.1).ptr = some c.2
  links : ∀ g ∈ gs, g.cells.Chain' (Linked b.table)
  first : ∀ g ∈ gs, (b.table g.head.1).prev = none
  last : ∀ g ∈ gs, ∀ c ∈ g.cells.getLast?, (b.table c.1).next = none
  headHash : ∀ g ∈ gs, (b.table g.head.1).hashCache = cb.hashElement g.head.2 true
  restHash : ∀ g ∈ gs, ∀ c ∈ g.rest, (b.table c.1).hashCache = cb.hashElement c.2 false
  sameKey : ∀ g ∈ gs, ∀ c ∈ g.rest, cb.isEqualElementElementByKey g.head.2 c.2 = true
  diffKey : ∀ g ∈ gs, ∀ g' ∈ gs,
    cb.isEqualElementElementByKey g.head.2 g'.head.2 = true → g = g'
  unique : ∀ c ∈ cells gs, ∀ c' ∈ cells gs,
    cb.isEqualElementElement c.2 c'.2 = true → c = c'

/-- Probe reachability: every slot between the home of a stored entry and the entry is used. -/
def ProbeOk (b : Bucket E) (gs : List (Group E)) : Prop :=
  ∀ c ∈ cells gs, ∀ p, p < b.nrAlloc →
    dist b.nrAlloc ((b.table c.1).hashCache % b.nrAlloc) p <
      dist b.nrAlloc ((b.table c.1).hashCache % b.nrAlloc) c.1 →
    (b.table p).ptr ≠ none

/-- The invariant of a bucket with respect to its linked lists. -/
structure BInv (cb : Callbacks K E) (b : Bucket E) (gs : List (Group E)) : Prop where
  shape : Shape cb b gs
  probe : ProbeOk b gs
  used : b.nrUsed = (cells gs).length
  coll : b.nrCollisions + gs.length = (cells gs).length

/-- The elements of the list of the key selected by `keyP`, head first. -/
def groupElems (keyP : E → Bool) (gs : List (Group E)) : List E :=
  match gs.find? (fun g => keyP g.head.2) with
  | some g => g.elems
  | none => []

/-- The part of the invariant that concerns one list. -/
structure GroupOk (cb : Callbacks K E) (T : Nat → Entry E) (g : Group E) : Prop where
  ptrs : ∀ c ∈ g.cells, (T c.1).ptr = some c.2
  links : g.cells.Chain' (Linked T)
  first : (T g.head.1).prev = none
  last : ∀ c ∈ g.cells.getLast?, (T c.1).next = none
  headHash : (T g.head.1).hashCache = cb.hashElement g.head.2 true
  restHash : ∀ c ∈ g.rest, (T c.1).hashCache = cb.hashElement c.2 false
  sameKey : ∀ c ∈ g.rest, cb.isEqualElementElementByKey g.head.2 c.2 = true

/-- The list whose cells are the images of the cells of `g`. -/
def Group.map (f : Nat × E → Nat × E) (g : Group E) : Group E := ⟨f g.head, g.rest.map f⟩

/-- The effect of an insertion of `e` on the linked lists: a new list, a new second member of
the list of the key, or (for an element that is stored already) the replacement of the stored
element when `overwrite` is set. -/
def InsertRel (cb : Callbacks K E) (e : E) (overwrite : Bool) (gs gs1 : List (Group E))
    (r : Option E) : Prop :=
  ((∀ c ∈ cells gs, cb.isEqualElementElement e c.2 = false) ∧ r = none ∧
    (((∀ g ∈ gs, cb.isEqualElementElementByKey e g.head.2 = false) ∧
        ∃ t, gs1 = ⟨(t, e), []⟩ :: gs) ∨
      ∃ g r0 j, gs.Perm (g :: r0) ∧ cb.isEqualElementElementByKey g.head.2 e = true ∧
        gs1 = ⟨g.head, (j, e) :: g.rest⟩ :: r0)) ∨
  ∃ c ∈ cells gs, cb.isEqualElementElement e c.2 = true ∧ r = some c.2 ∧
    gs1 = if overwrite then
        gs.map (Group.map fun c1 => (c1.1, if c1.1 = c.1 then e else c1.2))
      else gs

/-- The elements of the lists of a bucket. -/
def content (gs : List (Group E)) : List (List E) := gs.map Group.elems

/-- The scan position `j` lies `d + 1` steps behind the hole `i`. -/
def Scan (n i j d : Nat) : Prop :=
  j < n ∧ ((d + 1 < n ∧ dist n i j = d + 1) ∨ (d + 1 = n ∧ j = i))

/-- The state of the table while the hole `i` is healed: no probe passes a free slot other
than the hole, and no entry among the `d` slots behind the hole is cut off by the hole. -/
structure HoleOk (b : Bucket E) (gs : List (Group E)) (i d : Nat) : Prop where
  lt : i < b.nrAlloc
  free : (b.table i).ptr = none
  path : ∀ c ∈ cells gs, ∀ p, p < b.nrAlloc →
    dist b.nrAlloc ((b.table c.1).hashCache % b.nrAlloc) p <
      dist b.nrAlloc ((b.table c.1).hashCache % b.nrAlloc) c.1 →
    p ≠ i → (b.table p).ptr ≠ none
  scanned : ∀ c ∈ cells gs, 0 < dist b.nrAlloc i c.1 → dist b.nrAlloc i c.1 ≤ d →
    ¬ dist b.nrAlloc ((b.table c.1).hashCache % b.nrAlloc) i <
      dist b.nrAlloc ((b.table c.1).hashCache % b.nrAlloc) c.1

/-- The sum of the distances of the stored entries from their home slots. -/
def disp (b : Bucket E) (gs : List (Group E)) : Nat :=
  ((cells gs).map fun c =>
    dist b.nrAlloc ((b.table c.1).hashCache % b.nrAlloc) c.1).sum

/-- The table after the entry in slot `i` is taken out of its list: the slot is invalidated,
its neighbours are linked with each other, and a successor that becomes the head of the list
caches the hash of its key. -/
def unlinked (cb : Callbacks K E) (b : Bucket E) (i : Nat) : Bucket E :=
  { b with table := fun x =>
      if x = i then ⟨0, none, none, none⟩
      else if (b.table i).next = some x then
        { b.table x with
          prev := (b.table i).prev
          hashCache := if (b.table i).prev = none then
              match (b.table x).ptr with
              | some p => cb.hashElement p true
              | none => (b.table x).hashCache
            else (b.table x).hashCache }
      else if (b.table i).prev = some x then { b.table x with next := (b.table i).next }
      else b.table x }

/-- The list with the given cells, if there are any. -/
def groupOfList : List (Nat × E) → List (Group E)
  | [] => []
  | h :: t => [⟨h, t⟩]

/-- The sequence of a key after the insertion of a new element of the key: the element is put
behind the first member, or is the only member if the key had no sequence. -/
def spliceSecond (e : E) : List E → List E
  | [] => [e]
  | x :: rest => x :: e :: rest

/-- The invariant of the table: the number of buckets is a power of two that fits the mask,
every bucket satisfies the invariant of the buckets with respect to some linked lists, every
stored element is in the bucket that its key hash selects, and the load of a bucket exceeds
2/3 by at most one element. -/
structure TInv (cb : Callbacks K E) (t : Multi E) : Prop where
  pow : ∃ k, t.buckets.length = 2 ^ k ∧ t.bucketsMask = 2 ^ k - 1
  inv : ∀ (n : Nat) (b : Bucket E), t.buckets[n]? = some b → ∃ gs, BInv cb b gs
  home : ∀ (n : Nat) (b : Bucket E), t.buckets[n]? = some b → ∀ y ∈ b.elements,
    cb.hashElement y true &&& t.bucketsMask = n
  load : ∀ (n : Nat) (b : Bucket E), t.buckets[n]? = some b →
    3 * b.nrUsed ≤ 2 * b.nrAlloc + 3

/-- The tables that the constructor (with at least one slot per bucket) and the operations
`insert` (with the check of equality), `remove` and `resize` produce. -/
inductive Reachable (cb : Callbacks K E) (nearPrime : Nat → Nat) : Multi E → Prop
  | init (numberBuckets initialSize : Nat) (h : 0 < initialSize) :
      Reachable cb nearPrime (Multi.mk0 numberBuckets initialSize)
  | insert {t : Multi E} (e : E) (ow : Bool) {x : Multi E × Option E} :
      Reachable cb nearPrime t → insert cb nearPrime t e ow true = some x →
      Reachable cb nearPrime x.1
  | remove {t : Multi E} (e : E) {x : Multi E × Option E} :
      Reachable cb nearPrime t → remove cb t e = some x → Reachable cb nearPrime x.1
  | resize {t : Multi E} (size : Nat) {x : Multi E × ErrorCode} :
      Reachable cb nearPrime t → resize cb nearPrime t size = some x →
      Reachable cb nearPrime x.1

/-- The table `t` with the bucket number `n` replaced by `b`. -/
@[reducible] def Multi.setBucket (t : Multi E) (n : Nat) (b : Bucket E) : Multi E :=
  { t with buckets := t.buckets.set n b }

/-- The bucket that serves the hash `h` has an unused slot. -/
def hasFreeSlot (t : Multi E) (h : Nat) : Bool :=
  match t.buckets[h &&& t.bucketsMask]? with
  | some b => decide (b.nrUsed < b.nrAlloc)
  | none => false

/-- Callbacks for records that are pairs of a key and a value: the key is its own hash, the
hash of the full identity is the sum of key and value. -/
def pairCallbacks : Callbacks Nat (Nat × Nat) where
  hashKey k := k
  hashElement e byKey := if byKey then e.1 else e.1 + e.2
  isEqualKeyElement k e := k == e.1
  isEqualElementElement a b := a == b
  isEqualElementElementByKey a b := a.1 == b.1

/-- A stand-in for `TRI_NearPrime`: the next number from 7 on; no smaller number is returned. -/
def nearPrimeFrom7 (n : Nat) : Nat := max n 7

/-- A sequence of calls of `insert`, all with the same flags; the results of the calls are
dropped. -/
def insertAll (cb : Callbacks K E) (nearPrime : Nat → Nat) (overwrite checkEquality : Bool) :
    Multi E → List E → Option (Multi E)
  | t, [] => some t
  | t, e :: es =>
    (insert cb nearPrime t e overwrite checkEquality).bind fun r =>
      insertAll cb nearPrime overwrite checkEquality r.1 es

/-- The table of the instance with one bucket of `n` slots after the insertion of the records
`es` (without overwriting, with the check of equality). -/
def tableOf (es : List (Nat × Nat)) (n : Nat) : Multi (Nat × Nat) :=
  (insertAll pairCallbacks nearPrimeFrom7 false true (Multi.mk0 1 n) es).getD (Multi.mk0 1 n)

/-- The sequence of the key `k` in the table `t` is `l`. -/
def KeySeq (cb : Callbacks K E) (t : Multi E) (k : K) (l : List E) : Prop :=
  ∃ b gs, t.buckets[cb.hashKey k &&& t.bucketsMask]? = some b ∧ BInv cb b gs ∧
    groupElems (cb.isEqualKeyElement k) gs = l

/-- The first `limit` elements of a list, all of them for the limit 0. -/
def takeLimit (limit : Nat) (l : List E) : List E := if limit = 0 then l else l.take limit

/-- A call of one of the operations that change the table; `insert` is called with the check
of equality. -/
inductive Op (E : Type) where
  | insert (element : E) (overwrite : Bool)
  | remove (element : E)
  | resize (size : Nat)

/-- A sequence of calls on the table `t`; `ins` counts the calls of `insert` that returned
null, `rem` the calls of `remove` that returned a record. -/
def runOps (cb : Callbacks K E) (nearPrime : Nat → Nat) :
    List (Op E) → Multi E → Nat → Nat → Option (Multi E × Nat × Nat)
  | [], t, ins, rem => some (t, ins, rem)
  | Op.insert e ow :: ops, t, ins, rem =>
    (insert cb nearPrime t e ow true).bind fun x =>
      runOps cb nearPrime ops x.1 (if x.2.isNone then ins + 1 else ins) rem
  | Op.remove e :: ops, t, ins, rem =>
    (remove cb t e).bind fun x =>
      runOps cb nearPrime ops x.1 ins (if x.2.isSome then rem + 1 else rem)
  | Op.resize n :: ops, t, ins, rem =>
    (resize cb nearPrime t n).bind fun x => runOps cb nearPrime ops x.1 ins rem

/-- A run of the instance on a new table with one bucket of four slots: three records are
inserted, one of them a second time, one is removed, a record that is not stored is removed,
and the table is resized. -/
def exampleRun : Option (Multi (Nat × Nat) × Nat × Nat) :=
  runOps pairCallbacks nearPrimeFrom7
    [Op.insert (1, 1) false, Op.insert (1, 2) false, Op.insert (1, 1) true,
      Op.insert (2, 3) false, Op.remove (1, 2), Op.remove (5, 5), Op.resize 10]
    (Multi.mk0 1 4) 0 0

/-- A table of the instance: one bucket of seven slots with three records of the key 1, one
record of the key 2 and one record of the key 8, whose home slot 1 is taken. -/
def exampleTable : Multi (Nat × Nat) := tableOf [(1, 1), (1, 2), (2, 3), (1, 4), (8, 0)] 7

/-- The bucket of `exampleTable`. -/
def exampleBucket : Bucket (Nat × Nat) := exampleTable.buckets.headD (emptyBucket _ 1)

/-- A table of the instance whose bucket of four slots holds three records, so that the next
call of `insert` extends the bucket. -/
def loadedTable : Multi (Nat × Nat) := tableOf [(1, 1), (2, 2), (3, 3)] 4

/-- The bucket of `loadedTable`. -/
def loadedBucket : Bucket (Nat × Nat) := loadedTable.buckets.headD (emptyBucket _ 1)

/-- The home position `k` that the loop body of source `healHole` computes for the entry in
slot `j`: `hashToIndex(_hashElement(ptr, prev == INVALID_INDEX)) % _nrAlloc` (`0` for an
empty slot, which the loop never inspects). -/
def homeOf (cb : Callbacks K E) (b : Bucket E) (j : Nat) : Nat :=
  match (b.table j).ptr with
  | none => 0
  | some e => hashToIndex (cb.hashElement e (b.table j).prev.isNone) % b.nrAlloc

/-- The condition under which an iteration of the loop of source `healHole` with hole `i`
and scan position `j` calls `moveEntry(b, j, i)`: the slot `j` is not empty and
`! isBetween(i, k, j)`. -/
def healMoves (cb : Callbacks K E) (b : Bucket E) (i j : Nat) : Bool :=
  (b.table j).ptr.isSome && !isBetween i (homeOf cb b j) j

/-- The position `i` lies on the forward cyclic path from `h` to `j` in a table of `n` slots,
exclusive of `h` and inclusive of `j` (the wording of the specification). -/
def onPathExclIncl (n h i j : Nat) : Bool :=
  decide (0 < dist n h i) && decide (dist n h i ≤ dist n h j)

/-- The position `i` lies on the forward cyclic path from `h` to `j` in a table of `n` slots,
inclusive of `h` and exclusive of `j`. -/
def onPathInclExcl (n h i j : Nat) : Bool :=
  decide (dist n h i < dist n h j)

/-- The bucket of the instance in which the record `(8, 0)` is stored one slot behind its
home slot 1, and the home slot has just been emptied by the removal of the record `(1, 1)`. -/
def holeBucket : Bucket (Nat × Nat) :=
  invalidateEntry ((tableOf [(1, 1), (8, 0)] 7).buckets.headD (emptyBucket _ 1)) 1

/-- The number of slots of a bucket that hold a record and are not the head of a linked
list: `ptr != nullptr` and `prev != INVALID_INDEX`. -/
def nonHeadSlots (b : Bucket E) : Nat :=
  ((List.range b.nrAlloc).filter fun i =>
    (b.table i).ptr.isSome && (b.table i).prev.isSome).length

/-- The number of distinct keys of the records `l`: the number of the records of the list
that no later record of the list equals by key. -/
def distinctKeys (cb : Callbacks K E) : List E → Nat
  | [] => 0
  | x :: l =>
    (if l.any (fun y => cb.isEqualElementElementByKey x y) then 0 else 1) + distinctKeys cb l

/-- Source `selectivity`; the quotient `(nrUsed - nrCollisions) / nrUsed` of the two sums is
taken as an exact ratio in place of the division of doubles. -/
def selectivity (t : Multi E) : ℚ :=
  let sums := t.buckets.foldl (fun r b => (r.1 + b.nrUsed, r.2 + b.nrCollisions)) (0, 0)
  if sums.1 > 0 then ((sums.1 - sums.2 : Nat) : ℚ) / (sums.1 : ℚ) else 1

/-- Source `iterate`; the callback acts on a state of type `σ`, which makes its invocations
observable. -/
def iterate {σ : Type} (t : Multi E) (callback : σ → E → σ) (init : σ) : σ :=
  t.buckets.foldl (fun s b =>
    (List.range b.nrAlloc).foldl (fun s i =>
      match (b.table i).ptr with
      | some e => callback s e
      | none => s) s) init

/-- A table of the instance with two buckets of four slots: three records with odd keys are
stored in the second bucket, the first bucket is empty. -/
def twoBuckets : Multi (Nat × Nat) :=
  (insertAll pairCallbacks nearPrimeFrom7 false true (Multi.mk0 2 4)
    [(1, 1), (3, 3), (5, 5)]).getD (Multi.mk0 2 4)

end AssocMulti

/-!
# The parser of fulltext queries

A shallow embedding of `arangod/FulltextIndex/fulltext-query.cpp`.

Conventions of the embedding:

* a C string is the list of its characters before the terminating NUL; a pointer into the
  query string is the rest of the string from that position on, and a difference of two
  pointers is the difference of the lengths of the two rests;
* the functions and the constant that other files define (`TRI_CaseEqualString2`,
  `TRI_normalize_utf8_to_NFC`, `TRI_tolower_utf8`, `TRI_PrefixUtf8String`,
  `TRI_FULLTEXT_SEARCH_MAX_WORDS`) are parameters, collected in `Env`;
* memory allocation by `TRI_Allocate` is assumed to succeed;
* the outer loop of the parser is run with a bound; `none` is returned when the bound is
  exhausted or an assertion fails.
-/

namespace FulltextQuery

/-- Source `TRI_fulltext_query_operation_e`. -/
inductive TRI_fulltext_query_operation_e where
  | TRI_FULLTEXT_AND
  | TRI_FULLTEXT_OR
  | TRI_FULLTEXT_EXCLUDE
  deriving DecidableEq, Repr

/-- Source `TRI_fulltext_query_match_e`. -/
inductive TRI_fulltext_query_match_e where
  | TRI_FULLTEXT_COMPLETE
  | TRI_FULLTEXT_PREFIX
  | TRI_FULLTEXT_SUBSTRING
  deriving DecidableEq, Repr

/-- The result codes of the parser. -/
inductive ResultCode where
  | TRI_ERROR_NO_ERROR
  | TRI_ERROR_BAD_PARAMETER
  | TRI_ERROR_OUT_OF_MEMORY
  deriving DecidableEq, Repr

/-- Source `TRI_fulltext_query_t`: the arrays `_words`, `_matches` (here `matchArray`) and
`_operations` are functions of the position; a word that is `nullptr` is `none`. -/
structure TRI_fulltext_query_t where
  numWords : Nat
  words : Nat → Option (List Char)
  matchArray : Nat → TRI_fulltext_query_match_e
  operations : Nat → TRI_fulltext_query_operation_e

/-- The functions and the constant of other files that the parser uses. -/
structure Env where
  /-- The constant `TRI_FULLTEXT_SEARCH_MAX_WORDS`. -/
  maxWords : Nat
  /-- The function `TRI_CaseEqualString2(left, right, n)`. -/
  caseEqual : List Char → List Char → Nat → Bool
  /-- The function `TRI_normalize_utf8_to_NFC` on a word; `none` is the null result. -/
  normalizeNFC : List Char → Option (List Char)
  /-- The function `TRI_tolower_utf8`; `none` is the null result. -/
  tolower : List Char → Option (List Char)
  /-- The length of the prefix that `TRI_PrefixUtf8String(s, TRI_FULLTEXT_MAX_WORD_LENGTH)`
  selects. -/
  prefixLength : List Char → Nat

/-- The test `c == ' ' || c == '\t' || c == '\r' || c == '\n' || c == '\f' || c == '\b' ||
c == ','` of the parser. -/
def isSeparator (c : Char) : Bool :=
  c == ' ' || c == Char.ofNat 9 || c == Char.ofNat 13 || c == Char.ofNat 10 ||
    c == Char.ofNat 12 || c == Char.ofNat 8 || c == ','

/-- The test `c == '+' || c == '-' || c == '|'` of the parser. -/
def isOperator (c : Char) : Bool := c == '+' || c == '-' || c == '|'

/-- Source `ParseOperation`. -/
def ParseOperation (c : Char) : TRI_fulltext_query_operation_e :=
  if c == '|' then TRI_fulltext_query_operation_e.TRI_FULLTEXT_OR
  else if c == '-' then TRI_fulltext_query_operation_e.TRI_FULLTEXT_EXCLUDE
  else TRI_fulltext_query_operation_e.TRI_FULLTEXT_AND

/-- Source `NormaliseWord`. -/
def NormaliseWord (env : Env) (word : List Char) : Option (List Char) :=
  (env.normalizeNFC word).bind fun copy =>
  (env.tolower copy).map fun copy2 => copy2.take (env.prefixLength copy2)

/-- Source `TRI_SetQueryFulltextIndex`; the result is the query and the returned flag. -/
def TRI_SetQueryFulltextIndex (env : Env) (query : TRI_fulltext_query_t) (position : Nat)
    (word : List Char) (m : TRI_fulltext_query_match_e)
    (operation : TRI_fulltext_query_operation_e) : TRI_fulltext_query_t × Bool :=
  if position ≥ query.numWords then (query, false)
  else
    match NormaliseWord env word with
    | none =>
      ({ query with words := fun p => if p = position then none else query.words p }, false)
    | some normalised =>
      ({ query with
          words := fun p => if p = position then some normalised else query.words p
          matchArray := fun p => if p = position then m else query.matchArray p
          operations := fun p => if p = position then operation else query.operations p },
        true)

/-- The inner loop `while (*ptr) { ... ++ptr; }` of the parser that scans one word, from the
position `ptr` with the current value of `split`; the result is `end` and `split`. -/
def scanWord : List Char → Option (List Char) → List Char × Option (List Char)
  | [], split => ([], split)
  | c :: rest, split =>
    if isSeparator c then (c :: rest, split)
    else if split.isNone && c == ':' then scanWord rest (some rest)
    else scanWord rest split

/-- The value that the parser returns after its loop: `i == 0` is an error. -/
def finish (i : Nat) : ResultCode :=
  if i == 0 then ResultCode.TRI_ERROR_BAD_PARAMETER else ResultCode.TRI_ERROR_NO_ERROR

/-- The literal `"prefix:"`. -/
def prefixLit : List Char := ['p', 'r', 'e', 'f', 'i', 'x', ':']

/-- The literal `"complete:"`. -/
def completeLit : List Char := ['c', 'o', 'm', 'p', 'l', 'e', 't', 'e', ':']

/-- The choice of the match from the command: the `if` cascade after `// get command`. -/
def commandMatch (env : Env) (start : List Char) : TRI_fulltext_query_match_e :=
  if env.caseEqual start prefixLit prefixLit.length then
    TRI_fulltext_query_match_e.TRI_FULLTEXT_PREFIX
  else if env.caseEqual start completeLit completeLit.length then
    TRI_fulltext_query_match_e.TRI_FULLTEXT_COMPLETE
  else TRI_fulltext_query_match_e.TRI_FULLTEXT_COMPLETE

/-- The outer loop `while (*ptr) { ... }` of source `TRI_ParseQueryFulltextIndex` together
with the code after it, from the position `ptr` with `i` words stored. -/
def parseLoop (env : Env) :
    Nat → List Char → Nat → TRI_fulltext_query_t → Option (ResultCode × TRI_fulltext_query_t)
  | 0, _, _, _ => none
  | _ + 1, [], i, query => some (finish i, query)
  | fuel + 1, c :: rest, i, query =>
    if isSeparator c then parseLoop env fuel rest i query
    else
      let operation :=
        if isOperator c then ParseOperation c
        else TRI_fulltext_query_operation_e.TRI_FULLTEXT_AND
      let start := if isOperator c then rest else c :: rest
      let scan := scanWord start none
      let stop := scan.1
      if start.length - stop.length == 0 ||
          (match scan.2 with
            | some split => start.length - split.length == 0 || split.length - stop.length == 0
            | none => false) then
        some (ResultCode.TRI_ERROR_BAD_PARAMETER, query)
      else
        let m := match scan.2 with
          | some _ => commandMatch env start
          | none => TRI_fulltext_query_match_e.TRI_FULLTEXT_COMPLETE
        let start1 := match scan.2 with
          | some split => split
          | none => start
        if start1.length < stop.length then none
        else
          let r := TRI_SetQueryFulltextIndex env query i
            (start1.take (start1.length - stop.length)) m operation
          if !r.2 then some (ResultCode.TRI_ERROR_OUT_OF_MEMORY, r.1)
          else if i + 1 ≥ env.maxWords then some (finish (i + 1), r.1)
          else parseLoop env fuel stop (i + 1) r.1

/-- Source `TRI_ParseQueryFulltextIndex`; the output `*isSubstringQuery` is always false and
is left out. -/
def TRI_ParseQueryFulltextIndex (env : Env) (query : TRI_fulltext_query_t)
    (queryString : List Char) : Option (ResultCode × TRI_fulltext_query_t) :=
  if queryString.isEmpty then some (ResultCode.TRI_ERROR_BAD_PARAMETER, query)
  else parseLoop env (queryString.length + 1) queryString 0 query

/-- The tokens of the rest `s` of a string, after the characters `cur` of the current
token. -/
def tokensAux : List Char → List Char → List (List Char)
  | [], cur => if cur.isEmpty then [] else [cur]
  | c :: rest, cur =>
    if isSeparator c then
      (if cur.isEmpty then tokensAux rest [] else cur :: tokensAux rest [])
    else tokensAux rest (cur ++ [c])

/-- The tokens of a query string: the maximal runs of characters that are not separators. -/
def tokens (s : List Char) : List (List Char) := tokensAux s []

/-- The operation of a token: OR if it starts with `|`, EXCLUDE if it starts with `-`, AND
otherwise. -/
def tokenOperation (tok : List Char) : TRI_fulltext_query_operation_e :=
  match tok with
  | c :: _ =>
    if c == '|' then TRI_fulltext_query_operation_e.TRI_FULLTEXT_OR
    else if c == '-' then TRI_fulltext_query_operation_e.TRI_FULLTEXT_EXCLUDE
    else TRI_fulltext_query_operation_e.TRI_FULLTEXT_AND
  | [] => TRI_fulltext_query_operation_e.TRI_FULLTEXT_AND

/-- The rest of a token: the token without its operator character `+`, `-` or `|`. -/
def tokenRest (tok : List Char) : List Char :=
  match tok with
  | c :: r => if isOperator c then r else c :: r
  | [] => []

/-- The string `s` starts with the lower-case literal `lit`, compared case-insensitively. -/
def startsWithNoCase : List Char → List Char → Bool
  | _, [] => true
  | [], _ :: _ => false
  | c :: s, l :: lit => c.toLower == l && startsWithNoCase s lit

/-- The match of a token: PREFIX if and only if the rest of the token starts with `prefix:`
compared case-insensitively, COMPLETE otherwise. -/
def tokenMatch (tok : List Char) : TRI_fulltext_query_match_e :=
  if startsWithNoCase (tokenRest tok) prefixLit then
    TRI_fulltext_query_match_e.TRI_FULLTEXT_PREFIX
  else TRI_fulltext_query_match_e.TRI_FULLTEXT_COMPLETE

/-- The text after the first `:` of a string, if it has one. -/
def afterColon : List Char → Option (List Char)
  | [] => none
  | c :: r => if c == ':' then some r else afterColon r

/-- The word of a token: the text after the first `:` of the token if it has one, else the
token without its operator character. -/
def tokenWord (tok : List Char) : List Char :=
  match afterColon tok with
  | some w => w
  | none => tokenRest tok

/-- The characters of a word: the characters that are not separators. -/
def notSep (c : Char) : Bool := !isSeparator c

/-- The match that the parser chooses for the token `tok` that is followed by the rest `e`
of the query string. -/
def codeMatch (env : Env) (tok e : List Char) : TRI_fulltext_query_match_e :=
  if (afterColon (tokenRest tok)).isSome then commandMatch env (tokenRest tok ++ e)
  else TRI_fulltext_query_match_e.TRI_FULLTEXT_COMPLETE

/-- An environment for the examples: at most 4 words, the comparison of
`TRI_CaseEqualString2` by lower-case characters, and a normalisation that turns the word
into lower case. -/
def exampleEnv : Env where
  maxWords := 4
  caseEqual := fun left right n => (left.take n).map Char.toLower == (right.take n).map Char.toLower
  normalizeNFC := fun w => some w
  tolower := fun w => some (w.map Char.toLower)
  prefixLength := fun w => min w.length 40

/-- A query with room for 4 words, none of them set. -/
def emptyQuery : TRI_fulltext_query_t where
  numWords := 4
  words := fun _ => none
  matchArray := fun _ => TRI_fulltext_query_match_e.TRI_FULLTEXT_COMPLETE
  operations := fun _ => TRI_fulltext_query_operation_e.TRI_FULLTEXT_AND

/-- The token `tok` is stored at position `p` of the query: its rest and its word are not
empty, the operation and the word are those of the token, and the match is the one that the
parser chooses for the token in front of some rest of the query string. -/
def Stored (env : Env) (q : TRI_fulltext_query_t) (p : Nat) (tok : List Char) : Prop :=
  tokenRest tok ≠ [] ∧ tokenWord tok ≠ [] ∧
  q.operations p = tokenOperation tok ∧
  (∃ e, (e = [] ∨ ∃ c r, e = c :: r ∧ isSeparator c = true) ∧
    q.matchArray p = codeMatch env tok e) ∧
  q.words p = NormaliseWord env (tokenWord tok) ∧
  (NormaliseWord env (tokenWord tok)).isSome = true

/-- The example query string `+Foo -prefix:Ba |x:y`. -/
def exampleString : List Char :=
  ['+', 'F', 'o', 'o', ' ', '-', 'p', 'r', 'e', 'f', 'i', 'x', ':', 'B', 'a', ' ', '|', 'x',
    ':', 'y']

/-- The query after the parse of the example query string. -/
def exampleParsed : TRI_fulltext_query_t :=
  ((TRI_ParseQueryFulltextIndex exampleEnv emptyQuery exampleString).map Prod.snd).getD
    emptyQuery

end FulltextQuery

/-!
# The query cache

A shallow embedding of the list of results of a per-database cache and of the deletion
protocol of a result in `arangod/Aql/QueryCache.cpp`.

Conventions of the embedding:

* a pointer to a `QueryCacheResultEntry` is an address (a natural number), `nullptr` is
  `none`; the objects are given by a function from addresses to objects;
* of a result only the fields that the list and the deletion protocol use are kept; the
  flag `destroyed` records that `delete this` has run;
* the counters `_refCount` and `_deletionRequested` are unsigned machine integers of `w`
  bits, the width is a parameter;
* `_entriesByHash` is a function from hashes to addresses; the bookkeeping of
  `_entriesByCollection`, which does not touch the list, is left out, and so is the rollback
  after an exception in it;
* a failing `TRI_ASSERT`, the use of a null pointer and the use of an erased iterator
  (undefined behaviour) yield `none`; the loop of `enforceMaxResults` is run with a bound;
* the static variable `MaxResults` is a field of the cache, the locks are left out.
-/

namespace QueryCache

/-- Source `QueryCacheResultEntry`: the fields `_hash`, `_prev`, `_next`, `_refCount` and
`_deletionRequested`, and the record of `delete this`. -/
structure QueryCacheResultEntry where
  hash : Nat
  prev : Option Nat
  next : Option Nat
  refCount : Nat
  deletionRequested : Nat
  destroyed : Bool

/-- The constructor of `QueryCacheResultEntry`. -/
def QueryCacheResultEntry.create (hash : Nat) : QueryCacheResultEntry :=
  { hash := hash, prev := none, next := none, refCount := 0, deletionRequested := 0,
    destroyed := false }

/-- Source `QueryCacheResultEntry::tryDelete`. -/
def QueryCacheResultEntry.tryDelete (e : QueryCacheResultEntry) : QueryCacheResultEntry :=
  let e1 := { e with deletionRequested := 1 }
  if e1.refCount == 0 then { e1 with destroyed := true } else e1

/-- Source `QueryCacheResultEntry::use`. -/
def QueryCacheResultEntry.use (w : Nat) (e : QueryCacheResultEntry) : QueryCacheResultEntry :=
  { e with refCount := (e.refCount + 1) % 2 ^ w }

/-- Source `QueryCacheResultEntry::unuse`. -/
def QueryCacheResultEntry.unuse (w : Nat) (e : QueryCacheResultEntry) :
    QueryCacheResultEntry :=
  let e1 := { e with refCount := (e.refCount + 2 ^ w - 1) % 2 ^ w }
  if e1.refCount == 0 then
    if e1.deletionRequested == 1 then { e1 with destroyed := true } else e1
  else e1

/-- Source `QueryCacheDatabaseEntry`: the objects of the results, `_entriesByHash`, `_head`,
`_tail` and `_numElements`. -/
structure QueryCacheDatabaseEntry where
  entries : Nat → QueryCacheResultEntry
  entriesByHash : Nat → Option Nat
  head : Option Nat
  tail : Option Nat
  numElements : Nat

/-- The constructor of `QueryCacheDatabaseEntry`, for given objects. -/
def QueryCacheDatabaseEntry.create (entries : Nat → QueryCacheResultEntry) :
    QueryCacheDatabaseEntry :=
  { entries := entries, entriesByHash := fun _ => none, head := none, tail := none,
    numElements := 0 }

/-- An assignment to fields of the object that the pointer `a` points to, under the guard
`a != nullptr`. -/
def QueryCacheDatabaseEntry.update (d : QueryCacheDatabaseEntry) (a : Option Nat)
    (f : QueryCacheResultEntry → QueryCacheResultEntry) : QueryCacheDatabaseEntry :=
  { d with entries := fun x => if a = some x then f (d.entries x) else d.entries x }

/-- Source `QueryCacheDatabaseEntry::tryDelete`. -/
def QueryCacheDatabaseEntry.tryDelete (d : QueryCacheDatabaseEntry) (e : Nat) :
    QueryCacheDatabaseEntry :=
  d.update (some e) QueryCacheResultEntry.tryDelete

/-- Source `QueryCacheDatabaseEntry::unlink`. -/
def QueryCacheDatabaseEntry.unlink (d : QueryCacheDatabaseEntry) (e : Nat) :
    Option QueryCacheDatabaseEntry :=
  let d1 := d.update (d.entries e).prev fun x => { x with next := (d.entries e).next }
  let d2 := d1.update (d1.entries e).next fun x => { x with prev := (d1.entries e).prev }
  let d3 := { d2 with head := if d2.head = some e then (d2.entries e).next else d2.head }
  let d4 := { d3 with tail := if d3.tail = some e then (d3.entries e).prev else d3.tail }
  let d5 := d4.update (some e) fun x => { x with prev := none, next := none }
  if d5.numElements > 0 then some { d5 with numElements := d5.numElements - 1 } else none

/-- Source `QueryCacheDatabaseEntry::link`. -/
def QueryCacheDatabaseEntry.link (d : QueryCacheDatabaseEntry) (e : Nat) :
    Option QueryCacheDatabaseEntry :=
  let d1 := { d with numElements := d.numElements + 1 }
  if d1.head = none then
    if d1.tail = none then some { d1 with head := some e, tail := some e } else none
  else
    let d2 := d1.update d1.tail fun x => { x with next := some e }
    let d3 := d2.update (some e) fun x => { x with prev := d2.tail }
    some { d3 with tail := some e }

/-- The loop of source `QueryCacheDatabaseEntry::enforceMaxResults`. -/
def QueryCacheDatabaseEntry.enforceLoop (value : Nat) :
    Nat → QueryCacheDatabaseEntry → Option QueryCacheDatabaseEntry
  | 0, _ => none
  | fuel + 1, d =>
    if d.numElements > value then
      match d.head with
      | none => none
      | some head =>
        (d.unlink head).bind fun d1 =>
        match d1.entriesByHash (d1.entries head).hash with
        | none => none
        | some _ =>
          let d2 := { d1 with entriesByHash := fun h =>
            if h = (d1.entries head).hash then none else d1.entriesByHash h }
          QueryCacheDatabaseEntry.enforceLoop value fuel (d2.tryDelete head)
    else some d

/-- Source `QueryCacheDatabaseEntry::enforceMaxResults`. -/
def QueryCacheDatabaseEntry.enforceMaxResults (d : QueryCacheDatabaseEntry) (value : Nat) :
    Option QueryCacheDatabaseEntry :=
  QueryCacheDatabaseEntry.enforceLoop value (d.numElements + 1) d

/-- The value of `(*it).second` after `_entriesByHash.erase(it)`: the iterator is invalid,
reading through it is undefined behaviour, so there is no value. -/
def erasedIterator : Option Nat := none

/-- Source `QueryCacheDatabaseEntry::store`, with the value of `MaxResults`.  When the hash is
in the table already, the previous result is unlinked through the iterator, the iterator is
erased, and `tryDelete` is called with `(*it).second` read through the erased iterator. -/
def QueryCacheDatabaseEntry.store (maxResults : Nat) (d : QueryCacheDatabaseEntry)
    (hash : Nat) (entry : Nat) : Option QueryCacheDatabaseEntry :=
  let d1 := match d.entriesByHash hash with
    | some old =>
      (d.unlink old).bind fun (d0 : QueryCacheDatabaseEntry) =>
        erasedIterator.map fun (x : Nat) =>
          (({ d0 with entriesByHash := fun h => if h = hash then none else d0.entriesByHash h }
            : QueryCacheDatabaseEntry).tryDelete x)
    | none => some d
  d1.bind fun d2 =>
  let d3 : QueryCacheDatabaseEntry :=
    { d2 with entriesByHash := fun h => if h = hash then some entry else d2.entriesByHash h }
  (d3.link entry).bind fun d4 =>
  (d4.enforceMaxResults maxResults).bind fun d5 =>
  if d5.numElements ≤ maxResults ∧ d5.head ≠ none ∧ d5.tail ≠ none ∧ d5.tail = some entry ∧
      (d5.entries entry).next = none then some d5
  else none

/-- Source `QueryCache`: the value of `MaxResults` and the per-database caches of all
parts. -/
structure Cache where
  maxResults : Nat
  databases : List QueryCacheDatabaseEntry

/-- Source `QueryCache::enforceMaxResults`. -/
def Cache.enforceMaxResults (c : Cache) (value : Nat) : Option Cache :=
  (c.databases.mapM fun (d : QueryCacheDatabaseEntry) => d.enforceMaxResults value).map fun ds =>
    { c with databases := ds }

/-- Source `QueryCache::setMaxResults`. -/
def Cache.setMaxResults (c : Cache) (value : Nat) : Option Cache :=
  if value == 0 then some c
  else
    (if value > c.maxResults then c.enforceMaxResults value else some c).map fun c1 =>
      { c1 with maxResults := value }

/-- The calls on a result. -/
inductive Call where
  | use
  | unuse
  | tryDelete
  deriving DecidableEq, Repr

/-- One call on a result. -/
def step (w : Nat) (e : QueryCacheResultEntry) : Call → QueryCacheResultEntry
  | Call.use => e.use w
  | Call.unuse => e.unuse w
  | Call.tryDelete => e.tryDelete

/-- A sequence of calls on a result; after `delete this` the object is gone and no further
call is made on it. -/
def run (w : Nat) : QueryCacheResultEntry → List Call → QueryCacheResultEntry
  | e, [] => e
  | e, c :: cs => if e.destroyed then e else run w (step w e c) cs

/-- The number of calls of `use`. -/
def uses (cs : List Call) : Nat := cs.count Call.use

/-- The number of calls of `unuse`. -/
def unuses (cs : List Call) : Nat := cs.count Call.unuse

/-- After the first `j` calls the deletion has been requested and the reference count (the
number of calls of `use` minus the number of calls of `unuse`) is zero. -/
def DueAt (cs : List Call) (j : Nat) : Prop :=
  Call.tryDelete ∈ cs.take j ∧ uses (cs.take j) = unuses (cs.take j)

/-- The state of a result after the calls `p`, in terms of the calls. -/
def StateOf (w : Nat) (e : QueryCacheResultEntry) (p : List Call) : Prop :=
  ((∃ j, j ≤ p.length ∧ DueAt p j) → e.destroyed = true ∧ e.refCount = 0) ∧
  ((¬ ∃ j, j ≤ p.length ∧ DueAt p j) →
    e.destroyed = false ∧ e.refCount = uses p - unuses p ∧
    (e.deletionRequested = 1 ↔ Call.tryDelete ∈ p) ∧ e.refCount < 2 ^ w)

/-- In the sequence `cs` of calls, `unuse` is never called more often than `use`, and the
number of readers stays below `2 ^ w`. -/
def Balanced (w : Nat) (cs : List Call) : Prop :=
  ∀ k, k ≤ cs.length →
    unuses (cs.take k) ≤ uses (cs.take k) ∧ uses (cs.take k) - unuses (cs.take k) < 2 ^ w

/-- The results `l` are linked by `_prev` and `_next` in this order, after the result
`p`. -/
def Linked (entries : Nat → QueryCacheResultEntry) : Option Nat → List Nat → Prop
  | _, [] => True
  | p, a :: rest =>
    (entries a).prev = p ∧ (entries a).next = rest.head? ∧ Linked entries (some a) rest

/-- The list of the cache is well-formed and holds the results `l`, oldest first: the results
are distinct and doubly linked, `_head` and `_tail` are the first and the last one (null
exactly when the list is empty), and `_numElements` is the length of the list. -/
structure ListOk (d : QueryCacheDatabaseEntry) (l : List Nat) : Prop where
  nodup : l.Nodup
  head : d.head = l.head?
  tail : d.tail = l.getLast?
  num : d.numElements = l.length
  linked : Linked d.entries none l

/-- The table `_entriesByHash` holds exactly the results of the list, each under its
hash. -/
structure MapOk (d : QueryCacheDatabaseEntry) (l : List Nat) : Prop where
  mem : ∀ h a, d.entriesByHash h = some a → a ∈ l ∧ (d.entries a).hash = h
  has : ∀ a ∈ l, d.entriesByHash (d.entries a).hash = some a

/-- The effect of `unlink(e)` on the objects: the neighbours of `e` are linked to each
other, the links of `e` are cleared, nothing else changes. -/
structure Unlinked (entries entries1 : Nat → QueryCacheResultEntry) (e : Nat) : Prop where
  hash : ∀ x, (entries1 x).hash = (entries x).hash
  self : (entries1 e).prev = none ∧ (entries1 e).next = none
  prev : ∀ x, x ≠ e → (entries1 x).prev =
    if (entries e).next = some x then (entries e).prev else (entries x).prev
  next : ∀ x, x ≠ e → (entries1 x).next =
    if (entries e).prev = some x then (entries e).next else (entries x).next

/-- New results at the addresses 0, 1, 2, ... with the hashes 10, 11, 12, ... -/
def exampleEntries : Nat → QueryCacheResultEntry :=
  fun a => QueryCacheResultEntry.create (10 + a)

/-- The cache of a database after three calls of `store` while `MaxResults` is 3. -/
def exampleDatabase : QueryCacheDatabaseEntry :=
  ((((QueryCacheDatabaseEntry.create exampleEntries).store 3 10 0).bind
    fun (d : QueryCacheDatabaseEntry) => d.store 3 11 1).bind
    fun (d : QueryCacheDatabaseEntry) => d.store 3 12 2).getD
    (QueryCacheDatabaseEntry.create exampleEntries)

/-- The cache of a database that holds the result at the address 0 with the hash 10: the
state after `store(10, 0)` on the new cache. -/
def oneResult : QueryCacheDatabaseEntry :=
  { entries := exampleEntries, entriesByHash := fun h => if h = 10 then some 0 else none,
    head := some 0, tail := some 0, numElements := 1 }

/-- New results that all have the hash 10. -/
def sameHashEntries : Nat → QueryCacheResultEntry :=
  fun _ => QueryCacheResultEntry.create 10

/-- A query cache with `MaxResults = 3` and one database, which holds three results. -/
def exampleCache : Cache :=
  { maxResults := 3, databases := [exampleDatabase] }

end QueryCache

namespace AssocMulti

variable {K E : Type}

/-! ## Cyclic distances -/

theorem incr_lt (b : Bucket E) {i : Nat} (hi : i < b.nrAlloc) : incr b i < b.nrAlloc := by
  unfold incr; split <;> omega

theorem dist_self (n a : Nat) : dist n a a = 0 := by simp [dist]

theorem dist_lt {n a b : Nat} (ha : a < n) (hb : b < n) : dist n a b < n := by
  unfold dist; split <;> omega

theorem dist_eq_zero {n a b : Nat} (ha : a < n) (_hb : b < n) (h : dist n a b = 0) : a = b := by
  unfold dist at h; split at h <;> omega

theorem dist_incr (b : Bucket E) {s t : Nat} (hs : s < b.nrAlloc) (ht : t < b.nrAlloc)
    (hne : s ≠ t) : dist b.nrAlloc (incr b s) t + 1 = dist b.nrAlloc s t := by
  unfold dist incr; split_ifs <;> omega

theorem dist_incr_right (b : Bucket E) {s t : Nat} (hs : s < b.nrAlloc) (ht : t < b.nrAlloc)
    (hne : incr b t ≠ s) : dist b.nrAlloc s (incr b t) = dist b.nrAlloc s t + 1 := by
  unfold dist incr at *; split_ifs at * <;> omega

/-! ## The probe loops -/

theorem probe_sound (b : Bucket E) (cont : Entry E → Bool) :
    ∀ (fuel s t : Nat), s < b.nrAlloc → probe b cont fuel s = some t →
      t < b.nrAlloc ∧ cont (b.table t) = false ∧
      ∀ p, p < b.nrAlloc → dist b.nrAlloc s p < dist b.nrAlloc s t → cont (b.table p) = true := by
  intro fuel
  induction fuel with
  | zero => intro s t _ h; simp [probe] at h
  | succ f ih =>
    intro s t hs h
    rw [probe] at h
    by_cases hc : cont (b.table s) = true
    · rw [if_pos hc] at h
      obtain ⟨h1, h2, h3⟩ := ih (incr b s) t (incr_lt b hs) h
      refine ⟨h1, h2, ?_⟩
      intro p hp hd
      by_cases hps : p = s
      · rw [hps]; exact hc
      · apply h3 p hp
        have hst : s ≠ t := by
          intro e; rw [e] at hc; rw [hc] at h2; cases h2
        have e1 := dist_incr b hs h1 hst
        have e2 := dist_incr b hs hp (Ne.symm hps)
        omega
    · rw [if_neg hc] at h
      cases h
      refine ⟨hs, by simpa using hc, ?_⟩
      intro p _ hd
      rw [dist_self] at hd
      omega

theorem probe_total (b : Bucket E) (cont : Entry E → Bool) :
    ∀ (fuel s p : Nat), s < b.nrAlloc → p < b.nrAlloc → dist b.nrAlloc s p < fuel →
      cont (b.table p) = false → ∃ t, probe b cont fuel s = some t := by
  intro fuel
  induction fuel with
  | zero => intro s p _ _ h; omega
  | succ f ih =>
    intro s p hs hp hd hc
    rw [probe]
    by_cases hcs : cont (b.table s) = true
    · rw [if_pos hcs]
      have hne : s ≠ p := by
        intro e; rw [e] at hcs; rw [hcs] at hc; cases hc
      have e1 := dist_incr b hs hp hne
      exact ih (incr b s) p (incr_lt b hs) hp (by omega) hc
    · rw [if_neg hcs]; exact ⟨s, rfl⟩

/-- The probe that starts in slot `s` ends in the first slot `t` at which the loop condition is
false. -/
theorem probe_eq (b : Bucket E) (cont : Entry E → Bool) {s t : Nat} (hs : s < b.nrAlloc)
    (ht : t < b.nrAlloc) (hstop : cont (b.table t) = false)
    (hpath : ∀ p, p < b.nrAlloc → dist b.nrAlloc s p < dist b.nrAlloc s t →
      cont (b.table p) = true) :
    probe b cont b.nrAlloc s = some t := by
  obtain ⟨t1, h1⟩ := probe_total b cont b.nrAlloc s t hs ht (dist_lt hs ht) hstop
  obtain ⟨h2, h3, h4⟩ := probe_sound b cont _ s t1 hs h1
  have : t1 = t := by
    by_contra hne
    rcases Nat.lt_trichotomy (dist b.nrAlloc s t1) (dist b.nrAlloc s t) with h | h | h
    · rw [hpath t1 h2 h] at h3; cases h3
    · apply hne
      unfold dist at h; split_ifs at h <;> omega
    · rw [h4 t ht h] at hstop; cases hstop
  rw [h1, this]

/-- The probe loop runs forever exactly when its condition holds in every slot. -/
theorem probe_eq_none_iff (b : Bucket E) (cont : Entry E → Bool) {s : Nat} (hs : s < b.nrAlloc) :
    probe b cont b.nrAlloc s = none ↔ ∀ p, p < b.nrAlloc → cont (b.table p) = true := by
  constructor
  · intro h p hp
    by_contra hc
    obtain ⟨t, ht⟩ := probe_total b cont b.nrAlloc s p hs hp (dist_lt hs hp) (by simpa using hc)
    rw [h] at ht; cases ht
  · intro h
    cases hr : probe b cont b.nrAlloc s with
    | none => rfl
    | some t =>
      obtain ⟨h1, h2, _⟩ := probe_sound b cont _ s t hs hr
      rw [h t h1] at h2; cases h2

/-! ## The contract of the callbacks -/

theorem Contract.key_refl {cb : Callbacks K E} (hc : Contract cb) (a : E) :
    cb.isEqualElementElementByKey a a = true := hc.eq_key a a (hc.eq_refl a)

theorem keyPred_key {cb : Callbacks K E} (hc : Contract cb) (k : K) :
    KeyPred cb (cb.isEqualKeyElement k) (cb.hashKey k) where
  hash a h := (hc.keyEl_hash k a h).symm
  congr a b h1 h2 := hc.keyEl_congr k a b h1 h2
  key a b h1 h2 := hc.keyEl_key k a b h1 h2

theorem keyPred_elm {cb : Callbacks K E} (hc : Contract cb) (e : E) :
    KeyPred cb (cb.isEqualElementElementByKey e) (cb.hashElement e true) where
  hash a h := (hc.hash_key e a h).symm
  congr a b h1 h2 := hc.key_trans e a b h1 h2
  key a b h1 h2 := hc.key_trans a e b (hc.key_symm e a h1) h2

/-! ## The linked lists of a bucket -/

theorem cells_nil : cells ([] : List (Group E)) = [] := rfl

theorem cells_cons (g : Group E) (gs : List (Group E)) :
    cells (g :: gs) = g.head :: (g.rest ++ cells gs) := by
  simp [cells, Group.cells]

theorem mem_cells {gs : List (Group E)} {c : Nat × E} :
    c ∈ cells gs ↔ ∃ g ∈ gs, c = g.head ∨ c ∈ g.rest := by
  simp [cells, Group.cells]

theorem head_mem_cells {gs : List (Group E)} {g : Group E} (h : g ∈ gs) : g.head ∈ cells gs :=
  mem_cells.2 ⟨g, h, Or.inl rfl⟩

theorem rest_mem_cells {gs : List (Group E)} {g : Group E} (h : g ∈ gs) {c : Nat × E}
    (hc : c ∈ g.rest) : c ∈ cells gs :=
  mem_cells.2 ⟨g, h, Or.inr hc⟩

theorem cells_perm {gs gs' : List (Group E)} (h : gs.Perm gs') : (cells gs).Perm (cells gs') :=
  List.Perm.flatMap_right _ h

theorem Shape.perm {cb : Callbacks K E} {b : Bucket E} {gs gs' : List (Group E)}
    (h : gs.Perm gs') (s : Shape cb b gs) : Shape cb b gs' where
  cap_pos := s.cap_pos
  lt c hc := s.lt c ((cells_perm h).mem_iff.2 hc)
  nodup := ((cells_perm h).map Prod.fst).nodup_iff.1 s.nodup
  cover i hi hp := ((cells_perm h).map Prod.fst).mem_iff.1 (s.cover i hi hp)
  ptrs c hc := s.ptrs c ((cells_perm h).mem_iff.2 hc)
  links g hg := s.links g (h.mem_iff.2 hg)
  first g hg := s.first g (h.mem_iff.2 hg)
  last g hg := s.last g (h.mem_iff.2 hg)
  headHash g hg := s.headHash g (h.mem_iff.2 hg)
  restHash g hg := s.restHash g (h.mem_iff.2 hg)
  sameKey g hg := s.sameKey g (h.mem_iff.2 hg)
  diffKey g hg g' hg' := s.diffKey g (h.mem_iff.2 hg) g' (h.mem_iff.2 hg')
  unique c hc c' hc' := s.unique c ((cells_perm h).mem_iff.2 hc) c' ((cells_perm h).mem_iff.2 hc')

theorem BInv.of_perm {cb : Callbacks K E} {b : Bucket E} {gs gs' : List (Group E)}
    (h : gs.Perm gs') (s : BInv cb b gs) : BInv cb b gs' where
  shape := s.shape.perm h
  probe c hc := s.probe c ((cells_perm h).mem_iff.2 hc)
  used := by rw [s.used, (cells_perm h).length_eq]
  coll := by rw [← (cells_perm h).length_eq, ← h.length_eq]; exact s.coll

theorem exists_perm_cons {α : Type} {l : List α} {a : α} (h : a ∈ l) :
    ∃ r, l.Perm (a :: r) := by
  obtain ⟨s, t, rfl⟩ := List.append_of_mem h
  exact ⟨s ++ t, List.perm_middle⟩

/-- A used slot holds the element that the lists give it. -/
theorem Shape.mem_of_ptr {cb : Callbacks K E} {b : Bucket E} {gs : List (Group E)}
    (s : Shape cb b gs) {i : Nat} {e : E} (hi : i < b.nrAlloc) (h : (b.table i).ptr = some e) :
    (i, e) ∈ cells gs := by
  have := s.cover i hi (by rw [h]; simp)
  obtain ⟨c, hc, rfl⟩ := List.mem_map.1 this
  have h2 := s.ptrs c hc
  rw [h] at h2
  cases h2
  exact hc

theorem Shape.slot_inj {cb : Callbacks K E} {b : Bucket E} {gs : List (Group E)}
    (s : Shape cb b gs) {c c' : Nat × E} (hc : c ∈ cells gs) (hc' : c' ∈ cells gs)
    (h : c.1 = c'.1) : c = c' := by
  have h1 := s.ptrs c hc
  have h2 := s.ptrs c' hc'
  rw [h, h2] at h1
  cases c; cases c'
  simp at h h1
  simp [h, h1]

theorem Shape.used_of_mem {cb : Callbacks K E} {b : Bucket E} {gs : List (Group E)}
    (s : Shape cb b gs) {i : Nat} (h : i ∈ slots gs) : (b.table i).ptr ≠ none := by
  obtain ⟨c, hc, rfl⟩ := List.mem_map.1 h
  rw [s.ptrs c hc]; simp

theorem Shape.not_mem_of_free {cb : Callbacks K E} {b : Bucket E} {gs : List (Group E)}
    (s : Shape cb b gs) {i : Nat} (h : (b.table i).ptr = none) : i ∉ slots gs :=
  fun hm => s.used_of_mem hm h

theorem Shape.length_le {cb : Callbacks K E} {b : Bucket E} {gs : List (Group E)}
    (s : Shape cb b gs) : (cells gs).length ≤ b.nrAlloc := by
  have h1 : (slots gs).Subperm (List.range b.nrAlloc) := by
    apply List.subperm_of_subset s.nodup
    intro i hi
    obtain ⟨c, hc, rfl⟩ := List.mem_map.1 hi
    exact List.mem_range.2 (s.lt c hc)
  have := h1.length_le
  simpa [slots] using this

/-- A bucket that holds fewer elements than it has slots has a free slot. -/
theorem Shape.exists_free {cb : Callbacks K E} {b : Bucket E} {gs : List (Group E)}
    (s : Shape cb b gs) (h : (cells gs).length < b.nrAlloc) :
    ∃ i, i < b.nrAlloc ∧ (b.table i).ptr = none := by
  by_contra hne
  push_neg at hne
  have h1 : (List.range b.nrAlloc).Subperm (slots gs) := by
    apply List.subperm_of_subset (List.nodup_range _)
    intro i hi
    exact s.cover i (List.mem_range.1 hi) (hne i (List.mem_range.1 hi))
  have := h1.length_le
  simp [slots] at this
  omega

/-! ## Links -/

theorem chain_pred {α : Type} {R : α → α → Prop} :
    ∀ (l : List α) (x : α), (x :: l).Chain' R → ∀ c ∈ l, ∃ a ∈ x :: l, R a c := by
  intro l
  induction l with
  | nil => intro x _ c hc; simp at hc
  | cons y l ih =>
    intro x h c hc
    rw [List.chain'_cons] at h
    rcases List.mem_cons.1 hc with rfl | hc
    · exact ⟨x, by simp, h.1⟩
    · obtain ⟨a, ha, hr⟩ := ih y h.2 c hc
      exact ⟨a, List.mem_cons_of_mem _ ha, hr⟩

theorem Shape.prev_of_rest {cb : Callbacks K E} {b : Bucket E} {gs : List (Group E)}
    (s : Shape cb b gs) {g : Group E} (hg : g ∈ gs) {c : Nat × E} (hc : c ∈ g.rest) :
    ∃ a ∈ g.cells, (b.table c.1).prev = some a.1 := by
  obtain ⟨a, ha, hr⟩ := chain_pred g.rest g.head (s.links g hg) c hc
  exact ⟨a, ha, hr.2⟩

/-- A used slot without predecessor is the head of a list. -/
theorem Shape.head_of_prev_none {cb : Callbacks K E} {b : Bucket E} {gs : List (Group E)}
    (s : Shape cb b gs) {c : Nat × E} (hc : c ∈ cells gs) (h : (b.table c.1).prev = none) :
    ∃ g ∈ gs, g.head = c := by
  obtain ⟨g, hg, h1 | h1⟩ := mem_cells.1 hc
  · exact ⟨g, hg, h1.symm⟩
  · obtain ⟨a, _, ha⟩ := s.prev_of_rest hg h1
    rw [h] at ha; cases ha

/-- The group of a stored cell. -/
theorem Shape.key_of_mem {cb : Callbacks K E} {b : Bucket E} {gs : List (Group E)}
    (hc : Contract cb) (s : Shape cb b gs) {g : Group E} (hg : g ∈ gs) {c : Nat × E}
    (h : c ∈ g.cells) : cb.isEqualElementElementByKey g.head.2 c.2 = true := by
  rcases List.mem_cons.1 h with rfl | h
  · exact hc.key_refl _
  · exact s.sameKey g hg c h

/-! ## The search for the head of a list -/

theorem headCont_free {eq : E → Bool} {hk : Nat} {x : Entry E} (h : x.ptr = none) :
    headCont eq hk x = false := by
  simp [headCont, h]

theorem headCont_eq_false {eq : E → Bool} {hk : Nat} {x : Entry E}
    (h : headCont eq hk x = false) :
    x.ptr = none ∨ ∃ e, x.ptr = some e ∧ x.prev = none ∧ x.hashCache = hk ∧ eq e = true := by
  unfold headCont at h
  cases hp : x.ptr with
  | none => exact Or.inl rfl
  | some e =>
    right
    rw [hp] at h
    simp at h
    exact ⟨e, rfl, h.1.1, h.1.2, h.2⟩

/-- The loop condition of the search for a head holds in every used slot that is not the head
of the list of the key. -/
theorem headCont_used {cb : Callbacks K E} {b : Bucket E} {gs : List (Group E)}
    (s : Shape cb b gs) {keyP : E → Bool} {hk : Nat} {c : Nat × E} (hc : c ∈ cells gs)
    (hn : ∀ g ∈ gs, g.head = c → keyP c.2 = false) :
    headCont keyP hk (b.table c.1) = true := by
  unfold headCont
  rw [s.ptrs c hc]
  cases hp : (b.table c.1).prev with
  | some a => simp
  | none =>
    obtain ⟨g, hg, rfl⟩ := s.head_of_prev_none hc hp
    simp [hn g hg rfl]

theorem headCont_head {cb : Callbacks K E} {b : Bucket E} {gs : List (Group E)}
    (s : Shape cb b gs) {keyP : E → Bool} {hk : Nat} (kp : KeyPred cb keyP hk)
    {g : Group E} (hg : g ∈ gs) (hkey : keyP g.head.2 = true) :
    headCont keyP hk (b.table g.head.1) = false := by
  unfold headCont
  rw [s.ptrs g.head (head_mem_cells hg), s.first g hg, s.headHash g hg, kp.hash _ hkey]
  simp [hkey]

/-- The search for the head of the list of a key that has a list ends in the head. -/
theorem probe_head_present {cb : Callbacks K E} {b : Bucket E} {gs : List (Group E)}
    (inv : BInv cb b gs) {keyP : E → Bool} {hk : Nat} (kp : KeyPred cb keyP hk)
    {g : Group E} (hg : g ∈ gs) (hkey : keyP g.head.2 = true) :
    probe b (headCont keyP hk) b.nrAlloc (hashToIndex hk % b.nrAlloc) = some g.head.1 := by
  have s := inv.shape
  have hhome : (b.table g.head.1).hashCache % b.nrAlloc = hashToIndex hk % b.nrAlloc := by
    rw [s.headHash g hg, kp.hash _ hkey]; rfl
  apply probe_eq b _ (Nat.mod_lt _ s.cap_pos) (s.lt _ (head_mem_cells hg))
    (headCont_head s kp hg hkey)
  intro p hp hd
  have hu := inv.probe g.head (head_mem_cells hg) p hp (by rw [hhome]; exact hd)
  obtain ⟨e, he⟩ := Option.ne_none_iff_exists'.1 hu
  have hm := s.mem_of_ptr hp he
  apply headCont_used s hm
  intro g' hg' hh
  by_contra hk'
  have hk2 : keyP e = true := by simpa using hk'
  have : g = g' := s.diffKey g hg g' hg' (by rw [hh]; exact kp.key _ _ hkey hk2)
  subst this
  rw [hh] at hd
  simp at hd

/-- A probe whose loop condition holds exactly in the used slots ends in the first free slot. -/
theorem probe_free (b : Bucket E) (cont : Entry E → Bool) {s : Nat} (hs : s < b.nrAlloc)
    (hfree : ∃ i, i < b.nrAlloc ∧ (b.table i).ptr = none)
    (hstop : ∀ p, p < b.nrAlloc → (b.table p).ptr = none → cont (b.table p) = false)
    (hcont : ∀ p, p < b.nrAlloc → (b.table p).ptr ≠ none → cont (b.table p) = true) :
    ∃ t, t < b.nrAlloc ∧ probe b cont b.nrAlloc s = some t ∧ (b.table t).ptr = none ∧
      ∀ p, p < b.nrAlloc → dist b.nrAlloc s p < dist b.nrAlloc s t → (b.table p).ptr ≠ none := by
  obtain ⟨i, hi, hf⟩ := hfree
  obtain ⟨t, ht⟩ := probe_total b cont b.nrAlloc s i hs hi (dist_lt hs hi) (hstop i hi hf)
  obtain ⟨h1, h2, h3⟩ := probe_sound b cont _ s t hs ht
  refine ⟨t, h1, ht, ?_, ?_⟩
  · by_contra hne
    rw [hcont t h1 hne] at h2; cases h2
  · intro p hp hd hpn
    have := h3 p hp hd
    rw [hstop p hp hpn] at this; cases this

/-- The result of the search for the head of a list, when there is one. -/
theorem probe_head_sound {cb : Callbacks K E} {b : Bucket E} {gs : List (Group E)}
    (inv : BInv cb b gs) {keyP : E → Bool} {hk : Nat} (kp : KeyPred cb keyP hk) {t : Nat}
    (h : probe b (headCont keyP hk) b.nrAlloc (hashToIndex hk % b.nrAlloc) = some t) :
    t < b.nrAlloc ∧
    (∀ p, p < b.nrAlloc → dist b.nrAlloc (hashToIndex hk % b.nrAlloc) p <
        dist b.nrAlloc (hashToIndex hk % b.nrAlloc) t → (b.table p).ptr ≠ none) ∧
    (((b.table t).ptr = none ∧ ∀ g ∈ gs, keyP g.head.2 = false) ∨
      ∃ g ∈ gs, keyP g.head.2 = true ∧ g.head.1 = t) := by
  have s := inv.shape
  obtain ⟨h1, h2, h3⟩ := probe_sound b _ _ _ t (Nat.mod_lt _ s.cap_pos) h
  refine ⟨h1, ?_, ?_⟩
  · intro p hp hd hpn
    have := h3 p hp hd
    rw [headCont_free hpn] at this; cases this
  · by_cases hex : ∃ g ∈ gs, keyP g.head.2 = true
    · obtain ⟨g, hg, hkey⟩ := hex
      rw [probe_head_present inv kp hg hkey] at h
      cases h
      exact Or.inr ⟨g, hg, hkey, rfl⟩
    · push_neg at hex
      left
      refine ⟨?_, fun g hg => by simpa using hex g hg⟩
      rcases headCont_eq_false h2 with h4 | ⟨e, he, hp, _, hkey⟩
      · exact h4
      · exfalso
        have hm := s.mem_of_ptr h1 he
        obtain ⟨g, hg, hh⟩ := s.head_of_prev_none hm hp
        have := hex g hg
        rw [hh] at this
        exact this hkey

/-- The search for the head of the list of a key that has no list ends in a free slot, when
there is one. -/
theorem probe_head_absent {cb : Callbacks K E} {b : Bucket E} {gs : List (Group E)}
    (inv : BInv cb b gs) (keyP : E → Bool) (hk : Nat)
    (hfree : ∃ i, i < b.nrAlloc ∧ (b.table i).ptr = none)
    (habs : ∀ g ∈ gs, keyP g.head.2 = false) :
    ∃ t, t < b.nrAlloc ∧
      probe b (headCont keyP hk) b.nrAlloc (hashToIndex hk % b.nrAlloc) = some t ∧
      (b.table t).ptr = none ∧
      ∀ p, p < b.nrAlloc → dist b.nrAlloc (hashToIndex hk % b.nrAlloc) p <
        dist b.nrAlloc (hashToIndex hk % b.nrAlloc) t → (b.table p).ptr ≠ none := by
  have s := inv.shape
  apply probe_free b _ (Nat.mod_lt _ s.cap_pos) hfree
  · intro p _ hp; exact headCont_free hp
  · intro p hp hu
    obtain ⟨e, he⟩ := Option.ne_none_iff_exists'.1 hu
    have hm := s.mem_of_ptr hp he
    apply headCont_used s hm
    intro g hg hh
    have := habs g hg
    rw [hh] at this
    exact this

/-! ## The search for an element or its place -/

theorem placeCont_free {eq : E → Bool} {chk : Bool} {he : Nat} {x : Entry E}
    (h : x.ptr = none) : placeCont eq chk he x = false := by
  simp [placeCont, h]

theorem placeCont_eq_false {eq : E → Bool} {chk : Bool} {he : Nat} {x : Entry E}
    (h : placeCont eq chk he x = false) :
    x.ptr = none ∨ ∃ e, x.ptr = some e ∧ chk = true ∧ x.hashCache = he ∧ eq e = true := by
  unfold placeCont at h
  cases hp : x.ptr with
  | none => exact Or.inl rfl
  | some e =>
    right
    rw [hp] at h
    simp at h
    exact ⟨e, rfl, h.1.1, h.1.2, h.2⟩

theorem findElementPlace_eq {cb : Callbacks K E} {b : Bucket E} {element : E} {chk : Bool}
    {r : Nat × Nat} (h : findElementPlace cb b element chk = some r) :
    r.2 = cb.hashElement element false ∧
    probe b (placeCont (cb.isEqualElementElement element) chk (cb.hashElement element false))
      b.nrAlloc (hashToIndex (cb.hashElement element false) % b.nrAlloc) = some r.1 := by
  unfold findElementPlace at h
  simp only [Option.map_eq_some'] at h
  obtain ⟨t, ht, rfl⟩ := h
  exact ⟨rfl, ht⟩

/-- The search finds a stored element that is equal to the given one, if the slot of the stored
element caches the element hash. -/
theorem place_present {cb : Callbacks K E} {b : Bucket E} {gs : List (Group E)}
    (hc : Contract cb) (inv : BInv cb b gs) {element : E} {c : Nat × E} (hm : c ∈ cells gs)
    (heq : cb.isEqualElementElement element c.2 = true)
    (hh : (b.table c.1).hashCache = cb.hashElement element false) :
    findElementPlace cb b element true = some (c.1, cb.hashElement element false) := by
  have s := inv.shape
  unfold findElementPlace
  simp only [Option.map_eq_some']
  refine ⟨c.1, ?_, rfl⟩
  apply probe_eq b _ (Nat.mod_lt _ s.cap_pos) (s.lt c hm)
  · simp [placeCont, s.ptrs c hm, hh, heq]
  · intro p hp hd
    have hu := inv.probe c hm p hp (by rw [hh]; exact hd)
    obtain ⟨e, he⟩ := Option.ne_none_iff_exists'.1 hu
    have hm2 := s.mem_of_ptr hp he
    by_contra hcont
    rcases placeCont_eq_false (by simpa using hcont) with h1 | ⟨e', he', _, _, heq'⟩
    · exact hu h1
    · rw [he] at he'; cases he'
      have := s.unique c hm (p, e) hm2 (hc.eq_trans _ _ _ (hc.eq_symm _ _ heq) heq')
      rw [this] at hd
      simp at hd

theorem place_sound {cb : Callbacks K E} {b : Bucket E} {gs : List (Group E)}
    (s : Shape cb b gs) {element : E} {chk : Bool} {r : Nat × Nat}
    (h : findElementPlace cb b element chk = some r) :
    r.1 < b.nrAlloc ∧ r.2 = cb.hashElement element false ∧
    (∀ p, p < b.nrAlloc →
      dist b.nrAlloc (hashToIndex (cb.hashElement element false) % b.nrAlloc) p <
        dist b.nrAlloc (hashToIndex (cb.hashElement element false) % b.nrAlloc) r.1 →
      (b.table p).ptr ≠ none) ∧
    ((b.table r.1).ptr = none ∨
      ∃ e, (b.table r.1).ptr = some e ∧ chk = true ∧
        cb.isEqualElementElement element e = true ∧
        (b.table r.1).hashCache = cb.hashElement element false) := by
  obtain ⟨h0, h⟩ := findElementPlace_eq h
  obtain ⟨h1, h2, h3⟩ := probe_sound b _ _ _ _ (Nat.mod_lt _ s.cap_pos) h
  refine ⟨h1, h0, ?_, ?_⟩
  · intro p hp hd hpn
    have := h3 p hp hd
    rw [placeCont_free hpn] at this; cases this
  · rcases placeCont_eq_false h2 with h4 | ⟨e, he, hchk, hh, heq⟩
    · exact Or.inl h4
    · exact Or.inr ⟨e, he, hchk, heq, hh⟩

/-- The search for the place of an element that is not stored (or without comparisons) ends in
a free slot, when there is one. -/
theorem place_free {cb : Callbacks K E} {b : Bucket E} {gs : List (Group E)}
    (s : Shape cb b gs) (element : E) (chk : Bool)
    (hfree : ∃ i, i < b.nrAlloc ∧ (b.table i).ptr = none)
    (habs : chk = false ∨ ∀ c ∈ cells gs, cb.isEqualElementElement element c.2 = false) :
    ∃ t, t < b.nrAlloc ∧
      findElementPlace cb b element chk = some (t, cb.hashElement element false) ∧
      (b.table t).ptr = none ∧
      ∀ p, p < b.nrAlloc →
        dist b.nrAlloc (hashToIndex (cb.hashElement element false) % b.nrAlloc) p <
          dist b.nrAlloc (hashToIndex (cb.hashElement element false) % b.nrAlloc) t →
        (b.table p).ptr ≠ none := by
  obtain ⟨t, h1, h2, h3, h4⟩ := probe_free b
    (placeCont (cb.isEqualElementElement element) chk (cb.hashElement element false))
    (Nat.mod_lt (hashToIndex (cb.hashElement element false)) s.cap_pos) hfree
    (fun p _ hp => placeCont_free hp)
    (by
      intro p hp hu
      obtain ⟨e, he⟩ := Option.ne_none_iff_exists'.1 hu
      rcases habs with h | h
      · simp [placeCont, he, h]
      · have := h _ (s.mem_of_ptr hp he)
        simp only at this
        simp [placeCont, he, this])
  refine ⟨t, h1, ?_, h3, h4⟩
  unfold findElementPlace
  simp only [h2, Option.map_some']

/-- The probe that stops at the first free slot. -/
theorem probe_used_free (b : Bucket E) {s : Nat} (hs : s < b.nrAlloc)
    (hfree : ∃ i, i < b.nrAlloc ∧ (b.table i).ptr = none) :
    ∃ t, t < b.nrAlloc ∧ probe b usedCont b.nrAlloc s = some t ∧ (b.table t).ptr = none ∧
      ∀ p, p < b.nrAlloc → dist b.nrAlloc s p < dist b.nrAlloc s t → (b.table p).ptr ≠ none := by
  apply probe_free b usedCont hs hfree
  · intro p _ hp; simp [usedCont, hp]
  · intro p _ hp
    obtain ⟨e, he⟩ := Option.ne_none_iff_exists'.1 hp
    simp [usedCont, he]

/-! ## The lookup of an element -/

theorem Shape.eq_of_equal {cb : Callbacks K E} {b : Bucket E} {gs : List (Group E)}
    (hc : Contract cb) (s : Shape cb b gs) {element : E} {c c' : Nat × E}
    (hm : c ∈ cells gs) (hm' : c' ∈ cells gs)
    (h : cb.isEqualElementElement element c.2 = true)
    (h' : cb.isEqualElementElement element c'.2 = true) : c = c' :=
  s.unique c hm c' hm' (hc.eq_trans _ _ _ (hc.eq_symm _ _ h) h')

/-- The lookup of an element that is stored ends in its slot. -/
theorem lookupByElementBucket_present {cb : Callbacks K E} {b : Bucket E}
    {gs : List (Group E)} (hc : Contract cb) (inv : BInv cb b gs) {element : E} {c : Nat × E}
    (hm : c ∈ cells gs) (heq : cb.isEqualElementElement element c.2 = true) :
    lookupByElementBucket cb b element = some c.1 := by
  have s := inv.shape
  obtain ⟨g, hg, hcg⟩ := mem_cells.1 hm
  have hkey : cb.isEqualElementElementByKey element g.head.2 = true := by
    have h1 := hc.eq_key _ _ heq
    have h2 : cb.isEqualElementElementByKey g.head.2 c.2 = true :=
      s.key_of_mem hc hg (by rcases hcg with h | h <;> simp [Group.cells, h])
    exact hc.key_trans _ _ _ h1 (hc.key_symm _ _ h2)
  unfold lookupByElementBucket
  simp only [probe_head_present inv (keyPred_elm hc element) hg hkey, Option.some_bind,
    s.ptrs g.head (head_mem_cells hg)]
  by_cases hh : cb.isEqualElementElement element g.head.2 = true
  · rw [if_pos hh]
    rw [s.eq_of_equal hc hm (head_mem_cells hg) heq hh]
  · rw [if_neg hh]
    rcases hcg with h | h
    · rw [h] at heq; exact absurd heq hh
    · rw [place_present hc inv hm heq
        ((s.restHash g hg c h).trans (hc.hash_elm _ _ heq).symm)]
      rfl

/-- The result of the lookup of an element: the slot of the stored element that is equal to it,
or a free slot when no such element is stored. -/
theorem lookupByElementBucket_sound {cb : Callbacks K E} {b : Bucket E}
    {gs : List (Group E)} (hc : Contract cb) (inv : BInv cb b gs) {element : E} {t : Nat}
    (h : lookupByElementBucket cb b element = some t) :
    t < b.nrAlloc ∧
    (((b.table t).ptr = none ∧ ∀ c ∈ cells gs, cb.isEqualElementElement element c.2 = false) ∨
      ∃ c ∈ cells gs, cb.isEqualElementElement element c.2 = true ∧ c.1 = t) := by
  have s := inv.shape
  by_cases hex : ∃ c ∈ cells gs, cb.isEqualElementElement element c.2 = true
  · obtain ⟨c, hm, heq⟩ := hex
    rw [lookupByElementBucket_present hc inv hm heq] at h
    cases h
    exact ⟨s.lt c hm, Or.inr ⟨c, hm, heq, rfl⟩⟩
  · push_neg at hex
    have habs : ∀ c ∈ cells gs, cb.isEqualElementElement element c.2 = false :=
      fun c hm => by simpa using hex c hm
    unfold lookupByElementBucket at h
    simp only [Option.bind_eq_some] at h
    obtain ⟨i, hi, h⟩ := h
    obtain ⟨h1, _, h3⟩ := probe_head_sound inv (keyPred_elm hc element) hi
    rcases h3 with ⟨hfree, _⟩ | ⟨g, hg, _, rfl⟩
    · rw [hfree] at h
      cases h
      exact ⟨h1, Or.inl ⟨hfree, habs⟩⟩
    · rw [s.ptrs g.head (head_mem_cells hg)] at h
      simp only [habs _ (head_mem_cells hg), Bool.false_eq_true, if_false,
        Option.map_eq_some'] at h
      obtain ⟨r, hr, rfl⟩ := h
      obtain ⟨h4, _, _, h5⟩ := place_sound s hr
      refine ⟨h4, Or.inl ⟨?_, habs⟩⟩
      rcases h5 with h5 | ⟨e, he, _, heq, _⟩
      · exact h5
      · have := habs _ (s.mem_of_ptr h4 he)
        simp only at this
        rw [this] at heq; cases heq

/-- The lookup of an element that is not stored ends in a free slot, when there is one. -/
theorem lookupByElementBucket_absent {cb : Callbacks K E} {b : Bucket E}
    {gs : List (Group E)} (hc : Contract cb) (inv : BInv cb b gs) {element : E}
    (hfree : ∃ i, i < b.nrAlloc ∧ (b.table i).ptr = none)
    (habs : ∀ c ∈ cells gs, cb.isEqualElementElement element c.2 = false) :
    ∃ t, t < b.nrAlloc ∧ lookupByElementBucket cb b element = some t ∧
      (b.table t).ptr = none := by
  have s := inv.shape
  have key : ∃ t, lookupByElementBucket cb b element = some t := by
    unfold lookupByElementBucket
    by_cases hex : ∃ g ∈ gs, cb.isEqualElementElementByKey element g.head.2 = true
    · obtain ⟨g, hg, hkey⟩ := hex
      simp only [probe_head_present inv (keyPred_elm hc element) hg hkey, Option.some_bind,
        s.ptrs g.head (head_mem_cells hg), habs _ (head_mem_cells hg), Bool.false_eq_true,
        if_false]
      obtain ⟨t, _, h2, _, _⟩ := place_free s element true hfree
        (Or.inr habs)
      exact ⟨t, by rw [h2]; rfl⟩
    · push_neg at hex
      obtain ⟨t, _, h2, h3, _⟩ := probe_head_absent inv
        (cb.isEqualElementElementByKey element) (cb.hashElement element true)
        hfree (fun g hg => by simpa using hex g hg)
      exact ⟨t, by simp only [h2, Option.some_bind, h3]⟩
  obtain ⟨t, ht⟩ := key
  obtain ⟨h1, h2⟩ := lookupByElementBucket_sound hc inv ht
  refine ⟨t, h1, ht, ?_⟩
  rcases h2 with ⟨h3, _⟩ | ⟨c, hm, heq, _⟩
  · exact h3
  · rw [habs c hm] at heq; cases heq

/-! ## The lookup by key -/

theorem collect_all (b : Bucket E) :
    ∀ (l : List (Nat × E)) (c : Nat × E) (fuel : Nat) (acc : List (Option E)),
      (c :: l).Chain' (Linked b.table) →
      (∀ x ∈ c :: l, (b.table x.1).ptr = some x.2) →
      (∀ x ∈ (c :: l).getLast?, (b.table x.1).next = none) →
      l.length < fuel →
      collect b 0 fuel c.1 acc = some (acc ++ (c :: l).map fun x => some x.2) := by
  intro l
  induction l with
  | nil =>
    intro c fuel acc _ hp hl hf
    obtain ⟨f, rfl⟩ : ∃ f, fuel = f + 1 := ⟨fuel - 1, by simp at hf; omega⟩
    have h1 : (b.table c.1).next = none := hl c (by simp)
    have h2 := hp c (by simp)
    simp [collect, h1, h2]
  | cons y l ih =>
    intro c fuel acc hch hp hl hf
    obtain ⟨f, rfl⟩ : ∃ f, fuel = f + 1 := ⟨fuel - 1, by simp at hf; omega⟩
    rw [List.chain'_cons] at hch
    have h1 : (b.table c.1).next = some y.1 := hch.1.1
    have h2 := hp c (by simp)
    have := ih y f (acc ++ [some c.2]) hch.2 (fun x hx => hp x (List.mem_cons_of_mem _ hx))
      (fun x hx => hl x (by simpa [List.getLast?_cons_cons] using hx))
      (by simp at hf; omega)
    simp only [collect, h1, h2, this, beq_self_eq_true, Bool.true_or, if_true]
    simp

theorem groupElems_of_mem {cb : Callbacks K E} {b : Bucket E} {gs : List (Group E)}
    (s : Shape cb b gs) {keyP : E → Bool} {hk : Nat} (kp : KeyPred cb keyP hk)
    {g : Group E} (hg : g ∈ gs) (hkey : keyP g.head.2 = true) :
    groupElems keyP gs = g.elems := by
  unfold groupElems
  cases hf : gs.find? (fun g => keyP g.head.2) with
  | none =>
    have := List.find?_eq_none.1 hf g hg
    simp [hkey] at this
  | some g' =>
    have h1 : keyP g'.head.2 = true := by simpa using List.find?_some hf
    have h2 := List.mem_of_find?_eq_some hf
    rw [s.diffKey g hg g' h2 (kp.key _ _ hkey h1)]

theorem groupElems_of_absent {gs : List (Group E)} {keyP : E → Bool}
    (h : ∀ g ∈ gs, keyP g.head.2 = false) : groupElems keyP gs = [] := by
  unfold groupElems
  cases hf : gs.find? (fun g => keyP g.head.2) with
  | none => rfl
  | some g' =>
    have h1 : keyP g'.head.2 = true := by simpa using List.find?_some hf
    rw [h g' (List.mem_of_find?_eq_some hf)] at h1
    cases h1

theorem Shape.group_length {cb : Callbacks K E} {b : Bucket E} {gs : List (Group E)}
    (s : Shape cb b gs) {g : Group E} (hg : g ∈ gs) : g.rest.length < b.nrAlloc := by
  obtain ⟨r, hr⟩ := exists_perm_cons hg
  have h1 := (cells_perm hr).length_eq
  have h2 := s.length_le
  rw [cells_cons] at h1
  simp at h1
  omega

theorem collect_group {cb : Callbacks K E} {b : Bucket E} {gs : List (Group E)}
    (s : Shape cb b gs) {g : Group E} (hg : g ∈ gs) :
    collect b 0 b.nrAlloc g.head.1 [] = some (g.elems.map some) := by
  have := collect_all b g.rest g.head b.nrAlloc [] (s.links g hg)
    (fun x hx => s.ptrs x (mem_cells.2 ⟨g, hg, by simpa using hx⟩)) (s.last g hg)
    (s.group_length hg)
  rw [this]
  simp [Group.elems, Group.cells]

/-- The lookup by key of a key that has a list yields the elements of the list. -/
theorem lookupHead_present {cb : Callbacks K E} {b : Bucket E} {gs : List (Group E)}
    (inv : BInv cb b gs) {keyP : E → Bool} {hk : Nat} (kp : KeyPred cb keyP hk)
    {g : Group E} (hg : g ∈ gs) (hkey : keyP g.head.2 = true) :
    lookupHead b keyP hk 0 = some (g.elems.map some) := by
  unfold lookupHead
  simp only [probe_head_present inv kp hg hkey, Option.some_bind,
    inv.shape.ptrs g.head (head_mem_cells hg), Option.isSome_some, if_true]
  exact collect_group inv.shape hg

/-- The result of a lookup by key: the elements of the list of the key. -/
theorem lookupHead_sound {cb : Callbacks K E} {b : Bucket E} {gs : List (Group E)}
    (inv : BInv cb b gs) {keyP : E → Bool} {hk : Nat} (kp : KeyPred cb keyP hk)
    {l : List (Option E)} (h : lookupHead b keyP hk 0 = some l) :
    l = (groupElems keyP gs).map some := by
  by_cases hex : ∃ g ∈ gs, keyP g.head.2 = true
  · obtain ⟨g, hg, hkey⟩ := hex
    rw [lookupHead_present inv kp hg hkey] at h
    cases h
    rw [groupElems_of_mem inv.shape kp hg hkey]
  · push_neg at hex
    have habs : ∀ g ∈ gs, keyP g.head.2 = false := fun g hg => by simpa using hex g hg
    rw [groupElems_of_absent habs]
    unfold lookupHead at h
    simp only [Option.bind_eq_some] at h
    obtain ⟨i, hi, h⟩ := h
    obtain ⟨_, _, h3⟩ := probe_head_sound inv kp hi
    rcases h3 with ⟨hfree, _⟩ | ⟨g, hg, hkey, _⟩
    · simp [hfree] at h
      simp [h]
    · rw [habs g hg] at hkey; cases hkey

/-- The lookup by key returns whenever the key has a list or the bucket has a free slot. -/
theorem lookupHead_total {cb : Callbacks K E} {b : Bucket E} {gs : List (Group E)}
    (inv : BInv cb b gs) {keyP : E → Bool} {hk : Nat} (kp : KeyPred cb keyP hk)
    (h : (∃ g ∈ gs, keyP g.head.2 = true) ∨ ∃ i, i < b.nrAlloc ∧ (b.table i).ptr = none) :
    lookupHead b keyP hk 0 = some ((groupElems keyP gs).map some) := by
  by_cases hex : ∃ g ∈ gs, keyP g.head.2 = true
  · obtain ⟨g, hg, hkey⟩ := hex
    rw [lookupHead_present inv kp hg hkey, groupElems_of_mem inv.shape kp hg hkey]
  · rcases h with h | hfree
    · exact absurd h hex
    · push_neg at hex
      have habs : ∀ g ∈ gs, keyP g.head.2 = false := fun g hg => by simpa using hex g hg
      obtain ⟨t, _, h2, h3, _⟩ := probe_head_absent inv keyP hk hfree habs
      rw [groupElems_of_absent habs]
      unfold lookupHead
      simp [h2, h3]

/-! ## The stored elements -/

theorem elements_perm {cb : Callbacks K E} {b : Bucket E} {gs : List (Group E)}
    (s : Shape cb b gs) : b.elements.Perm ((cells gs).map Prod.snd) := by
  have h1 : ((List.range b.nrAlloc).filter fun i => (b.table i).ptr.isSome).Perm (slots gs) := by
    apply (List.perm_ext_iff_of_nodup ((List.nodup_range _).filter _) s.nodup).2
    intro i
    simp only [List.mem_filter, List.mem_range, decide_eq_true_eq]
    constructor
    · rintro ⟨h1, h2⟩
      exact s.cover i h1 (by intro h; simp [h] at h2)
    · intro h
      obtain ⟨c, hc, rfl⟩ := List.mem_map.1 h
      exact ⟨s.lt c hc, by simp [s.ptrs c hc]⟩
  have h2 : b.elements =
      ((List.range b.nrAlloc).filter fun i => (b.table i).ptr.isSome).filterMap
        fun i => (b.table i).ptr := by
    unfold Bucket.elements
    rw [List.filterMap_filter]
    congr 1
    funext i
    cases (b.table i).ptr <;> simp [Option.guard]
  have h3 : (slots gs).filterMap (fun i => (b.table i).ptr) = (cells gs).map Prod.snd := by
    unfold slots
    rw [List.filterMap_map]
    rw [← List.filterMap_eq_map]
    apply List.filterMap_congr
    intro c hc
    simp [s.ptrs c hc]
  rw [h2, ← h3]
  exact h1.filterMap _

/-! ## Updates of the table -/

@[simp] theorem Bucket.set_table (b : Bucket E) (i : Nat) (x : Entry E) (k : Nat) :
    (b.set i x).table k = if k = i then x else b.table k := rfl

@[simp] theorem Bucket.set_nrAlloc (b : Bucket E) (i : Nat) (x : Entry E) :
    (b.set i x).nrAlloc = b.nrAlloc := rfl

@[simp] theorem Bucket.set_nrUsed (b : Bucket E) (i : Nat) (x : Entry E) :
    (b.set i x).nrUsed = b.nrUsed := rfl

@[simp] theorem Bucket.set_nrCollisions (b : Bucket E) (i : Nat) (x : Entry E) :
    (b.set i x).nrCollisions = b.nrCollisions := rfl

theorem Shape.groupOk {cb : Callbacks K E} {b : Bucket E} {gs : List (Group E)}
    (s : Shape cb b gs) {g : Group E} (hg : g ∈ gs) : GroupOk cb b.table g where
  ptrs c hc := s.ptrs c (mem_cells.2 ⟨g, hg, by simpa [Group.cells] using hc⟩)
  links := s.links g hg
  first := s.first g hg
  last := s.last g hg
  headHash := s.headHash g hg
  restHash := s.restHash g hg
  sameKey := s.sameKey g hg

theorem Shape.of_groups {cb : Callbacks K E} {b : Bucket E} {gs : List (Group E)}
    (cap_pos : 0 < b.nrAlloc) (lt : ∀ c ∈ cells gs, c.1 < b.nrAlloc) (nodup : (slots gs).Nodup)
    (cover : ∀ i, i < b.nrAlloc → (b.table i).ptr ≠ none → i ∈ slots gs)
    (ok : ∀ g ∈ gs, GroupOk cb b.table g)
    (diffKey : ∀ g ∈ gs, ∀ g' ∈ gs,
      cb.isEqualElementElementByKey g.head.2 g'.head.2 = true → g = g')
    (unique : ∀ c ∈ cells gs, ∀ c' ∈ cells gs,
      cb.isEqualElementElement c.2 c'.2 = true → c = c') : Shape cb b gs where
  cap_pos := cap_pos
  lt := lt
  nodup := nodup
  cover := cover
  ptrs c hc := by
    obtain ⟨g, hg, h⟩ := mem_cells.1 hc
    exact (ok g hg).ptrs c (by simpa [Group.cells] using h)
  links g hg := (ok g hg).links
  first g hg := (ok g hg).first
  last g hg := (ok g hg).last
  headHash g hg := (ok g hg).headHash
  restHash g hg := (ok g hg).restHash
  sameKey g hg := (ok g hg).sameKey
  diffKey := diffKey
  unique := unique

/-- A list is not affected by a change of the table outside of its slots. -/
theorem GroupOk.congr {cb : Callbacks K E} {T T1 : Nat → Entry E} {g : Group E}
    (h : ∀ c ∈ g.cells, T1 c.1 = T c.1) (ok : GroupOk cb T g) : GroupOk cb T1 g where
  ptrs c hc := by rw [h c hc]; exact ok.ptrs c hc
  links := by
    have := List.Chain'.iff_mem.1 ok.links
    refine this.imp ?_
    rintro a c ⟨ha, hc, h1, h2⟩
    exact ⟨by rw [h a ha]; exact h1, by rw [h c hc]; exact h2⟩
  first := by rw [h g.head (by simp [Group.cells])]; exact ok.first
  last c hc := by rw [h c (List.mem_of_mem_getLast? hc)]; exact ok.last c hc
  headHash := by rw [h g.head (by simp [Group.cells])]; exact ok.headHash
  restHash c hc := by rw [h c (by simp [Group.cells, hc])]; exact ok.restHash c hc
  sameKey := ok.sameKey

theorem mem_slots {gs : List (Group E)} {i : Nat} :
    i ∈ slots gs ↔ ∃ c ∈ cells gs, c.1 = i := by
  simp [slots]

theorem slots_cons (g : Group E) (gs : List (Group E)) :
    slots (g :: gs) = g.head.1 :: (g.rest.map Prod.fst ++ slots gs) := by
  simp [slots, cells_cons]

/-- Probe reachability survives a change of the table that keeps the cached hashes of the
stored entries and frees no slot. -/
theorem ProbeOk.mono {b b1 : Bucket E} {gs : List (Group E)} (h : ProbeOk b gs)
    (hn : b1.nrAlloc = b.nrAlloc)
    (hh : ∀ c ∈ cells gs, (b1.table c.1).hashCache = (b.table c.1).hashCache)
    (hu : ∀ p, p < b.nrAlloc → (b.table p).ptr ≠ none → (b1.table p).ptr ≠ none) :
    ProbeOk b1 gs := by
  intro c hc p hp hd
  rw [hn] at hp hd
  rw [hh c hc] at hd
  exact hu p hp (h c hc p hp hd)

/-! ## Insertion of the first element of a key -/

theorem BInv.newHead {cb : Callbacks K E} {b : Bucket E} {gs : List (Group E)}
    (hc : Contract cb) (inv : BInv cb b gs) {t : Nat} {e : E} (ht : t < b.nrAlloc)
    (hfree : (b.table t).ptr = none)
    (hpath : ∀ p, p < b.nrAlloc →
      dist b.nrAlloc (hashToIndex (cb.hashElement e true) % b.nrAlloc) p <
        dist b.nrAlloc (hashToIndex (cb.hashElement e true) % b.nrAlloc) t →
      (b.table p).ptr ≠ none)
    (habs : ∀ g ∈ gs, cb.isEqualElementElementByKey e g.head.2 = false) :
    BInv cb { b.set t ⟨cb.hashElement e true, some e, none, none⟩ with nrUsed := b.nrUsed + 1 }
      (⟨(t, e), []⟩ :: gs) := by
  have s := inv.shape
  have hnot : ∀ c ∈ cells gs, c.1 ≠ t := by
    intro c hc h
    exact s.not_mem_of_free hfree (mem_slots.2 ⟨c, hc, h⟩)
  have hkeyabs : ∀ c ∈ cells gs, cb.isEqualElementElementByKey e c.2 = false := by
    intro c hm
    obtain ⟨g, hg, hcg⟩ := mem_cells.1 hm
    by_contra hk
    have hk : cb.isEqualElementElementByKey e c.2 = true := by simpa using hk
    have h2 : cb.isEqualElementElementByKey g.head.2 c.2 = true :=
      s.key_of_mem hc hg (by rcases hcg with h | h <;> simp [Group.cells, h])
    have := hc.key_trans _ _ _ hk (hc.key_symm _ _ h2)
    rw [habs g hg] at this; cases this
  refine ⟨?_, ?_, ?_, ?_⟩
  · apply Shape.of_groups
    · exact s.cap_pos
    · intro c hm
      rw [cells_cons] at hm
      simp only [List.nil_append, List.mem_cons] at hm
      rcases hm with rfl | hm
      · exact ht
      · exact s.lt c hm
    · rw [slots_cons]
      simp only [List.map_nil, List.nil_append, List.nodup_cons]
      exact ⟨s.not_mem_of_free hfree, s.nodup⟩
    · intro i hi hu
      rw [slots_cons]
      simp only [List.map_nil, List.nil_append, List.mem_cons]
      by_cases hit : i = t
      · exact Or.inl hit
      · right
        apply s.cover i hi
        simpa [hit] using hu
    · intro g hg
      rcases List.mem_cons.1 hg with rfl | hg
      · constructor <;> simp [Group.cells, Linked]
      · apply (s.groupOk hg).congr
        intro c hm
        have := hnot c (mem_cells.2 ⟨g, hg, by simpa [Group.cells] using hm⟩)
        simp [this]
    · intro g hg g' hg' hk
      rcases List.mem_cons.1 hg with rfl | hg <;> rcases List.mem_cons.1 hg' with rfl | hg'
      · rfl
      · rw [habs g' hg'] at hk; cases hk
      · have := hc.key_symm _ _ hk
        rw [habs g hg] at this; cases this
      · exact s.diffKey g hg g' hg' hk
    · intro c hm c' hm' hk
      rw [cells_cons] at hm hm'
      simp only [List.nil_append, List.mem_cons] at hm hm'
      rcases hm with rfl | hm <;> rcases hm' with rfl | hm'
      · rfl
      · have := hc.eq_key _ _ hk
        rw [hkeyabs c' hm'] at this; cases this
      · have := hc.key_symm _ _ (hc.eq_key _ _ hk)
        rw [hkeyabs c hm] at this; cases this
      · exact s.unique c hm c' hm' hk
  · intro c hm p hp hd
    rw [cells_cons] at hm
    simp only [List.nil_append, List.mem_cons] at hm
    simp only [Bucket.set_table, Bucket.set_nrAlloc] at hp hd ⊢
    by_cases hpt : p = t
    · simp [hpt]
    · rw [if_neg hpt]
      rcases hm with rfl | hm
      · simp only [if_true] at hd
        exact hpath p hp hd
      · rw [if_neg (hnot c hm)] at hd
        exact inv.probe c hm p hp hd
  · simp [cells_cons, inv.used]
  · simp only [cells_cons, List.length_cons, List.nil_append, Bucket.set_nrCollisions]
    have := inv.coll
    omega

/-! ## Insertion of a further element of a key -/

theorem linkAfterHead_table (b : Bucket E) (e : E) (he i j : Nat) (hij : i ≠ j)
    (hs : ∀ s, (b.table i).next = some s → s ≠ i ∧ s ≠ j) (x : Nat) :
    (linkAfterHead b e he i j).table x =
      if (b.table i).next = some x then { b.table x with prev := some j }
      else if x = i then { b.table i with next := some j }
      else if x = j then ⟨he, some e, (b.table i).next, some i⟩
      else b.table x := by
  unfold linkAfterHead
  cases hn : (b.table i).next with
  | none => simp [hij, Ne.symm hij, hn]
  | some s =>
    obtain ⟨h1, h2⟩ := hs s hn
    simp only [Bucket.set_table, if_neg hij, if_neg (Ne.symm hij), if_true, hn]
    by_cases hx : x = s
    · subst hx; simp [h1, h2]
    · have : ¬ s = x := fun h => hx h.symm
      simp [hx, this]

theorem linkAfterHead_nrAlloc (b : Bucket E) (e : E) (he i j : Nat) :
    (linkAfterHead b e he i j).nrAlloc = b.nrAlloc := by
  unfold linkAfterHead
  cases (b.table i).next <;> simp <;> split <;> rfl

theorem linkAfterHead_nrUsed (b : Bucket E) (e : E) (he i j : Nat) :
    (linkAfterHead b e he i j).nrUsed = b.nrUsed + 1 := by
  unfold linkAfterHead
  cases (b.table i).next <;> simp <;> split <;> rfl

theorem linkAfterHead_nrCollisions (b : Bucket E) (e : E) (he i j : Nat) :
    (linkAfterHead b e he i j).nrCollisions = b.nrCollisions + 1 := by
  unfold linkAfterHead
  cases (b.table i).next <;> simp <;> split <;> rfl

theorem BInv.linkAfter {cb : Callbacks K E} {b : Bucket E} {g : Group E} {r : List (Group E)}
    (hc : Contract cb) (inv : BInv cb b (g :: r)) {j : Nat} {e : E} (hj : j < b.nrAlloc)
    (hfree : (b.table j).ptr = none)
    (hpath : ∀ p, p < b.nrAlloc →
      dist b.nrAlloc (hashToIndex (cb.hashElement e false) % b.nrAlloc) p <
        dist b.nrAlloc (hashToIndex (cb.hashElement e false) % b.nrAlloc) j →
      (b.table p).ptr ≠ none)
    (hkey : cb.isEqualElementElementByKey g.head.2 e = true)
    (habs : ∀ c ∈ cells (g :: r), cb.isEqualElementElement e c.2 = false) :
    BInv cb (linkAfterHead b e (cb.hashElement e false) g.head.1 j)
      (⟨g.head, (j, e) :: g.rest⟩ :: r) := by
  have s := inv.shape
  have hg : g ∈ g :: r := List.mem_cons_self _ _
  have ok := s.groupOk hg
  have hnd := s.nodup
  rw [slots_cons] at hnd
  simp only [List.nodup_cons, List.mem_append, List.nodup_append, not_or] at hnd
  obtain ⟨⟨hnd1, hnd2⟩, hnd3, hnd4, hnd5⟩ := hnd
  have hjs : j ∉ slots (g :: r) := s.not_mem_of_free hfree
  rw [slots_cons] at hjs
  simp only [List.mem_cons, List.mem_append, not_or] at hjs
  obtain ⟨hj1, hj2, hj3⟩ := hjs
  have hij : g.head.1 ≠ j := fun h => hj1 h.symm
  -- the successor of the head
  have hnext : ∀ x, (b.table g.head.1).next = some x ↔ ∃ c ∈ g.rest.head?, c.1 = x := by
    intro x
    have hl := ok.links
    have hlast := ok.last
    unfold Group.cells at hl hlast
    cases hr : g.rest with
    | nil =>
      rw [hr] at hlast
      have := hlast g.head (by simp)
      simp [this]
    | cons f l =>
      rw [hr, List.chain'_cons] at hl
      rw [hl.1.1]
      simp [eq_comm]
  have hprev : ∀ c ∈ g.rest.head?, (b.table c.1).prev = some g.head.1 := by
    intro c hcm
    have hl := ok.links
    unfold Group.cells at hl
    cases hr : g.rest with
    | nil => rw [hr] at hcm; simp at hcm
    | cons f l =>
      rw [hr, List.chain'_cons] at hl
      rw [hr] at hcm
      simp at hcm
      rw [← hcm]
      exact hl.1.2
  have hs : ∀ x, (b.table g.head.1).next = some x → x ≠ g.head.1 ∧ x ≠ j := by
    intro x hx
    obtain ⟨c, hcm, rfl⟩ := (hnext x).1 hx
    have hmem : c.1 ∈ g.rest.map Prod.fst :=
      List.mem_map.2 ⟨c, List.mem_of_mem_head? hcm, rfl⟩
    exact ⟨fun h => hnd1 (h ▸ hmem), fun h => hj2 (h ▸ hmem)⟩
  have hT := linkAfterHead_table b e (cb.hashElement e false) g.head.1 j hij hs
  have hrest1 : ∀ c ∈ g.rest, c.1 ≠ g.head.1 ∧ c.1 ≠ j := by
    intro c hcm
    have hmem : c.1 ∈ g.rest.map Prod.fst := List.mem_map.2 ⟨c, hcm, rfl⟩
    exact ⟨fun h => hnd1 (h ▸ hmem), fun h => hj2 (h ▸ hmem)⟩
  have hr1 : ∀ c ∈ cells r, c.1 ≠ g.head.1 ∧ c.1 ≠ j ∧ c.1 ∉ g.rest.map Prod.fst := by
    intro c hcm
    have hmem : c.1 ∈ slots r := mem_slots.2 ⟨c, hcm, rfl⟩
    exact ⟨fun h => hnd2 (h ▸ hmem), fun h => hj3 (h ▸ hmem), fun h => hnd5 h hmem⟩
  -- the table on the old slots
  have hTrest : ∀ c ∈ g.rest, (linkAfterHead b e (cb.hashElement e false) g.head.1 j).table c.1 =
      if (b.table g.head.1).next = some c.1 then { b.table c.1 with prev := some j }
      else b.table c.1 := by
    intro c hcm
    rw [hT, if_neg (hrest1 c hcm).1, if_neg (hrest1 c hcm).2]
  have hTr : ∀ c ∈ cells r,
      (linkAfterHead b e (cb.hashElement e false) g.head.1 j).table c.1 = b.table c.1 := by
    intro c hcm
    obtain ⟨h1, h2, h3⟩ := hr1 c hcm
    rw [hT, if_neg h1, if_neg h2, if_neg]
    intro hx
    obtain ⟨c', hc', he'⟩ := (hnext c.1).1 hx
    exact h3 (List.mem_map.2 ⟨c', List.mem_of_mem_head? hc', he'⟩)
  have hTi : (linkAfterHead b e (cb.hashElement e false) g.head.1 j).table g.head.1 =
      { b.table g.head.1 with next := some j } := by
    rw [hT, if_neg, if_pos rfl]
    intro hx; exact (hs _ hx).1 rfl
  have hTj : (linkAfterHead b e (cb.hashElement e false) g.head.1 j).table j =
      ⟨cb.hashElement e false, some e, (b.table g.head.1).next, some g.head.1⟩ := by
    rw [hT, if_neg, if_neg (Ne.symm hij), if_pos rfl]
    intro hx; exact (hs _ hx).2 rfl
  have hused : ∀ p, (b.table p).ptr ≠ none →
      ((linkAfterHead b e (cb.hashElement e false) g.head.1 j).table p).ptr ≠ none := by
    intro p hp
    rw [hT]
    split_ifs with h1 h2 h3
    · simpa using hp
    · subst h2; simpa using hp
    · simp
    · exact hp
  have hhash : ∀ c ∈ cells (g :: r),
      ((linkAfterHead b e (cb.hashElement e false) g.head.1 j).table c.1).hashCache =
        (b.table c.1).hashCache := by
    intro c hcm
    rw [cells_cons] at hcm
    simp only [List.mem_cons, List.mem_append] at hcm
    rcases hcm with rfl | hcm | hcm
    · rw [hTi]
    · rw [hTrest c hcm]; split_ifs <;> rfl
    · rw [hTr c hcm]
  refine ⟨?_, ?_, ?_, ?_⟩
  · apply Shape.of_groups
    · rw [linkAfterHead_nrAlloc]; exact s.cap_pos
    · intro c hm
      rw [linkAfterHead_nrAlloc]
      rw [cells_cons] at hm
      simp only [List.mem_cons, List.mem_append] at hm
      rcases hm with rfl | (rfl | hm) | hm
      · exact s.lt _ (head_mem_cells hg)
      · exact hj
      · exact s.lt _ (rest_mem_cells hg hm)
      · exact s.lt _ (by rw [cells_cons]; simp [hm])
    · rw [slots_cons]
      simp only [List.map_cons, List.nodup_cons, List.mem_cons, List.mem_append,
        List.cons_append, List.nodup_append, not_or]
      refine ⟨⟨hij, hnd1, hnd2⟩, ⟨hj2, hj3⟩, hnd3, hnd4, ?_⟩
      intro a ha hb
      exact hnd5 ha hb
    · intro i hi hu
      rw [linkAfterHead_nrAlloc] at hi
      rw [slots_cons]
      simp only [List.map_cons, List.mem_cons, List.mem_append, List.cons_append]
      by_cases hij2 : i = j
      · exact Or.inr (Or.inl hij2)
      · have hu2 : (b.table i).ptr ≠ none := by
          rw [hT] at hu
          split_ifs at hu with h1 h2
          · simpa using hu
          · rw [h2]; simpa using hu
          · exact hu
        have := s.cover i hi hu2
        rw [slots_cons] at this
        simp only [List.mem_cons, List.mem_append] at this
        tauto
    · intro g2 hg2
      rcases List.mem_cons.1 hg2 with rfl | hg2
      · refine ⟨?_, ?_, ?_, ?_, ?_, ?_, ?_⟩
        · intro c hm
          simp only [Group.cells, List.mem_cons] at hm
          rcases hm with rfl | rfl | hm
          · rw [hTi]; exact ok.ptrs _ (by simp [Group.cells])
          · rw [hTj]
          · rw [hTrest c hm]
            have := ok.ptrs c (by simp [Group.cells, hm])
            split_ifs <;> simpa using this
        · simp only [Group.cells]
          have hl := ok.links
          unfold Group.cells at hl
          have hrest : g.rest.Chain' (Linked (linkAfterHead b e (cb.hashElement e false)
              g.head.1 j).table) := by
            have h1 := List.Chain'.iff_mem.1 hl.tail
            simp only [List.tail_cons] at h1
            refine h1.imp ?_
            rintro a c ⟨ha, hcm, h2, h3⟩
            constructor
            · rw [hTrest a ha]; split_ifs <;> simpa using h2
            · rw [hTrest c hcm, if_neg]
              · exact h3
              · intro hx
                obtain ⟨c', hc', he'⟩ := (hnext c.1).1 hx
                have := hprev c' hc'
                rw [he', h3] at this
                exact (hrest1 a ha).1 (Option.some.inj this)
          rw [List.chain'_cons]
          refine ⟨⟨by rw [hTi], by rw [hTj]⟩, ?_⟩
          apply hrest.cons'
          intro y hy
          have hy2 : (b.table g.head.1).next = some y.1 := (hnext y.1).2 ⟨y, hy, rfl⟩
          constructor
          · rw [hTj]; exact hy2
          · rw [hTrest y (List.mem_of_mem_head? hy), if_pos hy2]
        · rw [hTi]; exact ok.first
        · intro c hcl
          simp only [Group.cells] at hcl
          cases hr : g.rest with
          | nil =>
            rw [hr] at hcl
            simp at hcl
            subst hcl
            rw [hTj]
            have := ok.last g.head (by simp [Group.cells, hr])
            simpa using this
          | cons f l =>
            rw [hr] at hcl
            simp only [List.getLast?_cons_cons] at hcl
            have hcm : c ∈ g.rest := by rw [hr]; exact List.mem_of_mem_getLast? hcl
            have := ok.last c (by
              simp only [Group.cells, hr, List.getLast?_cons_cons]; exact hcl)
            rw [hTrest c hcm]
            split_ifs <;> simpa using this
        · rw [hTi]; exact ok.headHash
        · intro c hm
          simp only [List.mem_cons] at hm
          rcases hm with rfl | hm
          · rw [hTj]
          · rw [hTrest c hm]
            have := ok.restHash c hm
            split_ifs <;> simpa using this
        · intro c hm
          simp only [List.mem_cons] at hm
          rcases hm with rfl | hm
          · exact hkey
          · exact ok.sameKey c hm
      · apply (s.groupOk (List.mem_cons_of_mem _ hg2)).congr
        intro c hm
        exact hTr c (mem_cells.2 ⟨g2, hg2, by simpa [Group.cells] using hm⟩)
    · intro g1 hg1 g2 hg2 hk
      rcases List.mem_cons.1 hg1 with rfl | hg1 <;> rcases List.mem_cons.1 hg2 with rfl | hg2
      · rfl
      · have := s.diffKey g hg g2 (List.mem_cons_of_mem _ hg2) hk
        rw [← this] at hg2
        exfalso
        have h1 := head_mem_cells hg2
        exact hnd2 (mem_slots.2 ⟨_, h1, rfl⟩)
      · have := s.diffKey g1 (List.mem_cons_of_mem _ hg1) g hg hk
        rw [this] at hg1
        exfalso
        have h1 := head_mem_cells hg1
        exact hnd2 (mem_slots.2 ⟨_, h1, rfl⟩)
      · exact s.diffKey g1 (List.mem_cons_of_mem _ hg1) g2 (List.mem_cons_of_mem _ hg2) hk
    · have hold : ∀ c, c ∈ cells (⟨g.head, (j, e) :: g.rest⟩ :: r) →
          c = (j, e) ∨ c ∈ cells (g :: r) := by
        intro c hm
        rw [cells_cons] at hm ⊢
        simp only [List.mem_cons, List.mem_append, List.cons_append] at hm ⊢
        tauto
      intro c hm c' hm' hk
      rcases hold c hm with rfl | hm <;> rcases hold c' hm' with rfl | hm'
      · rfl
      · rw [habs c' hm'] at hk; cases hk
      · have := hc.eq_symm _ _ hk
        rw [habs c hm] at this; cases this
      · exact s.unique c hm c' hm' hk
  · intro c hm p hp hd
    rw [linkAfterHead_nrAlloc] at hp hd
    have hold : c = (j, e) ∨ c ∈ cells (g :: r) := by
      rw [cells_cons] at hm ⊢
      simp only [List.mem_cons, List.mem_append, List.cons_append] at hm ⊢
      tauto
    by_cases hpj : p = j
    · rw [hpj, hTj]; simp
    · apply hused
      rcases hold with rfl | hm
      · rw [hTj] at hd
        exact hpath p hp hd
      · rw [hhash c hm] at hd
        exact inv.probe c hm p hp hd
  · rw [linkAfterHead_nrUsed, inv.used]
    simp [cells_cons]
  · rw [linkAfterHead_nrCollisions]
    have := inv.coll
    simp only [cells_cons, List.length_cons, List.length_append] at this ⊢
    omega

/-! ## Relabelling of the lists -/

theorem Group.map_cells (f : Nat × E → Nat × E) (g : Group E) :
    (g.map f).cells = g.cells.map f := rfl

theorem cells_map (f : Nat × E → Nat × E) (gs : List (Group E)) :
    cells (gs.map (Group.map f)) = (cells gs).map f := by
  induction gs with
  | nil => rfl
  | cons g gs ih =>
    rw [List.map_cons, cells_cons, cells_cons, ih]
    simp [Group.map]

theorem mem_cells_of_mem {gs : List (Group E)} {g : Group E} (hg : g ∈ gs) {c : Nat × E}
    (hc : c ∈ g.cells) : c ∈ cells gs :=
  mem_cells.2 ⟨g, hg, by simpa [Group.cells] using hc⟩

/-- The invariant is kept when every stored entry moves to the slot given by `σ`, with its
links renamed by `σ`, and holds an element `f c` equal to the one it had. -/
theorem Shape.relabel {cb : Callbacks K E} {b : Bucket E} {gs : List (Group E)}
    (hc : Contract cb) (s : Shape cb b gs) (b1 : Bucket E) (σ : Nat → Nat) (f : Nat × E → E)
    (hn : b1.nrAlloc = b.nrAlloc)
    (hσ : ∀ c ∈ cells gs, ∀ c' ∈ cells gs, σ c.1 = σ c'.1 → c.1 = c'.1)
    (hlt : ∀ c ∈ cells gs, σ c.1 < b.nrAlloc)
    (hf : ∀ c ∈ cells gs, cb.isEqualElementElement (f c) c.2 = true)
    (hT : ∀ c ∈ cells gs, b1.table (σ c.1) =
      ⟨(b.table c.1).hashCache, some (f c), (b.table c.1).next.map σ,
        (b.table c.1).prev.map σ⟩)
    (hcov : ∀ i, i < b1.nrAlloc → (b1.table i).ptr ≠ none → ∃ c ∈ cells gs, σ c.1 = i) :
    Shape cb b1 (gs.map (Group.map fun c => (σ c.1, f c))) := by
  have hkey : ∀ c ∈ cells gs, cb.isEqualElementElementByKey (f c) c.2 = true :=
    fun c hm => hc.eq_key _ _ (hf c hm)
  apply Shape.of_groups
  · rw [hn]; exact s.cap_pos
  · intro c hm
    rw [cells_map] at hm
    obtain ⟨c0, hm0, rfl⟩ := List.mem_map.1 hm
    rw [hn]; exact hlt c0 hm0
  · unfold slots
    rw [cells_map, List.map_map]
    have h1 : (Prod.fst ∘ fun c : Nat × E => (σ c.1, f c)) = σ ∘ Prod.fst := rfl
    rw [h1, ← List.map_map]
    apply List.Nodup.map_on _ s.nodup
    intro x hx y hy hxy
    obtain ⟨c, hm, rfl⟩ := mem_slots.1 hx
    obtain ⟨c', hm', rfl⟩ := mem_slots.1 hy
    exact hσ c hm c' hm' hxy
  · intro i hi hu
    obtain ⟨c, hm, rfl⟩ := hcov i hi hu
    unfold slots
    rw [cells_map, List.map_map]
    exact List.mem_map.2 ⟨c, hm, rfl⟩
  · intro g1 hg1
    obtain ⟨g, hg, rfl⟩ := List.mem_map.1 hg1
    have ok := s.groupOk hg
    have hmc : ∀ c ∈ g.cells, c ∈ cells gs := fun c h => mem_cells_of_mem hg h
    have hhead : g.head ∈ cells gs := head_mem_cells hg
    refine ⟨?_, ?_, ?_, ?_, ?_, ?_, ?_⟩
    · intro c hm
      rw [Group.map_cells] at hm
      obtain ⟨c0, hm0, rfl⟩ := List.mem_map.1 hm
      simp only
      rw [hT c0 (hmc c0 hm0)]
    · rw [Group.map_cells, List.chain'_map]
      refine (List.Chain'.iff_mem.1 ok.links).imp ?_
      rintro a c ⟨ha, hcm, h1, h2⟩
      constructor
      · simp only [hT a (hmc a ha), h1, Option.map_some']
      · simp only [hT c (hmc c hcm), h2, Option.map_some']
    · simp only [Group.map]
      rw [hT _ hhead, ok.first]; rfl
    · intro c hcl
      rw [Group.map_cells, List.getLast?_map] at hcl
      simp only [Option.mem_def, Option.map_eq_some'] at hcl
      obtain ⟨c0, hc0, rfl⟩ := hcl
      simp only
      rw [hT c0 (hmc c0 (List.mem_of_mem_getLast? hc0)), ok.last c0 hc0]; rfl
    · simp only [Group.map]
      rw [hT _ hhead, ok.headHash]
      exact (hc.hash_key _ _ (hkey _ hhead)).symm
    · intro c hm
      simp only [Group.map] at hm
      obtain ⟨c0, hm0, rfl⟩ := List.mem_map.1 hm
      simp only
      rw [hT c0 (rest_mem_cells hg hm0), ok.restHash c0 hm0]
      exact (hc.hash_elm _ _ (hf _ (rest_mem_cells hg hm0))).symm
    · intro c hm
      simp only [Group.map] at hm
      obtain ⟨c0, hm0, rfl⟩ := List.mem_map.1 hm
      simp only [Group.map]
      exact hc.key_trans _ _ _ (hkey _ hhead)
        (hc.key_trans _ _ _ (ok.sameKey c0 hm0)
          (hc.key_symm _ _ (hkey _ (rest_mem_cells hg hm0))))
  · intro g1 hg1 g2 hg2 hk
    obtain ⟨g, hg, rfl⟩ := List.mem_map.1 hg1
    obtain ⟨g', hg', rfl⟩ := List.mem_map.1 hg2
    simp only [Group.map] at hk
    have h1 := hkey _ (head_mem_cells hg)
    have h2 := hkey _ (head_mem_cells hg')
    have := s.diffKey g hg g' hg'
      (hc.key_trans _ _ _ (hc.key_symm _ _ h1) (hc.key_trans _ _ _ hk h2))
    rw [this]
  · intro c hm c' hm' hk
    rw [cells_map] at hm hm'
    obtain ⟨c0, hm0, rfl⟩ := List.mem_map.1 hm
    obtain ⟨c1, hm1, rfl⟩ := List.mem_map.1 hm'
    simp only at hk
    have := s.unique c0 hm0 c1 hm1
      (hc.eq_trans _ _ _ (hc.eq_symm _ _ (hf _ hm0)) (hc.eq_trans _ _ _ hk (hf _ hm1)))
    rw [this]

/-! ## Replacement of a stored element by an equal one -/

theorem BInv.overwrite {cb : Callbacks K E} {b : Bucket E} {gs : List (Group E)}
    (hc : Contract cb) (inv : BInv cb b gs) {c0 : Nat × E} (hm : c0 ∈ cells gs) {e : E}
    (heq : cb.isEqualElementElement e c0.2 = true) :
    BInv cb (b.set c0.1 { b.table c0.1 with ptr := some e })
      (gs.map (Group.map fun c => (c.1, if c.1 = c0.1 then e else c.2))) := by
  have s := inv.shape
  refine ⟨?_, ?_, ?_, ?_⟩
  · apply s.relabel hc (b.set c0.1 { b.table c0.1 with ptr := some e }) (fun i => i)
      (fun c => if c.1 = c0.1 then e else c.2) rfl
    · intro c _ c' _ h; exact h
    · intro c hmc; exact s.lt c hmc
    · intro c hmc
      by_cases h : c.1 = c0.1
      · rw [if_pos h, s.slot_inj hmc hm h]; exact heq
      · rw [if_neg h]; exact hc.eq_refl _
    · intro c hmc
      simp only [Bucket.set_table, Option.map_id']
      by_cases h : c.1 = c0.1
      · simp [h]
      · simp only [h, if_false]
        rw [← s.ptrs c hmc]
    · intro i hi hu
      simp only [Bucket.set_table, Bucket.set_nrAlloc] at hi hu
      by_cases h : i = c0.1
      · exact ⟨c0, hm, h.symm⟩
      · rw [if_neg h] at hu
        exact mem_slots.1 (s.cover i hi hu)
  · intro c hmc p hp hd
    rw [cells_map] at hmc
    obtain ⟨c1, hm1, rfl⟩ := List.mem_map.1 hmc
    simp only [Bucket.set_table, Bucket.set_nrAlloc] at hp hd ⊢
    have hd2 : dist b.nrAlloc ((b.table c1.1).hashCache % b.nrAlloc) p <
        dist b.nrAlloc ((b.table c1.1).hashCache % b.nrAlloc) c1.1 := by
      by_cases h : c1.1 = c0.1
      · simpa [h] using hd
      · simpa [h] using hd
    have := inv.probe c1 hm1 p hp hd2
    by_cases h : p = c0.1
    · simp [h]
    · simpa [h] using this
  · simp [cells_map, inv.used]
  · simp only [cells_map, List.length_map, Bucket.set_nrCollisions]
    exact inv.coll

/-! ## Insertion into a bucket that has a free slot -/

theorem probe_self_of_free {b : Bucket E} {i t : Nat}
    (hi : i < b.nrAlloc) (ht : t < b.nrAlloc) (hfree : (b.table i).ptr = none)
    (hpath : ∀ p, p < b.nrAlloc → dist b.nrAlloc i p < dist b.nrAlloc i t →
      (b.table p).ptr ≠ none) : t = i := by
  by_contra hne
  apply hpath i hi _ hfree
  rw [dist_self]
  rcases Nat.eq_zero_or_pos (dist b.nrAlloc i t) with h | h
  · exact absurd (dist_eq_zero hi ht h).symm hne
  · exact h

theorem insertCore_spec {cb : Callbacks K E} {b : Bucket E} {gs : List (Group E)}
    (hc : Contract cb) (inv : BInv cb b gs) (hfree : (cells gs).length < b.nrAlloc)
    (e : E) (ow chk : Bool)
    (hchk : chk = true ∨ ∀ c ∈ cells gs, cb.isEqualElementElement e c.2 = false) :
    ∃ b1 r gs1, insertCore cb b e ow chk = some (b1, r) ∧ BInv cb b1 gs1 ∧
      b1.nrAlloc = b.nrAlloc ∧ InsertRel cb e ow gs gs1 r ∧
      (ow = false → r ≠ none → b1 = b) ∧
      (∀ c ∈ cells gs, cb.isEqualElementElement e c.2 = true →
        b1 = if ow then b.set c.1 { b.table c.1 with ptr := some e } else b) := by
  have s := inv.shape
  have hfr := s.exists_free hfree
  have hhome : hashToIndex (cb.hashElement e true) % b.nrAlloc < b.nrAlloc :=
    Nat.mod_lt _ s.cap_pos
  by_cases hkeyex : ∃ g ∈ gs, cb.isEqualElementElementByKey e g.head.2 = true
  · -- the key has a list
    obtain ⟨g, hg, hkey⟩ := hkeyex
    have hp := probe_head_present inv (keyPred_elm hc e) hg hkey
    have hused : (b.table (hashToIndex (cb.hashElement e true) % b.nrAlloc)).ptr ≠ none := by
      obtain ⟨_, h2, _⟩ := probe_head_sound inv (keyPred_elm hc e) hp
      by_cases h : g.head.1 = hashToIndex (cb.hashElement e true) % b.nrAlloc
      · rw [← h, s.ptrs _ (head_mem_cells hg)]; simp
      · apply h2 _ hhome
        rw [dist_self]
        rcases Nat.eq_zero_or_pos (dist b.nrAlloc
          (hashToIndex (cb.hashElement e true) % b.nrAlloc) g.head.1) with h0 | h0
        · exact absurd (dist_eq_zero hhome (s.lt _ (head_mem_cells hg)) h0).symm h
        · exact h0
    obtain ⟨x, hx⟩ := Option.ne_none_iff_exists'.1 hused
    unfold insertCore
    simp only [hx, Option.isNone_some, Bool.false_eq_true, if_false, hp, Option.some_bind,
      s.ptrs _ (head_mem_cells hg)]
    by_cases hcond : (chk && cb.isEqualElementElement e g.head.2) = true
    · -- the head is the stored element
      rw [if_pos hcond]
      simp only [Bool.and_eq_true] at hcond
      refine ⟨_, _, _, rfl, ?_, ?_, Or.inr ⟨g.head, head_mem_cells hg, hcond.2, rfl, rfl⟩, ?_,
        ?_⟩
      · cases ow
        · exact inv
        · exact inv.overwrite hc (head_mem_cells hg) hcond.2
      · cases ow <;> rfl
      · intro h _; subst h; rfl
      · intro c1 hm1 heq1
        have := s.eq_of_equal hc hm1 (head_mem_cells hg) heq1 hcond.2
        subst this
        rfl
    · rw [if_neg hcond]
      by_cases hst : ∃ c ∈ cells gs, cb.isEqualElementElement e c.2 = true
      · -- a further member is the stored element
        obtain ⟨c, hm, heq⟩ := hst
        have hchk2 : chk = true := by
          rcases hchk with h | h
          · exact h
          · rw [h c hm] at heq; cases heq
        subst hchk2
        simp only [Bool.true_and] at hcond
        obtain ⟨g2, hg2, hcg⟩ := mem_cells.1 hm
        have hrest : c ∈ g2.rest := by
          rcases hcg with h | h
          · exfalso
            have h2 : cb.isEqualElementElementByKey g.head.2 g2.head.2 = true := by
              rw [← h]
              exact hc.key_trans _ _ _ (hc.key_symm _ _ hkey) (hc.eq_key _ _ heq)
            rw [s.diffKey g hg g2 hg2 h2, ← h] at hcond
            exact hcond heq
          · exact h
        have hh : (b.table c.1).hashCache = cb.hashElement e false :=
          (s.restHash g2 hg2 c hrest).trans (hc.hash_elm _ _ heq).symm
        rw [place_present hc inv hm heq hh]
        simp only [Option.some_bind, s.ptrs c hm]
        have hset : b.set c.1 { b.table c.1 with
            hashCache := cb.hashElement e false, ptr := some e } =
            b.set c.1 { b.table c.1 with ptr := some e } := by
          rw [← hh]
        refine ⟨_, _, _, rfl, ?_, ?_, Or.inr ⟨c, hm, heq, rfl, rfl⟩, ?_, ?_⟩
        · cases ow
          · exact inv
          · simp only [if_true]
            rw [hset]
            exact inv.overwrite hc hm heq
        · cases ow <;> rfl
        · intro h _; subst h; rfl
        · intro c1 hm1 heq1
          have := s.eq_of_equal hc hm1 hm heq1 heq
          subst this
          rw [hset]
      · -- the element is new
        push_neg at hst
        have habs : ∀ c ∈ cells gs, cb.isEqualElementElement e c.2 = false :=
          fun c hm => by simpa using hst c hm
        obtain ⟨j, hj, h2, h3, h4⟩ := place_free s e chk hfr
          (Or.inr habs)
        rw [h2]
        simp only [Option.some_bind, h3]
        obtain ⟨r0, hr0⟩ := exists_perm_cons hg
        have inv2 := inv.of_perm hr0
        refine ⟨_, _, _, rfl, inv2.linkAfter hc hj h3 h4 (hc.key_symm _ _ hkey) ?_,
          linkAfterHead_nrAlloc _ _ _ _ _,
          Or.inl ⟨habs, rfl, Or.inr ⟨g, r0, j, hr0, hc.key_symm _ _ hkey, rfl⟩⟩, ?_, ?_⟩
        · intro c hm
          exact habs c ((cells_perm hr0).mem_iff.2 hm)
        · intro _ h; exact absurd rfl h
        · intro c1 hm1 heq1
          rw [habs c1 hm1] at heq1
          cases heq1
  · -- the key has no list
    push_neg at hkeyex
    have habs : ∀ g ∈ gs, cb.isEqualElementElementByKey e g.head.2 = false :=
      fun g hg => by simpa using hkeyex g hg
    have habs2 : ∀ c ∈ cells gs, cb.isEqualElementElement e c.2 = false := by
      intro c hm
      obtain ⟨g, hg, hcg⟩ := mem_cells.1 hm
      by_contra hk
      have hk : cb.isEqualElementElement e c.2 = true := by simpa using hk
      have h2 : cb.isEqualElementElementByKey g.head.2 c.2 = true :=
        s.key_of_mem hc hg (by rcases hcg with h | h <;> simp [Group.cells, h])
      have := hc.key_trans _ _ _ (hc.eq_key _ _ hk) (hc.key_symm _ _ h2)
      rw [habs g hg] at this; cases this
    obtain ⟨t, ht, h2, h3, h4⟩ := probe_head_absent inv
      (cb.isEqualElementElementByKey e) (cb.hashElement e true) hfr habs
    have hres : insertCore cb b e ow chk =
        some ({ b.set t ⟨cb.hashElement e true, some e, none, none⟩ with
          nrUsed := b.nrUsed + 1 }, none) := by
      unfold insertCore
      by_cases hi : (b.table (hashToIndex (cb.hashElement e true) % b.nrAlloc)).ptr = none
      · have := probe_self_of_free hhome ht hi h4
        subst this
        simp [hi]
      · obtain ⟨x, hx⟩ := Option.ne_none_iff_exists'.1 hi
        simp only [hx, Option.isNone_some, Bool.false_eq_true, if_false, h2, Option.some_bind,
          h3]
    exact ⟨_, _, _, hres, inv.newHead hc ht h3 h4 habs, rfl,
      Or.inl ⟨habs2, rfl, Or.inl ⟨habs, t, rfl⟩⟩, fun _ h => absurd rfl h,
      fun c1 hm1 heq1 => by rw [habs2 c1 hm1] at heq1; cases heq1⟩

/-! ## The insertions used by the resize -/

theorem insertFirst_spec {cb : Callbacks K E} {b : Bucket E} {gs : List (Group E)}
    (hc : Contract cb) (inv : BInv cb b gs) (hfree : (cells gs).length < b.nrAlloc) (e : E)
    (habs : ∀ g ∈ gs, cb.isEqualElementElementByKey e g.head.2 = false) :
    ∃ b1 t, insertFirst b e (cb.hashElement e true) = some b1 ∧
      BInv cb b1 (⟨(t, e), []⟩ :: gs) ∧ b1.nrAlloc = b.nrAlloc := by
  have s := inv.shape
  have hhome : hashToIndex (cb.hashElement e true) % b.nrAlloc < b.nrAlloc :=
    Nat.mod_lt _ s.cap_pos
  obtain ⟨t, ht, h2, h3, h4⟩ := probe_used_free b hhome (s.exists_free hfree)
  refine ⟨_, t, ?_, inv.newHead hc ht h3 h4 habs, rfl⟩
  unfold insertFirst
  by_cases hi : (b.table (hashToIndex (cb.hashElement e true) % b.nrAlloc)).ptr = none
  · have := probe_self_of_free hhome ht hi h4
    subst this
    simp [hi]
  · obtain ⟨x, hx⟩ := Option.ne_none_iff_exists'.1 hi
    simp only [hx, Option.isNone_some, Bool.false_eq_true, if_false, h2, Option.map_some']

theorem home_used_of_head {cb : Callbacks K E} {b : Bucket E} {gs : List (Group E)}
    (inv : BInv cb b gs) {g : Group E} (hg : g ∈ gs) :
    (b.table (hashToIndex (cb.hashElement g.head.2 true) % b.nrAlloc)).ptr ≠ none := by
  have s := inv.shape
  have hhome : hashToIndex (cb.hashElement g.head.2 true) % b.nrAlloc < b.nrAlloc :=
    Nat.mod_lt _ s.cap_pos
  by_cases h : g.head.1 = hashToIndex (cb.hashElement g.head.2 true) % b.nrAlloc
  · rw [← h, s.ptrs _ (head_mem_cells hg)]; simp
  · apply inv.probe g.head (head_mem_cells hg) _ hhome
    rw [s.headHash g hg]
    change dist b.nrAlloc (hashToIndex (cb.hashElement g.head.2 true) % b.nrAlloc) _ < _
    rw [dist_self]
    rcases Nat.eq_zero_or_pos (dist b.nrAlloc
      (hashToIndex (cb.hashElement g.head.2 true) % b.nrAlloc) g.head.1) with h0 | h0
    · exact absurd (dist_eq_zero hhome (s.lt _ (head_mem_cells hg)) h0).symm h
    · exact h0

theorem insertFurther_spec {cb : Callbacks K E} {b : Bucket E} {g : Group E}
    {r : List (Group E)} (hc : Contract cb) (inv : BInv cb b (g :: r))
    (hfree : (cells (g :: r)).length < b.nrAlloc) (e : E)
    (hkey : cb.isEqualElementElementByKey g.head.2 e = true)
    (habs : ∀ c ∈ cells (g :: r), cb.isEqualElementElement e c.2 = false) :
    ∃ b1 j, insertFurther cb b e (cb.hashElement e true) (cb.hashElement e false) = some b1 ∧
      BInv cb b1 (⟨g.head, (j, e) :: g.rest⟩ :: r) ∧ b1.nrAlloc = b.nrAlloc := by
  have s := inv.shape
  have hg : g ∈ g :: r := List.mem_cons_self _ _
  have hkey2 := hc.key_symm _ _ hkey
  have hp := probe_head_present inv (keyPred_elm hc e) hg hkey2
  have hused := home_used_of_head inv hg
  rw [hc.hash_key _ _ hkey] at hused
  obtain ⟨x, hx⟩ := Option.ne_none_iff_exists'.1 hused
  obtain ⟨j, hj, h2, h3, h4⟩ := probe_used_free b
    (Nat.mod_lt (hashToIndex (cb.hashElement e false)) s.cap_pos) (s.exists_free hfree)
  refine ⟨_, j, ?_, inv.linkAfter hc hj h3 h4 hkey habs, linkAfterHead_nrAlloc _ _ _ _ _⟩
  unfold insertFurther
  simp only [hx, Option.isNone_some, Bool.false_eq_true, if_false, hp, Option.some_bind,
    s.ptrs _ (head_mem_cells hg), h2, Option.map_some']

/-! ## The walks of the resize along the old lists -/

theorem walkToEnd_spec (T : Nat → Entry E) :
    ∀ (l : List (Nat × E)) (c : Nat × E) (fuel : Nat), (c :: l).Chain' (Linked T) →
      (∀ x ∈ (c :: l).getLast?, (T x.1).next = none) → l.length < fuel →
      ∃ z ∈ (c :: l).getLast?, walkToEnd T fuel c.1 = some z.1 := by
  intro l
  induction l with
  | nil =>
    intro c fuel _ hl hf
    obtain ⟨f, rfl⟩ : ∃ f, fuel = f + 1 := ⟨fuel - 1, by simp at hf; omega⟩
    refine ⟨c, by simp, ?_⟩
    simp [walkToEnd, hl c (by simp)]
  | cons y l ih =>
    intro c fuel hch hl hf
    obtain ⟨f, rfl⟩ : ∃ f, fuel = f + 1 := ⟨fuel - 1, by simp at hf; omega⟩
    rw [List.chain'_cons] at hch
    obtain ⟨z, hz, hw⟩ := ih y f hch.2
      (fun x hx => hl x (by simpa [List.getLast?_cons_cons] using hx))
      (by simp at hf; omega)
    refine ⟨z, by simpa [List.getLast?_cons_cons] using hz, ?_⟩
    simp [walkToEnd, hch.1.1, hw]

theorem mem_of_map_snd_eq {l l1 : List (Nat × E)} (h : l1.map Prod.snd = l.map Prod.snd)
    {x : Nat × E} (hx : x ∈ l1) : ∃ c ∈ l, c.2 = x.2 := by
  have : x.2 ∈ l1.map Prod.snd := List.mem_map.2 ⟨x, hx, rfl⟩
  rw [h] at this
  obtain ⟨c, hc, he⟩ := List.mem_map.1 this
  exact ⟨c, hc, he⟩

theorem insertBackwards_spec {cb : Callbacks K E} {bo : Bucket E} {gs : List (Group E)}
    (hc : Contract cb) (so : Shape cb bo gs) {g : Group E} (hg : g ∈ gs) :
    ∀ (l1 l2 : List (Nat × E)), g.rest = l1 ++ l2 →
    ∀ (bn : Bucket E) (hn : Nat) (l3 : List (Nat × E)) (rn : List (Group E)) (fuel : Nat),
      BInv cb bn (⟨(hn, g.head.2), l3⟩ :: rn) → l3.map Prod.snd = l2.map Prod.snd →
      (cells (⟨(hn, g.head.2), l3⟩ :: rn)).length + l1.length < bn.nrAlloc →
      (∀ x ∈ cells rn, ∀ c ∈ g.cells, cb.isEqualElementElement c.2 x.2 = false) →
      l1.length < fuel →
      ∀ k ∈ (g.head :: l1).getLast?,
      ∃ bf l4, insertBackwards cb bo.table (bo.table g.head.1).hashCache g.head.1 fuel bn k.1 =
          some bf ∧
        BInv cb bf (⟨(hn, g.head.2), l4⟩ :: rn) ∧ l4.map Prod.snd = g.rest.map Prod.snd ∧
        bf.nrAlloc = bn.nrAlloc := by
  intro l1
  induction l1 using List.reverseRecOn with
  | nil =>
    intro l2 hsplit bn hn l3 rn fuel inv hmap _ _ hf k hk
    obtain ⟨f, rfl⟩ : ∃ f, fuel = f + 1 := ⟨fuel - 1, by simp at hf; omega⟩
    simp at hk
    subst hk
    refine ⟨bn, l3, ?_, inv, ?_, rfl⟩
    · simp [insertBackwards]
    · rw [hmap, hsplit]; simp
  | append_singleton l1 c ih =>
    intro l2 hsplit bn hn l3 rn fuel inv hmap hbud hother hf k hk
    obtain ⟨f, rfl⟩ : ∃ f, fuel = f + 1 := ⟨fuel - 1, by simp at hf; omega⟩
    have hk2 : k = c := by
      rw [← List.cons_append, List.getLast?_concat] at hk
      exact (Option.some.inj hk).symm
    subst hk2
    have hsplit2 : g.rest = l1 ++ (k :: l2) := by rw [hsplit]; simp
    have hkrest : k ∈ g.rest := by rw [hsplit2]; simp
    have hkm : k ∈ cells gs := rest_mem_cells hg hkrest
    have hhm : g.head ∈ cells gs := head_mem_cells hg
    have hne : k.1 ≠ g.head.1 := by
      intro h
      have h2 := so.slot_inj hkm hhm h
      have hnd := so.nodup
      obtain ⟨r0, hr0⟩ := exists_perm_cons hg
      have hnd2 := ((cells_perm hr0).map Prod.fst).nodup_iff.1 hnd
      rw [cells_cons] at hnd2
      simp only [List.map_cons, List.map_append, List.nodup_cons, List.mem_append,
        not_or] at hnd2
      apply hnd2.1.1
      rw [← h2]
      exact List.mem_map.2 ⟨k, hkrest, rfl⟩
    -- the predecessor in the old list
    have hch := so.links g hg
    have hcells : g.cells = (g.head :: l1) ++ (k :: l2) := by
      unfold Group.cells; rw [hsplit2]; rfl
    rw [hcells, List.chain'_append] at hch
    obtain ⟨a, ha⟩ : ∃ a, (g.head :: l1).getLast? = some a := by
      cases h : (g.head :: l1).getLast? with
      | none => simp at h
      | some a => exact ⟨a, rfl⟩
    have hlink := hch.2.2 a ha k (by simp)
    -- the insertion
    have hhk : (bo.table g.head.1).hashCache = cb.hashElement k.2 true := by
      rw [so.headHash g hg]
      exact hc.hash_key _ _ (so.sameKey g hg k hkrest)
    have hhe : (bo.table k.1).hashCache = cb.hashElement k.2 false := so.restHash g hg k hkrest
    have habs : ∀ x ∈ cells (⟨(hn, g.head.2), l3⟩ :: rn),
        cb.isEqualElementElement k.2 x.2 = false := by
      intro x hx
      rw [cells_cons] at hx
      simp only [List.mem_cons, List.mem_append] at hx
      rcases hx with rfl | hx | hx
      · by_contra h
        have := so.unique k hkm g.head hhm (by simpa using h)
        exact hne (by rw [this])
      · obtain ⟨c2, hc2, he2⟩ := mem_of_map_snd_eq hmap hx
        rw [← he2]
        by_contra h
        have hc2m : c2 ∈ cells gs := rest_mem_cells hg (by rw [hsplit2]; simp [hc2])
        have := so.unique k hkm c2 hc2m (by simpa using h)
        subst this
        have hnd := so.nodup
        obtain ⟨r0, hr0⟩ := exists_perm_cons hg
        have hnd2 := ((cells_perm hr0).map Prod.fst).nodup_iff.1 hnd
        rw [cells_cons, hsplit2] at hnd2
        simp only [List.map_cons, List.map_append, List.nodup_cons, List.nodup_append,
          List.mem_append, List.mem_map, not_or] at hnd2
        exact hnd2.2.1.2.1.1 ⟨k, hc2, rfl⟩
      · exact hother x hx k (by unfold Group.cells; simp [hkrest])
    obtain ⟨b1, j, hins, inv1, hal⟩ := insertFurther_spec hc inv
      (by simp only [List.length_append, List.length_singleton] at hbud; omega) k.2
      (so.sameKey g hg k hkrest) habs
    obtain ⟨bf, l4, hres, invf, hmapf, half⟩ := ih (k :: l2) hsplit2 b1 hn ((j, k.2) :: l3) rn f
      inv1 (by simp [hmap])
      (by
        rw [hal]
        simp only [cells_cons, List.length_cons, List.length_append,
          List.length_singleton] at hbud ⊢
        omega)
      hother (by simp at hf; omega) a ha
    refine ⟨bf, l4, ?_, invf, hmapf, by rw [half, hal]⟩
    rw [insertBackwards, if_neg hne, so.ptrs k hkm, hlink.2]
    simp only [hhk, hhe, hins, Option.some_bind]
    rw [← hhk]
    exact hres

/-! ## The resize of a bucket -/

theorem cells_length (gs : List (Group E)) :
    (cells gs).length = ((content gs).map List.length).sum := by
  induction gs with
  | nil => rfl
  | cons g gs ih =>
    rw [cells_cons]
    simp only [content, List.map_cons, List.sum_cons, List.length_cons, List.length_append,
      Group.elems, Group.cells, List.length_map] at ih ⊢
    omega

theorem cells_length_of_content {gs gs1 : List (Group E)}
    (h : (content gs1).Perm (content gs)) : (cells gs1).length = (cells gs).length := by
  rw [cells_length, cells_length]
  exact (h.map _).sum_eq

theorem mem_of_content {gs gs1 : List (Group E)} (h : (content gs1).Perm (content gs))
    {g1 : Group E} (hg1 : g1 ∈ gs1) : ∃ g ∈ gs, g.elems = g1.elems := by
  have : g1.elems ∈ content gs1 := List.mem_map.2 ⟨g1, hg1, rfl⟩
  rw [h.mem_iff] at this
  obtain ⟨g, hg, he⟩ := List.mem_map.1 this
  exact ⟨g, hg, he⟩

theorem head_of_elems_eq {g g1 : Group E} (h : g.elems = g1.elems) : g.head.2 = g1.head.2 := by
  simp only [Group.elems, Group.cells, List.map_cons, List.cons.injEq] at h
  exact h.1

theorem cells_length_filter_le (gs : List (Group E)) (p : Group E → Bool) :
    (cells (gs.filter p)).length ≤ (cells gs).length := by
  induction gs with
  | nil => simp
  | cons g gs ih =>
    rw [List.filter_cons]
    split
    · simp only [cells_cons, List.length_cons, List.length_append]; omega
    · simp only [cells_cons, List.length_cons, List.length_append]; omega

theorem filter_succ_perm {cb : Callbacks K E} {b : Bucket E} {gs : List (Group E)}
    (s : Shape cb b gs) {g : Group E} (hg : g ∈ gs) :
    (gs.filter fun x => decide (x.head.1 < g.head.1 + 1)).Perm
      (g :: gs.filter fun x => decide (x.head.1 < g.head.1)) := by
  obtain ⟨r0, hr0⟩ := exists_perm_cons hg
  have hnd := ((cells_perm hr0).map Prod.fst).nodup_iff.1 s.nodup
  rw [cells_cons] at hnd
  simp only [List.map_cons, List.map_append, List.nodup_cons, List.mem_append, not_or] at hnd
  have hne : ∀ x ∈ r0, x.head.1 ≠ g.head.1 := by
    intro x hx h
    apply hnd.1.2
    rw [← h]
    exact List.mem_map.2 ⟨x.head, head_mem_cells hx, rfl⟩
  have h1 := hr0.filter (fun x => decide (x.head.1 < g.head.1 + 1))
  have h2 := hr0.filter (fun x => decide (x.head.1 < g.head.1))
  rw [List.filter_cons_of_pos (by simp)] at h1
  rw [List.filter_cons_of_neg (by simp)] at h2
  have h3 : r0.filter (fun x => decide (x.head.1 < g.head.1 + 1)) =
      r0.filter (fun x => decide (x.head.1 < g.head.1)) := by
    apply List.filter_congr
    intro x hx
    have := hne x hx
    simp only [decide_eq_decide]
    omega
  rw [h3] at h1
  exact h1.trans (h2.symm.cons g)

theorem filter_succ_eq {gs : List (Group E)} {m : Nat} (h : ∀ g ∈ gs, g.head.1 ≠ m) :
    (gs.filter fun x => decide (x.head.1 < m + 1)) =
      gs.filter fun x => decide (x.head.1 < m) := by
  apply List.filter_congr
  intro x hx
  have := h x hx
  simp only [decide_eq_decide]
  omega

/-- One round of the loop of the resize keeps the invariant of the new bucket, which holds the
lists of the old bucket whose heads have been visited. -/
theorem resizeStep_spec {cb : Callbacks K E} {bo : Bucket E} {gs : List (Group E)}
    (hc : Contract cb) (invo : BInv cb bo gs) {bn : Bucket E} {gn : List (Group E)}
    (inv : BInv cb bn gn) (hsize : (cells gs).length < bn.nrAlloc) {m : Nat}
    (hm : m < bo.nrAlloc)
    (hcont : (content gn).Perm (content (gs.filter fun x => decide (x.head.1 < m)))) :
    ∃ b1 g1, resizeStep cb bo.table bo.nrAlloc bn m = some b1 ∧ BInv cb b1 g1 ∧
      b1.nrAlloc = bn.nrAlloc ∧
      (content g1).Perm (content (gs.filter fun x => decide (x.head.1 < m + 1))) := by
  have so := invo.shape
  by_cases hhead : ∃ g ∈ gs, g.head.1 = m
  · obtain ⟨g, hg, rfl⟩ := hhead
    have hfp := filter_succ_perm so hg
    have hlen : (cells gn).length + g.cells.length ≤ (cells gs).length := by
      have h1 := cells_length_of_content hcont
      have h2 := (cells_perm hfp).length_eq
      have h3 := cells_length_filter_le gs (fun x => decide (x.head.1 < g.head.1 + 1))
      rw [cells_cons] at h2
      simp only [List.length_cons, List.length_append, Group.cells] at h2 ⊢
      omega
    have hold : ∀ g1 ∈ gn, ∃ g2 ∈ gs, g2.head.1 < g.head.1 ∧ g2.elems = g1.elems := by
      intro g1 hg1
      obtain ⟨g2, hg2, he⟩ := mem_of_content hcont hg1
      rw [List.mem_filter] at hg2
      exact ⟨g2, hg2.1, by simpa using hg2.2, he⟩
    -- the head
    have habs : ∀ g1 ∈ gn, cb.isEqualElementElementByKey g.head.2 g1.head.2 = false := by
      intro g1 hg1
      obtain ⟨g2, hg2, hlt, he⟩ := hold g1 hg1
      rw [← head_of_elems_eq he]
      by_contra h
      have := so.diffKey g hg g2 hg2 (by simpa using h)
      rw [this] at hlt
      omega
    obtain ⟨b1, t, hins, inv1, hal1⟩ := insertFirst_spec hc inv
      (by simp only [Group.cells, List.length_cons] at hlen; omega) g.head.2 habs
    -- the walk to the end of the old list
    obtain ⟨z, hz, hwalk⟩ := walkToEnd_spec bo.table g.rest g.head bo.nrAlloc (so.links g hg)
      (so.last g hg) (so.group_length hg)
    -- the further members
    have hother : ∀ x ∈ cells gn, ∀ c ∈ g.cells, cb.isEqualElementElement c.2 x.2 = false := by
      intro x hx c hcm
      obtain ⟨g1, hg1, hxg⟩ := mem_cells.1 hx
      obtain ⟨g2, hg2, hlt, he⟩ := hold g1 hg1
      by_contra h
      have h1 : cb.isEqualElementElementByKey c.2 x.2 = true := hc.eq_key _ _ (by simpa using h)
      have h2 : cb.isEqualElementElementByKey g.head.2 c.2 = true := so.key_of_mem hc hg hcm
      have h3 : cb.isEqualElementElementByKey g2.head.2 x.2 = true := by
        have hx2 : x.2 ∈ g1.elems := by
          unfold Group.elems Group.cells
          rcases hxg with h | h
          · simp [h]
          · exact List.mem_map.2 ⟨x, List.mem_cons_of_mem _ h, rfl⟩
        rw [← he] at hx2
        obtain ⟨c2, hc2, he2⟩ := List.mem_map.1 hx2
        rw [← he2]
        exact so.key_of_mem hc hg2 hc2
      have := so.diffKey g hg g2 hg2
        (hc.key_trans _ _ _ h2 (hc.key_trans _ _ _ h1 (hc.key_symm _ _ h3)))
      rw [this] at hlt
      omega
    obtain ⟨bf, l4, hres, invf, hmapf, half⟩ := insertBackwards_spec hc so hg g.rest []
      (by simp) b1 t [] gn bo.nrAlloc inv1 rfl
      (by
        rw [hal1]
        simp only [cells_cons, List.length_cons, List.length_append, List.length_nil,
          Group.cells] at hlen ⊢
        omega)
      hother (so.group_length hg) z hz
    refine ⟨bf, _, ?_, invf, by rw [half, hal1], ?_⟩
    · unfold resizeStep
      rw [so.ptrs _ (head_mem_cells hg), so.first g hg]
      simp only [so.headHash g hg, hins, hwalk, Option.some_bind]
      rw [← so.headHash g hg]
      exact hres
    · have h1 : content (⟨(t, g.head.2), l4⟩ :: gn) = g.elems :: content gn := by
        simp [content, Group.elems, Group.cells, hmapf]
      rw [h1]
      exact (hcont.cons _).trans ((hfp.map Group.elems).symm)
  · push_neg at hhead
    refine ⟨bn, gn, ?_, inv, rfl, ?_⟩
    · unfold resizeStep
      cases hp : (bo.table m).ptr with
      | none => rfl
      | some e =>
        cases hv : (bo.table m).prev with
        | some a => rfl
        | none =>
          exfalso
          have hmem := so.mem_of_ptr hm hp
          obtain ⟨g, hg, hh⟩ := so.head_of_prev_none hmem hv
          exact hhead g hg (by rw [hh])
    · rw [filter_succ_eq hhead]
      exact hcont

theorem BInv.fresh (cb : Callbacks K E) {n : Nat} (hn : 0 < n) :
    BInv cb (emptyBucket E n) [] := by
  refine ⟨?_, ?_, rfl, rfl⟩
  · apply Shape.of_groups
    · exact hn
    · intro c h; simp [cells_nil] at h
    · simp [slots, cells_nil]
    · intro i _ h; exact absurd rfl h
    · intro g h; simp at h
    · intro g h; simp at h
    · intro c h; simp [cells_nil] at h
  · intro c h; simp [cells_nil] at h

theorem resizeLoop_spec {cb : Callbacks K E} {bo : Bucket E} {gs : List (Group E)}
    (hc : Contract cb) (invo : BInv cb bo gs) {bn : Bucket E}
    (inv : BInv cb bn []) (hsize : (cells gs).length < bn.nrAlloc) :
    ∀ m, m ≤ bo.nrAlloc →
    ∃ b1 g1, (List.range m).foldlM (resizeStep cb bo.table bo.nrAlloc) bn = some b1 ∧
      BInv cb b1 g1 ∧ b1.nrAlloc = bn.nrAlloc ∧
      (content g1).Perm (content (gs.filter fun x => decide (x.head.1 < m))) := by
  intro m
  induction m with
  | zero =>
    intro _
    exact ⟨bn, [], rfl, inv, rfl, by simp [content]⟩
  | succ m ih =>
    intro hm
    obtain ⟨b1, g1, h1, inv1, hal1, hc1⟩ := ih (by omega)
    obtain ⟨b2, g2, h2, inv2, hal2, hc2⟩ := resizeStep_spec hc invo inv1
      (by rw [hal1]; exact hsize) (by omega : m < bo.nrAlloc) hc1
    refine ⟨b2, g2, ?_, inv2, by rw [hal2, hal1], hc2⟩
    rw [List.range_succ, List.foldlM_append, h1]
    simp [h2]

/-- The resize of a bucket to a size that exceeds the number of its elements keeps the
invariant and the lists of elements. -/
theorem resizeInternal_spec {cb : Callbacks K E} {b : Bucket E} {gs : List (Group E)}
    (hc : Contract cb) (inv : BInv cb b gs) (nearPrime : Nat → Nat) (size : Nat)
    (hsize : (cells gs).length < nearPrime size) :
    ∃ b1 gs1, resizeInternal cb nearPrime b size = some b1 ∧ BInv cb b1 gs1 ∧
      b1.nrAlloc = nearPrime size ∧ (content gs1).Perm (content gs) := by
  obtain ⟨b1, g1, h1, inv1, hal1, hc1⟩ := resizeLoop_spec hc inv
    (BInv.fresh cb (by omega : 0 < nearPrime size)) hsize b.nrAlloc (le_refl _)
  refine ⟨b1, g1, h1, inv1, hal1, ?_⟩
  have : (gs.filter fun x => decide (x.head.1 < b.nrAlloc)) = gs := by
    apply List.filter_eq_self.2
    intro g hg
    simpa using inv.shape.lt _ (head_mem_cells hg)
  rw [this] at hc1
  exact hc1

/-! ## The neighbours of a stored entry -/

/-- The position of a stored entry in its list determines its links. -/
theorem Shape.split {cb : Callbacks K E} {b : Bucket E} {gs : List (Group E)}
    (s : Shape cb b gs) {c : Nat × E} (hm : c ∈ cells gs) :
    ∃ g ∈ gs, ∃ pre post, g.cells = pre ++ c :: post ∧
      (b.table c.1).prev = pre.getLast?.map Prod.fst ∧
      (b.table c.1).next = post.head?.map Prod.fst := by
  obtain ⟨g, hg, hcg⟩ := mem_cells.1 hm
  have hmem : c ∈ g.cells := by simpa [Group.cells] using hcg
  obtain ⟨pre, post, hsplit⟩ := List.append_of_mem hmem
  refine ⟨g, hg, pre, post, hsplit, ?_, ?_⟩
  · have hch := s.links g hg
    rw [hsplit, List.chain'_append] at hch
    cases hl : pre.getLast? with
    | none =>
      have hpre : pre = [] := List.getLast?_eq_none_iff.1 hl
      rw [hpre] at hsplit
      simp only [Group.cells, List.nil_append, List.cons.injEq] at hsplit
      rw [← hsplit.1]
      exact s.first g hg
    | some a =>
      have := hch.2.2 a hl c (by simp)
      simpa using this.2
  · have hch := s.links g hg
    have hsplit2 : g.cells = (pre ++ [c]) ++ post := by rw [hsplit]; simp
    rw [hsplit2, List.chain'_append] at hch
    cases hl : post.head? with
    | none =>
      have hpost : post = [] := List.head?_eq_none_iff.1 hl
      have := s.last g hg c (by rw [hsplit, hpost]; simp)
      simpa using this
    | some d =>
      have := hch.2.2 c (by simp) d hl
      simpa using this.1

theorem Shape.group_nodup {cb : Callbacks K E} {b : Bucket E} {gs : List (Group E)}
    (s : Shape cb b gs) {g : Group E} (hg : g ∈ gs) : (g.cells.map Prod.fst).Nodup := by
  obtain ⟨r0, hr0⟩ := exists_perm_cons hg
  have hnd := ((cells_perm hr0).map Prod.fst).nodup_iff.1 s.nodup
  have : cells (g :: r0) = g.cells ++ cells r0 := by simp [cells]
  rw [this, List.map_append] at hnd
  exact (List.nodup_append.1 hnd).1

/-- The cached hash of a stored entry is the hash that governs its slot. -/
theorem Shape.home_eq {cb : Callbacks K E} {b : Bucket E} {gs : List (Group E)}
    (s : Shape cb b gs) {c : Nat × E} (hm : c ∈ cells gs) :
    cb.hashElement c.2 (b.table c.1).prev.isNone = (b.table c.1).hashCache := by
  obtain ⟨g, hg, hcg⟩ := mem_cells.1 hm
  rcases hcg with h | h
  · rw [h, s.first g hg, s.headHash g hg]; rfl
  · obtain ⟨a, _, ha⟩ := s.prev_of_rest hg h
    rw [ha, s.restHash g hg c h]; rfl

/-! ## The move of an entry into a free slot -/

theorem moveEntry_table (b : Bucket E) (j i : Nat) (hij : i ≠ j)
    (hp : ∀ p, (b.table j).prev = some p → p ≠ i ∧ p ≠ j)
    (hq : ∀ q, (b.table j).next = some q → q ≠ i ∧ q ≠ j ∧ (b.table j).prev ≠ some q)
    (x : Nat) :
    (moveEntry b j i).table x =
      if x = j then ⟨0, none, none, none⟩
      else if x = i then b.table j
      else if (b.table j).next = some x then { b.table x with prev := some i }
      else if (b.table j).prev = some x then { b.table x with next := some i }
      else b.table x := by
  unfold moveEntry invalidateEntry
  by_cases hxj : x = j
  · simp [hxj]
  · simp only [Bucket.set_table, if_neg hxj, if_true]
    have hji : ¬ j = i := fun h => hij h.symm
    cases hpv : (b.table j).prev with
    | none =>
      cases hnx : (b.table j).next with
      | none => simp [hnx]
      | some q =>
        obtain ⟨hq1, hq2, _⟩ := hq q hnx
        have hiq : ¬ i = q := fun h => hq1 h.symm
        by_cases hxi : x = i
        · subst hxi; simp [hnx, hiq]
        · by_cases hxq : x = q
          · subst hxq; simp [hnx, hxi]
          · have : ¬ q = x := fun h => hxq h.symm
            simp [hnx, hxi, hxq, this]
    | some p =>
      obtain ⟨hp1, hp2⟩ := hp p hpv
      have hip : ¬ i = p := fun h => hp1 h.symm
      cases hnx : (b.table j).next with
      | none =>
        by_cases hxi : x = i
        · subst hxi; simp [hnx, hip]
        · by_cases hxp : x = p
          · subst hxp; simp [hnx, hxi, hip]
          · have : ¬ p = x := fun h => hxp h.symm
            simp [hnx, hxi, hxp, this, hip]
      | some q =>
        obtain ⟨hq1, hq2, hq3⟩ := hq q hnx
        rw [hpv] at hq3
        have hpq : ¬ p = q := fun h => hq3 (by rw [h])
        have hqp : ¬ q = p := fun h => hpq h.symm
        have hiq : ¬ i = q := fun h => hq1 h.symm
        by_cases hxi : x = i
        · subst hxi; simp [hnx, hip, hiq]
        · by_cases hxq : x = q
          · subst hxq; simp [hnx, hxi, hip, hqp, hpq]
          · have h1 : ¬ q = x := fun h => hxq h.symm
            by_cases hxp : x = p
            · subst hxp; simp [hnx, hxi, hxq, h1, hip]
            · have h2 : ¬ p = x := fun h => hxp h.symm
              simp [hnx, hxi, hxq, hxp, h1, h2, hip]

theorem moveEntry_nrAlloc (b : Bucket E) (j i : Nat) : (moveEntry b j i).nrAlloc = b.nrAlloc := by
  unfold moveEntry invalidateEntry
  simp only [Bucket.set_nrAlloc]
  split <;> split <;> rfl

theorem moveEntry_nrUsed (b : Bucket E) (j i : Nat) : (moveEntry b j i).nrUsed = b.nrUsed := by
  unfold moveEntry invalidateEntry
  simp only [Bucket.set_nrUsed]
  split <;> split <;> rfl

theorem moveEntry_nrCollisions (b : Bucket E) (j i : Nat) :
    (moveEntry b j i).nrCollisions = b.nrCollisions := by
  unfold moveEntry invalidateEntry
  simp only [Bucket.set_nrCollisions]
  split <;> split <;> rfl

theorem Shape.neighbours {cb : Callbacks K E} {b : Bucket E} {gs : List (Group E)}
    (s : Shape cb b gs) {c : Nat × E} (hm : c ∈ cells gs) :
    (∀ z, (b.table c.1).next = some z →
      (b.table z).prev = some c.1 ∧ z ∈ slots gs ∧ z ≠ c.1 ∧ (b.table c.1).prev ≠ some z) ∧
    (∀ z, (b.table c.1).prev = some z →
      (b.table z).next = some c.1 ∧ z ∈ slots gs ∧ z ≠ c.1) := by
  obtain ⟨g, hg, pre, post, hsplit, hprev, hnext⟩ := s.split hm
  have hnd := s.group_nodup hg
  rw [hsplit] at hnd
  simp only [List.map_append, List.map_cons, List.nodup_append, List.nodup_cons,
    List.disjoint_cons_right] at hnd
  obtain ⟨hnd1, ⟨hnd2, hnd3⟩, hnd4, hnd5⟩ := hnd
  have hch := s.links g hg
  constructor
  · intro z hz
    rw [hnext] at hz
    simp only [Option.map_eq_some'] at hz
    obtain ⟨d, hd, rfl⟩ := hz
    have hdm : d ∈ post := List.mem_of_mem_head? hd
    have hsplit2 : g.cells = (pre ++ [c]) ++ post := by rw [hsplit]; simp
    rw [hsplit2, List.chain'_append] at hch
    have hl := hch.2.2 c (by simp) d hd
    refine ⟨hl.2, ?_, ?_, ?_⟩
    · exact mem_slots.2 ⟨d, mem_cells_of_mem hg (by rw [hsplit]; simp [hdm]), rfl⟩
    · intro h
      exact hnd2 (List.mem_map.2 ⟨d, hdm, h⟩)
    · rw [hprev]
      intro h
      simp only [Option.map_eq_some'] at h
      obtain ⟨a, ha, hae⟩ := h
      exact hnd5 (List.mem_map.2 ⟨a, List.mem_of_mem_getLast? ha, hae⟩)
        (List.mem_map.2 ⟨d, hdm, rfl⟩)
  · intro z hz
    rw [hprev] at hz
    simp only [Option.map_eq_some'] at hz
    obtain ⟨a, ha, rfl⟩ := hz
    have ham : a ∈ pre := List.mem_of_mem_getLast? ha
    rw [hsplit, List.chain'_append] at hch
    have hl := hch.2.2 a ha c (by simp)
    refine ⟨hl.1, ?_, ?_⟩
    · exact mem_slots.2 ⟨a, mem_cells_of_mem hg (by rw [hsplit]; simp [ham]), rfl⟩
    · intro h
      exact hnd4 (List.mem_map.2 ⟨a, ham, h⟩)

theorem content_map_fst (f : Nat × E → Nat) (gs : List (Group E)) :
    content (gs.map (Group.map fun x => (f x, x.2))) = content gs := by
  unfold content
  rw [List.map_map]
  apply List.map_congr_left
  intro g _
  simp [Group.elems, Group.cells, Group.map, Function.comp_def]

/-- The move of a stored entry into a free slot keeps the lists, with the slot renamed. -/
theorem Shape.move {cb : Callbacks K E} {b : Bucket E} {gs : List (Group E)}
    (hc : Contract cb) (s : Shape cb b gs) {i : Nat} {c : Nat × E} (hm : c ∈ cells gs)
    (hi : i < b.nrAlloc) (hfree : (b.table i).ptr = none) :
    Shape cb (moveEntry b c.1 i)
      (gs.map (Group.map fun x => (if x.1 = c.1 then i else x.1, x.2))) := by
  have his : i ∉ slots gs := s.not_mem_of_free hfree
  have hij : i ≠ c.1 := fun h => his (mem_slots.2 ⟨c, hm, h.symm⟩)
  obtain ⟨hnx, hpv⟩ := s.neighbours hm
  have hT := moveEntry_table b c.1 i hij
    (fun p h => ⟨fun e => his (e ▸ (hpv p h).2.1), (hpv p h).2.2⟩)
    (fun q h => ⟨fun e => his (e ▸ (hnx q h).2.1), (hnx q h).2.2.1, (hnx q h).2.2.2⟩)
  apply s.relabel hc (moveEntry b c.1 i) (fun x => if x = c.1 then i else x) (fun x => x.2)
    (moveEntry_nrAlloc _ _ _)
  · intro x hx y hy h
    have hx1 : x.1 ≠ i := fun e => his (mem_slots.2 ⟨x, hx, e⟩)
    have hy1 : y.1 ≠ i := fun e => his (mem_slots.2 ⟨y, hy, e⟩)
    split_ifs at h with h1 h2 h2
    · rw [h1, h2]
    · exact absurd h.symm hy1
    · exact absurd h hx1
    · exact h
  · intro x hx
    split_ifs
    · exact hi
    · exact s.lt x hx
  · intro x _; exact hc.eq_refl _
  · intro x hx
    have hx1 : x.1 ≠ i := fun e => his (mem_slots.2 ⟨x, hx, e⟩)
    obtain ⟨hnx2, hpv2⟩ := s.neighbours hx
    by_cases hxc : x.1 = c.1
    · have hxe : x = c := s.slot_inj hx hm hxc
      subst hxe
      rw [if_pos rfl, hT, if_neg hij, if_pos rfl]
      have h1 : (b.table x.1).next.map (fun x_1 => if x_1 = x.1 then i else x_1) =
          (b.table x.1).next := by
        cases h : (b.table x.1).next with
        | none => rfl
        | some q => simp [(hnx q h).2.2.1]
      have h2 : (b.table x.1).prev.map (fun x_1 => if x_1 = x.1 then i else x_1) =
          (b.table x.1).prev := by
        cases h : (b.table x.1).prev with
        | none => rfl
        | some q => simp [(hpv q h).2.2]
      rw [h1, h2, ← s.ptrs x hm]
    · rw [if_neg hxc, hT, if_neg hxc, if_neg hx1]
      by_cases hn : (b.table c.1).next = some x.1
      · rw [if_pos hn]
        have h1 := (hnx x.1 hn).1
        have h2 : (b.table x.1).next ≠ some c.1 := by
          intro h
          have := (hnx2 c.1 h).1
          exact (hnx x.1 hn).2.2.2 this
        have h3 : (b.table x.1).next.map (fun x_1 => if x_1 = c.1 then i else x_1) =
            (b.table x.1).next := by
          cases h : (b.table x.1).next with
          | none => rfl
          | some q =>
            have : q ≠ c.1 := fun e => h2 (by rw [h, e])
            simp [this]
        rw [h3, h1, ← s.ptrs x hx]
        simp
      · rw [if_neg hn]
        have h2 : (b.table x.1).prev ≠ some c.1 := by
          intro h
          exact hn (hpv2 c.1 h).1
        have h3 : (b.table x.1).prev.map (fun x_1 => if x_1 = c.1 then i else x_1) =
            (b.table x.1).prev := by
          cases h : (b.table x.1).prev with
          | none => rfl
          | some q =>
            have : q ≠ c.1 := fun e => h2 (by rw [h, e])
            simp [this]
        by_cases hp : (b.table c.1).prev = some x.1
        · rw [if_pos hp]
          have h1 := (hpv x.1 hp).1
          rw [h3, h1, ← s.ptrs x hx]
          simp
        · rw [if_neg hp]
          have h4 : (b.table x.1).next ≠ some c.1 := by
            intro h
            exact hp (hnx2 c.1 h).1
          have h5 : (b.table x.1).next.map (fun x_1 => if x_1 = c.1 then i else x_1) =
              (b.table x.1).next := by
            cases h : (b.table x.1).next with
            | none => rfl
            | some q =>
              have : q ≠ c.1 := fun e => h4 (by rw [h, e])
              simp [this]
          rw [h3, h5, ← s.ptrs x hx]
  · intro x hx hu
    rw [moveEntry_nrAlloc] at hx
    rw [hT] at hu
    by_cases hxc : x = c.1
    · rw [if_pos hxc] at hu; exact absurd rfl hu
    · rw [if_neg hxc] at hu
      by_cases hxi : x = i
      · exact ⟨c, hm, by simp [hxi]⟩
      · rw [if_neg hxi] at hu
        have hu2 : (b.table x).ptr ≠ none := by
          split_ifs at hu <;> simpa using hu
        obtain ⟨y, hy, hye⟩ := mem_slots.1 (s.cover x hx hu2)
        refine ⟨y, hy, ?_⟩
        simp only [hye, hxc, if_false]

/-! ## Arithmetic of the hole healing -/

theorem isBetween_false_dist {n i j k : Nat} (hi : i < n) (hk : k < n)
    (h : isBetween i k j = false) : dist n k i < dist n k j := by
  unfold isBetween at h
  unfold dist
  split_ifs at h ⊢ <;> simp at h <;> omega

theorem isBetween_true_dist {n i j k : Nat} (hj : j < n) (hk : k < n)
    (h : isBetween i k j = true) : ¬ dist n k i < dist n k j := by
  unfold isBetween at h
  unfold dist
  split_ifs at h ⊢ <;> simp at h <;> omega

theorem dist_inj {n i x j : Nat} (hi : i < n) (hx : x < n) (hj : j < n)
    (h : dist n i x = dist n i j) : x = j := by
  unfold dist at h
  split_ifs at h <;> omega

theorem dist_through {n k i j x : Nat} (hk : k < n) (hi : i < n) (_hj : j < n) (hx : x < n)
    (h1 : dist n k i < dist n k x) (h2 : dist n i j < dist n i x) :
    dist n k j < dist n k x := by
  unfold dist at *
  split_ifs at * <;> omega

theorem scan_start (b : Bucket E) {i : Nat} (hi : i < b.nrAlloc) :
    Scan b.nrAlloc i (incr b i) 0 := by
  refine ⟨incr_lt b hi, ?_⟩
  unfold dist incr
  split_ifs <;> omega

theorem scan_next (b : Bucket E) {i j d : Nat} (hi : i < b.nrAlloc) (hij : j ≠ i)
    (h : Scan b.nrAlloc i j d) : d + 1 < b.nrAlloc ∧ dist b.nrAlloc i j = d + 1 ∧
      Scan b.nrAlloc i (incr b j) (d + 1) := by
  obtain ⟨hj, h | h⟩ := h
  · refine ⟨h.1, h.2, incr_lt b hj, ?_⟩
    have := h.2
    unfold dist incr at *
    split_ifs at * <;> omega
  · exact absurd h.2 hij

/-! ## The healing of a hole -/

theorem HoleOk.probeOk {cb : Callbacks K E} {b : Bucket E} {gs : List (Group E)}
    {i j d : Nat} (s : Shape cb b gs) (h : HoleOk b gs i d) (hs : Scan b.nrAlloc i j d)
    (hj : (b.table j).ptr = none) : ProbeOk b gs := by
  intro c hm p hp hd
  by_cases hpi : p = i
  · subst hpi
    exfalso
    have hc1 : c.1 < b.nrAlloc := s.lt c hm
    have hk : (b.table c.1).hashCache % b.nrAlloc < b.nrAlloc := Nat.mod_lt _ s.cap_pos
    have hne : c.1 ≠ p := by
      intro e
      have := s.ptrs c hm
      rw [e, h.free] at this
      cases this
    have hpos : 0 < dist b.nrAlloc p c.1 := by
      rcases Nat.eq_zero_or_pos (dist b.nrAlloc p c.1) with h0 | h0
      · exact absurd (dist_eq_zero h.lt hc1 h0).symm hne
      · exact h0
    by_cases hle : dist b.nrAlloc p c.1 ≤ d
    · exact h.scanned c hm hpos hle hd
    · obtain ⟨hjn, h1 | h1⟩ := hs
      · have hjc : j ≠ c.1 := by
          intro e
          have := s.ptrs c hm
          rw [← e, hj] at this
          cases this
        have hne2 : dist b.nrAlloc p j ≠ dist b.nrAlloc p c.1 :=
          fun e => hjc (dist_inj h.lt hjn hc1 e)
        have h2 : dist b.nrAlloc p j < dist b.nrAlloc p c.1 := by omega
        have h3 := dist_through hk h.lt hjn hc1 hd h2
        have hjp : j ≠ p := by
          intro e
          rw [e, dist_self] at h1
          omega
        exact h.path c hm j hjn h3 hjp hj
      · have := dist_lt h.lt hc1
        omega
  · exact h.path c hm p hp hd hpi

theorem healHoleLoop_spec {cb : Callbacks K E} (hc : Contract cb) :
    ∀ (fuel : Nat) (b : Bucket E) (gs : List (Group E)) (i j d : Nat),
      Shape cb b gs → HoleOk b gs i d → Scan b.nrAlloc i j d →
      disp b gs * b.nrAlloc + (b.nrAlloc - 1 - d) < fuel →
      ∃ b1 gs1, healHoleLoop cb fuel b i j = some b1 ∧ Shape cb b1 gs1 ∧ ProbeOk b1 gs1 ∧
        content gs1 = content gs ∧ b1.nrAlloc = b.nrAlloc ∧ b1.nrUsed = b.nrUsed ∧
        b1.nrCollisions = b.nrCollisions := by
  intro fuel
  induction fuel with
  | zero => intro b gs i j d _ _ _ h; omega
  | succ f ih =>
    intro b gs i j d s h hs hfuel
    rw [healHoleLoop]
    cases hp : (b.table j).ptr with
    | none => exact ⟨b, gs, rfl, s, h.probeOk s hs hp, rfl, rfl, rfl, rfl⟩
    | some e =>
      have hjn : j < b.nrAlloc := hs.1
      have hm : (j, e) ∈ cells gs := s.mem_of_ptr hjn hp
      have hji : j ≠ i := by
        intro e1
        rw [e1, h.free] at hp
        cases hp
      obtain ⟨hd1, hd2, hs2⟩ := scan_next b h.lt hji hs
      have hhome : cb.hashElement e (b.table j).prev.isNone = (b.table j).hashCache :=
        s.home_eq hm
      have hk : (b.table j).hashCache % b.nrAlloc < b.nrAlloc := Nat.mod_lt _ s.cap_pos
      simp only [hhome, hashToIndex]
      by_cases hbt : isBetween i ((b.table j).hashCache % b.nrAlloc) j = true
      · -- the entry stays
        simp only [hbt, Bool.not_true, Bool.false_eq_true, if_false]
        apply ih b gs i (incr b j) (d + 1) s _ hs2 (by omega)
        refine ⟨h.lt, h.free, h.path, ?_⟩
        intro c hcm hpos hle
        by_cases hle2 : dist b.nrAlloc i c.1 ≤ d
        · exact h.scanned c hcm hpos hle2
        · have : c.1 = j := dist_inj h.lt (s.lt c hcm) hjn (by omega)
          rw [this]
          exact isBetween_true_dist hjn hk hbt
      · -- the entry moves into the hole
        have hbf : isBetween i ((b.table j).hashCache % b.nrAlloc) j = false := by
          simpa using hbt
        simp only [hbf, Bool.not_false, if_true]
        have hlt := isBetween_false_dist h.lt hk hbf
        have s2 := s.move hc hm h.lt h.free
        have his : i ∉ slots gs := s.not_mem_of_free h.free
        have hij : i ≠ j := Ne.symm hji
        obtain ⟨hnx, hpv⟩ := s.neighbours hm
        have hT := moveEntry_table b j i hij
          (fun p h => ⟨fun e => his (e ▸ (hpv p h).2.1), (hpv p h).2.2⟩)
          (fun q h => ⟨fun e => his (e ▸ (hnx q h).2.1), (hnx q h).2.2.1, (hnx q h).2.2.2⟩)
        -- the table after the move
        have hused : ∀ p, p ≠ j → (p = i ∨ (b.table p).ptr ≠ none) →
            ((moveEntry b j i).table p).ptr ≠ none := by
          intro p hpj hpu
          rw [hT, if_neg hpj]
          by_cases hpi : p = i
          · rw [if_pos hpi, hp]; simp
          · rw [if_neg hpi]
            rcases hpu with hpu | hpu
            · exact absurd hpu hpi
            · split_ifs <;> simpa using hpu
        have hhash : ∀ c ∈ cells gs,
            ((moveEntry b j i).table (if c.1 = j then i else c.1)).hashCache =
              (b.table c.1).hashCache := by
          intro c hcm
          by_cases hcj : c.1 = j
          · rw [if_pos hcj, hT, if_neg hij, if_pos rfl, hcj]
          · have hci : c.1 ≠ i := fun e => his (mem_slots.2 ⟨c, hcm, e⟩)
            rw [if_neg hcj, hT, if_neg hcj, if_neg hci]
            split_ifs <;> rfl
        have hdisp : disp (moveEntry b j i)
            (gs.map (Group.map fun x => (if x.1 = j then i else x.1, x.2))) < disp b gs := by
          unfold disp
          rw [cells_map, List.map_map, moveEntry_nrAlloc]
          apply List.sum_lt_sum
          · intro c hcm
            simp only [Function.comp]
            rw [hhash c hcm]
            by_cases hcj : c.1 = j
            · rw [if_pos hcj, hcj]; exact Nat.le_of_lt hlt
            · rw [if_neg hcj]
          · refine ⟨(j, e), hm, ?_⟩
            have hh := hhash _ hm
            simp only [Function.comp_apply, ↓reduceIte] at hh ⊢
            rw [hh]
            exact hlt
        have hmul : (disp (moveEntry b j i)
            (gs.map (Group.map fun x => (if x.1 = j then i else x.1, x.2))) + 1) *
            b.nrAlloc ≤ disp b gs * b.nrAlloc := Nat.mul_le_mul_right _ hdisp
        rw [Nat.add_mul] at hmul
        have hinc : incr (moveEntry b j i) j = incr b j := by
          unfold incr; rw [moveEntry_nrAlloc]
        obtain ⟨b1, gs1, h1, h2, h3, h4, h5, h6, h7⟩ := ih (moveEntry b j i)
          (gs.map (Group.map fun x => (if x.1 = j then i else x.1, x.2))) j (incr b j) 0 s2
          (by
            refine ⟨by rw [moveEntry_nrAlloc]; exact hjn, by rw [hT, if_pos rfl], ?_, ?_⟩
            · intro c hcm p hpn hdp hpj
              rw [cells_map] at hcm
              obtain ⟨c0, hcm0, rfl⟩ := List.mem_map.1 hcm
              rw [moveEntry_nrAlloc] at hpn hdp
              simp only at hdp
              rw [hhash c0 hcm0] at hdp
              apply hused p hpj
              by_cases hpi : p = i
              · exact Or.inl hpi
              · right
                apply h.path c0 hcm0 p hpn _ hpi
                by_cases hcj : c0.1 = j
                · rw [if_pos hcj] at hdp
                  rw [hcj] at hdp ⊢
                  omega
                · rw [if_neg hcj] at hdp
                  exact hdp
            · intro c _ hpos hle
              omega)
          (by
            have hst := @scan_start E (moveEntry b j i) j (by rw [moveEntry_nrAlloc]; exact hjn)
            rw [hinc] at hst
            exact hst)
          (by rw [moveEntry_nrAlloc]; omega)
        refine ⟨b1, gs1, h1, h2, h3, ?_, ?_, ?_, ?_⟩
        · rw [h4, content_map_fst]
        · rw [h5, moveEntry_nrAlloc]
        · rw [h6, moveEntry_nrUsed]
        · rw [h7, moveEntry_nrCollisions]

theorem disp_le {cb : Callbacks K E} {b : Bucket E} {gs : List (Group E)}
    (s : Shape cb b gs) : disp b gs ≤ b.nrAlloc * (b.nrAlloc - 1) := by
  unfold disp
  have h1 : ∀ x ∈ (cells gs).map (fun c =>
      dist b.nrAlloc ((b.table c.1).hashCache % b.nrAlloc) c.1), x ≤ b.nrAlloc - 1 := by
    intro x hx
    obtain ⟨c, hc, rfl⟩ := List.mem_map.1 hx
    have := dist_lt (Nat.mod_lt (b.table c.1).hashCache s.cap_pos) (s.lt c hc)
    omega
  have h2 := List.sum_le_card_nsmul _ _ h1
  simp only [List.length_map, smul_eq_mul] at h2
  exact h2.trans (Nat.mul_le_mul_right _ s.length_le)

/-- The healing of a hole ends, restores probe reachability and keeps the lists of elements. -/
theorem healHole_spec {cb : Callbacks K E} (hc : Contract cb) {b : Bucket E}
    {gs : List (Group E)} {i : Nat} (s : Shape cb b gs) (h : HoleOk b gs i 0) :
    ∃ b1 gs1, healHole cb b i = some b1 ∧ Shape cb b1 gs1 ∧ ProbeOk b1 gs1 ∧
      content gs1 = content gs ∧ b1.nrAlloc = b.nrAlloc ∧ b1.nrUsed = b.nrUsed ∧
      b1.nrCollisions = b.nrCollisions := by
  unfold healHole
  apply healHoleLoop_spec hc _ b gs i (incr b i) 0 s h (scan_start b h.lt)
  have h1 := disp_le s
  have h2 := Nat.mul_le_mul_right b.nrAlloc h1
  have h3 : b.nrAlloc * (b.nrAlloc - 1) * b.nrAlloc + b.nrAlloc ≤
      b.nrAlloc * b.nrAlloc * b.nrAlloc := by
    have hp := s.cap_pos
    obtain ⟨m, hm⟩ : ∃ m, b.nrAlloc = m + 1 := ⟨b.nrAlloc - 1, by omega⟩
    rw [hm]
    simp only [Nat.add_sub_cancel]
    nlinarith [Nat.zero_le m, Nat.zero_le (m * m)]
  omega

/-! ## Unlinking an entry -/

theorem cells_groupOfList (l : List (Nat × E)) (r : List (Group E)) :
    cells (groupOfList l ++ r) = l ++ cells r := by
  cases l with
  | nil => rfl
  | cons h t => simp [groupOfList, cells_cons]

theorem mem_groupOfList {l : List (Nat × E)} {g : Group E} (h : g ∈ groupOfList l) :
    g.cells = l := by
  cases l with
  | nil => simp [groupOfList] at h
  | cons x t =>
    simp only [groupOfList, List.mem_singleton] at h
    rw [h]; rfl

theorem Shape.links_of_split {cb : Callbacks K E} {b : Bucket E} {gs : List (Group E)}
    (s : Shape cb b gs) {g : Group E} (hg : g ∈ gs) {c : Nat × E} {pre post : List (Nat × E)}
    (hsplit : g.cells = pre ++ c :: post) :
    (b.table c.1).prev = pre.getLast?.map Prod.fst ∧
      (b.table c.1).next = post.head?.map Prod.fst := by
  constructor
  · have hch := s.links g hg
    rw [hsplit, List.chain'_append] at hch
    cases hl : pre.getLast? with
    | none =>
      have hpre : pre = [] := List.getLast?_eq_none_iff.1 hl
      rw [hpre] at hsplit
      simp only [Group.cells, List.nil_append, List.cons.injEq] at hsplit
      rw [← hsplit.1]
      exact s.first g hg
    | some a =>
      have := hch.2.2 a hl c (by simp)
      simpa using this.2
  · have hch := s.links g hg
    have hsplit2 : g.cells = (pre ++ [c]) ++ post := by rw [hsplit]; simp
    rw [hsplit2, List.chain'_append] at hch
    cases hl : post.head? with
    | none =>
      have hpost : post = [] := List.head?_eq_none_iff.1 hl
      have := s.last g hg c (by rw [hsplit, hpost]; simp)
      simpa using this
    | some d =>
      have := hch.2.2 c (by simp) d hl
      simpa using this.1

theorem slots_cons_cells (g : Group E) (r : List (Group E)) :
    slots (g :: r) = g.cells.map Prod.fst ++ slots r := by
  simp [slots, cells, Group.cells]

theorem getLast?_cons_of_some {α : Type} {l : List α} {w : α} (c : α)
    (h : l.getLast? = some w) : (c :: l).getLast? = some w := by
  cases l with
  | nil => simp at h
  | cons y l => rw [List.getLast?_cons_cons]; exact h

/-- Unlinking a stored entry keeps the invariant of the lists, with the entry removed from
its list. -/
theorem Shape.unlink {cb : Callbacks K E} {b : Bucket E} {g : Group E} {r0 : List (Group E)}
    (hc : Contract cb) (s : Shape cb b (g :: r0)) {c : Nat × E} {pre post : List (Nat × E)}
    (hsplit : g.cells = pre ++ c :: post) :
    Shape cb (unlinked cb b c.1) (groupOfList (pre ++ post) ++ r0) := by
  have hg : g ∈ g :: r0 := List.mem_cons_self _ _
  obtain ⟨hprev, hnext⟩ := s.links_of_split hg hsplit
  have hnd := s.nodup
  rw [slots_cons_cells, hsplit] at hnd
  simp only [List.map_append, List.map_cons, List.nodup_append, List.nodup_cons,
    List.disjoint_cons_right, List.disjoint_append_left, List.disjoint_cons_left] at hnd
  obtain ⟨⟨hnd1, ⟨hnd2, hnd3⟩, hnd4, hnd5⟩, hnd6, hnd7, hnd8, hnd9⟩ := hnd
  have hok := s.groupOk hg
  have hmc : ∀ x ∈ g.cells, x ∈ cells (g :: r0) := fun x hx => mem_cells_of_mem hg hx
  have hcm : c ∈ g.cells := by rw [hsplit]; simp
  have hprem : ∀ x ∈ pre, x ∈ g.cells := fun x hx => by rw [hsplit]; simp [hx]
  have hpostm : ∀ x ∈ post, x ∈ g.cells := fun x hx => by rw [hsplit]; simp [hx]
  -- slots that differ
  have hpre_ne : ∀ x ∈ pre, x.1 ≠ c.1 := fun x hx h => hnd4 (List.mem_map.2 ⟨x, hx, h⟩)
  have hpost_ne : ∀ x ∈ post, x.1 ≠ c.1 := fun x hx h => hnd2 (List.mem_map.2 ⟨x, hx, h⟩)
  have hpre_post : ∀ x ∈ pre, ∀ y ∈ post, x.1 ≠ y.1 := fun x hx y hy h =>
    hnd5 (List.mem_map.2 ⟨x, hx, h⟩) (List.mem_map.2 ⟨y, hy, rfl⟩)
  have hr_ne : ∀ x ∈ cells r0, x.1 ≠ c.1 ∧ (∀ y ∈ pre, y.1 ≠ x.1) ∧ ∀ y ∈ post, y.1 ≠ x.1 := by
    intro x hx
    have hxs : x.1 ∈ slots r0 := mem_slots.2 ⟨x, hx, rfl⟩
    exact ⟨fun h => hnd8 (h ▸ hxs), fun y hy h => hnd7 (List.mem_map.2 ⟨y, hy, h⟩) hxs,
      fun y hy h => hnd9 (List.mem_map.2 ⟨y, hy, h⟩) hxs⟩
  have hnext_mem : ∀ z, (b.table c.1).next = some z → ∃ d ∈ post.head?, d.1 = z := by
    intro z hz
    rw [hnext] at hz
    simpa using hz
  have hprev_mem : ∀ z, (b.table c.1).prev = some z → ∃ a ∈ pre.getLast?, a.1 = z := by
    intro z hz
    rw [hprev] at hz
    simpa using hz
  -- the old links at the junctions
  have hch := hok.links
  have hjunc1 : ∀ a ∈ pre.getLast?, (b.table a.1).next = some c.1 := by
    intro a ha
    rw [hsplit, List.chain'_append] at hch
    exact (hch.2.2 a ha c (by simp)).1
  have hjunc2 : ∀ d ∈ post.head?, (b.table d.1).prev = some c.1 := by
    intro d hd
    have hsplit2 : g.cells = (pre ++ [c]) ++ post := by rw [hsplit]; simp
    rw [hsplit2, List.chain'_append] at hch
    exact (hch.2.2 c (by simp) d hd).2
  have hchpre : pre.Chain' (Linked b.table) := by
    rw [hsplit, List.chain'_append] at hch
    exact hch.1
  have hchpost : post.Chain' (Linked b.table) := by
    have hsplit2 : g.cells = (pre ++ [c]) ++ post := by rw [hsplit]; simp
    rw [hsplit2, List.chain'_append] at hch
    exact hch.2.1
  -- the new table
  have hUpre : ∀ x ∈ pre, (unlinked cb b c.1).table x.1 =
      if (b.table c.1).prev = some x.1 then { b.table x.1 with next := (b.table c.1).next }
      else b.table x.1 := by
    intro x hx
    have h1 : ¬ (b.table c.1).next = some x.1 := by
      intro h
      obtain ⟨d, hd, hde⟩ := hnext_mem _ h
      exact hpre_post x hx d (List.mem_of_mem_head? hd) hde.symm
    simp only [unlinked, if_neg (hpre_ne x hx), if_neg h1]
  have hUpost : ∀ x ∈ post, (unlinked cb b c.1).table x.1 =
      if (b.table c.1).next = some x.1 then
        { b.table x.1 with
          prev := (b.table c.1).prev
          hashCache := if (b.table c.1).prev = none then cb.hashElement x.2 true
            else (b.table x.1).hashCache }
      else b.table x.1 := by
    intro x hx
    have h1 : ¬ (b.table c.1).prev = some x.1 := by
      intro h
      obtain ⟨a, ha, hae⟩ := hprev_mem _ h
      exact hpre_post a (List.mem_of_mem_getLast? ha) x hx hae
    simp only [unlinked, if_neg (hpost_ne x hx), if_neg h1, s.ptrs x (hmc x (hpostm x hx))]
  have hUr : ∀ x ∈ cells r0, (unlinked cb b c.1).table x.1 = b.table x.1 := by
    intro x hx
    obtain ⟨h1, h2, h3⟩ := hr_ne x hx
    have h4 : ¬ (b.table c.1).next = some x.1 := by
      intro h
      obtain ⟨d, hd, hde⟩ := hnext_mem _ h
      exact h3 d (List.mem_of_mem_head? hd) hde
    have h5 : ¬ (b.table c.1).prev = some x.1 := by
      intro h
      obtain ⟨a, ha, hae⟩ := hprev_mem _ h
      exact h2 a (List.mem_of_mem_getLast? ha) hae
    simp only [unlinked, if_neg h1, if_neg h4, if_neg h5]
  have hUptr : ∀ x ∈ pre ++ post, ((unlinked cb b c.1).table x.1).ptr = some x.2 := by
    intro x hx
    rcases List.mem_append.1 hx with hx | hx
    · rw [hUpre x hx]
      have := s.ptrs x (hmc x (hprem x hx))
      split_ifs <;> simpa using this
    · rw [hUpost x hx]
      have := s.ptrs x (hmc x (hpostm x hx))
      split_ifs <;> simpa using this
  -- the links of the new list
  have hlinks : (pre ++ post).Chain' (Linked (unlinked cb b c.1).table) := by
    rw [List.chain'_append]
    refine ⟨?_, ?_, ?_⟩
    · refine (List.Chain'.iff_mem.1 hchpre).imp ?_
      rintro x y ⟨hx, hy, h1, h2⟩
      constructor
      · rw [hUpre x hx, if_neg]
        · exact h1
        · intro h
          obtain ⟨a, ha, hae⟩ := hprev_mem _ h
          have := hjunc1 a ha
          rw [hae, h1] at this
          exact hpre_ne y hy (Option.some.inj this)
      · rw [hUpre y hy]
        split_ifs <;> simpa using h2
    · refine (List.Chain'.iff_mem.1 hchpost).imp ?_
      rintro x y ⟨hx, hy, h1, h2⟩
      constructor
      · rw [hUpost x hx]
        split_ifs <;> simpa using h1
      · rw [hUpost y hy, if_neg]
        · exact h2
        · intro h
          obtain ⟨d, hd, hde⟩ := hnext_mem _ h
          have := hjunc2 d hd
          rw [hde, h2] at this
          exact hpost_ne x hx (Option.some.inj this)
    · intro a ha d hd
      have ham := List.mem_of_mem_getLast? ha
      have hdm := List.mem_of_mem_head? hd
      have hp : (b.table c.1).prev = some a.1 := by rw [hprev, ha]; rfl
      have hn : (b.table c.1).next = some d.1 := by rw [hnext, hd]; rfl
      constructor
      · rw [hUpre a ham, if_pos hp]
        exact hn
      · rw [hUpost d hdm, if_pos hn]
        exact hp
  have hlast : ∀ z ∈ (pre ++ post).getLast?, ((unlinked cb b c.1).table z.1).next = none := by
    intro z hz
    rw [List.getLast?_append] at hz
    cases hpl : post.getLast? with
    | some w =>
      rw [hpl] at hz
      simp only [Option.or, Option.mem_def, Option.some.injEq] at hz
      subst hz
      have hwm := List.mem_of_mem_getLast? hpl
      have := hok.last w (by
        rw [hsplit, List.getLast?_append, getLast?_cons_of_some c hpl]; rfl)
      rw [hUpost w hwm]
      split_ifs <;> simpa using this
    | none =>
      rw [hpl] at hz
      simp only [Option.or, Option.mem_def] at hz
      have hpost : post = [] := List.getLast?_eq_none_iff.1 hpl
      have hzm := List.mem_of_mem_getLast? hz
      have hp : (b.table c.1).prev = some z.1 := by rw [hprev, hz]; rfl
      rw [hUpre z hzm, if_pos hp]
      rw [hnext, hpost]
      rfl
  have hsub : ∀ x, x ∈ cells (groupOfList (pre ++ post) ++ r0) → x ∈ cells (g :: r0) := by
    intro x hx
    rw [cells_groupOfList] at hx
    rcases List.mem_append.1 hx with hx | hx
    · rcases List.mem_append.1 hx with hx | hx
      · exact hmc x (hprem x hx)
      · exact hmc x (hpostm x hx)
    · rw [cells_cons]; simp [hx]
  have hkeyg : ∀ x ∈ g.cells, cb.isEqualElementElementByKey g.head.2 x.2 = true :=
    fun x hx => s.key_of_mem hc hg hx
  have hnew : ∀ g1 ∈ groupOfList (pre ++ post), g1.cells = pre ++ post ∧ g1.head ∈ g.cells := by
    intro g1 hg1
    have h1 := mem_groupOfList hg1
    refine ⟨h1, ?_⟩
    have : g1.head ∈ pre ++ post := by rw [← h1]; simp [Group.cells]
    rcases List.mem_append.1 this with h | h
    · exact hprem _ h
    · exact hpostm _ h
  have hgr : g ∉ r0 := by
    intro h
    exact hnd8 (mem_slots.2 ⟨c, mem_cells_of_mem h hcm, rfl⟩)
  apply Shape.of_groups
  · exact s.cap_pos
  · intro x hx
    exact s.lt x (hsub x hx)
  · unfold slots
    rw [cells_groupOfList]
    simp only [List.map_append, List.nodup_append, List.disjoint_append_left]
    exact ⟨⟨hnd1, hnd3, hnd5⟩, hnd6, hnd7, hnd9⟩
  · intro x hx hu
    have hxc : x ≠ c.1 := by
      intro h
      simp [unlinked, h] at hu
    have hu2 : (b.table x).ptr ≠ none := by
      simp only [unlinked, if_neg hxc] at hu
      split_ifs at hu <;> simpa using hu
    have := s.cover x hx hu2
    rw [slots_cons_cells, hsplit] at this
    unfold slots
    rw [cells_groupOfList]
    simp only [List.map_append, List.map_cons, List.mem_append, List.mem_cons] at this ⊢
    tauto
  · intro g1 hg1
    rcases List.mem_append.1 hg1 with hg1 | hg1
    · obtain ⟨hgc, _⟩ := hnew g1 hg1
      have hcells : g1.head :: g1.rest = pre ++ post := hgc
      refine ⟨?_, ?_, ?_, ?_, ?_, ?_, ?_⟩
      · intro x hx
        rw [hgc] at hx
        exact hUptr x hx
      · rw [hgc]; exact hlinks
      · cases pre with
        | nil =>
          simp only [List.nil_append] at hcells
          have hd : g1.head ∈ post.head? := by rw [← hcells]; simp
          have hn : (b.table c.1).next = some g1.head.1 := by rw [hnext, hd]; rfl
          rw [hUpost _ (List.mem_of_mem_head? hd), if_pos hn]
          rw [hprev]; rfl
        | cons h0 pre1 =>
          simp only [List.cons_append, List.cons.injEq] at hcells
          have hh : g.head = h0 := by
            simp only [Group.cells, List.cons_append, List.cons.injEq] at hsplit
            exact hsplit.1
          rw [hcells.1, hUpre h0 (by simp)]
          have := hok.first
          rw [hh] at this
          split_ifs <;> simpa using this
      · rw [hgc]; exact hlast
      · cases pre with
        | nil =>
          simp only [List.nil_append] at hcells
          have hd : g1.head ∈ post.head? := by rw [← hcells]; simp
          have hn : (b.table c.1).next = some g1.head.1 := by rw [hnext, hd]; rfl
          have hp : (b.table c.1).prev = none := by rw [hprev]; rfl
          rw [hUpost _ (List.mem_of_mem_head? hd), if_pos hn]
          simp [hp]
        | cons h0 pre1 =>
          simp only [List.cons_append, List.cons.injEq] at hcells
          have hh : g.head = h0 := by
            simp only [Group.cells, List.cons_append, List.cons.injEq] at hsplit
            exact hsplit.1
          rw [hcells.1, hUpre h0 (by simp)]
          have := hok.headHash
          rw [hh] at this
          split_ifs <;> simpa using this
      · intro x hx
        cases pre with
        | nil =>
          simp only [List.nil_append] at hcells hsplit
          have hxp : x ∈ post := by rw [← hcells]; simp [hx]
          have hd : g1.head ∈ post.head? := by rw [← hcells]; simp
          have hne : ¬ (b.table c.1).next = some x.1 := by
            intro h
            rw [hnext, hd] at h
            have h2 : g1.head.1 = x.1 := by simpa using h
            rw [← hcells] at hnd3
            simp only [List.map_cons, List.nodup_cons] at hnd3
            exact hnd3.1 (List.mem_map.2 ⟨x, hx, h2.symm⟩)
          rw [hUpost x hxp, if_neg hne]
          apply hok.restHash
          simp only [Group.cells, List.cons.injEq] at hsplit
          rw [hsplit.2]; exact hxp
        | cons h0 pre1 =>
          simp only [List.cons_append, List.cons.injEq] at hcells
          have hrest : g.rest = pre1 ++ c :: post := by
            simp only [Group.cells, List.cons_append, List.cons.injEq] at hsplit
            exact hsplit.2
          rw [hcells.2] at hx
          rcases List.mem_append.1 hx with hx | hx
          · rw [hUpre x (by simp [hx])]
            have := hok.restHash x (by rw [hrest]; simp [hx])
            split_ifs <;> simpa using this
          · rw [hUpost x hx]
            have := hok.restHash x (by rw [hrest]; simp [hx])
            have hp : ¬ (b.table c.1).prev = none := by
              rw [hprev]
              cases hl : (h0 :: pre1).getLast? with
              | none => simp at hl
              | some a => simp
            split_ifs <;> simpa using this
      · intro x hx
        have hxm : x ∈ g.cells := by
          have : x ∈ pre ++ post := by rw [← hcells]; simp [hx]
          rcases List.mem_append.1 this with h | h
          · exact hprem _ h
          · exact hpostm _ h
        have hhm := (hnew g1 hg1).2
        exact hc.key_trans _ _ _ (hc.key_symm _ _ (hkeyg _ hhm)) (hkeyg _ hxm)
    · apply (s.groupOk (List.mem_cons_of_mem _ hg1)).congr
      intro x hx
      exact hUr x (mem_cells_of_mem hg1 hx)
  · intro g1 hg1 g2 hg2 hk
    rcases List.mem_append.1 hg1 with hg1 | hg1 <;> rcases List.mem_append.1 hg2 with hg2 | hg2
    · have h1 := (hnew g1 hg1).1
      have h2 := (hnew g2 hg2).1
      rw [← h2] at h1
      cases g1; cases g2
      simp only [Group.cells, List.cons.injEq] at h1
      simp [h1.1, h1.2]
    · exfalso
      have hhm := (hnew g1 hg1).2
      have := s.diffKey g hg g2 (List.mem_cons_of_mem _ hg2)
        (hc.key_trans _ _ _ (hkeyg _ hhm) hk)
      exact hgr (this ▸ hg2)
    · exfalso
      have hhm := (hnew g2 hg2).2
      have := s.diffKey g hg g1 (List.mem_cons_of_mem _ hg1)
        (hc.key_trans _ _ _ (hkeyg _ hhm) (hc.key_symm _ _ hk))
      exact hgr (this ▸ hg1)
    · exact s.diffKey g1 (List.mem_cons_of_mem _ hg1) g2 (List.mem_cons_of_mem _ hg2) hk
  · intro x hx y hy hk
    exact s.unique x (hsub x hx) y (hsub y hy) hk

/-! ## Removal -/

theorem Bucket.ext_table {b1 b2 : Bucket E} (h1 : b1.nrAlloc = b2.nrAlloc)
    (h2 : b1.nrUsed = b2.nrUsed) (h3 : b1.nrCollisions = b2.nrCollisions)
    (h4 : ∀ x, b1.table x = b2.table x) : b1 = b2 := by
  cases b1; cases b2
  simp only at h1 h2 h3 h4
  simp only [Bucket.mk.injEq]
  exact ⟨h1, h2, h3, funext h4⟩

theorem Shape.of_table {cb : Callbacks K E} {b b1 : Bucket E} {gs : List (Group E)}
    (s : Shape cb b gs) (h1 : b1.nrAlloc = b.nrAlloc) (h2 : b1.table = b.table) :
    Shape cb b1 gs := by
  constructor
  · rw [h1]; exact s.cap_pos
  · rw [h1]; exact s.lt
  · exact s.nodup
  · rw [h1, h2]; exact s.cover
  · rw [h2]; exact s.ptrs
  · rw [h2]; exact s.links
  · rw [h2]; exact s.first
  · rw [h2]; exact s.last
  · rw [h2]; exact s.headHash
  · rw [h2]; exact s.restHash
  · exact s.sameKey
  · exact s.diffKey
  · exact s.unique

theorem ProbeOk.of_table_eq {b b1 : Bucket E} {gs : List (Group E)} (s : ProbeOk b gs)
    (h1 : b1.nrAlloc = b.nrAlloc) (h2 : b1.table = b.table) : ProbeOk b1 gs := by
  unfold ProbeOk
  rw [h1, h2]
  exact s

theorem unlinked_ptr (cb : Callbacks K E) (b : Bucket E) {i x : Nat} (h : x ≠ i) :
    ((unlinked cb b i).table x).ptr = (b.table x).ptr := by
  simp only [unlinked, if_neg h]
  split_ifs <;> rfl

theorem unlinked_hash (cb : Callbacks K E) (b : Bucket E) {i x : Nat} (h : x ≠ i)
    (h2 : (b.table i).prev ≠ none ∨ (b.table i).next ≠ some x) :
    ((unlinked cb b i).table x).hashCache = (b.table x).hashCache := by
  simp only [unlinked, if_neg h]
  rcases h2 with h2 | h2
  · split_ifs <;> simp_all
  · rw [if_neg h2]
    split_ifs <;> rfl

theorem length_le_cells (gs : List (Group E)) : gs.length ≤ (cells gs).length := by
  induction gs with
  | nil => simp [cells_nil]
  | cons g gs ih =>
    simp only [cells_cons, List.length_cons, List.length_append]
    omega

theorem content_length (gs : List (Group E)) : (content gs).length = gs.length := by
  simp [content]

/-- The hole left by an unlinked entry whose successor did not become a head. -/
theorem HoleOk.unlinked {cb : Callbacks K E} {b : Bucket E} {g : Group E}
    {r0 : List (Group E)} (inv : BInv cb b (g :: r0)) {c : Nat × E}
    {pre post : List (Nat × E)} (hsplit : g.cells = pre ++ c :: post)
    (hcase : (b.table c.1).prev ≠ none ∨ (b.table c.1).next = none) :
    HoleOk (unlinked cb b c.1) (groupOfList (pre ++ post) ++ r0) c.1 0 := by
  have s := inv.shape
  have hg : g ∈ g :: r0 := List.mem_cons_self _ _
  have hcm : c ∈ cells (g :: r0) := mem_cells_of_mem hg (by rw [hsplit]; simp)
  have hnd := s.nodup
  rw [slots_cons_cells, hsplit] at hnd
  simp only [List.map_append, List.map_cons, List.nodup_append, List.nodup_cons,
    List.disjoint_cons_right, List.disjoint_append_left, List.disjoint_cons_left] at hnd
  obtain ⟨⟨_, ⟨hnd2, _⟩, hnd4, _⟩, _, _, hnd8, _⟩ := hnd
  have hsub : ∀ x, x ∈ cells (groupOfList (pre ++ post) ++ r0) →
      x ∈ cells (g :: r0) ∧ x.1 ≠ c.1 := by
    intro x hx
    rw [cells_groupOfList] at hx
    rcases List.mem_append.1 hx with hx | hx
    · rcases List.mem_append.1 hx with hx | hx
      · exact ⟨mem_cells_of_mem hg (by rw [hsplit]; simp [hx]),
          fun h => hnd4 (List.mem_map.2 ⟨x, hx, h⟩)⟩
      · exact ⟨mem_cells_of_mem hg (by rw [hsplit]; simp [hx]),
          fun h => hnd2 (List.mem_map.2 ⟨x, hx, h⟩)⟩
    · exact ⟨by rw [cells_cons]; simp [hx], fun h => hnd8 (mem_slots.2 ⟨x, hx, h⟩)⟩
  refine ⟨s.lt c hcm, by simp [AssocMulti.unlinked], ?_, ?_⟩
  · intro x hx p hp hd hpi
    obtain ⟨hxm, hxc⟩ := hsub x hx
    have hh : ((AssocMulti.unlinked cb b c.1).table x.1).hashCache = (b.table x.1).hashCache := by
      apply unlinked_hash cb b hxc
      rcases hcase with h | h
      · exact Or.inl h
      · right; rw [h]; simp
    rw [hh] at hd
    rw [unlinked_ptr cb b hpi]
    exact inv.probe x hxm p hp hd
  · intro x _ hpos hle
    omega

theorem BInv.after_heal {cb : Callbacks K E} {b1 : Bucket E} {gs1 gsu : List (Group E)}
    (s1 : Shape cb b1 gs1) (p1 : ProbeOk b1 gs1) (hcont : content gs1 = content gsu)
    (used coll : Nat) (hu : used = (cells gsu).length)
    (hcoll : coll + gsu.length = (cells gsu).length) :
    BInv cb { b1 with nrUsed := used, nrCollisions := coll } gs1 := by
  have h1 : (cells gs1).length = (cells gsu).length :=
    cells_length_of_content (by rw [hcont])
  have h2 : gs1.length = gsu.length := by
    rw [← content_length gs1, hcont, content_length]
  refine ⟨s1.of_table rfl rfl, p1.of_table_eq rfl rfl, ?_, ?_⟩
  · simp only; rw [h1]; exact hu
  · simp only; rw [h1, h2]; exact hcoll

/-- The removal of the only element of its list, or of an element that is not a head. -/
theorem remove_unlinked {cb : Callbacks K E} (hc : Contract cb) {b : Bucket E} {g : Group E}
    {r0 : List (Group E)} (inv : BInv cb b (g :: r0)) {c : Nat × E}
    {pre post : List (Nat × E)} (hsplit : g.cells = pre ++ c :: post)
    (hcase : (b.table c.1).prev ≠ none ∨ (b.table c.1).next = none)
    (used coll : Nat) (hu : used + 1 = b.nrUsed)
    (hcoll : coll + (groupOfList (pre ++ post)).length = b.nrCollisions) :
    ∃ b1 gs1, healHole cb (unlinked cb b c.1) c.1 = some b1 ∧
      b1.nrAlloc = b.nrAlloc ∧ b1.nrUsed = b.nrUsed ∧ b1.nrCollisions = b.nrCollisions ∧
      content gs1 = content (groupOfList (pre ++ post) ++ r0) ∧
      BInv cb { b1 with nrUsed := used, nrCollisions := coll } gs1 := by
  have s := inv.shape
  obtain ⟨b1, gs1, h1, s1, p1, hcont, hal, hus, hco⟩ := healHole_spec hc (s.unlink hc hsplit)
    (HoleOk.unlinked inv hsplit hcase)
  refine ⟨b1, gs1, h1, hal, hus, hco, hcont, BInv.after_heal s1 p1 hcont used coll ?_ ?_⟩
  · have := inv.used
    have hlen : (cells (g :: r0)).length = (pre ++ c :: post).length + (cells r0).length := by
      rw [← hsplit]; simp [cells_cons, Group.cells]; omega
    rw [cells_groupOfList]
    simp only [List.length_append, List.length_cons] at hlen ⊢
    omega
  · have h3 := inv.coll
    have hlen : (cells (g :: r0)).length = (pre ++ c :: post).length + (cells r0).length := by
      rw [← hsplit]; simp [cells_cons, Group.cells]; omega
    rw [cells_groupOfList]
    simp only [List.length_append, List.length_cons] at hlen h3 hcoll ⊢
    omega

/-- The removal of a head that has a successor: the successor moves into the slot of the
head and the hole that it leaves is healed. -/
theorem remove_promote {cb : Callbacks K E} (hc : Contract cb) {b : Bucket E} {g : Group E}
    {r0 : List (Group E)} (inv : BInv cb b (g :: r0)) {c d : Nat × E}
    {post : List (Nat × E)} (hsplit : g.cells = c :: d :: post)
    (used coll : Nat) (hu : used + 1 = b.nrUsed) (hcoll : coll + 1 = b.nrCollisions) :
    ∃ b1 gs1, healHole cb (moveEntry (unlinked cb b c.1) d.1 c.1) d.1 = some b1 ∧
      b1.nrAlloc = b.nrAlloc ∧ b1.nrUsed = b.nrUsed ∧ b1.nrCollisions = b.nrCollisions ∧
      content gs1 = content (⟨d, post⟩ :: r0) ∧
      BInv cb { b1 with nrUsed := used, nrCollisions := coll } gs1 := by
  have s := inv.shape
  have hg : g ∈ g :: r0 := List.mem_cons_self _ _
  have hsplit0 : g.cells = [] ++ c :: (d :: post) := hsplit
  have su : Shape cb (unlinked cb b c.1) (⟨d, post⟩ :: r0) := s.unlink hc hsplit0
  have hgh : g.head = c := by
    simp only [Group.cells, List.cons.injEq] at hsplit
    exact hsplit.1
  have hgr : g.rest = d :: post := by
    simp only [Group.cells, List.cons.injEq] at hsplit
    exact hsplit.2
  have hcm : c ∈ cells (g :: r0) := by rw [← hgh]; exact head_mem_cells hg
  have hdm0 : d ∈ cells (g :: r0) := rest_mem_cells hg (by rw [hgr]; simp)
  have hdm : d ∈ cells (⟨d, post⟩ :: r0) := by rw [cells_cons]; simp
  have hfree : ((unlinked cb b c.1).table c.1).ptr = none := by simp [unlinked]
  have hlt : c.1 < (unlinked cb b c.1).nrAlloc := s.lt c hcm
  have sm := su.move hc hdm hlt hfree
  have his : c.1 ∉ slots (⟨d, post⟩ :: r0) := su.not_mem_of_free hfree
  have hij : c.1 ≠ d.1 := fun h => his (mem_slots.2 ⟨d, hdm, h.symm⟩)
  obtain ⟨hnx, hpv⟩ := su.neighbours hdm
  have hT := moveEntry_table (unlinked cb b c.1) d.1 c.1 hij
    (fun p h => ⟨fun e => his (e ▸ (hpv p h).2.1), (hpv p h).2.2⟩)
    (fun q h => ⟨fun e => his (e ▸ (hnx q h).2.1), (hnx q h).2.2.1, (hnx q h).2.2.2⟩)
  obtain ⟨hprev, hnext⟩ := s.links_of_split hg hsplit0
  have hprev0 : (b.table c.1).prev = none := by rw [hprev]; rfl
  have hnext0 : (b.table c.1).next = some d.1 := by rw [hnext]; rfl
  -- the table after the move
  have hMptr : ∀ p, p ≠ d.1 → (p = c.1 ∨ (b.table p).ptr ≠ none) →
      ((moveEntry (unlinked cb b c.1) d.1 c.1).table p).ptr ≠ none := by
    intro p hpd hpu
    rw [hT, if_neg hpd]
    by_cases hpc : p = c.1
    · rw [if_pos hpc, su.ptrs d hdm]; simp
    · rw [if_neg hpc]
      rcases hpu with hpu | hpu
      · exact absurd hpu hpc
      · have : ((unlinked cb b c.1).table p).ptr ≠ none := by
          rw [unlinked_ptr cb b hpc]; exact hpu
        split_ifs <;> simpa using this
  have hMhash : ∀ x ∈ cells (⟨d, post⟩ :: r0),
      ((moveEntry (unlinked cb b c.1) d.1 c.1).table (if x.1 = d.1 then c.1 else x.1)).hashCache =
        if x.1 = d.1 then cb.hashElement c.2 true else (b.table x.1).hashCache := by
    intro x hx
    by_cases hxd : x.1 = d.1
    · rw [if_pos hxd, if_pos hxd, hT, if_neg hij, if_pos rfl]
      have := su.headHash ⟨d, post⟩ (List.mem_cons_self _ _)
      simp only at this
      rw [this]
      have hk := s.sameKey g hg d (by rw [hgr]; simp)
      rw [hgh] at hk
      exact (hc.hash_key _ _ hk).symm
    · have hxc : x.1 ≠ c.1 := fun e => his (mem_slots.2 ⟨x, hx, e⟩)
      rw [if_neg hxd, if_neg hxd, hT, if_neg hxd, if_neg hxc]
      have : ((unlinked cb b c.1).table x.1).hashCache = (b.table x.1).hashCache := by
        apply unlinked_hash cb b hxc
        right
        rw [hnext0]
        intro h
        exact hxd (Option.some.inj h).symm
      split_ifs <;> simpa using this
  have hhole : HoleOk (moveEntry (unlinked cb b c.1) d.1 c.1)
      ((⟨d, post⟩ :: r0).map (Group.map fun x => (if x.1 = d.1 then c.1 else x.1, x.2)))
      d.1 0 := by
    refine ⟨by rw [moveEntry_nrAlloc]; exact s.lt d hdm0, by rw [hT, if_pos rfl], ?_, ?_⟩
    · intro x hx p hp hd hpd
      rw [cells_map] at hx
      obtain ⟨x0, hx0, rfl⟩ := List.mem_map.1 hx
      rw [moveEntry_nrAlloc] at hp hd
      simp only at hd
      rw [hMhash x0 hx0] at hd
      have hp2 : p < b.nrAlloc := hp
      apply hMptr p hpd
      by_cases hpc : p = c.1
      · exact Or.inl hpc
      · right
        by_cases hxd : x0.1 = d.1
        · rw [if_pos hxd, if_pos hxd] at hd
          have hh := s.headHash g hg
          rw [hgh] at hh
          rw [← hh] at hd
          exact inv.probe c hcm p hp2 hd
        · rw [if_neg hxd, if_neg hxd] at hd
          have hx1 : x0 ∈ cells (g :: r0) := by
            rw [cells_cons] at hx0 ⊢
            simp only [List.mem_cons, List.mem_append] at hx0 ⊢
            rcases hx0 with h | h | h
            · exact absurd (by rw [h]) hxd
            · right; left; rw [hgr]; simp [h]
            · right; right; exact h
          exact inv.probe x0 hx1 p hp2 hd
    · intro x _ hpos hle
      omega
  obtain ⟨b1, gs1, h1, s1, p1, hcont, hal, hus, hco⟩ := healHole_spec hc sm hhole
  refine ⟨b1, gs1, h1, hal.trans (moveEntry_nrAlloc _ _ _), hus.trans (moveEntry_nrUsed _ _ _),
    hco.trans (moveEntry_nrCollisions _ _ _), by rw [hcont, content_map_fst],
    BInv.after_heal s1 p1 hcont used coll ?_ ?_⟩
  · have := inv.used
    rw [cells_map, List.length_map]
    rw [cells_cons, hgr] at this
    simp only [cells_cons, List.length_cons, List.length_append] at this ⊢
    omega
  · have h3 := inv.coll
    rw [cells_map, List.length_map, List.length_map]
    rw [cells_cons, hgr] at h3
    simp only [cells_cons, List.length_cons, List.length_append] at h3 ⊢
    omega

/-- The state of the table in source `remove` before the healing, when a successor is
promoted to head. -/
theorem promote_state {cb : Callbacks K E} {b : Bucket E} {g : Group E}
    {r0 : List (Group E)} (s : Shape cb b (g :: r0)) {c d : Nat × E}
    {post : List (Nat × E)} (hsplit : g.cells = c :: d :: post) :
    promote cb b c.1 d.1 = some (moveEntry (unlinked cb b c.1) d.1 c.1) := by
  generalize hb2 : moveEntry (b.set d.1 { b.table d.1 with prev := none }) d.1 c.1 = b2
  have hg : g ∈ g :: r0 := List.mem_cons_self _ _
  have hsplit0 : g.cells = [] ++ c :: (d :: post) := hsplit
  have hsplit1 : g.cells = [c] ++ d :: post := hsplit
  obtain ⟨hprev, hnext⟩ := s.links_of_split hg hsplit0
  have hprev0 : (b.table c.1).prev = none := by rw [hprev]; rfl
  have hnext0 : (b.table c.1).next = some d.1 := by rw [hnext]; rfl
  have hgr : g.rest = d :: post := by
    simp only [Group.cells, List.cons.injEq] at hsplit
    exact hsplit.2
  have hdm : d ∈ cells (g :: r0) := rest_mem_cells hg (by rw [hgr]; simp)
  have hnd := s.group_nodup hg
  rw [hsplit] at hnd
  simp only [List.map_cons, List.nodup_cons, List.mem_cons, List.mem_map, not_or] at hnd
  have hcd : c.1 ≠ d.1 := hnd.1.1
  obtain ⟨hnx, _⟩ := s.neighbours hdm
  have hnz : ∀ z, (b.table d.1).next = some z → z ≠ c.1 ∧ z ≠ d.1 := by
    intro z hz
    refine ⟨?_, (hnx z hz).2.2.1⟩
    intro e
    have := (hnx z hz).1
    rw [e, hprev0] at this
    cases this
  have hptr : (b.table d.1).ptr = some d.2 := s.ptrs d hdm
  have hT2 : ∀ x, b2.table x =
      if x = d.1 then ⟨0, none, none, none⟩
      else if x = c.1 then { b.table d.1 with prev := none }
      else if (b.table d.1).next = some x then { b.table x with prev := some c.1 }
      else b.table x := by
    intro x
    have := moveEntry_table (b.set d.1 { b.table d.1 with prev := none }) d.1 c.1 hcd
      (by simp) (by
        intro q hq
        simp only [Bucket.set_table, if_true] at hq
        simp only [Bucket.set_table, if_true]
        exact ⟨(hnz q hq).1, (hnz q hq).2, by simp⟩) x
    rw [← hb2, this]
    simp only [Bucket.set_table, if_true]
    by_cases h1 : x = d.1
    · simp [h1]
    · by_cases h2 : x = c.1
      · simp [h1, h2]
      · simp [h1, h2]
  have hU : ∀ x, (moveEntry (unlinked cb b c.1) d.1 c.1).table x =
      if x = d.1 then ⟨0, none, none, none⟩
      else if x = c.1 then
        { b.table d.1 with prev := none, hashCache := cb.hashElement d.2 true }
      else if (b.table d.1).next = some x then { b.table x with prev := some c.1 }
      else b.table x := by
    intro x
    have hUd : (unlinked cb b c.1).table d.1 =
        { b.table d.1 with prev := none, hashCache := cb.hashElement d.2 true } := by
      simp [unlinked, Ne.symm hcd, hnext0, hprev0, hptr]
    have hUx : ∀ y, y ≠ c.1 → y ≠ d.1 → (unlinked cb b c.1).table y = b.table y := by
      intro y h1 h2
      have : ¬ d.1 = y := fun h => h2 h.symm
      simp [unlinked, h1, hnext0, hprev0, this]
    have := moveEntry_table (unlinked cb b c.1) d.1 c.1 hcd
      (by rw [hUd]; simp) (by
        intro q hq
        rw [hUd] at hq ⊢
        exact ⟨(hnz q hq).1, (hnz q hq).2, by simp⟩) x
    rw [this, hUd]
    by_cases h1 : x = d.1
    · simp [h1]
    · by_cases h2 : x = c.1
      · simp [h1, h2]
      · simp only [if_neg h1, if_neg h2, hUx x h2 h1]
        simp
  have hptr2 : (b2.table c.1).ptr = some d.2 := by
    rw [hT2, if_neg hcd, if_pos rfl]; exact hptr
  unfold promote
  simp only [hb2, hptr2]
  congr 1
  apply Bucket.ext_table
  · rw [Bucket.set_nrAlloc, ← hb2, moveEntry_nrAlloc, moveEntry_nrAlloc]; rfl
  · rw [Bucket.set_nrUsed, ← hb2, moveEntry_nrUsed, moveEntry_nrUsed]; rfl
  · rw [Bucket.set_nrCollisions, ← hb2, moveEntry_nrCollisions, moveEntry_nrCollisions]; rfl
  · intro x
    rw [hU]
    simp only [Bucket.set_table, hT2]
    by_cases h1 : x = c.1
    · simp [h1, hcd, hptr]
    · simp [h1]

theorem unlink_state_sole (cb : Callbacks K E) (b : Bucket E) (i : Nat)
    (h1 : (b.table i).prev = none) (h2 : (b.table i).next = none) :
    invalidateEntry b i = unlinked cb b i := by
  apply Bucket.ext_table
  · rfl
  · rfl
  · rfl
  · intro x
    simp only [invalidateEntry, Bucket.set_table, unlinked, h1, h2]
    split_ifs <;> simp_all

theorem unlink_state_member (cb : Callbacks K E) (b : Bucket E) (i pr : Nat)
    (h1 : (b.table i).prev = some pr) (hpi : pr ≠ i)
    (h2 : ∀ q, (b.table i).next = some q → q ≠ i ∧ q ≠ pr) :
    spliceOut b i pr = unlinked cb b i := by
  have hip : ¬ i = pr := fun h => hpi h.symm
  apply Bucket.ext_table
  · simp only [spliceOut, invalidateEntry, Bucket.set_nrAlloc]; split <;> rfl
  · simp only [spliceOut, invalidateEntry, Bucket.set_nrUsed]; split <;> rfl
  · simp only [spliceOut, invalidateEntry, Bucket.set_nrCollisions]; split <;> rfl
  · intro x
    simp only [spliceOut, invalidateEntry, Bucket.set_table, if_neg hip, unlinked, h1]
    cases hn : (b.table i).next with
    | none =>
      by_cases hx : x = i
      · simp [hx]
      · by_cases hxp : x = pr
        · simp [hx, hxp]
        · have : ¬ pr = x := fun h => hxp h.symm
          simp [hx, hxp, this]
    | some q =>
      obtain ⟨hq1, hq2⟩ := h2 q hn
      by_cases hx : x = i
      · simp [hx]
      · by_cases hxq : x = q
        · subst hxq; simp [hx, hq2]
        · have h3 : ¬ q = x := fun h => hxq h.symm
          have hpq : ¬ pr = q := fun h => hq2 h.symm
          by_cases hxp : x = pr
          · subst hxp; simp [hx, hq2, hpq]
          · have : ¬ pr = x := fun h => hxp h.symm
            simp [hx, hxq, hxp, h3, this]

/-- The removal of a stored element: the element is taken out of its list, the other lists
are kept. -/
theorem removeBucket_present {cb : Callbacks K E} (hc : Contract cb) {b : Bucket E}
    {gs : List (Group E)} (inv : BInv cb b gs) {e : E} {c : Nat × E} (hm : c ∈ cells gs)
    (heq : cb.isEqualElementElement e c.2 = true) :
    ∃ b1 gs1 g r0 pre post, removeBucket cb b e = some (b1, some c.2) ∧ BInv cb b1 gs1 ∧
      b1.nrAlloc = b.nrAlloc ∧ gs.Perm (g :: r0) ∧ g.cells = pre ++ c :: post ∧
      content gs1 = content (groupOfList (pre ++ post) ++ r0) := by
  have s := inv.shape
  obtain ⟨g, hg, pre, post, hsplit, hprev, hnext⟩ := s.split hm
  obtain ⟨r0, hr0⟩ := exists_perm_cons hg
  have inv2 := inv.of_perm hr0
  have s2 := inv2.shape
  have hm2 : c ∈ cells (g :: r0) := (cells_perm hr0).mem_iff.1 hm
  have hused : 1 ≤ b.nrUsed := by
    have := inv.used
    have h2 := List.length_pos_of_mem hm
    omega
  unfold removeBucket
  simp only [lookupByElementBucket_present hc inv hm heq, Option.some_bind, s.ptrs c hm]
  cases pre with
  | nil =>
    have hp0 : (b.table c.1).prev = none := by rw [hprev]; rfl
    simp only [hp0]
    cases post with
    | nil =>
      have hn0 : (b.table c.1).next = none := by rw [hnext]; rfl
      simp only [hn0]
      rw [unlink_state_sole cb b c.1 hp0 hn0]
      obtain ⟨b1, gs1, h1, hal, hus, hco, hcont, hinv⟩ := remove_unlinked hc inv2 hsplit
        (Or.inr hn0) (b.nrUsed - 1) (b.nrCollisions) (by omega)
        (by simp [groupOfList])
      refine ⟨{ b1 with nrUsed := b1.nrUsed - 1 }, gs1, g, r0, [], [], by rw [h1]; rfl, ?_,
        hal, hr0, hsplit, hcont⟩
      have : ({ b1 with nrUsed := b1.nrUsed - 1 } : Bucket E) =
          { b1 with nrUsed := b.nrUsed - 1, nrCollisions := b.nrCollisions } := by
        rw [hus, hco]
      rw [this]
      exact hinv
    | cons d post1 =>
      have hn0 : (b.table c.1).next = some d.1 := by rw [hnext]; rfl
      simp only [hn0]
      have hsplit1 : g.cells = c :: d :: post1 := hsplit
      rw [@promote_state K E cb _ _ _ s2 _ _ _ hsplit1]
      simp only [Option.some_bind]
      have hcoll1 : 1 ≤ b.nrCollisions := by
        have h3 := inv2.coll
        have h4 := length_le_cells r0
        have hgr : g.rest = d :: post1 := by
          simp only [Group.cells, List.cons.injEq] at hsplit1
          exact hsplit1.2
        rw [cells_cons, hgr] at h3
        simp only [List.length_cons, List.length_append] at h3
        omega
      obtain ⟨b1, gs1, h1, hal, hus, hco, hcont, hinv⟩ := remove_promote hc inv2 hsplit1
        (b.nrUsed - 1) (b.nrCollisions - 1) (by omega) (by omega)
      refine ⟨{ b1 with nrCollisions := b1.nrCollisions - 1, nrUsed := b1.nrUsed - 1 }, gs1,
        g, r0, [], d :: post1, by rw [h1]; rfl, ?_, hal, hr0, hsplit, hcont⟩
      have : ({ b1 with nrCollisions := b1.nrCollisions - 1, nrUsed := b1.nrUsed - 1 } :
          Bucket E) = { b1 with nrUsed := b.nrUsed - 1, nrCollisions := b.nrCollisions - 1 } := by
        rw [hus, hco]
      rw [this]
      exact hinv
  | cons h0 pre1 =>
    obtain ⟨a, ha⟩ : ∃ a, (h0 :: pre1).getLast? = some a := by
      cases h : (h0 :: pre1).getLast? with
      | none => simp at h
      | some a => exact ⟨a, rfl⟩
    have hp0 : (b.table c.1).prev = some a.1 := by rw [hprev, ha]; rfl
    simp only [hp0]
    obtain ⟨hnx, hpv⟩ := s.neighbours hm
    have hpi : a.1 ≠ c.1 := (hpv a.1 hp0).2.2
    rw [unlink_state_member cb b c.1 a.1 hp0 hpi (by
      intro q hq
      refine ⟨(hnx q hq).2.2.1, ?_⟩
      intro e1
      apply (hnx q hq).2.2.2
      rw [hp0, e1])]
    have hcoll1 : 1 ≤ b.nrCollisions := by
      have h3 := inv2.coll
      have h4 := length_le_cells r0
      have hlen : (cells (g :: r0)).length =
          ((h0 :: pre1) ++ c :: post).length + (cells r0).length := by
        rw [← hsplit]; simp [cells_cons, Group.cells]; omega
      simp only [List.length_cons, List.length_append] at h3 hlen
      omega
    obtain ⟨b1, gs1, h1, hal, hus, hco, hcont, hinv⟩ := remove_unlinked hc inv2 hsplit
      (Or.inl (by rw [hp0]; simp)) (b.nrUsed - 1) (b.nrCollisions - 1)
      (by omega) (by simp [groupOfList]; omega)
    refine ⟨{ b1 with nrCollisions := b1.nrCollisions - 1, nrUsed := b1.nrUsed - 1 }, gs1,
      g, r0, h0 :: pre1, post, by rw [h1]; rfl, ?_, hal, hr0, hsplit, hcont⟩
    have : ({ b1 with nrCollisions := b1.nrCollisions - 1, nrUsed := b1.nrUsed - 1 } :
        Bucket E) = { b1 with nrUsed := b.nrUsed - 1, nrCollisions := b.nrCollisions - 1 } := by
      rw [hus, hco]
    rw [this]
    exact hinv

/-- The removal of an element that is not stored changes nothing, when the bucket has a free
slot. -/
theorem removeBucket_absent {cb : Callbacks K E} (hc : Contract cb) {b : Bucket E}
    {gs : List (Group E)} (inv : BInv cb b gs) {e : E}
    (hfree : ∃ i, i < b.nrAlloc ∧ (b.table i).ptr = none)
    (habs : ∀ c ∈ cells gs, cb.isEqualElementElement e c.2 = false) :
    removeBucket cb b e = some (b, none) := by
  obtain ⟨t, _, h2, h3⟩ := lookupByElementBucket_absent hc inv hfree habs
  unfold removeBucket
  simp only [h2, Option.some_bind, h3]

/-- A removal of an element that is not stored changes nothing, if it returns. -/
theorem removeBucket_absent_sound {cb : Callbacks K E} (hc : Contract cb) {b : Bucket E}
    {gs : List (Group E)} (inv : BInv cb b gs) {e : E}
    (habs : ∀ c ∈ cells gs, cb.isEqualElementElement e c.2 = false)
    {r : Bucket E × Option E} (h : removeBucket cb b e = some r) : r = (b, none) := by
  unfold removeBucket at h
  simp only [Option.bind_eq_some] at h
  obtain ⟨t, ht, h⟩ := h
  obtain ⟨_, h2⟩ := lookupByElementBucket_sound hc inv ht
  rcases h2 with ⟨h3, _⟩ | ⟨c, hm, heq, _⟩
  · rw [h3] at h
    exact (Option.some.inj h).symm
  · rw [habs c hm] at heq; cases heq

/-! ## The observable content of a bucket -/

theorem Shape.head_not_mem {cb : Callbacks K E} {b : Bucket E} {g : Group E}
    {r0 : List (Group E)} (s : Shape cb b (g :: r0)) : g ∉ r0 := by
  intro h
  have hnd := s.nodup
  have hm : g.head.1 ∈ slots r0 := List.mem_map.2 ⟨g.head, head_mem_cells h, rfl⟩
  simp only [slots, cells_cons, List.map_cons, List.map_append, List.nodup_cons,
    List.mem_append, not_or] at hnd hm
  exact hnd.1.2 hm

theorem cells_map_snd (gs : List (Group E)) :
    (cells gs).map Prod.snd = (content gs).flatten := by
  induction gs with
  | nil => rfl
  | cons g gs ih =>
    rw [cells_cons]
    simp only [content, List.map_cons, List.map_append, List.flatten_cons, Group.elems,
      Group.cells] at ih ⊢
    rw [ih]
    rfl

theorem elems_perm_of_content {gs gs1 : List (Group E)}
    (h : (content gs1).Perm (content gs)) :
    ((cells gs1).map Prod.snd).Perm ((cells gs).map Prod.snd) := by
  rw [cells_map_snd, cells_map_snd]
  exact h.flatten

theorem mem_elems_of_content {gs gs1 : List (Group E)}
    (h : (content gs1).Perm (content gs)) {x : E}
    (hx : x ∈ (cells gs1).map Prod.snd) : x ∈ (cells gs).map Prod.snd :=
  (elems_perm_of_content h).mem_iff.1 hx

theorem groupElems_of_content {cb : Callbacks K E} {b : Bucket E} {gs : List (Group E)}
    (s : Shape cb b gs) {keyP : E → Bool} {hk : Nat} (kp : KeyPred cb keyP hk)
    {x : E} {l : List E} (hl : (x :: l) ∈ content gs) (hx : keyP x = true) :
    groupElems keyP gs = x :: l := by
  obtain ⟨g, hg, hge⟩ := List.mem_map.1 hl
  have hh : g.head.2 = x := by
    simp only [Group.elems, Group.cells, List.map_cons, List.cons.injEq] at hge
    exact hge.1
  rw [groupElems_of_mem s kp hg (by rw [hh]; exact hx), hge]

theorem groupElems_nil_of_content {gs : List (Group E)} {keyP : E → Bool}
    (h : ∀ l ∈ content gs, ∀ x ∈ l.head?, keyP x = false) : groupElems keyP gs = [] :=
  groupElems_of_absent fun g hg =>
    h g.elems (List.mem_map_of_mem _ hg) g.head.2 (by simp [Group.elems, Group.cells])

/-- The sequence of a key depends on the lists of the bucket only. -/
theorem groupElems_congr {cb : Callbacks K E} {b b1 : Bucket E} {gs gs1 : List (Group E)}
    (s : Shape cb b gs) (s1 : Shape cb b1 gs1) {keyP : E → Bool} {hk : Nat}
    (kp : KeyPred cb keyP hk) (h : (content gs1).Perm (content gs)) :
    groupElems keyP gs1 = groupElems keyP gs := by
  by_cases hex : ∃ g ∈ gs, keyP g.head.2 = true
  · obtain ⟨g, hg, hkey⟩ := hex
    rw [groupElems_of_mem s kp hg hkey]
    have hm : g.elems ∈ content gs1 := h.mem_iff.2 (List.mem_map_of_mem _ hg)
    exact groupElems_of_content s1 kp (by simpa [Group.elems, Group.cells] using hm) hkey
  · push_neg at hex
    have hex1 : ∀ g ∈ gs, keyP g.head.2 = false := fun g hg => by simpa using hex g hg
    rw [groupElems_of_absent hex1]
    apply groupElems_of_absent
    intro g1 hg1
    obtain ⟨g, hg, he⟩ := mem_of_content h hg1
    rw [← head_of_elems_eq he]
    exact hex1 g hg

/-- The stored elements of a key are the elements of one list. -/
theorem filter_cells {cb : Callbacks K E} {b : Bucket E} {gs : List (Group E)}
    (hc : Contract cb) (s : Shape cb b gs) {keyP : E → Bool} {hk : Nat}
    (kp : KeyPred cb keyP hk) :
    (((cells gs).map Prod.snd).filter keyP).Perm (groupElems keyP gs) := by
  by_cases hex : ∃ g ∈ gs, keyP g.head.2 = true
  · obtain ⟨g, hg, hkey⟩ := hex
    rw [groupElems_of_mem s kp hg hkey]
    obtain ⟨r0, hr0⟩ := exists_perm_cons hg
    have s2 := s.perm hr0
    have h1 := ((cells_perm hr0).map Prod.snd).filter keyP
    refine h1.trans ?_
    have hcells : cells (g :: r0) = g.cells ++ cells r0 := by simp [cells]
    rw [hcells, List.map_append, List.filter_append]
    have hin : (g.cells.map Prod.snd).filter keyP = g.elems := by
      show (g.cells.map Prod.snd).filter keyP = g.cells.map Prod.snd
      apply List.filter_eq_self.2
      intro x hx
      obtain ⟨c, hcm, rfl⟩ := List.mem_map.1 hx
      exact kp.congr _ _ hkey (s.key_of_mem hc hg hcm)
    have hout : ((cells r0).map Prod.snd).filter keyP = [] := by
      rw [List.filter_eq_nil_iff]
      intro x hx hkx
      obtain ⟨c, hcm, rfl⟩ := List.mem_map.1 hx
      obtain ⟨g1, hg1, hcg⟩ := mem_cells.1 hcm
      have hg1s : g1 ∈ g :: r0 := List.mem_cons_of_mem _ hg1
      have hk1 : cb.isEqualElementElementByKey g1.head.2 c.2 = true :=
        s2.key_of_mem hc hg1s (by rcases hcg with h | h <;> simp [Group.cells, h])
      have hk2 : cb.isEqualElementElementByKey g.head.2 g1.head.2 = true :=
        kp.key _ _ hkey (kp.congr _ _ hkx (hc.key_symm _ _ hk1))
      have := s2.diffKey g (List.mem_cons_self _ _) g1 hg1s hk2
      exact s2.head_not_mem (this ▸ hg1)
    rw [hin, hout, List.append_nil]
  · push_neg at hex
    have hex1 : ∀ g ∈ gs, keyP g.head.2 = false := fun g hg => by simpa using hex g hg
    rw [groupElems_of_absent hex1]
    have : ((cells gs).map Prod.snd).filter keyP = [] := by
      rw [List.filter_eq_nil_iff]
      intro x hx hkx
      obtain ⟨c, hcm, rfl⟩ := List.mem_map.1 hx
      obtain ⟨g1, hg1, hcg⟩ := mem_cells.1 hcm
      have hk1 : cb.isEqualElementElementByKey g1.head.2 c.2 = true :=
        s.key_of_mem hc hg1 (by rcases hcg with h | h <;> simp [Group.cells, h])
      have := kp.congr _ _ hkx (hc.key_symm _ _ hk1)
      rw [hex1 g1 hg1] at this
      cases this
    rw [this]

theorem BInv.free_slot {cb : Callbacks K E} {b : Bucket E} {gs : List (Group E)}
    (inv : BInv cb b gs) (h : b.nrUsed < b.nrAlloc) :
    ∃ i, i < b.nrAlloc ∧ (b.table i).ptr = none :=
  inv.shape.exists_free (by rw [← inv.used]; exact h)

theorem BInv.used_lt_of_free {cb : Callbacks K E} {b : Bucket E} {gs : List (Group E)}
    (inv : BInv cb b gs) (h : ∃ i, i < b.nrAlloc ∧ (b.table i).ptr = none) :
    b.nrUsed < b.nrAlloc := by
  obtain ⟨i, hi, hp⟩ := h
  rw [inv.used]
  have h1 : (i :: slots gs).Subperm (List.range b.nrAlloc) := by
    apply List.subperm_of_subset
    · exact List.nodup_cons.2 ⟨inv.shape.not_mem_of_free hp, inv.shape.nodup⟩
    · intro j hj
      rcases List.mem_cons.1 hj with rfl | hj
      · exact List.mem_range.2 hi
      · obtain ⟨c, hcm, rfl⟩ := List.mem_map.1 hj
        exact List.mem_range.2 (inv.shape.lt c hcm)
  have := h1.length_le
  simp only [List.length_cons, slots, List.length_map, List.length_range] at this
  omega

/-! ## The check of the load and the insertion into a bucket -/

/-- The check of the load returns a bucket with the same lists that has a free slot and that
passes a further check unchanged. -/
theorem growBucket_spec {cb : Callbacks K E} {nearPrime : Nat → Nat} (hc : Contract cb)
    (hnp : ∀ n, n ≤ nearPrime n) {b : Bucket E} {gs : List (Group E)} (inv : BInv cb b gs) :
    ∃ b0 gs0, growBucket cb nearPrime b = some b0 ∧ BInv cb b0 gs0 ∧
      (content gs0).Perm (content gs) ∧ b0.nrUsed < b0.nrAlloc ∧ b0.nrUsed = b.nrUsed ∧
      growBucket cb nearPrime b0 = some b0 ∧ (¬ 2 * b.nrAlloc < 3 * b.nrUsed → b0 = b) ∧
      3 * b0.nrUsed ≤ 2 * b0.nrAlloc ∧
      (2 * b.nrAlloc < 3 * b.nrUsed → b0.nrAlloc = nearPrime (2 * b.nrAlloc + 1)) := by
  have hle := inv.shape.length_le
  have hu := inv.used
  have hpos := inv.shape.cap_pos
  by_cases hg : 2 * b.nrAlloc < 3 * b.nrUsed
  · have hn := hnp (2 * b.nrAlloc + 1)
    obtain ⟨b0, gs0, h1, inv0, hal, hcont⟩ :=
      resizeInternal_spec hc inv nearPrime (2 * b.nrAlloc + 1) (by omega)
    have hu0 : b0.nrUsed = b.nrUsed := by
      rw [inv0.used, hu, cells_length_of_content hcont]
    refine ⟨b0, gs0, ?_, inv0, hcont, by omega, hu0, ?_, fun h => absurd hg h, by omega,
      fun _ => hal⟩
    · unfold growBucket
      rw [if_pos hg, h1]
    · unfold growBucket
      rw [if_neg (by omega)]
  · refine ⟨b, gs, ?_, inv, List.Perm.refl _, by omega, rfl, ?_, fun _ => rfl, by omega,
      fun h => absurd h hg⟩
    · unfold growBucket
      rw [if_neg hg]
    · unfold growBucket
      rw [if_neg hg]

/-- The insertion into a bucket: the check of the load, then the insertion proper. -/
theorem insertBucket_spec {cb : Callbacks K E} {nearPrime : Nat → Nat} (hc : Contract cb)
    (hnp : ∀ n, n ≤ nearPrime n) {b : Bucket E} {gs : List (Group E)} (inv : BInv cb b gs)
    (e : E) (ow chk : Bool)
    (hchk : chk = true ∨ ∀ x ∈ b.elements, cb.isEqualElementElement e x = false) :
    ∃ b0 gs0 b1 r gs1, growBucket cb nearPrime b = some b0 ∧ BInv cb b0 gs0 ∧
      (content gs0).Perm (content gs) ∧ b0.nrUsed < b0.nrAlloc ∧ b0.nrUsed = b.nrUsed ∧
      growBucket cb nearPrime b0 = some b0 ∧ 3 * b0.nrUsed ≤ 2 * b0.nrAlloc ∧
      insertBucket cb nearPrime b e ow chk = some (b1, r) ∧
      insertCore cb b0 e ow chk = some (b1, r) ∧ BInv cb b1 gs1 ∧
      b1.nrAlloc = b0.nrAlloc ∧ InsertRel cb e ow gs0 gs1 r ∧
      (ow = false → r ≠ none → b1 = b0) ∧
      (∀ c ∈ cells gs0, cb.isEqualElementElement e c.2 = true →
        b1 = if ow then b0.set c.1 { b0.table c.1 with ptr := some e } else b0) := by
  obtain ⟨b0, gs0, h1, inv0, hcont, hfree, hu0, hidem, _, hload, _⟩ :=
    growBucket_spec hc hnp inv
  have hchk0 : chk = true ∨ ∀ c ∈ cells gs0, cb.isEqualElementElement e c.2 = false := by
    rcases hchk with h | h
    · exact Or.inl h
    · refine Or.inr fun c hcm => h c.2 ?_
      have : c.2 ∈ (cells gs).map Prod.snd :=
        mem_elems_of_content hcont (List.mem_map_of_mem _ hcm)
      exact (elements_perm inv.shape).mem_iff.2 this
  obtain ⟨b1, r, gs1, h2, inv1, hal, hrel, hsame, hstate⟩ :=
    insertCore_spec hc inv0 (by rw [← inv0.used]; exact hfree) e ow chk hchk0
  refine ⟨b0, gs0, b1, r, gs1, h1, inv0, hcont, hfree, hu0, hidem, hload, ?_, h2, inv1, hal,
    hrel,
    hsame, hstate⟩
  unfold insertBucket
  rw [h1]
  exact h2

/-! ## The effect of an insertion on the observable content -/

theorem InsertRel.mem_elems {cb : Callbacks K E} {e : E} {ow : Bool} {gs gs1 : List (Group E)}
    {r : Option E} (h : InsertRel cb e ow gs gs1 r) {x : E}
    (hx : x ∈ (cells gs1).map Prod.snd) : x = e ∨ x ∈ (cells gs).map Prod.snd := by
  rcases h with ⟨_, _, h | h⟩ | ⟨c, hm, heq, _, h⟩
  · obtain ⟨_, t, rfl⟩ := h
    rw [cells_cons] at hx
    simp only [List.nil_append, List.map_cons, List.mem_cons] at hx
    exact hx
  · obtain ⟨g, r0, j, hr0, _, rfl⟩ := h
    have hp := (cells_perm hr0).map Prod.snd
    rw [cells_cons] at hx hp
    simp only [List.map_cons, List.map_append, List.mem_cons, List.mem_append,
      List.cons_append] at hx
    rcases hx with hx | hx | hx | hx
    · exact Or.inr (hp.mem_iff.2 (by simp [hx]))
    · exact Or.inl hx
    · exact Or.inr (hp.mem_iff.2 (by simp [hx]))
    · exact Or.inr (hp.mem_iff.2 (by simp [hx]))
  · cases ow
    · simp only [Bool.false_eq_true, if_false] at h
      subst h
      exact Or.inr hx
    · simp only [if_true] at h
      subst h
      rw [cells_map, List.map_map] at hx
      obtain ⟨c1, hm1, rfl⟩ := List.mem_map.1 hx
      simp only [Function.comp_apply]
      by_cases hh : c1.1 = c.1
      · exact Or.inl (by rw [if_pos hh])
      · exact Or.inr (by rw [if_neg hh]; exact List.mem_map_of_mem _ hm1)

theorem InsertRel.length {cb : Callbacks K E} {e : E} {ow : Bool} {gs gs1 : List (Group E)}
    {r : Option E} (h : InsertRel cb e ow gs gs1 r) :
    (cells gs1).length = (cells gs).length + if r.isNone then 1 else 0 := by
  rcases h with ⟨_, hr, h | h⟩ | ⟨c, hm, heq, hr, h⟩
  · obtain ⟨_, t, rfl⟩ := h
    subst hr
    rw [cells_cons]
    simp
  · obtain ⟨g, r0, j, hr0, _, rfl⟩ := h
    have hp := (cells_perm hr0).length_eq
    subst hr
    rw [cells_cons] at hp ⊢
    rw [hp]
    simp only [List.length_cons, List.length_append, Option.isNone_none, if_true]
    omega
  · subst hr
    simp only [Option.isNone_some, Bool.false_eq_true, if_false, Nat.add_zero]
    cases ow
    · simp only [Bool.false_eq_true, if_false] at h
      rw [h]
    · simp only [if_true] at h
      rw [h, cells_map, List.length_map]

theorem InsertRel.result_none {cb : Callbacks K E} {e : E} {ow : Bool}
    {gs gs1 : List (Group E)} {r : Option E} (h : InsertRel cb e ow gs gs1 r) :
    r = none ↔ ∀ c ∈ cells gs, cb.isEqualElementElement e c.2 = false := by
  rcases h with ⟨habs, hr, _⟩ | ⟨c, hm, heq, hr, _⟩
  · exact ⟨fun _ => habs, fun _ => hr⟩
  · constructor
    · intro h0; rw [hr] at h0; cases h0
    · intro h0; rw [h0 c hm] at heq; cases heq

theorem InsertRel.result_some {cb : Callbacks K E} {b : Bucket E} {e : E} {ow : Bool}
    {gs gs1 : List (Group E)} {r : Option E} (hc : Contract cb) (s : Shape cb b gs)
    (h : InsertRel cb e ow gs gs1 r) {c : Nat × E} (hm : c ∈ cells gs)
    (heq : cb.isEqualElementElement e c.2 = true) :
    r = some c.2 ∧ gs1 = if ow then
        gs.map (Group.map fun c1 => (c1.1, if c1.1 = c.1 then e else c1.2))
      else gs := by
  rcases h with ⟨habs, _, _⟩ | ⟨c1, hm1, heq1, hr, h⟩
  · rw [habs c hm] at heq; cases heq
  · have := s.eq_of_equal hc hm hm1 heq heq1
    subst this
    exact ⟨hr, h⟩

/-- After an insertion an element equal to the inserted one is stored: the inserted one itself
if it was new or has overwritten the stored one. -/
theorem InsertRel.mem_after {cb : Callbacks K E} {e : E} {ow : Bool}
    {gs gs1 : List (Group E)} {r : Option E} (hc : Contract cb)
    (h : InsertRel cb e ow gs gs1 r) :
    ∃ c1 ∈ cells gs1, cb.isEqualElementElement e c1.2 = true ∧
      (r = none ∨ ow = true → c1.2 = e) := by
  rcases h with ⟨_, hr, h | h⟩ | ⟨c, hm, heq, hr, h⟩
  · obtain ⟨_, t, rfl⟩ := h
    exact ⟨(t, e), by simp [cells_cons], hc.eq_refl e, fun _ => rfl⟩
  · obtain ⟨g, r0, j, hr0, _, rfl⟩ := h
    exact ⟨(j, e), by simp [cells_cons], hc.eq_refl e, fun _ => rfl⟩
  · cases ow
    · simp only [Bool.false_eq_true, if_false] at h
      subst h
      refine ⟨c, hm, heq, ?_⟩
      rintro (h0 | h0)
      · rw [hr] at h0; cases h0
      · cases h0
    · simp only [if_true] at h
      subst h
      refine ⟨(c.1, e), ?_, hc.eq_refl e, fun _ => rfl⟩
      rw [cells_map]
      exact List.mem_map.2 ⟨c, hm, by simp⟩

/-- A new element becomes the second member of the sequence of its key, or the only member
if the key had no sequence. -/
theorem InsertRel.seq_new {cb : Callbacks K E} {b b1 : Bucket E} {e : E} {ow : Bool}
    {gs gs1 : List (Group E)} {r : Option E} (hc : Contract cb) (s : Shape cb b gs)
    (s1 : Shape cb b1 gs1) (h : InsertRel cb e ow gs gs1 r)
    (habs : ∀ c ∈ cells gs, cb.isEqualElementElement e c.2 = false)
    {keyP : E → Bool} {hk : Nat} (kp : KeyPred cb keyP hk) (hke : keyP e = true) :
    groupElems keyP gs1 = spliceSecond e (groupElems keyP gs) := by
  rcases h with ⟨_, hr, h | h⟩ | ⟨c, hm, heq, hr, h⟩
  · obtain ⟨hnk, t, rfl⟩ := h
    have h0 : groupElems keyP gs = [] := by
      apply groupElems_of_absent
      intro g hg
      by_contra hx
      have hx : keyP g.head.2 = true := by simpa using hx
      have := kp.key _ _ hke hx
      rw [hnk g hg] at this
      cases this
    rw [h0, groupElems_of_mem s1 kp (List.mem_cons_self _ _) hke]
    rfl
  · obtain ⟨g, r0, j, hr0, hkey, rfl⟩ := h
    have hg : g ∈ gs := hr0.mem_iff.2 (List.mem_cons_self _ _)
    have hkg : keyP g.head.2 = true := kp.congr _ _ hke (hc.key_symm _ _ hkey)
    rw [groupElems_of_mem s kp hg hkg, groupElems_of_mem s1 kp (List.mem_cons_self _ _) hkg]
    rfl
  · rw [habs c hm] at heq; cases heq

/-- The replacement of a stored element by an equal one replaces it in place in the sequence
of its key. -/
theorem groupElems_overwrite {cb : Callbacks K E} {b b1 : Bucket E} {e : E}
    {gs : List (Group E)} {c : Nat × E} (hc : Contract cb) (s : Shape cb b gs)
    (hm : c ∈ cells gs) (heq : cb.isEqualElementElement e c.2 = true)
    (s1 : Shape cb b1 (gs.map (Group.map fun c1 => (c1.1, if c1.1 = c.1 then e else c1.2))))
    {keyP : E → Bool} {hk : Nat} (kp : KeyPred cb keyP hk) :
    groupElems keyP (gs.map (Group.map fun c1 => (c1.1, if c1.1 = c.1 then e else c1.2))) =
      (groupElems keyP gs).map fun x => if cb.isEqualElementElement e x then e else x := by
  have hrepl : ∀ c1 ∈ cells gs,
      (if c1.1 = c.1 then e else c1.2) = if cb.isEqualElementElement e c1.2 then e else c1.2 := by
    intro c1 hm1
    by_cases hh : c1.1 = c.1
    · have := s.slot_inj hm1 hm hh
      subst this
      rw [if_pos hh, if_pos heq]
    · rw [if_neg hh]
      by_cases h2 : cb.isEqualElementElement e c1.2 = true
      · exact absurd (congrArg Prod.fst (s.eq_of_equal hc hm1 hm h2 heq)) hh
      · rw [if_neg h2]
  have hkeep : ∀ x, keyP (if cb.isEqualElementElement e x then e else x) = keyP x := by
    intro x
    by_cases h2 : cb.isEqualElementElement e x = true
    · rw [if_pos h2]
      have hk1 := hc.eq_key _ _ h2
      cases hx : keyP x
      · by_contra hne
        have hne : keyP e = true := by simpa using hne
        have := kp.congr _ _ hne hk1
        rw [hx] at this; cases this
      · exact kp.congr _ _ hx (hc.key_symm _ _ hk1)
    · rw [if_neg h2]
  by_cases hex : ∃ g ∈ gs, keyP g.head.2 = true
  · obtain ⟨g, hg, hkey⟩ := hex
    rw [groupElems_of_mem s kp hg hkey]
    have hg1 : g.map (fun c1 => (c1.1, if c1.1 = c.1 then e else c1.2)) ∈
        gs.map (Group.map fun c1 => (c1.1, if c1.1 = c.1 then e else c1.2)) :=
      List.mem_map_of_mem _ hg
    rw [groupElems_of_mem s1 kp hg1 (by
      show keyP (if g.head.1 = c.1 then e else g.head.2) = true
      rw [hrepl _ (head_mem_cells hg), hkeep]; exact hkey)]
    show ((g.map _).cells.map Prod.snd) = (g.cells.map Prod.snd).map _
    rw [Group.map_cells, List.map_map, List.map_map]
    apply List.map_congr_left
    intro c1 hm1
    exact hrepl c1 (mem_cells_of_mem hg hm1)
  · push_neg at hex
    have hex1 : ∀ g ∈ gs, keyP g.head.2 = false := fun g hg => by simpa using hex g hg
    rw [groupElems_of_absent hex1, List.map_nil]
    apply groupElems_of_absent
    intro g1 hg1
    obtain ⟨g, hg, rfl⟩ := List.mem_map.1 hg1
    show keyP (if g.head.1 = c.1 then e else g.head.2) = false
    rw [hrepl _ (head_mem_cells hg), hkeep]
    exact hex1 g hg

/-! ## The effect of a removal on the observable content -/

/-- The removal of a stored element: it is returned, one slot becomes free, the other stored
elements stay, and the sequence of its key loses the element and keeps its order. -/
theorem removeBucket_obs {cb : Callbacks K E} (hc : Contract cb) {b : Bucket E}
    {gs : List (Group E)} (inv : BInv cb b gs) {e : E} {c : Nat × E} (hm : c ∈ cells gs)
    (heq : cb.isEqualElementElement e c.2 = true) :
    ∃ b1 gs1 pre post, removeBucket cb b e = some (b1, some c.2) ∧ BInv cb b1 gs1 ∧
      b1.nrAlloc = b.nrAlloc ∧ b1.nrUsed + 1 = b.nrUsed ∧
      (∀ x ∈ (cells gs1).map Prod.snd,
        x ∈ (cells gs).map Prod.snd ∧ cb.isEqualElementElement e x = false) ∧
      (∀ (keyP : E → Bool) (hk : Nat), KeyPred cb keyP hk → keyP c.2 = true →
        groupElems keyP gs = (pre ++ c :: post).map Prod.snd ∧
        groupElems keyP gs1 = (pre ++ post).map Prod.snd) ∧
      (∀ (keyP : E → Bool) (hk : Nat), KeyPred cb keyP hk → keyP c.2 = false →
        groupElems keyP gs1 = groupElems keyP gs) := by
  obtain ⟨b1, gs1, g, r0, pre, post, h1, inv1, hal, hr0, hsplit, hcont⟩ :=
    removeBucket_present hc inv hm heq
  have s := inv.shape
  have s1 := inv1.shape
  have s2 := s.perm hr0
  have hg2 : g ∈ g :: r0 := List.mem_cons_self _ _
  have hg : g ∈ gs := hr0.mem_iff.2 hg2
  have hcells : cells (g :: r0) = (pre ++ c :: post) ++ cells r0 := by
    rw [← hsplit]; simp [cells]
  have hcells1 : (cells gs1).map Prod.snd = ((pre ++ post) ++ cells r0).map Prod.snd := by
    rw [cells_map_snd, hcont, ← cells_map_snd, cells_groupOfList]
  have hnd := s2.nodup
  unfold slots at hnd
  rw [hcells] at hnd
  have hsub : ∀ c1 ∈ (pre ++ post) ++ cells r0, c1 ∈ cells (g :: r0) ∧ c1 ≠ c := by
    intro c1 h
    constructor
    · rw [hcells]
      simp only [List.mem_append, List.mem_cons] at h ⊢
      tauto
    · rintro rfl
      simp only [List.map_append, List.map_cons, List.append_assoc, List.cons_append] at hnd
      have h3 := List.nodup_append.1 hnd
      have h4 := List.nodup_cons.1 h3.2.1
      simp only [List.mem_append] at h
      rcases h with (h | h) | h
      · exact h3.2.2 (List.mem_map_of_mem _ h) (List.mem_cons_self _ _)
      · exact h4.1 (List.mem_append_left _ (List.mem_map_of_mem _ h))
      · exact h4.1 (List.mem_append_right _ (List.mem_map_of_mem _ h))
  have hlen : (cells gs1).length + 1 = (cells gs).length := by
    have e1 : (cells gs1).length = ((pre ++ post) ++ cells r0).length := by
      have := congrArg List.length hcells1
      simpa using this
    have e2 := (cells_perm hr0).length_eq
    rw [hcells] at e2
    rw [e1, e2]
    simp only [List.length_append, List.length_cons]
    omega
  have hm2 : c ∈ cells (g :: r0) := (cells_perm hr0).mem_iff.1 hm
  refine ⟨b1, gs1, pre, post, h1, inv1, hal, ?_, ?_, ?_, ?_⟩
  · rw [inv1.used, inv.used]; exact hlen
  · intro x hx
    rw [hcells1] at hx
    obtain ⟨c1, hm1, rfl⟩ := List.mem_map.1 hx
    obtain ⟨h2, h3⟩ := hsub c1 hm1
    refine ⟨List.mem_map_of_mem _ ((cells_perm hr0).mem_iff.2 h2), ?_⟩
    by_contra h4
    have h4 : cb.isEqualElementElement e c1.2 = true := by simpa using h4
    exact h3 (s2.eq_of_equal hc h2 hm2 h4 heq)
  · intro keyP hk kp hkc
    have hcg : c ∈ g.cells := by rw [hsplit]; simp
    have hkg : keyP g.head.2 = true :=
      kp.congr _ _ hkc (hc.key_symm _ _ (s.key_of_mem hc hg hcg))
    constructor
    · rw [groupElems_of_mem s kp hg hkg]
      show g.cells.map Prod.snd = _
      rw [hsplit]
    · cases hpp : pre ++ post with
      | nil =>
        rw [List.map_nil]
        apply groupElems_nil_of_content
        rw [hcont, hpp]
        intro l hl x hx
        obtain ⟨g1, hg1, rfl⟩ := List.mem_map.1 hl
        have hx1 : x = g1.head.2 := by
          simpa [Group.elems, Group.cells] using hx.symm
        subst hx1
        by_contra hk1
        have hk1 : keyP g1.head.2 = true := by simpa using hk1
        have hg1' : g1 ∈ r0 := by simpa [groupOfList] using hg1
        have := s2.diffKey g hg2 g1 (List.mem_cons_of_mem _ hg1') (kp.key _ _ hkg hk1)
        exact s2.head_not_mem (this ▸ hg1')
      | cons h tl =>
        have hmem : (h.2 :: tl.map Prod.snd) ∈ content gs1 := by
          rw [hcont, hpp]
          simp [content, groupOfList, Group.elems, Group.cells]
        have hh : h ∈ g.cells := by
          have : h ∈ pre ++ post := by rw [hpp]; exact List.mem_cons_self _ _
          rw [hsplit]
          simp only [List.mem_append, List.mem_cons] at this ⊢
          tauto
        have hkh : keyP h.2 = true := kp.congr _ _ hkg (s.key_of_mem hc hg hh)
        rw [groupElems_of_content s1 kp hmem hkh]
        rfl
  · intro keyP hk kp hkc
    have hcg : c ∈ g.cells := by rw [hsplit]; simp
    have hkg : keyP g.head.2 = false := by
      by_contra hk1
      have hk1 : keyP g.head.2 = true := by simpa using hk1
      have := kp.congr _ _ hk1 (s.key_of_mem hc hg hcg)
      rw [hkc] at this; cases this
    by_cases hex : ∃ g1 ∈ r0, keyP g1.head.2 = true
    · obtain ⟨g1, hg1, hk1⟩ := hex
      rw [groupElems_of_mem s kp (hr0.mem_iff.2 (List.mem_cons_of_mem _ hg1)) hk1]
      have hmem : g1.elems ∈ content gs1 := by
        rw [hcont]
        exact List.mem_map_of_mem _ (List.mem_append_right _ hg1)
      exact groupElems_of_content s1 kp
        (by simpa [Group.elems, Group.cells] using hmem) hk1
    · push_neg at hex
      have hex1 : ∀ g1 ∈ r0, keyP g1.head.2 = false := fun g1 h => by simpa using hex g1 h
      have h0 : groupElems keyP gs = [] := by
        apply groupElems_of_absent
        intro g1 hg1
        rcases List.mem_cons.1 (hr0.mem_iff.1 hg1) with rfl | h
        · exact hkg
        · exact hex1 g1 h
      rw [h0]
      apply groupElems_nil_of_content
      rw [hcont]
      intro l hl x hx
      obtain ⟨g1, hg1, rfl⟩ := List.mem_map.1 hl
      have hx1 : x = g1.head.2 := by
        simpa [Group.elems, Group.cells] using hx.symm
      subst hx1
      rcases List.mem_append.1 hg1 with h | h
      · -- the shortened list
        cases hpp : pre ++ post with
        | nil => rw [hpp] at h; simp [groupOfList] at h
        | cons h0 tl =>
          rw [hpp] at h
          simp only [groupOfList, List.mem_singleton] at h
          subst h
          have hh : h0 ∈ g.cells := by
            have : h0 ∈ pre ++ post := by rw [hpp]; exact List.mem_cons_self _ _
            rw [hsplit]
            simp only [List.mem_append, List.mem_cons] at this ⊢
            tauto
          by_contra hk1
          have hk1 : keyP h0.2 = true := by simpa using hk1
          have := kp.congr _ _ hk1 (hc.key_symm _ _ (s.key_of_mem hc hg hh))
          rw [hkg] at this; cases this
      · exact hex1 g1 h

/-! ## The table: the buckets and their invariant -/

theorem bucketCountLoop_pow (fuel numberBuckets nr : Nat) :
    ∃ k, bucketCountLoop fuel numberBuckets nr = nr * 2 ^ k := by
  induction fuel generalizing numberBuckets nr with
  | zero => exact ⟨0, by simp [bucketCountLoop]⟩
  | succ fuel ih =>
    unfold bucketCountLoop
    split
    · obtain ⟨k, hk⟩ := ih (numberBuckets >>> 1) (nr <<< 1)
      refine ⟨k + 1, ?_⟩
      rw [hk, Nat.shiftLeft_eq, pow_succ]
      ring
    · exact ⟨0, by simp⟩

theorem TInv.index_lt {cb : Callbacks K E} {t : Multi E} (ti : TInv cb t) (h : Nat) :
    h &&& t.bucketsMask < t.buckets.length := by
  obtain ⟨k, h1, h2⟩ := ti.pow
  rw [h1, h2, Nat.and_pow_two_sub_one_eq_mod]
  exact Nat.mod_lt _ (by positivity)

theorem TInv.bucket {cb : Callbacks K E} {t : Multi E} (ti : TInv cb t) (h : Nat) :
    ∃ b, t.buckets[h &&& t.bucketsMask]? = some b :=
  ⟨_, List.getElem?_eq_getElem (ti.index_lt h)⟩

theorem emptyBucket_elements (n : Nat) : (emptyBucket E n).elements = [] := by
  unfold Bucket.elements emptyBucket
  simp

theorem TInv.mk0 (cb : Callbacks K E) (numberBuckets : Nat) {initialSize : Nat}
    (h : 0 < initialSize) : TInv cb (Multi.mk0 numberBuckets initialSize : Multi E) := by
  obtain ⟨k, hk⟩ := bucketCountLoop_pow numberBuckets (numberBuckets >>> 1) 1
  refine ⟨⟨k, ?_, ?_⟩, ?_, ?_, ?_⟩
  · simp [Multi.mk0, hk]
  · simp [Multi.mk0, hk]
  · intro n b hb
    simp only [Multi.mk0, List.getElem?_replicate] at hb
    split at hb
    · cases hb
      exact ⟨[], BInv.fresh cb h⟩
    · cases hb
  · intro n b hb y hy
    simp only [Multi.mk0, List.getElem?_replicate] at hb
    split at hb
    · cases hb
      rw [emptyBucket_elements] at hy
      cases hy
    · cases hb
  · intro n b hb
    simp only [Multi.mk0, List.getElem?_replicate] at hb
    split at hb
    · cases hb
      simp [emptyBucket]
    · cases hb

/-- The invariant of the table is kept when one bucket is replaced by a bucket that satisfies
the invariant of the buckets and whose elements belong to it. -/
theorem TInv.set {cb : Callbacks K E} {t : Multi E} (ti : TInv cb t) (n : Nat)
    {b1 : Bucket E} {gs1 : List (Group E)} (inv1 : BInv cb b1 gs1)
    (hhome : ∀ y ∈ b1.elements, cb.hashElement y true &&& t.bucketsMask = n)
    (hload : 3 * b1.nrUsed ≤ 2 * b1.nrAlloc + 3) :
    TInv cb { t with buckets := t.buckets.set n b1 } := by
  refine ⟨?_, ?_, ?_, ?_⟩
  · obtain ⟨k, h1, h2⟩ := ti.pow
    exact ⟨k, by simp [h1], h2⟩
  · intro m b hb
    simp only [List.getElem?_set] at hb
    split at hb
    · split at hb
      · cases hb; exact ⟨gs1, inv1⟩
      · cases hb
    · exact ti.inv m b hb
  · intro m b hb y hy
    simp only [List.getElem?_set] at hb
    split at hb
    · rename_i hnm
      split at hb
      · cases hb; rw [← hnm]; exact hhome y hy
      · cases hb
    · exact ti.home m b hb y hy
  · intro m b hb
    simp only [List.getElem?_set] at hb
    split at hb
    · split at hb
      · cases hb; exact hload
      · cases hb
    · exact ti.load m b hb

theorem getElem?_set_same {t : Multi E} {n : Nat} {b : Bucket E} (b1 : Bucket E)
    (hb : t.buckets[n]? = some b) : (t.buckets.set n b1)[n]? = some b1 := by
  have : n < t.buckets.length := (List.getElem?_eq_some_iff.1 hb).1
  simp [List.getElem?_set, this]

theorem set_same {t : Multi E} {n : Nat} {b : Bucket E} (hb : t.buckets[n]? = some b) :
    ({ t with buckets := t.buckets.set n b } : Multi E) = t := by
  have h1 : t.buckets.set n b = t.buckets := by
    apply List.ext_getElem?
    intro m
    rw [List.getElem?_set]
    split
    · rename_i h; subst h
      split
      · exact hb.symm
      · rename_i h2
        exact (List.getElem?_eq_none (by omega)).symm
    · rfl
  rw [h1]

/-! ## The number of stored elements -/

theorem foldl_add_eq_sum (f : Bucket E → Nat) (l : List (Bucket E)) (a : Nat) :
    l.foldl (fun res b => res + f b) a = a + (l.map f).sum := by
  induction l generalizing a with
  | nil => simp
  | cons b l ih =>
    simp only [List.foldl_cons, List.map_cons, List.sum_cons]
    rw [ih]; omega

theorem size_eq_sum (t : Multi E) : size t = (t.buckets.map Bucket.nrUsed).sum := by
  unfold size
  rw [foldl_add_eq_sum]; omega

theorem sum_map_set (f : Bucket E → Nat) (l : List (Bucket E)) (n : Nat) (b b1 : Bucket E)
    (hb : l[n]? = some b) : ((l.set n b1).map f).sum + f b = (l.map f).sum + f b1 := by
  induction l generalizing n with
  | nil => simp at hb
  | cons a l ih =>
    cases n with
    | zero =>
      simp only [List.getElem?_cons_zero, Option.some.injEq] at hb
      subst hb
      simp only [List.set_cons_zero, List.map_cons, List.sum_cons]
      omega
    | succ n =>
      simp only [List.getElem?_cons_succ] at hb
      have := ih n hb
      simp only [List.set_cons_succ, List.map_cons, List.sum_cons]
      omega

theorem size_set {t : Multi E} {n : Nat} {b : Bucket E} (b1 : Bucket E)
    (hb : t.buckets[n]? = some b) :
    size { t with buckets := t.buckets.set n b1 } + b.nrUsed = size t + b1.nrUsed := by
  rw [size_eq_sum, size_eq_sum]
  exact sum_map_set _ _ _ _ _ hb

/-! ## The stored elements -/

theorem mem_elements {t : Multi E} {y : E} :
    y ∈ elements t ↔ ∃ (n : Nat) (b : Bucket E), t.buckets[n]? = some b ∧ y ∈ b.elements := by
  unfold elements
  rw [List.mem_flatMap]
  constructor
  · rintro ⟨b, hb, hy⟩
    obtain ⟨n, hn⟩ := List.mem_iff_getElem?.1 hb
    exact ⟨n, b, hn, hy⟩
  · rintro ⟨n, b, hn, hy⟩
    exact ⟨b, List.mem_iff_getElem?.2 ⟨n, hn⟩, hy⟩

/-- A stored element is in the bucket that its key hash selects. -/
theorem TInv.mem_bucket {cb : Callbacks K E} {t : Multi E} (ti : TInv cb t) {y : E}
    (hy : y ∈ elements t) {b : Bucket E}
    (hb : t.buckets[cb.hashElement y true &&& t.bucketsMask]? = some b) : y ∈ b.elements := by
  obtain ⟨n, b1, hn, hy1⟩ := mem_elements.1 hy
  have := ti.home n b1 hn y hy1
  rw [this, hn] at hb
  cases hb
  exact hy1

theorem BInv.mem_elements_iff {cb : Callbacks K E} {b : Bucket E} {gs : List (Group E)}
    (inv : BInv cb b gs) {y : E} : y ∈ b.elements ↔ ∃ c ∈ cells gs, c.2 = y := by
  rw [(elements_perm inv.shape).mem_iff, List.mem_map]

/-! ## The operations of the table in terms of the operations on one bucket -/

theorem lookup_eq (cb : Callbacks K E) {t : Multi E} (e : E) {b : Bucket E}
    (hb : t.buckets[cb.hashElement e true &&& t.bucketsMask]? = some b) :
    lookup cb t e = (lookupByElementBucket cb b e).map fun i => (b.table i).ptr := by
  unfold lookup lookupByElement
  simp only [hb, Option.some_bind]
  cases lookupByElementBucket cb b e with
  | none => rfl
  | some i => simp [hb]

theorem lookupByKey_eq (cb : Callbacks K E) {t : Multi E} (k : K) (limit : Nat) {b : Bucket E}
    (hb : t.buckets[cb.hashKey k &&& t.bucketsMask]? = some b) :
    lookupByKey cb t k limit = lookupHead b (cb.isEqualKeyElement k) (cb.hashKey k) limit := by
  unfold lookupByKey
  simp only [hb, Option.some_bind]

theorem insert_eq (cb : Callbacks K E) (nearPrime : Nat → Nat) {t : Multi E} (e : E)
    (ow chk : Bool) {b : Bucket E}
    (hb : t.buckets[cb.hashElement e true &&& t.bucketsMask]? = some b) :
    insert cb nearPrime t e ow chk = (insertBucket cb nearPrime b e ow chk).map fun r =>
      ({ t with buckets := t.buckets.set (cb.hashElement e true &&& t.bucketsMask) r.1 },
        r.2) := by
  unfold insert
  simp only [hb, Option.some_bind]

theorem remove_eq (cb : Callbacks K E) {t : Multi E} (e : E) {b : Bucket E}
    (hb : t.buckets[cb.hashElement e true &&& t.bucketsMask]? = some b) :
    remove cb t e = (removeBucket cb b e).map fun r =>
      ({ t with buckets := t.buckets.set (cb.hashElement e true &&& t.bucketsMask) r.1 },
        r.2) := by
  unfold remove
  simp only [hb, Option.some_bind]

/-! ## The invariant of the table is kept by the operations -/

theorem insertBucket_home {cb : Callbacks K E}
    {b b1 : Bucket E} {gs gs0 gs1 : List (Group E)} {e : E} {ow : Bool} {r : Option E}
    (inv : BInv cb b gs) (hcont : (content gs0).Perm (content gs)) (inv1 : BInv cb b1 gs1)
    (hrel : InsertRel cb e ow gs0 gs1 r) {y : E} (hy : y ∈ b1.elements) :
    y = e ∨ y ∈ b.elements := by
  have h1 := (elements_perm inv1.shape).mem_iff.1 hy
  rcases hrel.mem_elems h1 with h | h
  · exact Or.inl h
  · exact Or.inr ((elements_perm inv.shape).mem_iff.2 (mem_elems_of_content hcont h))

theorem TInv.insert {cb : Callbacks K E} {nearPrime : Nat → Nat} (hc : Contract cb)
    (hnp : ∀ n, n ≤ nearPrime n) {t : Multi E} (ti : TInv cb t) {e : E} {ow chk : Bool}
    (hchk : chk = true ∨ ∀ y ∈ elements t, cb.isEqualElementElement e y = false)
    {x : Multi E × Option E} (h : insert cb nearPrime t e ow chk = some x) :
    TInv cb x.1 := by
  obtain ⟨b, hb⟩ := ti.bucket (cb.hashElement e true)
  obtain ⟨gs, inv⟩ := ti.inv _ b hb
  have hchk1 : chk = true ∨ ∀ y ∈ b.elements, cb.isEqualElementElement e y = false := by
    rcases hchk with h0 | h0
    · exact Or.inl h0
    · exact Or.inr fun y hy => h0 y (mem_elements.2 ⟨_, b, hb, hy⟩)
  obtain ⟨b0, gs0, b1, r, gs1, _, inv0, hcont, _, _, _, hload, h1, _, inv1, hal, hrel, _⟩ :=
    insertBucket_spec hc hnp inv e ow chk hchk1
  rw [insert_eq cb nearPrime e ow chk hb, h1] at h
  simp only [Option.map_some', Option.some.injEq] at h
  subst h
  apply ti.set _ inv1
  · intro y hy
    rcases insertBucket_home inv hcont inv1 hrel hy with h | h
    · rw [h]
    · exact ti.home _ b hb y h
  · have h3 := hrel.length
    rw [← inv1.used, ← inv0.used] at h3
    rw [h3, hal]
    split <;> omega

theorem TInv.remove {cb : Callbacks K E} (hc : Contract cb) {t : Multi E} (ti : TInv cb t)
    {e : E} {x : Multi E × Option E} (h : remove cb t e = some x) : TInv cb x.1 := by
  obtain ⟨b, hb⟩ := ti.bucket (cb.hashElement e true)
  obtain ⟨gs, inv⟩ := ti.inv _ b hb
  rw [remove_eq cb e hb] at h
  by_cases hex : ∃ c ∈ cells gs, cb.isEqualElementElement e c.2 = true
  · obtain ⟨c, hm, heq⟩ := hex
    obtain ⟨b1, gs1, pre, post, h1, inv1, hal, hus, hsub, _⟩ :=
      removeBucket_obs hc inv hm heq
    rw [h1] at h
    simp only [Option.map_some', Option.some.injEq] at h
    subst h
    apply ti.set _ inv1
    · intro y hy
      have h2 := (hsub y ((elements_perm inv1.shape).mem_iff.1 hy)).1
      exact ti.home _ b hb y ((elements_perm inv.shape).mem_iff.2 h2)
    · have := ti.load _ b hb
      omega
  · push_neg at hex
    have habs : ∀ c ∈ cells gs, cb.isEqualElementElement e c.2 = false :=
      fun c hm => by simpa using hex c hm
    cases hr : removeBucket cb b e with
    | none => rw [hr] at h; cases h
    | some r =>
      rw [hr] at h
      simp only [Option.map_some', Option.some.injEq] at h
      subst h
      have := removeBucket_absent_sound hc inv habs hr
      subst this
      exact ti.set _ inv (fun y hy => ti.home _ b hb y hy) (ti.load _ b hb)

/-- When the test of source `resize` on a bucket fails, the target of the resize is above the
number of the records of the bucket. -/
theorem guard_bound (s u : Nat)
    (h : ¬ (2 * ((2 * s + 1) % indexRange)) % indexRange < 3 * u) :
    3 * u ≤ 2 * ((2 * s + 1) % indexRange) ∧ 1 ≤ (2 * s + 1) % indexRange := by
  have h1 : (2 * ((2 * s + 1) % indexRange)) % indexRange ≤ 2 * ((2 * s + 1) % indexRange) :=
    Nat.mod_le _ _
  have h2 : 1 ≤ (2 * s + 1) % indexRange := by
    unfold indexRange
    omega
  exact ⟨by omega, h2⟩

/-- Without an overflow the expressions of source `resize` have their mathematical values. -/
theorem guard_exact (s : Nat) (h : 2 * (2 * s + 1) < indexRange) :
    (2 * ((2 * s + 1) % indexRange)) % indexRange = 2 * (2 * s + 1) ∧
    (2 * s + 1) % indexRange = 2 * s + 1 := by
  unfold indexRange at *
  omega

theorem resizeBuckets_spec (cb : Callbacks K E) (nearPrime : Nat → Nat) (size : Nat)
    (l : List (Bucket E)) :
    ∀ (l1 : List (Bucket E)) (code : ErrorCode),
      resizeBuckets cb nearPrime size l = some (l1, code) →
      l1.length = l.length ∧ ∀ (n : Nat) (b1 : Bucket E), l1[n]? = some b1 →
        ∃ b, l[n]? = some b ∧
          (b1 = b ∨ (¬ (2 * ((2 * size + 1) % indexRange)) % indexRange < 3 * b.nrUsed ∧
            resizeInternal cb nearPrime b ((2 * size + 1) % indexRange) = some b1)) := by
  induction l with
  | nil =>
    intro l1 code h
    simp only [resizeBuckets, Option.some.injEq, Prod.mk.injEq] at h
    obtain ⟨rfl, _⟩ := h
    exact ⟨rfl, fun n b1 h1 => by simp at h1⟩
  | cons a l ih =>
    intro l1 code h
    unfold resizeBuckets at h
    split at h
    · simp only [Option.some.injEq, Prod.mk.injEq] at h
      obtain ⟨rfl, _⟩ := h
      exact ⟨rfl, fun n b1 h1 => ⟨b1, h1, Or.inl rfl⟩⟩
    · rename_i hguard
      cases h1 : resizeInternal cb nearPrime a ((2 * size + 1) % indexRange) with
      | none => rw [h1] at h; cases h
      | some a1 =>
        rw [h1] at h
        simp only [Option.some_bind] at h
        cases h2 : resizeBuckets cb nearPrime size l with
        | none => rw [h2] at h; cases h
        | some r =>
          rw [h2] at h
          simp only [Option.map_some', Option.some.injEq, Prod.mk.injEq] at h
          obtain ⟨rfl, _⟩ := h
          obtain ⟨hlen, hall⟩ := ih r.1 r.2 h2
          refine ⟨by simp [hlen], ?_⟩
          intro n b1 hn
          cases n with
          | zero =>
            simp only [List.getElem?_cons_zero, Option.some.injEq] at hn
            subst hn
            exact ⟨a, List.getElem?_cons_zero, Or.inr ⟨hguard, h1⟩⟩
          | succ n =>
            simp only [List.getElem?_cons_succ] at hn ⊢
            exact hall n b1 hn

theorem TInv.resize {cb : Callbacks K E} {nearPrime : Nat → Nat} (hc : Contract cb)
    (hnp : ∀ n, n ≤ nearPrime n) {t : Multi E} (ti : TInv cb t) {size : Nat}
    {x : Multi E × ErrorCode} (h : resize cb nearPrime t size = some x) : TInv cb x.1 := by
  unfold AssocMulti.resize at h
  cases hr : resizeBuckets cb nearPrime (size / t.buckets.length) t.buckets with
  | none => rw [hr] at h; cases h
  | some r =>
    rw [hr] at h
    simp only [Option.map_some', Option.some.injEq] at h
    subst h
    obtain ⟨hlen, hall⟩ := resizeBuckets_spec cb nearPrime _ _ r.1 r.2 hr
    have key : ∀ (n : Nat) (b1 : Bucket E), r.1[n]? = some b1 →
        (∃ gs, BInv cb b1 gs) ∧
        (∀ y ∈ b1.elements, cb.hashElement y true &&& t.bucketsMask = n) ∧
        3 * b1.nrUsed ≤ 2 * b1.nrAlloc + 3 := by
      intro n b1 hn
      obtain ⟨b, hb, hcase⟩ := hall n b1 hn
      obtain ⟨gs, inv⟩ := ti.inv n b hb
      rcases hcase with rfl | ⟨hguard, hres⟩
      · exact ⟨⟨gs, inv⟩, ti.home n _ hb, ti.load n _ hb⟩
      · have hu := inv.used
        have hn1 := hnp ((2 * (size / t.buckets.length) + 1) % indexRange)
        have hgb := guard_bound _ _ hguard
        obtain ⟨b2, gs2, h2, inv2, hal2, hcont⟩ := resizeInternal_spec hc inv nearPrime
          ((2 * (size / t.buckets.length) + 1) % indexRange) (by omega)
        rw [hres] at h2
        cases h2
        refine ⟨⟨gs2, inv2⟩, ?_, ?_⟩
        · intro y hy
          have h3 := mem_elems_of_content hcont ((elements_perm inv2.shape).mem_iff.1 hy)
          exact ti.home n b hb y ((elements_perm inv.shape).mem_iff.2 h3)
        · have h4 := cells_length_of_content hcont
          rw [← inv2.used, ← inv.used] at h4
          omega
    refine ⟨?_, fun n b1 hn => (key n b1 hn).1, fun n b1 hn => (key n b1 hn).2.1,
      fun n b1 hn => (key n b1 hn).2.2⟩
    obtain ⟨k, h1, h2⟩ := ti.pow
    exact ⟨k, by simp only [hlen, h1], h2⟩

/-- Every reachable table satisfies the invariant of the table. -/
theorem Reachable.tinv {cb : Callbacks K E} {nearPrime : Nat → Nat} (hc : Contract cb)
    (hnp : ∀ n, n ≤ nearPrime n) {t : Multi E} (hr : Reachable cb nearPrime t) :
    TInv cb t := by
  induction hr with
  | init numberBuckets initialSize h => exact TInv.mk0 cb numberBuckets h
  | insert e ow _ h ih => exact ih.insert hc hnp (Or.inl rfl) h
  | remove e _ h ih => exact ih.remove hc h
  | resize size _ h ih => exact ih.resize hc hnp h

/-! ## An instance: records that are pairs of a key and a value -/

theorem pairCallbacks_contract : Contract pairCallbacks where
  eq_refl a := by simp [pairCallbacks]
  eq_symm a b h := by simp [pairCallbacks] at h ⊢; exact h.symm
  eq_trans a b c h1 h2 := by simp [pairCallbacks] at h1 h2 ⊢; exact h1.trans h2
  key_symm a b h := by simp [pairCallbacks] at h ⊢; exact h.symm
  key_trans a b c h1 h2 := by simp [pairCallbacks] at h1 h2 ⊢; exact h1.trans h2
  eq_key a b h := by simp [pairCallbacks] at h ⊢; rw [h]
  hash_key a b h := by simp [pairCallbacks] at h ⊢; exact h
  hash_elm a b h := by simp [pairCallbacks] at h ⊢; rw [h]
  keyEl_hash k a h := by simp [pairCallbacks] at h ⊢; exact h
  keyEl_congr k a b h1 h2 := by simp [pairCallbacks] at h1 h2 ⊢; exact h1.trans h2
  keyEl_key k a b h1 h2 := by simp [pairCallbacks] at h1 h2 ⊢; exact h1.symm.trans h2

theorem nearPrimeFrom7_ge (n : Nat) : n ≤ nearPrimeFrom7 n := Nat.le_max_left n 7

/-! ## Sequences of insertions and the tables of the instance -/

theorem reachable_insertAll {cb : Callbacks K E} {nearPrime : Nat → Nat} (ow : Bool)
    (es : List E) : ∀ {t t1 : Multi E}, Reachable cb nearPrime t →
      insertAll cb nearPrime ow true t es = some t1 → Reachable cb nearPrime t1 := by
  induction es with
  | nil =>
    intro t t1 hr h
    simp only [insertAll, Option.some.injEq] at h
    subst h
    exact hr
  | cons e es ih =>
    intro t t1 hr h
    unfold insertAll at h
    cases h1 : insert cb nearPrime t e ow true with
    | none => rw [h1] at h; cases h
    | some r =>
      rw [h1] at h
      exact ih (Reachable.insert e ow hr h1) h

theorem reachable_tableOf (es : List (Nat × Nat)) {n : Nat} (hn : 0 < n) :
    Reachable pairCallbacks nearPrimeFrom7 (tableOf es n) := by
  unfold tableOf
  cases h : insertAll pairCallbacks nearPrimeFrom7 false true (Multi.mk0 1 n) es with
  | none => exact Reachable.init 1 n hn
  | some t1 => exact reachable_insertAll false es (Reachable.init 1 n hn) h

/-! ## The stored elements of one key -/

theorem filter_flatMap_nil {α β : Type} (g : α → List β) (f : β → Bool) (l : List α)
    (h : ∀ a ∈ l, ∀ x ∈ g a, f x = false) : (l.flatMap g).filter f = [] := by
  rw [List.filter_eq_nil_iff]
  intro x hx
  obtain ⟨a, ha, hxa⟩ := List.mem_flatMap.1 hx
  rw [h a ha x hxa]
  simp

theorem filter_flatMap_single {α β : Type} (g : α → List β) (f : β → Bool) :
    ∀ (l : List α) (n : Nat) (a : α), l[n]? = some a →
      (∀ (m : Nat) (a1 : α), l[m]? = some a1 → m ≠ n → ∀ x ∈ g a1, f x = false) →
      (l.flatMap g).filter f = (g a).filter f := by
  intro l
  induction l with
  | nil => intro n a h; simp at h
  | cons a0 l ih =>
    intro n a h hz
    rw [List.flatMap_cons, List.filter_append]
    cases n with
    | zero =>
      simp only [List.getElem?_cons_zero, Option.some.injEq] at h
      subst h
      rw [filter_flatMap_nil g f l, List.append_nil]
      intro a1 ha1 x hx
      obtain ⟨m, hm⟩ := List.mem_iff_getElem?.1 ha1
      exact hz (m + 1) a1 (by simpa using hm) (by omega) x hx
    | succ n =>
      simp only [List.getElem?_cons_succ] at h
      have h0 : (g a0).filter f = [] := by
        rw [List.filter_eq_nil_iff]
        intro x hx
        rw [hz 0 a0 (by simp) (by omega) x hx]
        simp
      rw [h0, List.nil_append]
      apply ih n a h
      intro m a1 hm hne x hx
      exact hz (m + 1) a1 (by simpa using hm) (by omega) x hx

/-- The stored elements that satisfy a predicate which holds in one bucket only. -/
theorem filter_elements {cb : Callbacks K E} {t : Multi E} (ti : TInv cb t) {f : E → Bool}
    {n : Nat} {b : Bucket E} (hb : t.buckets[n]? = some b)
    (hz : ∀ y, f y = true → cb.hashElement y true &&& t.bucketsMask = n) :
    (elements t).filter f = b.elements.filter f := by
  unfold elements
  apply filter_flatMap_single _ _ _ n b hb
  intro m b1 hm hne x hx
  by_contra hfx
  have hfx : f x = true := by simpa using hfx
  have h1 := ti.home m b1 hm x hx
  rw [hz x hfx] at h1
  exact hne h1.symm

/-- A stored element is a cell of the lists of its bucket. -/
theorem TInv.stored_cell {cb : Callbacks K E} {t : Multi E} (ti : TInv cb t) {y : E}
    (hy : y ∈ elements t) {h : Nat} (hh : cb.hashElement y true = h) {b : Bucket E}
    (hb : t.buckets[h &&& t.bucketsMask]? = some b) {gs : List (Group E)}
    (inv : BInv cb b gs) : ∃ c ∈ cells gs, c.2 = y := by
  subst hh
  exact inv.mem_elements_iff.1 (ti.mem_bucket hy hb)

theorem hasFreeSlot_iff {t : Multi E} {h : Nat} {b : Bucket E}
    (hb : t.buckets[h &&& t.bucketsMask]? = some b) :
    hasFreeSlot t h = true ↔ b.nrUsed < b.nrAlloc := by
  unfold hasFreeSlot
  simp [hb]

/-! ## The lookups in a reachable table -/

/-- In a reachable table a bucket of at least four slots has an unused slot. -/
theorem TInv.hasFreeSlot_of_capacity {cb : Callbacks K E} {t : Multi E} (ti : TInv cb t)
    (h : Nat) (hcap : ∀ b, t.buckets[h &&& t.bucketsMask]? = some b → 4 ≤ b.nrAlloc) :
    hasFreeSlot t h = true := by
  obtain ⟨b, hb⟩ := ti.bucket h
  rw [hasFreeSlot_iff hb]
  have h1 := ti.load _ b hb
  have h2 := hcap b hb
  omega

/-- The sequence of a key whose records are in the lists `gs` of the bucket `b`. -/
theorem TInv.key_group {cb : Callbacks K E} {t : Multi E} (hc : Contract cb) (ti : TInv cb t)
    {key : K} {y : E} (hy : y ∈ elements t) (hky : cb.isEqualKeyElement key y = true)
    {b : Bucket E} (hb : t.buckets[cb.hashKey key &&& t.bucketsMask]? = some b)
    {gs : List (Group E)} (inv : BInv cb b gs) :
    ∃ g ∈ gs, cb.isEqualKeyElement key g.head.2 = true := by
  obtain ⟨c, hm, rfl⟩ := ti.stored_cell hy (hc.keyEl_hash key y hky).symm hb inv
  obtain ⟨g, hg, hcg⟩ := mem_cells.1 hm
  refine ⟨g, hg, ?_⟩
  have h2 : cb.isEqualElementElementByKey g.head.2 c.2 = true :=
    inv.shape.key_of_mem hc hg (by rcases hcg with h | h <;> simp [Group.cells, h])
  exact hc.keyEl_congr _ _ _ hky (hc.key_symm _ _ h2)

theorem lookupByKey_spec {cb : Callbacks K E} {t : Multi E} (hc : Contract cb) (ti : TInv cb t)
    (key : K) {b : Bucket E} (hb : t.buckets[cb.hashKey key &&& t.bucketsMask]? = some b)
    {gs : List (Group E)} (inv : BInv cb b gs)
    (hfree : (∃ y ∈ elements t, cb.isEqualKeyElement key y = true) ∨
      hasFreeSlot t (cb.hashKey key) = true) :
    lookupByKey cb t key 0 = some ((groupElems (cb.isEqualKeyElement key) gs).map some) := by
  rw [lookupByKey_eq cb key 0 hb]
  apply lookupHead_total inv (keyPred_key hc key)
  rcases hfree with ⟨y, hy, hky⟩ | h
  · exact Or.inl (ti.key_group hc hy hky hb inv)
  · exact Or.inr (inv.free_slot ((hasFreeSlot_iff hb).1 h))

theorem elements_filter_key {cb : Callbacks K E} {t : Multi E} (hc : Contract cb)
    (ti : TInv cb t) (key : K) {b : Bucket E}
    (hb : t.buckets[cb.hashKey key &&& t.bucketsMask]? = some b)
    {gs : List (Group E)} (inv : BInv cb b gs) :
    (groupElems (cb.isEqualKeyElement key) gs).Perm
      ((elements t).filter (cb.isEqualKeyElement key)) := by
  rw [filter_elements ti hb (fun y hy => by rw [← hc.keyEl_hash key y hy])]
  exact ((filter_cells hc inv.shape (keyPred_key hc key)).symm).trans
    ((elements_perm inv.shape).filter _).symm

/-- C1 (amended): for every table reachable from an empty table by insert (with the check of
equality), remove and resize, with callbacks that satisfy the contract, and for every key K
that is stored or whose bucket has an unused slot, `lookupByKey(K, 0)` returns a result, and
the result holds every stored record whose key equals K exactly once and no other record: it
is a permutation of the stored records of key K. -/
theorem lookupByKey_exact {cb : Callbacks K E} {nearPrime : Nat → Nat} (hc : Contract cb)
    (hnp : ∀ n, n ≤ nearPrime n) {t : Multi E} (hr : Reachable cb nearPrime t) (key : K)
    (hfree : (∃ y ∈ elements t, cb.isEqualKeyElement key y = true) ∨
      hasFreeSlot t (cb.hashKey key) = true) :
    ∃ l : List E, lookupByKey cb t key 0 = some (l.map some) ∧
      l.Perm ((elements t).filter (cb.isEqualKeyElement key)) := by
  have ti := hr.tinv hc hnp
  obtain ⟨b, hb⟩ := ti.bucket (cb.hashKey key)
  obtain ⟨gs, inv⟩ := ti.inv _ b hb
  exact ⟨_, lookupByKey_spec hc ti key hb inv hfree, elements_filter_key hc ti key hb inv⟩

theorem lookupByKey_exact_witness :
    ∃ l : List (Nat × Nat),
      lookupByKey pairCallbacks (tableOf [(1, 1), (1, 2), (2, 3), (1, 4)] 7) 1 0 =
        some (l.map some) ∧
      l.Perm ((elements (tableOf [(1, 1), (1, 2), (2, 3), (1, 4)] 7)).filter
        (pairCallbacks.isEqualKeyElement 1)) :=
  lookupByKey_exact pairCallbacks_contract nearPrimeFrom7_ge
    (reachable_tableOf [(1, 1), (1, 2), (2, 3), (1, 4)] (by decide)) 1 (Or.inr (by decide))

/-- C1 fails as stated: the table with one bucket of three slots is full after the insertion
of three records, no stored record has the key 4, and the probe loop of `lookupByKey(4, 0)`
meets no empty slot and no record of the key: it visits all slots without leaving the loop, so
the call returns no result. -/
theorem lookupByKey_full_bucket :
    Reachable pairCallbacks nearPrimeFrom7 (tableOf [(1, 1), (2, 2), (3, 3)] 3) ∧
    elements (tableOf [(1, 1), (2, 2), (3, 3)] 3) = [(3, 3), (1, 1), (2, 2)] ∧
    capacity (tableOf [(1, 1), (2, 2), (3, 3)] 3) = 3 ∧
    lookupByKey pairCallbacks (tableOf [(1, 1), (2, 2), (3, 3)] 3) 4 0 = none :=
  ⟨reachable_tableOf _ (by decide), by decide, by decide, by decide⟩

theorem TInv.cell_of_equal {cb : Callbacks K E} {t : Multi E} (hc : Contract cb)
    (ti : TInv cb t) {e y : E} (hy : y ∈ elements t)
    (heq : cb.isEqualElementElement e y = true) {b : Bucket E}
    (hb : t.buckets[cb.hashElement e true &&& t.bucketsMask]? = some b)
    {gs : List (Group E)} (inv : BInv cb b gs) :
    ∃ c ∈ cells gs, c.2 = y :=
  ti.stored_cell hy (hc.hash_key e y (hc.eq_key e y heq)).symm hb inv

theorem TInv.absent_cells {cb : Callbacks K E} {t : Multi E} {e : E}
    (habs : ∀ y ∈ elements t, cb.isEqualElementElement e y = false) {n : Nat} {b : Bucket E}
    (hb : t.buckets[n]? = some b) {gs : List (Group E)} (inv : BInv cb b gs) :
    ∀ c ∈ cells gs, cb.isEqualElementElement e c.2 = false := fun c hm =>
  habs c.2 (mem_elements.2 ⟨n, b, hb, inv.mem_elements_iff.2 ⟨c, hm, rfl⟩⟩)

theorem lookup_stored {cb : Callbacks K E} {t : Multi E} (hc : Contract cb) (ti : TInv cb t)
    {e y : E} (hy : y ∈ elements t) (heq : cb.isEqualElementElement e y = true) :
    lookup cb t e = some (some y) := by
  obtain ⟨b, hb⟩ := ti.bucket (cb.hashElement e true)
  obtain ⟨gs, inv⟩ := ti.inv _ b hb
  obtain ⟨c, hm, rfl⟩ := ti.cell_of_equal hc hy heq hb inv
  rw [lookup_eq cb e hb, lookupByElementBucket_present hc inv hm heq]
  simp only [Option.map_some', inv.shape.ptrs c hm]

theorem lookup_absent {cb : Callbacks K E} {t : Multi E} (hc : Contract cb) (ti : TInv cb t)
    {e : E} (habs : ∀ y ∈ elements t, cb.isEqualElementElement e y = false)
    (hfree : hasFreeSlot t (cb.hashElement e true) = true) :
    lookup cb t e = some none := by
  obtain ⟨b, hb⟩ := ti.bucket (cb.hashElement e true)
  obtain ⟨gs, inv⟩ := ti.inv _ b hb
  obtain ⟨i, _, h2, h3⟩ := lookupByElementBucket_absent hc inv
    (inv.free_slot ((hasFreeSlot_iff hb).1 hfree)) (TInv.absent_cells habs hb inv)
  rw [lookup_eq cb e hb, h2]
  simp only [Option.map_some', h3]

theorem nrUsed_of_size_zero {t : Multi E} (h0 : size t = 0) {n : Nat} {b : Bucket E}
    (hb : t.buckets[n]? = some b) : b.nrUsed = 0 := by
  rw [size_eq_sum] at h0
  have hmem : b.nrUsed ∈ t.buckets.map Bucket.nrUsed :=
    List.mem_map_of_mem _ (List.mem_iff_getElem?.2 ⟨n, hb⟩)
  have := List.single_le_sum (fun x _ => Nat.zero_le x) _ hmem
  omega

theorem TInv.empty_of_size_zero {cb : Callbacks K E} {t : Multi E} (ti : TInv cb t)
    (h0 : size t = 0) : elements t = [] := by
  apply List.eq_nil_iff_forall_not_mem.2
  intro y hy
  obtain ⟨n, b, hb, hyb⟩ := mem_elements.1 hy
  obtain ⟨gs, inv⟩ := ti.inv n b hb
  obtain ⟨c, hm, _⟩ := inv.mem_elements_iff.1 hyb
  have h1 := inv.used
  rw [nrUsed_of_size_zero h0 hb] at h1
  have : cells gs = [] := List.length_eq_zero.1 h1.symm
  rw [this] at hm
  cases hm

theorem TInv.free_of_size_zero {cb : Callbacks K E} {t : Multi E} (ti : TInv cb t)
    (h0 : size t = 0) (h : Nat) : hasFreeSlot t h = true := by
  obtain ⟨b, hb⟩ := ti.bucket h
  obtain ⟨gs, inv⟩ := ti.inv _ b hb
  rw [hasFreeSlot_iff hb, nrUsed_of_size_zero h0 hb]
  exact inv.shape.cap_pos

/-- C2 (amended): for every reachable table and every record R, `lookup(R)` returns the stored
record that is full-equal to R when such a record is stored, be it the head of its list or a
further member; when no such record is stored and the bucket of R has an unused slot, it
returns null; in particular every lookup on an empty table returns null. -/
theorem lookup_exact {cb : Callbacks K E} {nearPrime : Nat → Nat} (hc : Contract cb)
    (hnp : ∀ n, n ≤ nearPrime n) {t : Multi E} (hr : Reachable cb nearPrime t) (e : E) :
    (∀ y ∈ elements t, cb.isEqualElementElement e y = true →
      lookup cb t e = some (some y)) ∧
    ((∀ y ∈ elements t, cb.isEqualElementElement e y = false) →
      hasFreeSlot t (cb.hashElement e true) = true → lookup cb t e = some none) ∧
    (size t = 0 → lookup cb t e = some none) := by
  have ti := hr.tinv hc hnp
  refine ⟨fun y hy heq => lookup_stored hc ti hy heq, fun habs hfree =>
    lookup_absent hc ti habs hfree, fun h0 => ?_⟩
  apply lookup_absent hc ti _ (ti.free_of_size_zero h0 _)
  intro y hy
  rw [ti.empty_of_size_zero h0] at hy
  cases hy

theorem lookup_exact_witness :
    (∀ y ∈ elements (tableOf [(1, 1), (1, 2), (2, 3), (1, 4)] 7),
      pairCallbacks.isEqualElementElement (1, 2) y = true →
      lookup pairCallbacks (tableOf [(1, 1), (1, 2), (2, 3), (1, 4)] 7) (1, 2) =
        some (some y)) ∧
    ((∀ y ∈ elements (tableOf [(1, 1), (1, 2), (2, 3), (1, 4)] 7),
        pairCallbacks.isEqualElementElement (1, 2) y = false) →
      hasFreeSlot (tableOf [(1, 1), (1, 2), (2, 3), (1, 4)] 7)
        (pairCallbacks.hashElement (1, 2) true) = true →
      lookup pairCallbacks (tableOf [(1, 1), (1, 2), (2, 3), (1, 4)] 7) (1, 2) = some none) ∧
    (size (tableOf [(1, 1), (1, 2), (2, 3), (1, 4)] 7) = 0 →
      lookup pairCallbacks (tableOf [(1, 1), (1, 2), (2, 3), (1, 4)] 7) (1, 2) = some none) :=
  lookup_exact pairCallbacks_contract nearPrimeFrom7_ge
    (reachable_tableOf [(1, 1), (1, 2), (2, 3), (1, 4)] (by decide)) (1, 2)

/-- C2 fails as stated: in the full bucket of three slots no stored record is full-equal to
the record (4, 4), and the probe loops of `lookup((4, 4))` meet no empty slot: the call
returns no result, not null. -/
theorem lookup_full_bucket :
    Reachable pairCallbacks nearPrimeFrom7 (tableOf [(1, 1), (2, 2), (3, 3)] 3) ∧
    elements (tableOf [(1, 1), (2, 2), (3, 3)] 3) = [(3, 3), (1, 1), (2, 2)] ∧
    size (tableOf [(1, 1), (2, 2), (3, 3)] 3) = 3 ∧
    capacity (tableOf [(1, 1), (2, 2), (3, 3)] 3) = 3 ∧
    lookup pairCallbacks (tableOf [(1, 1), (2, 2), (3, 3)] 3) (4, 4) = none :=
  ⟨reachable_tableOf _ (by decide), by decide, by decide, by decide, by decide⟩

/-! ## Lookups in a bucket whose lists stay the same -/

/-- A lookup of an element that has a result has the same result in every bucket with the same
lists that has a free slot. -/
theorem lookupBucket_congr {cb : Callbacks K E} (hc : Contract cb) {b b0 : Bucket E}
    {gs gs0 : List (Group E)} (inv : BInv cb b gs) (inv0 : BInv cb b0 gs0)
    (hcont : (content gs0).Perm (content gs)) (hfree : b0.nrUsed < b0.nrAlloc) {x : E}
    {r : Option E}
    (h : ((lookupByElementBucket cb b x).map fun i => (b.table i).ptr) = some r) :
    ((lookupByElementBucket cb b0 x).map fun i => (b0.table i).ptr) = some r := by
  cases hl : lookupByElementBucket cb b x with
  | none => rw [hl] at h; cases h
  | some i =>
    rw [hl] at h
    simp only [Option.map_some', Option.some.injEq] at h
    obtain ⟨_, hcase⟩ := lookupByElementBucket_sound hc inv hl
    rcases hcase with ⟨hp, habs⟩ | ⟨c, hm, heq, rfl⟩
    · rw [hp] at h
      subst h
      have habs0 : ∀ c ∈ cells gs0, cb.isEqualElementElement x c.2 = false := by
        intro c hm
        obtain ⟨c1, hm1, h1⟩ := List.mem_map.1
          (mem_elems_of_content hcont (List.mem_map_of_mem Prod.snd hm))
        rw [← h1]
        exact habs c1 hm1
      obtain ⟨j, _, h2, h3⟩ := lookupByElementBucket_absent hc inv0
        (inv0.free_slot hfree) habs0
      rw [h2]
      simp only [Option.map_some', h3]
    · rw [inv.shape.ptrs c hm] at h
      subst h
      obtain ⟨c0, hm0, h0⟩ := List.mem_map.1
        (mem_elems_of_content hcont.symm (List.mem_map_of_mem Prod.snd hm))
      rw [lookupByElementBucket_present hc inv0 hm0 (by rw [h0]; exact heq)]
      simp only [Option.map_some', inv0.shape.ptrs c0 hm0, h0]

/-- A lookup by key that has a result has the same result in every bucket with the same lists
that has a free slot. -/
theorem lookupHead_congr {cb : Callbacks K E} {b b0 : Bucket E}
    {gs gs0 : List (Group E)} (inv : BInv cb b gs) (inv0 : BInv cb b0 gs0)
    (hcont : (content gs0).Perm (content gs)) (hfree : b0.nrUsed < b0.nrAlloc)
    {keyP : E → Bool} {hk : Nat} (kp : KeyPred cb keyP hk) {l : List (Option E)}
    (h : lookupHead b keyP hk 0 = some l) : lookupHead b0 keyP hk 0 = some l := by
  rw [lookupHead_sound inv kp h, ← groupElems_congr inv.shape inv0.shape kp hcont]
  exact lookupHead_total inv0 kp (Or.inr (inv0.free_slot hfree))

theorem getElem?_set_other {t : Multi E} {n m : Nat} (b1 : Bucket E) (h : m ≠ n) :
    (t.buckets.set n b1)[m]? = t.buckets[m]? := by
  rw [List.getElem?_set_ne (Ne.symm h)]

/-- The lookups of a table in which the bucket `n` is replaced by a bucket with the same lists
and a free slot. -/
theorem lookup_set_congr {cb : Callbacks K E} {t : Multi E} (hc : Contract cb)
    (ti : TInv cb t) {n : Nat} {b b0 : Bucket E} (hb : t.buckets[n]? = some b)
    {gs gs0 : List (Group E)} (inv : BInv cb b gs) (inv0 : BInv cb b0 gs0)
    (hcont : (content gs0).Perm (content gs)) (hfree : b0.nrUsed < b0.nrAlloc) {x : E}
    {r : Option E} (h : lookup cb t x = some r) :
    lookup cb { t with buckets := t.buckets.set n b0 } x = some r := by
  obtain ⟨bm, hbm⟩ := ti.bucket (cb.hashElement x true)
  rw [lookup_eq cb x hbm] at h
  by_cases hmn : cb.hashElement x true &&& t.bucketsMask = n
  · rw [hmn, hb] at hbm
    cases hbm
    have hb1 : ({ t with buckets := t.buckets.set n b0 } : Multi E).buckets[
        cb.hashElement x true &&&
          ({ t with buckets := t.buckets.set n b0 } : Multi E).bucketsMask]? = some b0 := by
      show (t.buckets.set n b0)[cb.hashElement x true &&& t.bucketsMask]? = some b0
      rw [hmn]
      exact getElem?_set_same b0 hb
    rw [lookup_eq cb x hb1]
    exact lookupBucket_congr hc inv inv0 hcont hfree h
  · have hb1 : ({ t with buckets := t.buckets.set n b0 } : Multi E).buckets[
        cb.hashElement x true &&&
          ({ t with buckets := t.buckets.set n b0 } : Multi E).bucketsMask]? = some bm := by
      show (t.buckets.set n b0)[cb.hashElement x true &&& t.bucketsMask]? = some bm
      rw [getElem?_set_other b0 hmn]
      exact hbm
    rw [lookup_eq cb x hb1]
    exact h

theorem lookupByKey_set_congr {cb : Callbacks K E} {t : Multi E} (hc : Contract cb)
    (ti : TInv cb t) {n : Nat} {b b0 : Bucket E} (hb : t.buckets[n]? = some b)
    {gs gs0 : List (Group E)} (inv : BInv cb b gs) (inv0 : BInv cb b0 gs0)
    (hcont : (content gs0).Perm (content gs)) (hfree : b0.nrUsed < b0.nrAlloc) {k : K}
    {l : List (Option E)} (h : lookupByKey cb t k 0 = some l) :
    lookupByKey cb { t with buckets := t.buckets.set n b0 } k 0 = some l := by
  obtain ⟨bm, hbm⟩ := ti.bucket (cb.hashKey k)
  rw [lookupByKey_eq cb k 0 hbm] at h
  by_cases hmn : cb.hashKey k &&& t.bucketsMask = n
  · rw [hmn, hb] at hbm
    cases hbm
    have hb1 : ({ t with buckets := t.buckets.set n b0 } : Multi E).buckets[
        cb.hashKey k &&&
          ({ t with buckets := t.buckets.set n b0 } : Multi E).bucketsMask]? = some b0 := by
      show (t.buckets.set n b0)[cb.hashKey k &&& t.bucketsMask]? = some b0
      rw [hmn]
      exact getElem?_set_same b0 hb
    rw [lookupByKey_eq cb k 0 hb1]
    exact lookupHead_congr inv inv0 hcont hfree (keyPred_key hc k) h
  · have hb1 : ({ t with buckets := t.buckets.set n b0 } : Multi E).buckets[
        cb.hashKey k &&&
          ({ t with buckets := t.buckets.set n b0 } : Multi E).bucketsMask]? = some bm := by
      show (t.buckets.set n b0)[cb.hashKey k &&& t.bucketsMask]? = some bm
      rw [getElem?_set_other b0 hmn]
      exact hbm
    rw [lookupByKey_eq cb k 0 hb1]
    exact h

/-! ## The insertion into a reachable table -/

/-- The insertion into a table in terms of the bucket of the element: the bucket `b` of the
element is extended to `b0` if its load demands it, and the insertion proper turns `b0` into
`b1`. -/
theorem insert_table_spec {cb : Callbacks K E} {nearPrime : Nat → Nat} (hc : Contract cb)
    (hnp : ∀ n, n ≤ nearPrime n) {t : Multi E} (ti : TInv cb t) (e : E) (ow chk : Bool)
    (hchk : chk = true ∨ ∀ y ∈ elements t, cb.isEqualElementElement e y = false)
    {b : Bucket E} (hb : t.buckets[cb.hashElement e true &&& t.bucketsMask]? = some b)
    {gs : List (Group E)} (inv : BInv cb b gs) :
    ∃ b0 gs0 b1 r gs1,
      growBucket cb nearPrime b = some b0 ∧ BInv cb b0 gs0 ∧
      (content gs0).Perm (content gs) ∧ b0.nrUsed < b0.nrAlloc ∧ b0.nrUsed = b.nrUsed ∧
      growBucket cb nearPrime b0 = some b0 ∧
      insertCore cb b0 e ow chk = some (b1, r) ∧
      insert cb nearPrime t e ow chk = some
        ({ t with buckets := t.buckets.set (cb.hashElement e true &&& t.bucketsMask) b1 },
          r) ∧
      BInv cb b1 gs1 ∧ b1.nrAlloc = b0.nrAlloc ∧ InsertRel cb e ow gs0 gs1 r ∧
      (ow = false → r ≠ none → b1 = b0) ∧
      (∀ c ∈ cells gs0, cb.isEqualElementElement e c.2 = true →
        b1 = if ow then b0.set c.1 { b0.table c.1 with ptr := some e } else b0) ∧
      TInv cb
        { t with buckets := t.buckets.set (cb.hashElement e true &&& t.bucketsMask) b1 } := by
  have hchk1 : chk = true ∨ ∀ y ∈ b.elements, cb.isEqualElementElement e y = false := by
    rcases hchk with h0 | h0
    · exact Or.inl h0
    · exact Or.inr fun y hy => h0 y (mem_elements.2 ⟨_, b, hb, hy⟩)
  obtain ⟨b0, gs0, b1, r, gs1, hg, inv0, hcont, hfree, hu0, hidem, _, h1, h2, inv1, hal, hrel,
    hsame, hstate⟩ := insertBucket_spec hc hnp inv e ow chk hchk1
  have hins : insert cb nearPrime t e ow chk = some
      ({ t with buckets := t.buckets.set (cb.hashElement e true &&& t.bucketsMask) b1 },
        r) := by
    rw [insert_eq cb nearPrime e ow chk hb, h1]
    rfl
  exact ⟨b0, gs0, b1, r, gs1, hg, inv0, hcont, hfree, hu0, hidem, h2, hins,
    inv1, hal, hrel, hsame, hstate, ti.insert hc hnp hchk hins⟩

/-- The stored elements of the bucket of `e` that are equal to `e`, in terms of the lists of
the extended bucket. -/
theorem TInv.cell_of_equal_grown {cb : Callbacks K E} {t : Multi E} (hc : Contract cb)
    (ti : TInv cb t) {e y : E} (hy : y ∈ elements t)
    (heq : cb.isEqualElementElement e y = true) {b : Bucket E}
    (hb : t.buckets[cb.hashElement e true &&& t.bucketsMask]? = some b)
    {gs gs0 : List (Group E)} (inv : BInv cb b gs) (hcont : (content gs0).Perm (content gs)) :
    ∃ c ∈ cells gs0, c.2 = y := by
  obtain ⟨c, hm, hcy⟩ := ti.cell_of_equal hc hy heq hb inv
  have := mem_elems_of_content hcont.symm (List.mem_map_of_mem Prod.snd hm)
  obtain ⟨c0, hm0, h0⟩ := List.mem_map.1 this
  exact ⟨c0, hm0, h0.trans hcy⟩

theorem TInv.absent_cells_grown {cb : Callbacks K E} {t : Multi E} {e : E}
    (habs : ∀ y ∈ elements t, cb.isEqualElementElement e y = false) {n : Nat} {b : Bucket E}
    (hb : t.buckets[n]? = some b) {gs gs0 : List (Group E)} (inv : BInv cb b gs)
    (hcont : (content gs0).Perm (content gs)) :
    ∀ c ∈ cells gs0, cb.isEqualElementElement e c.2 = false := by
  intro c hm
  obtain ⟨c1, hm1, h1⟩ := List.mem_map.1
    (mem_elems_of_content hcont (List.mem_map_of_mem Prod.snd hm))
  rw [← h1]
  exact TInv.absent_cells habs hb inv c1 hm1

theorem lookup_of_cell {cb : Callbacks K E} {t : Multi E} (hc : Contract cb) {e : E}
    {b : Bucket E} (hb : t.buckets[cb.hashElement e true &&& t.bucketsMask]? = some b)
    {gs : List (Group E)} (inv : BInv cb b gs) {c : Nat × E} (hm : c ∈ cells gs)
    (heq : cb.isEqualElementElement e c.2 = true) : lookup cb t e = some (some c.2) := by
  rw [lookup_eq cb e hb, lookupByElementBucket_present hc inv hm heq]
  simp only [Option.map_some', inv.shape.ptrs c hm]

/-- C3: for every reachable table and every record R, the call `insert(R, overwrite = false,
check_equality = true)` returns, and afterwards `lookup(R)` returns a record that is full-equal
to R; it returns R itself when no record full-equal to R was stored before. -/
theorem insert_then_lookup {cb : Callbacks K E} {nearPrime : Nat → Nat} (hc : Contract cb)
    (hnp : ∀ n, n ≤ nearPrime n) {t : Multi E} (hr : Reachable cb nearPrime t) (e : E) :
    ∃ t1 r x, insert cb nearPrime t e false true = some (t1, r) ∧
      lookup cb t1 e = some (some x) ∧ cb.isEqualElementElement e x = true ∧
      ((∀ y ∈ elements t, cb.isEqualElementElement e y = false) → x = e) := by
  have ti := hr.tinv hc hnp
  obtain ⟨b, hb⟩ := ti.bucket (cb.hashElement e true)
  obtain ⟨gs, inv⟩ := ti.inv _ b hb
  obtain ⟨b0, gs0, b1, r, gs1, _, _, hcont, _, _, _, _, hins, inv1, _, hrel,
    _, _, _⟩ := insert_table_spec hc hnp ti e false true (Or.inl rfl) hb inv
  obtain ⟨c1, hm1, heq1, hnew⟩ := hrel.mem_after hc
  refine ⟨_, r, c1.2, hins, ?_, heq1, ?_⟩
  · exact lookup_of_cell hc (getElem?_set_same b1 hb) inv1 hm1 heq1
  · intro habs
    exact hnew (Or.inl (hrel.result_none.2 (TInv.absent_cells_grown habs hb inv hcont)))

theorem insert_then_lookup_witness :
    ∃ t1 r x, insert pairCallbacks nearPrimeFrom7 (tableOf [(1, 1), (1, 2), (2, 3)] 4) (1, 4)
        false true = some (t1, r) ∧
      lookup pairCallbacks t1 (1, 4) = some (some x) ∧
      pairCallbacks.isEqualElementElement (1, 4) x = true ∧
      ((∀ y ∈ elements (tableOf [(1, 1), (1, 2), (2, 3)] 4),
        pairCallbacks.isEqualElementElement (1, 4) y = false) → x = (1, 4)) :=
  insert_then_lookup pairCallbacks_contract nearPrimeFrom7_ge
    (reachable_tableOf [(1, 1), (1, 2), (2, 3)] (by decide)) (1, 4)

/-- C4: for every reachable table and record R, `insert(R, overwrite, check_equality = true)`
returns null if and only if no stored record is full-equal to R, and then `size()` grows by
exactly one; otherwise it returns the stored record that is full-equal to R and `size()` stays
the same. -/
theorem insert_result {cb : Callbacks K E} {nearPrime : Nat → Nat} (hc : Contract cb)
    (hnp : ∀ n, n ≤ nearPrime n) {t : Multi E} (hr : Reachable cb nearPrime t) (e : E)
    (ow : Bool) :
    ∃ t1 r, insert cb nearPrime t e ow true = some (t1, r) ∧
      (r = none ↔ ∀ y ∈ elements t, cb.isEqualElementElement e y = false) ∧
      (r = none → size t1 = size t + 1) ∧
      (∀ y ∈ elements t, cb.isEqualElementElement e y = true →
        r = some y ∧ size t1 = size t) := by
  have ti := hr.tinv hc hnp
  obtain ⟨b, hb⟩ := ti.bucket (cb.hashElement e true)
  obtain ⟨gs, inv⟩ := ti.inv _ b hb
  obtain ⟨b0, gs0, b1, r, gs1, _, inv0, hcont, _, hu0, _, _, hins, inv1, _,
    hrel, _, _, _⟩ := insert_table_spec hc hnp ti e ow true (Or.inl rfl) hb inv
  have hsize := size_set b1 hb
  have hlen := hrel.length
  rw [← inv1.used, ← inv0.used, hu0] at hlen
  refine ⟨_, r, hins, ?_, ?_, ?_⟩
  · rw [hrel.result_none]
    constructor
    · intro h y hy
      by_contra hne
      have hne : cb.isEqualElementElement e y = true := by simpa using hne
      obtain ⟨c, hm, hcy⟩ := ti.cell_of_equal_grown hc hy hne hb inv hcont
      rw [← hcy, h c hm] at hne
      cases hne
    · exact fun h => TInv.absent_cells_grown h hb inv hcont
  · intro h0
    rw [h0] at hlen
    simp only [Option.isNone_none, if_true] at hlen
    omega
  · intro y hy heq
    obtain ⟨c, hm, hcy⟩ := ti.cell_of_equal_grown hc hy heq hb inv hcont
    have h1 := (hrel.result_some hc inv0.shape hm (by rw [hcy]; exact heq)).1
    rw [hcy] at h1
    refine ⟨h1, ?_⟩
    rw [h1] at hlen
    simp only [Option.isNone_some, Bool.false_eq_true, if_false] at hlen
    omega

theorem insert_result_witness :
    ∃ t1 r, insert pairCallbacks nearPrimeFrom7 (tableOf [(1, 1), (1, 2), (2, 3)] 4) (1, 2)
        true true = some (t1, r) ∧
      (r = none ↔ ∀ y ∈ elements (tableOf [(1, 1), (1, 2), (2, 3)] 4),
        pairCallbacks.isEqualElementElement (1, 2) y = false) ∧
      (r = none → size t1 = size (tableOf [(1, 1), (1, 2), (2, 3)] 4) + 1) ∧
      (∀ y ∈ elements (tableOf [(1, 1), (1, 2), (2, 3)] 4),
        pairCallbacks.isEqualElementElement (1, 2) y = true →
        r = some y ∧ size t1 = size (tableOf [(1, 1), (1, 2), (2, 3)] 4)) :=
  insert_result pairCallbacks_contract nearPrimeFrom7_ge
    (reachable_tableOf [(1, 1), (1, 2), (2, 3)] (by decide)) (1, 2) true

/-! ## The insertion of a record that is stored already -/

/-- C5: for every reachable table that stores a record full-equal to R,
`insert(R, overwrite = false, check_equality = true)` returns that stored record and is
idempotent: `size()` stays the same, every result of `lookup` and every sequence returned by
`lookupByKey` is the same after the call as before it, and a second identical call returns the
same record and leaves the table exactly as the first call left it. -/
theorem insert_duplicate_idempotent {cb : Callbacks K E} {nearPrime : Nat → Nat}
    (hc : Contract cb) (hnp : ∀ n, n ≤ nearPrime n) {t : Multi E}
    (hr : Reachable cb nearPrime t) (e y : E) (hy : y ∈ elements t)
    (heq : cb.isEqualElementElement e y = true) :
    ∃ t1, insert cb nearPrime t e false true = some (t1, some y) ∧ size t1 = size t ∧
      (∀ x r, lookup cb t x = some r → lookup cb t1 x = some r) ∧
      (∀ k l, lookupByKey cb t k 0 = some l → lookupByKey cb t1 k 0 = some l) ∧
      insert cb nearPrime t1 e false true = some (t1, some y) := by
  have ti := hr.tinv hc hnp
  obtain ⟨b, hb⟩ := ti.bucket (cb.hashElement e true)
  obtain ⟨gs, inv⟩ := ti.inv _ b hb
  obtain ⟨b0, gs0, b1, r, gs1, _, inv0, hcont, hfree, hu0, hidem, hcore, hins,
    inv1, _, hrel, hsame, _, _⟩ := insert_table_spec hc hnp ti e false true (Or.inl rfl) hb inv
  obtain ⟨c, hm, hcy⟩ := ti.cell_of_equal_grown hc hy heq hb inv hcont
  have hres := (hrel.result_some hc inv0.shape hm (by rw [hcy]; exact heq)).1
  rw [hcy] at hres
  subst hres
  have hb1 : b1 = b0 := hsame rfl (by simp)
  subst hb1
  have hsize := size_set b1 hb
  refine ⟨_, hins, by omega, ?_, ?_, ?_⟩
  · intro x r hx
    exact lookup_set_congr hc ti hb inv inv0 hcont hfree hx
  · intro k l hl
    exact lookupByKey_set_congr hc ti hb inv inv0 hcont hfree hl
  · have hbn := getElem?_set_same b1 hb
    have h2 : insert cb nearPrime
        { t with buckets := t.buckets.set (cb.hashElement e true &&& t.bucketsMask) b1 }
        e false true = _ := insert_eq cb nearPrime e false true hbn
    rw [h2]
    unfold insertBucket
    rw [hidem]
    simp only [Option.some_bind, hcore, Option.map_some']
    exact congrArg (fun x => some (x, some y)) (@set_same E
      { t with buckets := t.buckets.set (cb.hashElement e true &&& t.bucketsMask) b1 }
      _ b1 hbn)

theorem insert_duplicate_idempotent_witness :
    ∃ t1, insert pairCallbacks nearPrimeFrom7 (tableOf [(1, 1), (1, 2), (2, 3)] 4) (1, 2) false
        true = some (t1, some (1, 2)) ∧
      size t1 = size (tableOf [(1, 1), (1, 2), (2, 3)] 4) ∧
      (∀ x r, lookup pairCallbacks (tableOf [(1, 1), (1, 2), (2, 3)] 4) x = some r →
        lookup pairCallbacks t1 x = some r) ∧
      (∀ k l, lookupByKey pairCallbacks (tableOf [(1, 1), (1, 2), (2, 3)] 4) k 0 = some l →
        lookupByKey pairCallbacks t1 k 0 = some l) ∧
      insert pairCallbacks nearPrimeFrom7 t1 (1, 2) false true = some (t1, some (1, 2)) :=
  insert_duplicate_idempotent pairCallbacks_contract nearPrimeFrom7_ge
    (reachable_tableOf [(1, 1), (1, 2), (2, 3)] (by decide)) (1, 2) (1, 2) (by decide)
    (by decide)

theorem groupElems_subset {cb : Callbacks K E} {b : Bucket E} {gs : List (Group E)}
    (hc : Contract cb) (s : Shape cb b gs) {keyP : E → Bool} {hk : Nat}
    (kp : KeyPred cb keyP hk) {x : E} (hx : x ∈ groupElems keyP gs) :
    x ∈ (cells gs).map Prod.snd ∧ keyP x = true := by
  have := (filter_cells hc s kp).mem_iff.2 hx
  simpa using this

/-- C6: for every reachable table that stores a record R0 full-equal to R, as head of its list
or as a further member, `insert(R, overwrite = true, check_equality = true)` returns R0 and
leaves `size()` unchanged; after the check of the load the slot of R0 holds R, with the cached
hash and the links that it had, and nothing else is changed; every sequence returned by
`lookupByKey` is the previous one with R0 replaced in place by R. -/
theorem insert_overwrite {cb : Callbacks K E} {nearPrime : Nat → Nat}
    (hc : Contract cb) (hnp : ∀ n, n ≤ nearPrime n) {t : Multi E}
    (hr : Reachable cb nearPrime t) (e y : E) (hy : y ∈ elements t)
    (heq : cb.isEqualElementElement e y = true) :
    ∃ t1 b b0 i, insert cb nearPrime t e true true = some (t1, some y) ∧ size t1 = size t ∧
      t.buckets[cb.hashElement e true &&& t.bucketsMask]? = some b ∧
      growBucket cb nearPrime b = some b0 ∧ i < b0.nrAlloc ∧ (b0.table i).ptr = some y ∧
      t1.bucketsMask = t.bucketsMask ∧
      t1.buckets = t.buckets.set (cb.hashElement e true &&& t.bucketsMask)
        (b0.set i { b0.table i with ptr := some e }) ∧
      ∀ k l, lookupByKey cb t k 0 = some l → lookupByKey cb t1 k 0 =
        some (l.map (Option.map fun x => if cb.isEqualElementElement e x then e else x)) := by
  have ti := hr.tinv hc hnp
  obtain ⟨b, hb⟩ := ti.bucket (cb.hashElement e true)
  obtain ⟨gs, inv⟩ := ti.inv _ b hb
  obtain ⟨b0, gs0, b1, r, gs1, hgrow, inv0, hcont, hfree, hu0, _, _, hins,
    inv1, hal, hrel, _, hstate, ti1⟩ := insert_table_spec hc hnp ti e true true (Or.inl rfl)
    hb inv
  obtain ⟨c, hm, hcy⟩ := ti.cell_of_equal_grown hc hy heq hb inv hcont
  have heqc : cb.isEqualElementElement e c.2 = true := by rw [hcy]; exact heq
  obtain ⟨hres, hgs1⟩ := hrel.result_some hc inv0.shape hm heqc
  rw [hcy] at hres
  subst hres
  simp only [if_true] at hgs1
  have hb1 := hstate c hm heqc
  simp only [if_true] at hb1
  have hsize := size_set b1 hb
  have hlen := hrel.length
  simp only [Option.isNone_some, Bool.false_eq_true, if_false, Nat.add_zero] at hlen
  have hu1 : b1.nrUsed = b0.nrUsed := by rw [inv1.used, inv0.used, hlen]
  refine ⟨_, b, b0, c.1, hins, by omega, hb, hgrow, inv0.shape.lt c hm, ?_, rfl,
    by rw [hb1], ?_⟩
  · rw [inv0.shape.ptrs c hm, hcy]
  · intro k l hl
    obtain ⟨bm, hbm⟩ := ti.bucket (cb.hashKey k)
    obtain ⟨gm, invm⟩ := ti.inv _ bm hbm
    rw [lookupByKey_eq cb k 0 hbm] at hl
    have hl1 := lookupHead_sound invm (keyPred_key hc k) hl
    by_cases hmn : cb.hashKey k &&& t.bucketsMask = cb.hashElement e true &&& t.bucketsMask
    · have hbm1 := hbm
      rw [hmn, hb] at hbm1
      cases hbm1
      have hbn : (t.setBucket (cb.hashElement e true &&& t.bucketsMask) b1).buckets[
          cb.hashKey k &&&
            (t.setBucket (cb.hashElement e true &&& t.bucketsMask) b1).bucketsMask]? =
          some b1 := by
        show (t.buckets.set _ b1)[cb.hashKey k &&& t.bucketsMask]? = some b1
        rw [hmn]
        exact getElem?_set_same b1 hb
      rw [lookupByKey_eq cb k 0 hbn,
        lookupHead_total inv1 (keyPred_key hc k) (Or.inr (inv1.free_slot (by omega)))]
      have s1 := inv1.shape
      rw [hgs1] at s1 ⊢
      rw [groupElems_overwrite hc inv0.shape hm heqc s1 (keyPred_key hc k),
        lookupHead_sound inv (keyPred_key hc k) hl,
        groupElems_congr inv.shape inv0.shape (keyPred_key hc k) hcont]
      simp only [List.map_map]
      rfl
    · have hbn : (t.setBucket (cb.hashElement e true &&& t.bucketsMask) b1).buckets[
          cb.hashKey k &&&
            (t.setBucket (cb.hashElement e true &&& t.bucketsMask) b1).bucketsMask]? =
          some bm := by
        show (t.buckets.set _ b1)[cb.hashKey k &&& t.bucketsMask]? = some bm
        rw [getElem?_set_other b1 hmn]
        exact hbm
      rw [lookupByKey_eq cb k 0 hbn, hl, hl1]
      simp only [List.map_map]
      congr 1
      apply List.map_congr_left
      intro x hx
      simp only [Function.comp_apply, Option.map_some', Option.some.injEq]
      by_cases hex : cb.isEqualElementElement e x = true
      · exfalso
        apply hmn
        have h1 := (groupElems_subset hc invm.shape (keyPred_key hc k) hx).1
        have h2 := ti.home _ bm hbm x ((elements_perm invm.shape).mem_iff.2 h1)
        rw [← h2, hc.hash_key e x (hc.eq_key e x hex)]
      · rw [if_neg hex]

theorem insert_overwrite_witness :
    ∃ t1 b b0 i, insert pairCallbacks nearPrimeFrom7 (tableOf [(1, 1), (1, 2), (2, 3)] 4) (1, 2)
        true true = some (t1, some (1, 2)) ∧
      size t1 = size (tableOf [(1, 1), (1, 2), (2, 3)] 4) ∧
      (tableOf [(1, 1), (1, 2), (2, 3)] 4).buckets[pairCallbacks.hashElement (1, 2) true &&&
        (tableOf [(1, 1), (1, 2), (2, 3)] 4).bucketsMask]? = some b ∧
      growBucket pairCallbacks nearPrimeFrom7 b = some b0 ∧ i < b0.nrAlloc ∧
      (b0.table i).ptr = some (1, 2) ∧
      t1.bucketsMask = (tableOf [(1, 1), (1, 2), (2, 3)] 4).bucketsMask ∧
      t1.buckets = (tableOf [(1, 1), (1, 2), (2, 3)] 4).buckets.set
        (pairCallbacks.hashElement (1, 2) true &&&
          (tableOf [(1, 1), (1, 2), (2, 3)] 4).bucketsMask)
        (b0.set i { b0.table i with ptr := some (1, 2) }) ∧
      ∀ k l, lookupByKey pairCallbacks (tableOf [(1, 1), (1, 2), (2, 3)] 4) k 0 = some l →
        lookupByKey pairCallbacks t1 k 0 = some (l.map (Option.map fun x =>
          if pairCallbacks.isEqualElementElement (1, 2) x then (1, 2) else x)) :=
  insert_overwrite pairCallbacks_contract nearPrimeFrom7_ge
    (reachable_tableOf [(1, 1), (1, 2), (2, 3)] (by decide)) (1, 2) (1, 2) (by decide)
    (by decide)

/-! ## The removal from a reachable table -/

/-- The removal of a stored element in terms of its bucket `b`, which becomes `b1`; `pre` and
`post` are the members of the list of the element before and after it. -/
theorem remove_table_spec {cb : Callbacks K E} (hc : Contract cb) {t : Multi E}
    (ti : TInv cb t) {e y : E} (hy : y ∈ elements t)
    (heq : cb.isEqualElementElement e y = true)
    {b : Bucket E} (hb : t.buckets[cb.hashElement e true &&& t.bucketsMask]? = some b)
    {gs : List (Group E)} (inv : BInv cb b gs) :
    ∃ c b1 gs1 pre post,
      c ∈ cells gs ∧ c.2 = y ∧
      remove cb t e =
        some (t.setBucket (cb.hashElement e true &&& t.bucketsMask) b1, some y) ∧
      BInv cb b1 gs1 ∧ b1.nrAlloc = b.nrAlloc ∧ b1.nrUsed + 1 = b.nrUsed ∧
      (∀ x ∈ b1.elements, x ∈ b.elements ∧ cb.isEqualElementElement e x = false) ∧
      (∀ (keyP : E → Bool) (hk : Nat), KeyPred cb keyP hk → keyP c.2 = true →
        groupElems keyP gs = (pre ++ c :: post).map Prod.snd ∧
        groupElems keyP gs1 = (pre ++ post).map Prod.snd) ∧
      (∀ (keyP : E → Bool) (hk : Nat), KeyPred cb keyP hk → keyP c.2 = false →
        groupElems keyP gs1 = groupElems keyP gs) ∧
      TInv cb (t.setBucket (cb.hashElement e true &&& t.bucketsMask) b1) := by
  obtain ⟨c, hm, hcy⟩ := ti.cell_of_equal hc hy heq hb inv
  obtain ⟨b1, gs1, pre, post, h1, inv1, hal, hus, hsub, hseq, hframe⟩ :=
    removeBucket_obs hc inv hm (by rw [hcy]; exact heq)
  have hrem : remove cb t e =
      some (t.setBucket (cb.hashElement e true &&& t.bucketsMask) b1, some y) := by
    rw [remove_eq cb e hb, h1, hcy]
    rfl
  have hsub1 : ∀ x ∈ b1.elements, x ∈ b.elements ∧ cb.isEqualElementElement e x = false := by
    intro x hx
    have := hsub x ((elements_perm inv1.shape).mem_iff.1 hx)
    exact ⟨(elements_perm inv.shape).mem_iff.2 this.1, this.2⟩
  exact ⟨c, b1, gs1, pre, post, hm, hcy, hrem, inv1, hal, hus, hsub1, hseq,
    hframe, ti.remove hc hrem⟩

theorem getElem?_setBucket_same {t : Multi E} {n : Nat} {b : Bucket E} (b1 : Bucket E)
    (hb : t.buckets[n]? = some b) {h : Nat} (hn : h &&& t.bucketsMask = n) :
    (t.setBucket n b1).buckets[h &&& (t.setBucket n b1).bucketsMask]? = some b1 := by
  show (t.buckets.set n b1)[h &&& t.bucketsMask]? = some b1
  rw [hn]
  exact getElem?_set_same b1 hb

theorem getElem?_setBucket_other {t : Multi E} {n : Nat} (b1 : Bucket E) {bm : Bucket E}
    {h : Nat} (hbm : t.buckets[h &&& t.bucketsMask]? = some bm)
    (hn : h &&& t.bucketsMask ≠ n) :
    (t.setBucket n b1).buckets[h &&& (t.setBucket n b1).bucketsMask]? = some bm := by
  show (t.buckets.set n b1)[h &&& t.bucketsMask]? = some bm
  rw [getElem?_set_other b1 hn]
  exact hbm

/-- After the removal of a stored element no stored element is equal to it. -/
theorem remove_absent_after {cb : Callbacks K E} (hc : Contract cb) {t : Multi E}
    (ti : TInv cb t) {e : E} {b b1 : Bucket E}
    (hb : t.buckets[cb.hashElement e true &&& t.bucketsMask]? = some b)
    (hsub : ∀ x ∈ b1.elements, x ∈ b.elements ∧ cb.isEqualElementElement e x = false) :
    ∀ x ∈ elements (t.setBucket (cb.hashElement e true &&& t.bucketsMask) b1),
      cb.isEqualElementElement e x = false := by
  intro x hx
  obtain ⟨m, bm, hm, hxm⟩ := mem_elements.1 hx
  by_cases hmn : m = cb.hashElement e true &&& t.bucketsMask
  · subst hmn
    have : (t.buckets.set (cb.hashElement e true &&& t.bucketsMask) b1)[
        cb.hashElement e true &&& t.bucketsMask]? = some bm := hm
    rw [getElem?_set_same b1 hb] at this
    cases this
    exact (hsub x hxm).2
  · have : (t.buckets.set (cb.hashElement e true &&& t.bucketsMask) b1)[m]? = some bm := hm
    rw [getElem?_set_other b1 hmn] at this
    by_contra hne
    have hne : cb.isEqualElementElement e x = true := by simpa using hne
    apply hmn
    rw [← ti.home m bm this x hxm, hc.hash_key e x (hc.eq_key e x hne)]

/-- C7: for every reachable table and stored record R, after `remove(R)` the call `lookup(R)`
returns null and the sequence returned by `lookupByKey` for the key of R does not contain
R. -/
theorem remove_then_lookup {cb : Callbacks K E} {nearPrime : Nat → Nat}
    (hc : Contract cb) (hnp : ∀ n, n ≤ nearPrime n) {t : Multi E}
    (hr : Reachable cb nearPrime t) (e y : E) (hy : y ∈ elements t)
    (heq : cb.isEqualElementElement e y = true) :
    ∃ t1, remove cb t e = some (t1, some y) ∧ lookup cb t1 e = some none ∧
      ∀ k, cb.isEqualKeyElement k e = true →
        ∃ l : List E, lookupByKey cb t1 k 0 = some (l.map some) ∧
          ∀ x ∈ l, cb.isEqualElementElement e x = false := by
  have ti := hr.tinv hc hnp
  obtain ⟨b, hb⟩ := ti.bucket (cb.hashElement e true)
  obtain ⟨gs, inv⟩ := ti.inv _ b hb
  obtain ⟨c, b1, gs1, pre, post, hm, hcy, hrem, inv1, hal, hus, hsub, hseq, _,
    ti1⟩ := remove_table_spec hc ti hy heq hb inv
  have hle := inv.shape.length_le
  rw [← inv.used] at hle
  have hb1 := getElem?_setBucket_same b1 hb (rfl : cb.hashElement e true &&& t.bucketsMask = _)
  have hfree1 : hasFreeSlot (t.setBucket (cb.hashElement e true &&& t.bucketsMask) b1)
      (cb.hashElement e true) = true := (hasFreeSlot_iff hb1).2 (by omega)
  have habs1 := remove_absent_after hc ti hb hsub
  refine ⟨_, hrem, lookup_absent hc ti1 habs1 hfree1, ?_⟩
  intro k hk
  have hkh : cb.hashKey k = cb.hashElement e true := hc.keyEl_hash k e hk
  have hbk := getElem?_setBucket_same b1 hb
    (show cb.hashKey k &&& t.bucketsMask = _ by rw [hkh])
  refine ⟨_, lookupByKey_spec hc ti1 k hbk inv1
    (Or.inr ((hasFreeSlot_iff hbk).2 (by omega))), ?_⟩
  intro x hx
  have h1 := (groupElems_subset hc inv1.shape (keyPred_key hc k) hx).1
  exact (hsub x ((elements_perm inv1.shape).mem_iff.2 h1)).2

theorem remove_then_lookup_witness :
    ∃ t1, remove pairCallbacks (tableOf [(1, 1), (1, 2), (2, 3), (1, 4)] 7) (1, 1) =
        some (t1, some (1, 1)) ∧
      lookup pairCallbacks t1 (1, 1) = some none ∧
      ∀ k, pairCallbacks.isEqualKeyElement k (1, 1) = true →
        ∃ l : List (Nat × Nat), lookupByKey pairCallbacks t1 k 0 = some (l.map some) ∧
          ∀ x ∈ l, pairCallbacks.isEqualElementElement (1, 1) x = false :=
  remove_then_lookup pairCallbacks_contract nearPrimeFrom7_ge
    (reachable_tableOf [(1, 1), (1, 2), (2, 3), (1, 4)] (by decide)) (1, 1) (1, 1)
    (by decide) (by decide)

/-- C8: for every reachable table and stored record R, `remove(R)` returns the stored record,
and the sequence that `lookupByKey` returns for the key of R is afterwards the previous
sequence with R erased and the order of the other records kept: if R was the first record and
had successors, the first successor is the first record now, and if R was the only record of
its key the sequence is empty. -/
theorem remove_sequence {cb : Callbacks K E} {nearPrime : Nat → Nat}
    (hc : Contract cb) (hnp : ∀ n, n ≤ nearPrime n) {t : Multi E}
    (hr : Reachable cb nearPrime t) (e y : E) (hy : y ∈ elements t)
    (heq : cb.isEqualElementElement e y = true) :
    ∃ t1 pre post, remove cb t e = some (t1, some y) ∧
      ∀ k, cb.isEqualKeyElement k e = true →
        lookupByKey cb t k 0 = some ((pre ++ y :: post).map some) ∧
        lookupByKey cb t1 k 0 = some ((pre ++ post).map some) := by
  have ti := hr.tinv hc hnp
  obtain ⟨b, hb⟩ := ti.bucket (cb.hashElement e true)
  obtain ⟨gs, inv⟩ := ti.inv _ b hb
  obtain ⟨c, b1, gs1, pre, post, hm, hcy, hrem, inv1, hal, hus, hsub, hseq, _,
    ti1⟩ := remove_table_spec hc ti hy heq hb inv
  have hle := inv.shape.length_le
  rw [← inv.used] at hle
  have hb1 := getElem?_setBucket_same b1 hb (rfl : cb.hashElement e true &&& t.bucketsMask = _)
  refine ⟨_, pre.map Prod.snd, post.map Prod.snd, hrem, ?_⟩
  intro k hk
  have hkh : cb.hashKey k = cb.hashElement e true := hc.keyEl_hash k e hk
  have hky : cb.isEqualKeyElement k y = true := hc.keyEl_congr k e y hk (hc.eq_key e y heq)
  have hbk := getElem?_setBucket_same b1 hb
    (show cb.hashKey k &&& t.bucketsMask = _ by rw [hkh])
  have hbk0 := hb
  rw [← hkh] at hbk0
  obtain ⟨h1, h2⟩ := hseq _ _ (keyPred_key hc k) (by rw [hcy]; exact hky)
  constructor
  · rw [lookupByKey_spec hc ti k hbk0 inv (Or.inl ⟨y, hy, hky⟩), h1, ← hcy]
    simp
  · rw [lookupByKey_spec hc ti1 k hbk inv1 (Or.inr ((hasFreeSlot_iff hbk).2 (by omega))), h2]
    simp

theorem remove_sequence_witness :
    ∃ t1 pre post, remove pairCallbacks (tableOf [(1, 1), (1, 2), (2, 3), (1, 4)] 7) (1, 1) =
        some (t1, some (1, 1)) ∧
      ∀ k, pairCallbacks.isEqualKeyElement k (1, 1) = true →
        lookupByKey pairCallbacks (tableOf [(1, 1), (1, 2), (2, 3), (1, 4)] 7) k 0 =
          some ((pre ++ (1, 1) :: post).map some) ∧
        lookupByKey pairCallbacks t1 k 0 = some ((pre ++ post).map some) :=
  remove_sequence pairCallbacks_contract nearPrimeFrom7_ge
    (reachable_tableOf [(1, 1), (1, 2), (2, 3), (1, 4)] (by decide)) (1, 1) (1, 1)
    (by decide) (by decide)

/-- C9 (amended): for every reachable table and every record R such that no stored record is
full-equal to R and the bucket of R has an unused slot, `remove(R)` returns null and leaves
the whole state of the table unchanged: every slot and the capacity, the number of used slots
and the number of collisions of every bucket. -/
theorem remove_absent {cb : Callbacks K E} {nearPrime : Nat → Nat}
    (hc : Contract cb) (hnp : ∀ n, n ≤ nearPrime n) {t : Multi E}
    (hr : Reachable cb nearPrime t) (e : E)
    (habs : ∀ y ∈ elements t, cb.isEqualElementElement e y = false)
    (hfree : hasFreeSlot t (cb.hashElement e true) = true) :
    remove cb t e = some (t, none) := by
  have ti := hr.tinv hc hnp
  obtain ⟨b, hb⟩ := ti.bucket (cb.hashElement e true)
  obtain ⟨gs, inv⟩ := ti.inv _ b hb
  rw [remove_eq cb e hb, removeBucket_absent hc inv
    (inv.free_slot ((hasFreeSlot_iff hb).1 hfree)) (TInv.absent_cells habs hb inv)]
  exact congrArg (fun x => some (x, none)) (set_same hb)

theorem remove_absent_witness :
    remove pairCallbacks (tableOf [(1, 1), (1, 2), (2, 3), (1, 4)] 7) (1, 3) =
      some (tableOf [(1, 1), (1, 2), (2, 3), (1, 4)] 7, none) :=
  remove_absent pairCallbacks_contract nearPrimeFrom7_ge
    (reachable_tableOf [(1, 1), (1, 2), (2, 3), (1, 4)] (by decide)) (1, 3)
    (by decide) (by decide)

/-- C9 fails as stated: in the full bucket of three slots no stored record is full-equal to
the record (4, 4), and the probe loops of `remove((4, 4))` meet no empty slot: the call
returns no result, not null. -/
theorem remove_full_bucket :
    Reachable pairCallbacks nearPrimeFrom7 (tableOf [(1, 1), (2, 2), (3, 3)] 3) ∧
    elements (tableOf [(1, 1), (2, 2), (3, 3)] 3) = [(3, 3), (1, 1), (2, 2)] ∧
    size (tableOf [(1, 1), (2, 2), (3, 3)] 3) = 3 ∧
    capacity (tableOf [(1, 1), (2, 2), (3, 3)] 3) = 3 ∧
    (remove pairCallbacks (tableOf [(1, 1), (2, 2), (3, 3)] 3) (4, 4)).isNone = true :=
  ⟨reachable_tableOf _ (by decide), by decide, by decide, by decide, by decide⟩

/-! ## The order of the records of one key -/

theorem KeySeq.lookupByKey {cb : Callbacks K E} {t : Multi E} (hc : Contract cb) {k : K}
    {x : E} {l : List E} (h : KeySeq cb t k (x :: l)) :
    AssocMulti.lookupByKey cb t k 0 = some ((x :: l).map some) := by
  obtain ⟨b, gs, hb, inv, hl⟩ := h
  rw [lookupByKey_eq cb k 0 hb, ← hl]
  apply lookupHead_total inv (keyPred_key hc k)
  left
  by_contra hne
  push_neg at hne
  have := @groupElems_of_absent E gs (cb.isEqualKeyElement k)
    (fun g hg => by simpa using hne g hg)
  rw [hl] at this
  cases this

theorem KeySeq.of_absent {cb : Callbacks K E} {t : Multi E} (ti : TInv cb t) {k : K}
    (habs : ∀ y ∈ elements t, cb.isEqualKeyElement k y = false) : KeySeq cb t k [] := by
  obtain ⟨b, hb⟩ := ti.bucket (cb.hashKey k)
  obtain ⟨gs, inv⟩ := ti.inv _ b hb
  refine ⟨b, gs, hb, inv, groupElems_of_absent fun g hg => ?_⟩
  exact habs _ (mem_elements.2 ⟨_, b, hb, inv.mem_elements_iff.2 ⟨g.head, head_mem_cells hg, rfl⟩⟩)

/-- The insertion of a record that is not stored puts it behind the first record of its key,
or makes it the first record if the key has none. -/
theorem insert_new_seq {cb : Callbacks K E} {nearPrime : Nat → Nat} (hc : Contract cb)
    (hnp : ∀ n, n ≤ nearPrime n) {t : Multi E} (ti : TInv cb t) {k : K} {e : E}
    (ow chk : Bool) (hk : cb.isEqualKeyElement k e = true)
    (habs : ∀ y ∈ elements t, cb.isEqualElementElement e y = false) {l : List E}
    (hl : KeySeq cb t k l) :
    ∃ t1, insert cb nearPrime t e ow chk = some (t1, none) ∧ TInv cb t1 ∧
      KeySeq cb t1 k (spliceSecond e l) ∧
      ∀ y ∈ elements t1, y = e ∨ y ∈ elements t := by
  obtain ⟨b, gs, hb, inv, hseq⟩ := hl
  have hkh : cb.hashKey k = cb.hashElement e true := hc.keyEl_hash k e hk
  have hbe := hb
  rw [hkh] at hbe
  obtain ⟨b0, gs0, b1, r, gs1, _, inv0, hcont, _, _, _, _, hins, inv1, _, hrel, _, _, ti1⟩ :=
    insert_table_spec hc hnp ti e ow chk (Or.inr habs) hbe inv
  have habs0 := TInv.absent_cells_grown habs hbe inv hcont
  have hr : r = none := hrel.result_none.2 habs0
  subst hr
  refine ⟨_, hins, ti1, ⟨b1, gs1, ?_, inv1, ?_⟩, ?_⟩
  · exact getElem?_setBucket_same b1 hbe (by rw [hkh])
  · rw [hrel.seq_new hc inv0.shape inv1.shape habs0 (keyPred_key hc k) hk,
      groupElems_congr inv.shape inv0.shape (keyPred_key hc k) hcont, hseq]
  · intro y hy
    obtain ⟨m, bm, hm, hym⟩ := mem_elements.1 hy
    by_cases hmn : m = cb.hashElement e true &&& t.bucketsMask
    · subst hmn
      have : (t.buckets.set (cb.hashElement e true &&& t.bucketsMask) b1)[
          cb.hashElement e true &&& t.bucketsMask]? = some bm := hm
      rw [getElem?_set_same b1 hbe] at this
      cases this
      rcases insertBucket_home inv hcont inv1 hrel hym with h | h
      · exact Or.inl h
      · exact Or.inr (mem_elements.2 ⟨_, b, hbe, h⟩)
    · have : (t.buckets.set (cb.hashElement e true &&& t.bucketsMask) b1)[m]? = some bm := hm
      rw [getElem?_set_other b1 hmn] at this
      exact Or.inr (mem_elements.2 ⟨m, bm, this, hym⟩)

theorem insertAll_seq {cb : Callbacks K E} {nearPrime : Nat → Nat} (hc : Contract cb)
    (hnp : ∀ n, n ≤ nearPrime n) {k : K} (ow chk : Bool) (rs : List E) :
    ∀ (t : Multi E) (x : E) (acc : List E), TInv cb t → KeySeq cb t k (x :: acc) →
      (∀ r ∈ rs, cb.isEqualKeyElement k r = true) →
      (∀ r ∈ rs, ∀ y ∈ elements t, cb.isEqualElementElement r y = false) →
      rs.Pairwise (fun a b => cb.isEqualElementElement a b = false) →
      ∃ t1, insertAll cb nearPrime ow chk t rs = some t1 ∧
        KeySeq cb t1 k (x :: (rs.reverse ++ acc)) := by
  induction rs with
  | nil =>
    intro t x acc _ hl _ _ _
    exact ⟨t, rfl, by simpa using hl⟩
  | cons q qs ih =>
    intro t x acc ti hl hkey habs hpw
    obtain ⟨t1, h1, ti1, hl1, hsub⟩ := insert_new_seq hc hnp ti ow chk
      (hkey q (List.mem_cons_self _ _)) (habs q (List.mem_cons_self _ _)) hl
    have hpw1 := List.pairwise_cons.1 hpw
    obtain ⟨t2, h2, hl2⟩ := ih t1 x (q :: acc) ti1 hl1
      (fun r hr => hkey r (List.mem_cons_of_mem _ hr))
      (fun r hr y hy => by
        rcases hsub y hy with h | h
        · subst h
          by_contra hne
          have hne : cb.isEqualElementElement r y = true := by simpa using hne
          have := hc.eq_symm _ _ hne
          rw [hpw1.1 r hr] at this
          cases this
        · exact habs r (List.mem_cons_of_mem _ hr) y h)
      hpw1.2
    refine ⟨t2, ?_, ?_⟩
    · unfold insertAll
      rw [h1]
      exact h2
    · simpa using hl2

/-- C10: for every n ≥ 1 and records r1, ..., rn that share one key and are pairwise not
full-equal, the insertion of the records in this order into a reachable table that holds no
record of that key makes `lookupByKey` of that key return `[r1, rn, ..., r2]`: the first
record stays the head and every later record is put directly behind the head; this holds also
when the bucket is extended between the insertions. -/
theorem insert_order {cb : Callbacks K E} {nearPrime : Nat → Nat} (hc : Contract cb)
    (hnp : ∀ n, n ≤ nearPrime n) {t : Multi E} (hr : Reachable cb nearPrime t) (k : K)
    (r1 : E) (rs : List E) (ow chk : Bool)
    (hkey : ∀ r ∈ r1 :: rs, cb.isEqualKeyElement k r = true)
    (hne : (r1 :: rs).Pairwise fun a b => cb.isEqualElementElement a b = false)
    (habs : ∀ y ∈ elements t, cb.isEqualKeyElement k y = false) :
    ∃ t1, insertAll cb nearPrime ow chk t (r1 :: rs) = some t1 ∧
      lookupByKey cb t1 k 0 = some ((r1 :: rs.reverse).map some) := by
  have ti := hr.tinv hc hnp
  have hfar : ∀ r ∈ r1 :: rs, ∀ y ∈ elements t, cb.isEqualElementElement r y = false := by
    intro r hr1 y hy
    by_contra h
    have h : cb.isEqualElementElement r y = true := by simpa using h
    have := hc.keyEl_congr k r y (hkey r hr1) (hc.eq_key r y h)
    rw [habs y hy] at this
    cases this
  obtain ⟨t1, h1, ti1, hl1, hsub⟩ := insert_new_seq hc hnp ti ow chk
    (hkey r1 (List.mem_cons_self _ _)) (hfar r1 (List.mem_cons_self _ _))
    (KeySeq.of_absent ti habs)
  have hpw1 := List.pairwise_cons.1 hne
  obtain ⟨t2, h2, hl2⟩ := insertAll_seq hc hnp ow chk rs t1 r1 [] ti1 hl1
    (fun r hr1 => hkey r (List.mem_cons_of_mem _ hr1))
    (fun r hr1 y hy => by
      rcases hsub y hy with h | h
      · subst h
        by_contra hne1
        have hne1 : cb.isEqualElementElement r y = true := by simpa using hne1
        have := hc.eq_symm _ _ hne1
        rw [hpw1.1 r hr1] at this
        cases this
      · exact hfar r (List.mem_cons_of_mem _ hr1) y h)
    hpw1.2
  refine ⟨t2, ?_, ?_⟩
  · unfold insertAll
    rw [h1]
    exact h2
  · rw [List.append_nil] at hl2
    exact hl2.lookupByKey hc

theorem insert_order_witness :
    ∃ t1, insertAll pairCallbacks nearPrimeFrom7 false true (tableOf [(2, 3)] 2)
        [(1, 1), (1, 2), (1, 3), (1, 4)] = some t1 ∧
      lookupByKey pairCallbacks t1 1 0 =
        some (((1, 1) :: [(1, 2), (1, 3), (1, 4)].reverse).map some) :=
  insert_order pairCallbacks_contract nearPrimeFrom7_ge
    (reachable_tableOf [(2, 3)] (by decide)) 1 (1, 1) [(1, 2), (1, 3), (1, 4)] false true
    (by decide) (by decide) (by decide)

/-! ## The lookup by key with a limit -/

theorem collect_limit (b : Bucket E) {limit : Nat} (hlim : 0 < limit) :
    ∀ (l : List (Nat × E)) (c : Nat × E) (fuel : Nat) (acc : List (Option E)),
      (c :: l).Chain' (Linked b.table) →
      (∀ x ∈ c :: l, (b.table x.1).ptr = some x.2) →
      (∀ x ∈ (c :: l).getLast?, (b.table x.1).next = none) →
      l.length < fuel → acc.length < limit →
      collect b limit fuel c.1 acc =
        some (acc ++ ((c :: l).map fun x => some x.2).take (limit - acc.length)) := by
  intro l
  induction l with
  | nil =>
    intro c fuel acc _ hp hl hf hacc
    obtain ⟨f, rfl⟩ : ∃ f, fuel = f + 1 := ⟨fuel - 1, by simp at hf; omega⟩
    have h1 : (b.table c.1).next = none := hl c (by simp)
    have h2 := hp c (by simp)
    obtain ⟨m, hm⟩ : ∃ m, limit - acc.length = m + 1 := ⟨limit - acc.length - 1, by omega⟩
    simp [collect, h1, h2, hm]
  | cons y l ih =>
    intro c fuel acc hch hp hl hf hacc
    obtain ⟨f, rfl⟩ : ∃ f, fuel = f + 1 := ⟨fuel - 1, by simp at hf; omega⟩
    rw [List.chain'_cons] at hch
    have h1 : (b.table c.1).next = some y.1 := hch.1.1
    have h2 := hp c (by simp)
    obtain ⟨m, hm⟩ : ∃ m, limit - acc.length = m + 1 := ⟨limit - acc.length - 1, by omega⟩
    unfold collect
    simp only [h1, h2]
    by_cases hlt : (acc ++ [some c.2]).length < limit
    · have := ih y f (acc ++ [some c.2]) hch.2 (fun x hx => hp x (List.mem_cons_of_mem _ hx))
        (fun x hx => hl x (by simpa [List.getLast?_cons_cons] using hx))
        (by simp at hf; omega) hlt
      have hm2 : limit - (acc ++ [some c.2]).length = m := by
        simp only [List.length_append, List.length_singleton]; omega
      simp only [hlt, decide_True, Bool.or_true, if_true, this, hm2, hm]
      simp
    · have h0 : (limit == 0) = false := by
        rw [beq_eq_false_iff_ne]; omega
      have hm0 : m = 0 := by
        simp only [List.length_append, List.length_singleton] at hlt; omega
      simp only [hlt, h0, decide_False, Bool.or_false, Bool.false_eq_true, if_false, hm, hm0]
      simp

theorem collect_group_limit {cb : Callbacks K E} {b : Bucket E} {gs : List (Group E)}
    (s : Shape cb b gs) {g : Group E} (hg : g ∈ gs) {limit : Nat} (hlim : 0 < limit) :
    collect b limit b.nrAlloc g.head.1 [] = some ((g.elems.map some).take limit) := by
  have := collect_limit b hlim g.rest g.head b.nrAlloc [] (s.links g hg)
    (fun x hx => s.ptrs x (mem_cells.2 ⟨g, hg, by simpa using hx⟩)) (s.last g hg)
    (s.group_length hg) hlim
  rw [this]
  simp only [Group.elems, Group.cells, List.nil_append, List.length_nil, Nat.sub_zero,
    List.map_map]
  rfl

/-- A lookup by key with a limit yields the first elements of the lookup without limit. -/
theorem lookupHead_limit {cb : Callbacks K E} {b : Bucket E} {gs : List (Group E)}
    (inv : BInv cb b gs) {keyP : E → Bool} {hk : Nat} (kp : KeyPred cb keyP hk)
    {limit : Nat} (hlim : 0 < limit) :
    lookupHead b keyP hk limit = (lookupHead b keyP hk 0).map (List.take limit) := by
  simp only [lookupHead]
  cases hp : probe b (headCont keyP hk) b.nrAlloc (hashToIndex hk % b.nrAlloc) with
  | none => rfl
  | some i =>
    simp only [Option.some_bind]
    obtain ⟨_, _, h3⟩ := probe_head_sound inv kp hp
    rcases h3 with ⟨hfree, _⟩ | ⟨g, hg, hkey, rfl⟩
    · simp [hfree]
    · simp only [inv.shape.ptrs g.head (head_mem_cells hg), Option.isSome_some, if_true,
        collect_group inv.shape hg, collect_group_limit inv.shape hg hlim, Option.map_some']

/-- C11 (amended): for every reachable table, every key K that is stored or whose bucket has
an unused slot, and every limit ≥ 1: `lookupByKey(K, 0)` returns the whole sequence of the
records of K, and `lookupByKey(K, limit)` returns the first `min(limit, n)` elements of that
sequence, where n is the number of records of K. -/
theorem lookupByKey_limit {cb : Callbacks K E} {nearPrime : Nat → Nat} (hc : Contract cb)
    (hnp : ∀ n, n ≤ nearPrime n) {t : Multi E} (hr : Reachable cb nearPrime t) (key : K)
    (limit : Nat) (hlim : 1 ≤ limit)
    (hfree : (∃ y ∈ elements t, cb.isEqualKeyElement key y = true) ∨
      hasFreeSlot t (cb.hashKey key) = true) :
    ∃ l : List E, l.Perm ((elements t).filter (cb.isEqualKeyElement key)) ∧
      lookupByKey cb t key 0 = some (l.map some) ∧
      lookupByKey cb t key limit = some ((l.take (min limit l.length)).map some) := by
  have ti := hr.tinv hc hnp
  obtain ⟨b, hb⟩ := ti.bucket (cb.hashKey key)
  obtain ⟨gs, inv⟩ := ti.inv _ b hb
  have h1 : lookupByKey cb t key limit = (lookupByKey cb t key 0).map (List.take limit) := by
    rw [lookupByKey_eq cb key limit hb, lookupByKey_eq cb key 0 hb]
    exact lookupHead_limit inv (keyPred_key hc key) hlim
  refine ⟨_, elements_filter_key hc ti key hb inv, lookupByKey_spec hc ti key hb inv hfree, ?_⟩
  rw [h1, lookupByKey_spec hc ti key hb inv hfree]
  simp only [Option.map_some', List.map_take, List.take_eq_take, List.length_map]
  congr 1
  rw [List.take_eq_take]
  simp

theorem lookupByKey_limit_witness :
    ∃ l : List (Nat × Nat),
      l.Perm ((elements (tableOf [(1, 1), (1, 2), (2, 3), (1, 4)] 7)).filter
        (pairCallbacks.isEqualKeyElement 1)) ∧
      lookupByKey pairCallbacks (tableOf [(1, 1), (1, 2), (2, 3), (1, 4)] 7) 1 0 =
        some (l.map some) ∧
      lookupByKey pairCallbacks (tableOf [(1, 1), (1, 2), (2, 3), (1, 4)] 7) 1 2 =
        some ((l.take (min 2 l.length)).map some) :=
  lookupByKey_limit pairCallbacks_contract nearPrimeFrom7_ge
    (reachable_tableOf [(1, 1), (1, 2), (2, 3), (1, 4)] (by decide)) 1 2 (by decide)
    (Or.inr (by decide))

/-- C11 (counterexample): the table with one bucket of three slots is full after the
insertion of three records and no stored record has the key 4; neither `lookupByKey(4, 2)`
nor `lookupByKey(4, 0)` returns a result, since the probe loop meets no empty slot and no
record of the key. -/
theorem lookupByKey_limit_full_bucket :
    Reachable pairCallbacks nearPrimeFrom7 (tableOf [(1, 1), (2, 2), (3, 3)] 3) ∧
    (tableOf [(1, 1), (2, 2), (3, 3)] 3).buckets.map (fun b => (b.nrUsed, b.nrAlloc)) =
      [(3, 3)] ∧
    lookupByKey pairCallbacks (tableOf [(1, 1), (2, 2), (3, 3)] 3) 4 2 = none ∧
    lookupByKey pairCallbacks (tableOf [(1, 1), (2, 2), (3, 3)] 3) 4 0 = none :=
  ⟨reachable_tableOf _ (by decide), by decide, by decide, by decide⟩

/-! ## The continuation of a lookup by key -/

theorem collectAfter_all (b : Bucket E) :
    ∀ (l : List (Nat × E)) (c : Nat × E) (fuel : Nat) (acc : List (Option E)),
      (c :: l).Chain' (Linked b.table) →
      (∀ x ∈ c :: l, (b.table x.1).ptr = some x.2) →
      (∀ x ∈ (c :: l).getLast?, (b.table x.1).next = none) →
      l.length < fuel →
      collectAfter b 0 fuel c.1 acc = some (acc ++ l.map fun x => some x.2) := by
  intro l
  induction l with
  | nil =>
    intro c fuel acc _ _ hl hf
    obtain ⟨f, rfl⟩ : ∃ f, fuel = f + 1 := ⟨fuel - 1, by simp at hf; omega⟩
    have h1 : (b.table c.1).next = none := hl c (by simp)
    simp [collectAfter, h1]
  | cons y l ih =>
    intro c fuel acc hch hp hl hf
    obtain ⟨f, rfl⟩ : ∃ f, fuel = f + 1 := ⟨fuel - 1, by simp at hf; omega⟩
    rw [List.chain'_cons] at hch
    have h1 : (b.table c.1).next = some y.1 := hch.1.1
    have h2 := hp y (by simp)
    have := ih y f (acc ++ [some y.2]) hch.2 (fun x hx => hp x (List.mem_cons_of_mem _ hx))
      (fun x hx => hl x (by simpa [List.getLast?_cons_cons] using hx))
      (by simp at hf; omega)
    simp only [collectAfter, h1, h2, this, bne_self_eq_false, Bool.false_and,
      Bool.false_eq_true, if_false]
    simp

theorem collectAfter_limit (b : Bucket E) {limit : Nat} (hlim : 0 < limit) :
    ∀ (l : List (Nat × E)) (c : Nat × E) (fuel : Nat) (acc : List (Option E)),
      (c :: l).Chain' (Linked b.table) →
      (∀ x ∈ c :: l, (b.table x.1).ptr = some x.2) →
      (∀ x ∈ (c :: l).getLast?, (b.table x.1).next = none) →
      l.length < fuel → acc.length ≤ limit →
      collectAfter b limit fuel c.1 acc =
        some (acc ++ (l.map fun x => some x.2).take (limit - acc.length)) := by
  intro l
  induction l with
  | nil =>
    intro c fuel acc _ _ hl hf _
    obtain ⟨f, rfl⟩ : ∃ f, fuel = f + 1 := ⟨fuel - 1, by simp at hf; omega⟩
    have h1 : (b.table c.1).next = none := hl c (by simp)
    simp [collectAfter, h1]
  | cons y l ih =>
    intro c fuel acc hch hp hl hf hacc
    obtain ⟨f, rfl⟩ : ∃ f, fuel = f + 1 := ⟨fuel - 1, by simp at hf; omega⟩
    rw [List.chain'_cons] at hch
    have h1 : (b.table c.1).next = some y.1 := hch.1.1
    have h2 := hp y (by simp)
    have hne : (limit != 0) = true := by
      rw [bne_iff_ne]; omega
    unfold collectAfter
    simp only [h1, h2, hne, Bool.true_and]
    by_cases hge : acc.length ≥ limit
    · have h0 : limit - acc.length = 0 := by omega
      simp [hge, h0]
    · have := ih y f (acc ++ [some y.2]) hch.2
        (fun x hx => hp x (List.mem_cons_of_mem _ hx))
        (fun x hx => hl x (by simpa [List.getLast?_cons_cons] using hx))
        (by simp at hf; omega) (by simp only [List.length_append, List.length_singleton]; omega)
      obtain ⟨m, hm⟩ : ∃ m, limit - acc.length = m + 1 := ⟨limit - acc.length - 1, by omega⟩
      have hm2 : limit - (acc ++ [some y.2]).length = m := by
        simp only [List.length_append, List.length_singleton]; omega
      simp only [hge, decide_False, Bool.false_eq_true, if_false, this, hm2, hm]
      simp

/-- The walk along the successors of a member of a list. -/
theorem collectAfter_split {cb : Callbacks K E} {b : Bucket E} {gs : List (Group E)}
    (s : Shape cb b gs) {g : Group E} (hg : g ∈ gs) {c : Nat × E} {pre post : List (Nat × E)}
    (hsplit : g.cells = pre ++ c :: post) (limit : Nat) :
    collectAfter b limit (b.nrAlloc + 1) c.1 [] =
      some ((takeLimit limit (post.map Prod.snd)).map some) := by
  have hch : (c :: post).Chain' (Linked b.table) := by
    have := s.links g hg
    rw [hsplit] at this
    exact this.right_of_append
  have hp : ∀ x ∈ c :: post, (b.table x.1).ptr = some x.2 := by
    intro x hx
    apply s.ptrs x (mem_cells_of_mem hg _)
    rw [hsplit]
    exact List.mem_append_right _ hx
  have hl : ∀ x ∈ (c :: post).getLast?, (b.table x.1).next = none := by
    intro x hx
    apply s.last g hg x
    rw [hsplit, List.getLast?_append]
    simp only [Option.mem_def] at hx
    rw [hx]
    rfl
  have hlen : post.length < b.nrAlloc + 1 := by
    have h1 := s.group_length hg
    have h2 : g.cells.length = g.rest.length + 1 := by simp [Group.cells]
    rw [hsplit] at h2
    simp only [List.length_append, List.length_cons] at h2
    omega
  unfold takeLimit
  by_cases h0 : limit = 0
  · subst h0
    rw [collectAfter_all b post c _ [] hch hp hl hlen]
    simp
  · rw [collectAfter_limit b (by omega) post c _ [] hch hp hl hlen (Nat.zero_le _), if_neg h0]
    simp only [List.nil_append, List.length_nil, Nat.sub_zero, List.map_take, List.map_map]
    rfl

/-- The continuation behind a stored element: the members of its list that follow it, cut at
the limit.  The element is found if it is not the head of its list or if the bucket has a free
slot. -/
theorem continueBucket_spec {cb : Callbacks K E} {b : Bucket E} {gs : List (Group E)}
    (hc : Contract cb) (inv : BInv cb b gs) {g : Group E} (hg : g ∈ gs) {c : Nat × E}
    {pre post : List (Nat × E)} (hsplit : g.cells = pre ++ c :: post) {element : E}
    (heq : cb.isEqualElementElement element c.2 = true) (limit : Nat)
    (hfree : pre ≠ [] ∨ ∃ i, i < b.nrAlloc ∧ (b.table i).ptr = none) :
    continueBucket cb b element limit =
      some (some ((takeLimit limit (post.map Prod.snd)).map some)) := by
  have s := inv.shape
  have hcg : c ∈ g.cells := by rw [hsplit]; simp
  have hm : c ∈ cells gs := mem_cells_of_mem hg hcg
  have hwalk := collectAfter_split s hg hsplit limit
  have hfound : ∀ h, findElementPlace cb b element true = some (c.1, h) →
      continueBucket cb b element limit =
        some (some ((takeLimit limit (post.map Prod.snd)).map some)) := by
    intro h hf
    unfold continueBucket
    simp only [hf, Option.some_bind, s.ptrs c hm, Option.isNone_some, Bool.false_eq_true,
      if_false, hwalk, Option.map_some']
  cases pre with
  | cons p0 pre1 =>
    -- a further member of the list: its slot caches the hash of the element
    have hrest : c ∈ g.rest := by
      have : g.head :: g.rest = p0 :: (pre1 ++ c :: post) := hsplit
      simp only [List.cons.injEq] at this
      rw [this.2]; simp
    have hh : (b.table c.1).hashCache = cb.hashElement element false :=
      (s.restHash g hg c hrest).trans (hc.hash_elm _ _ heq).symm
    exact hfound _ (place_present hc inv hm heq hh)
  | nil =>
    have hfr : ∃ i, i < b.nrAlloc ∧ (b.table i).ptr = none := by
      rcases hfree with h | h
      · exact absurd rfl h
      · exact h
    have hhead : g.head = c := by
      have : g.head :: g.rest = c :: post := hsplit
      simp only [List.cons.injEq] at this
      exact this.1
    obtain ⟨i, hi, hip⟩ := hfr
    have hhome : hashToIndex (cb.hashElement element false) % b.nrAlloc < b.nrAlloc :=
      Nat.mod_lt _ s.cap_pos
    obtain ⟨t, ht⟩ := probe_total b
      (placeCont (cb.isEqualElementElement element) true (cb.hashElement element false))
      b.nrAlloc _ i hhome hi (dist_lt hhome hi) (placeCont_free hip)
    have hf : findElementPlace cb b element true = some (t, cb.hashElement element false) := by
      unfold findElementPlace
      simp only [ht, Option.map_some']
    obtain ⟨_, _, _, hcase⟩ := place_sound s hf
    rcases hcase with hnone | ⟨e1, he1, _, heq1, _⟩
    · -- the search by the hash of the element ends in a free slot: the head is searched
      have hkey : cb.isEqualElementElementByKey element g.head.2 = true := by
        rw [hhead]; exact hc.eq_key _ _ heq
      have hp := probe_head_present inv (keyPred_elm hc element) hg hkey
      simp only at hnone
      unfold continueBucket
      simp only [hf, Option.some_bind, hnone, Option.isNone_none, if_true, hp, hhead,
        s.ptrs c hm, Option.isNone_some, Bool.false_eq_true, if_false, hwalk,
        Option.map_some']
    · have hm1 := s.mem_of_ptr (place_sound s hf).1 he1
      have := s.eq_of_equal hc hm1 hm heq1 heq
      have ht1 : t = c.1 := congrArg Prod.fst this
      rw [ht1] at hf
      exact hfound _ hf

theorem lookupByKeyContinue_eq (cb : Callbacks K E) {t : Multi E} (e : E) (limit : Nat)
    {b : Bucket E} (hb : t.buckets[cb.hashElement e true &&& t.bucketsMask]? = some b) :
    lookupByKeyContinue cb t e limit = continueBucket cb b e limit := by
  unfold lookupByKeyContinue lookupWithElementByKeyContinue
  simp only [hb, Option.some_bind]

/-- The list of a key that a lookup by key has returned. -/
theorem group_of_lookup {cb : Callbacks K E} {b : Bucket E} {gs : List (Group E)}
    (inv : BInv cb b gs) {keyP : E → Bool} {hk : Nat} (kp : KeyPred cb keyP hk)
    {l : List E} (hl : lookupHead b keyP hk 0 = some (l.map some)) (hne : l ≠ []) :
    ∃ g ∈ gs, keyP g.head.2 = true ∧ l = g.cells.map Prod.snd := by
  have h1 := lookupHead_sound inv kp hl
  have h2 : l = groupElems keyP gs :=
    (List.map_injective_iff.2 (Option.some_injective E)) h1
  by_cases hex : ∃ g ∈ gs, keyP g.head.2 = true
  · obtain ⟨g, hg, hkey⟩ := hex
    exact ⟨g, hg, hkey, by rw [h2, groupElems_of_mem inv.shape kp hg hkey]; rfl⟩
  · push_neg at hex
    rw [groupElems_of_absent fun g hg => by simpa using hex g hg] at h2
    exact absurd h2 hne

/-- C12 (amended): for every reachable table, key K with `lookupByKey(K, 0) = [x0, ...,
x(n-1)]`, every position p < n and every limit m, `lookupByKeyContinue(xp, m)` returns
`[x(p+1), ..., x(n-1)]` cut to its first m elements when m ≥ 1 and uncut when m = 0, for
p ≥ 1 always and for p = 0 (xp is the head of the list and is found again through the search
by the key hash) if the bucket of K has an unused slot; hence the records up to xp followed by
the continuation are the first `p + 1 + m` records of the sequence, in their order. -/
theorem lookupByKeyContinue_spec {cb : Callbacks K E} {nearPrime : Nat → Nat}
    (hc : Contract cb) (hnp : ∀ n, n ≤ nearPrime n) {t : Multi E}
    (hr : Reachable cb nearPrime t) (key : K) (l : List E)
    (hl : lookupByKey cb t key 0 = some (l.map some)) (p : Nat) (hp : p < l.length) (m : Nat)
    (hfree : 1 ≤ p ∨ hasFreeSlot t (cb.hashKey key) = true) :
    lookupByKeyContinue cb t l[p] m =
      some (some ((takeLimit m (l.drop (p + 1))).map some)) ∧
    (1 ≤ m → l.take (p + 1) ++ takeLimit m (l.drop (p + 1)) = l.take (p + 1 + m)) := by
  have ti := hr.tinv hc hnp
  obtain ⟨b, hb⟩ := ti.bucket (cb.hashKey key)
  obtain ⟨gs, inv⟩ := ti.inv _ b hb
  have kp := keyPred_key hc key
  rw [lookupByKey_eq cb key 0 hb] at hl
  have hne : l ≠ [] := by
    intro h; rw [h] at hp; simp at hp
  obtain ⟨g, hg, hkey, hlg⟩ := group_of_lookup inv kp hl hne
  have hlen : g.cells.length = l.length := by rw [hlg, List.length_map]
  have hpc : p < g.cells.length := by omega
  have hsplit : g.cells = g.cells.take p ++ g.cells[p] :: g.cells.drop (p + 1) := by
    rw [← List.drop_eq_getElem_cons hpc, List.take_append_drop]
  have hcp : g.cells[p].2 = l[p] := by
    simp only [hlg, List.getElem_map]
  have hcg : g.cells[p] ∈ g.cells := List.getElem_mem _
  have hkc : cb.isEqualKeyElement key l[p] = true := by
    rw [← hcp]
    exact kp.congr _ _ hkey (inv.shape.key_of_mem hc hg hcg)
  have hbe : t.buckets[cb.hashElement l[p] true &&& t.bucketsMask]? = some b := by
    rw [← hc.keyEl_hash key _ hkc]; exact hb
  have hfr : g.cells.take p ≠ [] ∨ ∃ i, i < b.nrAlloc ∧ (b.table i).ptr = none := by
    rcases hfree with h | h
    · left
      intro h0
      have := congrArg List.length h0
      simp only [List.length_take, List.length_nil] at this
      omega
    · exact Or.inr (inv.free_slot ((hasFreeSlot_iff hb).1 h))
  constructor
  · rw [lookupByKeyContinue_eq cb _ m hbe,
      continueBucket_spec hc inv hg hsplit (by rw [hcp]; exact hc.eq_refl _) m hfr,
      List.map_drop, ← hlg]
  · intro hm
    unfold takeLimit
    rw [if_neg (by omega)]
    exact (List.take_add l (p + 1) m).symm

theorem lookupByKeyContinue_spec_witness :
    lookupByKeyContinue pairCallbacks (tableOf [(1, 1), (1, 2), (2, 3), (1, 4), (1, 5)] 7)
        [(1, 1), (1, 5), (1, 4), (1, 2)][0] 2 =
      some (some ((takeLimit 2 ([(1, 1), (1, 5), (1, 4), (1, 2)].drop (0 + 1))).map some)) ∧
    (1 ≤ 2 → [(1, 1), (1, 5), (1, 4), (1, 2)].take (0 + 1) ++
        takeLimit 2 ([(1, 1), (1, 5), (1, 4), (1, 2)].drop (0 + 1)) =
      [(1, 1), (1, 5), (1, 4), (1, 2)].take (0 + 1 + 2)) :=
  lookupByKeyContinue_spec pairCallbacks_contract nearPrimeFrom7_ge
    (reachable_tableOf [(1, 1), (1, 2), (2, 3), (1, 4), (1, 5)] (by decide)) 1
    [(1, 1), (1, 5), (1, 4), (1, 2)] (by decide) 0 (by decide) 2 (Or.inr (by decide))

/-- C12 fails as stated: in the full bucket of three slots `lookupByKey(1, 0)` returns the
one record (1, 1), the head of its list; the search of `lookupByKeyContinue((1, 1), 0)` for
the record by its full hash meets no empty slot and no slot that caches this hash with an
equal record, so the key-hash fallback is never reached and the call returns no result. -/
theorem lookupByKeyContinue_full_bucket :
    Reachable pairCallbacks nearPrimeFrom7 (tableOf [(1, 1), (2, 2), (3, 3)] 3) ∧
    lookupByKey pairCallbacks (tableOf [(1, 1), (2, 2), (3, 3)] 3) 1 0 = some [some (1, 1)] ∧
    lookupByKeyContinue pairCallbacks (tableOf [(1, 1), (2, 2), (3, 3)] 3) (1, 1) 0 = none :=
  ⟨reachable_tableOf _ (by decide), by decide, by decide⟩

/-! ## The counters of used slots -/

theorem BInv.used_eq_elements {cb : Callbacks K E} {b : Bucket E} {gs : List (Group E)}
    (inv : BInv cb b gs) : b.nrUsed = b.elements.length := by
  rw [inv.used, (elements_perm inv.shape).length_eq, List.length_map]

theorem insert_size {cb : Callbacks K E} {nearPrime : Nat → Nat} (hc : Contract cb)
    (hnp : ∀ n, n ≤ nearPrime n) {t : Multi E} (ti : TInv cb t) {e : E} {ow : Bool}
    {x : Multi E × Option E} (h : insert cb nearPrime t e ow true = some x) :
    size x.1 = size t + if x.2.isNone then 1 else 0 := by
  obtain ⟨b, hb⟩ := ti.bucket (cb.hashElement e true)
  obtain ⟨gs, inv⟩ := ti.inv _ b hb
  obtain ⟨b0, gs0, b1, r, gs1, _, inv0, _, _, hu0, _, _, hins, inv1, _, hrel, _, _, _⟩ :=
    insert_table_spec hc hnp ti e ow true (Or.inl rfl) hb inv
  rw [hins] at h
  cases h
  have hsize := size_set b1 hb
  have hlen := hrel.length
  rw [← inv1.used, ← inv0.used, hu0] at hlen
  simp only at hsize ⊢
  omega

theorem remove_size {cb : Callbacks K E} (hc : Contract cb) {t : Multi E} (ti : TInv cb t)
    {e : E} {x : Multi E × Option E} (h : remove cb t e = some x) :
    size x.1 + (if x.2.isSome then 1 else 0) = size t := by
  obtain ⟨b, hb⟩ := ti.bucket (cb.hashElement e true)
  obtain ⟨gs, inv⟩ := ti.inv _ b hb
  rw [remove_eq cb e hb] at h
  by_cases hex : ∃ c ∈ cells gs, cb.isEqualElementElement e c.2 = true
  · obtain ⟨c, hm, heq⟩ := hex
    obtain ⟨b1, gs1, pre, post, h1, inv1, _, hus, _, _⟩ := removeBucket_obs hc inv hm heq
    rw [h1] at h
    simp only [Option.map_some', Option.some.injEq] at h
    subst h
    have hsize := size_set b1 hb
    simp only [Option.isSome_some, if_true] at hsize ⊢
    omega
  · push_neg at hex
    have habs : ∀ c ∈ cells gs, cb.isEqualElementElement e c.2 = false :=
      fun c hm => by simpa using hex c hm
    cases hr : removeBucket cb b e with
    | none => rw [hr] at h; cases h
    | some r =>
      rw [hr] at h
      simp only [Option.map_some', Option.some.injEq] at h
      subst h
      have := removeBucket_absent_sound hc inv habs hr
      subst this
      have hsize := size_set b hb
      simp only [Option.isSome_none, Bool.false_eq_true, if_false] at hsize ⊢
      omega

theorem sum_map_congr (f : Bucket E → Nat) :
    ∀ (l l1 : List (Bucket E)), l1.length = l.length →
      (∀ (n : Nat) (b1 : Bucket E), l1[n]? = some b1 → ∃ b, l[n]? = some b ∧ f b1 = f b) →
      (l1.map f).sum = (l.map f).sum := by
  intro l
  induction l with
  | nil =>
    intro l1 hlen _
    rw [List.length_eq_zero.1 hlen]
  | cons a l ih =>
    intro l1 hlen h
    cases l1 with
    | nil => simp at hlen
    | cons a1 l1 =>
      obtain ⟨b, hb, hf⟩ := h 0 a1 List.getElem?_cons_zero
      simp only [List.getElem?_cons_zero, Option.some.injEq] at hb
      subst hb
      simp only [List.map_cons, List.sum_cons, hf]
      rw [ih l1 (by simpa using hlen) (fun n b1 hn => by
        obtain ⟨b, hb, hf⟩ := h (n + 1) b1 (by simpa using hn)
        exact ⟨b, by simpa using hb, hf⟩)]

theorem resize_size {cb : Callbacks K E} {nearPrime : Nat → Nat} (hc : Contract cb)
    (hnp : ∀ n, n ≤ nearPrime n) {t : Multi E} (ti : TInv cb t) {n : Nat}
    {x : Multi E × ErrorCode} (h : resize cb nearPrime t n = some x) : size x.1 = size t := by
  unfold resize at h
  cases hr : resizeBuckets cb nearPrime (n / t.buckets.length) t.buckets with
  | none => rw [hr] at h; cases h
  | some r =>
    rw [hr] at h
    simp only [Option.map_some', Option.some.injEq] at h
    subst h
    obtain ⟨hlen, hall⟩ := resizeBuckets_spec cb nearPrime _ _ r.1 r.2 hr
    rw [size_eq_sum, size_eq_sum]
    apply sum_map_congr _ _ _ hlen
    intro m b1 hm
    obtain ⟨b, hb, hcase⟩ := hall m b1 hm
    refine ⟨b, hb, ?_⟩
    rcases hcase with rfl | ⟨hguard, hres⟩
    · rfl
    · obtain ⟨gs, inv⟩ := ti.inv m b hb
      have hu := inv.used
      have hn1 := hnp ((2 * (n / t.buckets.length) + 1) % indexRange)
      have hgb := guard_bound _ _ hguard
      obtain ⟨b2, gs2, h2, inv2, _, hcont⟩ := resizeInternal_spec hc inv nearPrime
        ((2 * (n / t.buckets.length) + 1) % indexRange) (by omega)
      rw [hres] at h2
      cases h2
      rw [inv2.used, inv.used, cells_length_of_content hcont]

theorem runOps_spec {cb : Callbacks K E} {nearPrime : Nat → Nat} (hc : Contract cb)
    (hnp : ∀ n, n ≤ nearPrime n) (ops : List (Op E)) :
    ∀ (t0 : Multi E) (i0 r0 : Nat) (t : Multi E) (ins rem : Nat), TInv cb t0 →
      runOps cb nearPrime ops t0 i0 r0 = some (t, ins, rem) →
      TInv cb t ∧ size t + rem + i0 = size t0 + ins + r0 := by
  induction ops with
  | nil =>
    intro t0 i0 r0 t ins rem ti h
    simp only [runOps, Option.some.injEq, Prod.mk.injEq] at h
    obtain ⟨rfl, rfl, rfl⟩ := h
    exact ⟨ti, by omega⟩
  | cons op ops ih =>
    intro t0 i0 r0 t ins rem ti h
    cases op with
    | insert e ow =>
      simp only [runOps] at h
      cases h1 : insert cb nearPrime t0 e ow true with
      | none => rw [h1] at h; cases h
      | some x =>
        rw [h1] at h
        simp only [Option.some_bind] at h
        obtain ⟨ti2, hs⟩ := ih _ _ _ _ _ _ (ti.insert hc hnp (Or.inl rfl) h1) h
        have := insert_size hc hnp ti h1
        refine ⟨ti2, ?_⟩
        obtain ⟨t1, r⟩ := x
        cases r
        · simp only [Option.isNone_none, if_true] at hs this
          omega
        · simp only [Option.isNone_some, Bool.false_eq_true, if_false] at hs this
          omega
    | remove e =>
      simp only [runOps] at h
      cases h1 : remove cb t0 e with
      | none => rw [h1] at h; cases h
      | some x =>
        rw [h1] at h
        simp only [Option.some_bind] at h
        obtain ⟨ti2, hs⟩ := ih _ _ _ _ _ _ (ti.remove hc h1) h
        have := remove_size hc ti h1
        refine ⟨ti2, ?_⟩
        obtain ⟨t1, r⟩ := x
        cases r
        · simp only [Option.isSome_none, Bool.false_eq_true, if_false] at hs this
          omega
        · simp only [Option.isSome_some, if_true] at hs this
          omega
    | resize n =>
      simp only [runOps] at h
      cases h1 : resize cb nearPrime t0 n with
      | none => rw [h1] at h; cases h
      | some x =>
        rw [h1] at h
        simp only [Option.some_bind] at h
        obtain ⟨ti2, hs⟩ := ih _ _ _ _ _ _ (ti.resize hc hnp h1) h
        have := resize_size hc hnp ti h1
        exact ⟨ti2, by omega⟩

theorem size_mk0 (numberBuckets initialSize : Nat) :
    size (Multi.mk0 numberBuckets initialSize : Multi E) = 0 := by
  rw [size_eq_sum]
  apply List.sum_eq_zero
  intro x hx
  simp only [Multi.mk0, List.map_replicate] at hx
  exact (List.eq_of_mem_replicate hx)

/-- C13: in every table that a sequence of calls of insert (with the check of equality),
remove and resize produces from a new table, the counter of used slots of each bucket equals
the number of its slots that hold a record, and `size()` equals the number of insert calls that
returned null minus the number of remove calls that returned a record. -/
theorem size_accounting {cb : Callbacks K E} {nearPrime : Nat → Nat} (hc : Contract cb)
    (hnp : ∀ n, n ≤ nearPrime n) (numberBuckets initialSize : Nat) (h : 0 < initialSize)
    (ops : List (Op E)) (t : Multi E) (ins rem : Nat)
    (hrun : runOps cb nearPrime ops (Multi.mk0 numberBuckets initialSize) 0 0 =
      some (t, ins, rem)) :
    (∀ b ∈ t.buckets, b.nrUsed = b.elements.length) ∧ size t + rem = ins := by
  obtain ⟨ti, hs⟩ := runOps_spec hc hnp ops _ 0 0 t ins rem (TInv.mk0 cb numberBuckets h) hrun
  rw [size_mk0] at hs
  refine ⟨?_, by omega⟩
  intro b hb
  obtain ⟨n, hn⟩ := List.mem_iff_getElem?.1 hb
  obtain ⟨gs, inv⟩ := ti.inv n b hn
  exact inv.used_eq_elements

theorem exampleRun_isSome : exampleRun.isSome = true := by decide

theorem size_accounting_witness :
    ((∀ b ∈ (exampleRun.get exampleRun_isSome).1.buckets, b.nrUsed = b.elements.length) ∧
      size (exampleRun.get exampleRun_isSome).1 + (exampleRun.get exampleRun_isSome).2.2 =
        (exampleRun.get exampleRun_isSome).2.1) ∧
    (exampleRun.get exampleRun_isSome).2.1 = 3 ∧ (exampleRun.get exampleRun_isSome).2.2 = 1 :=
  ⟨size_accounting pairCallbacks_contract nearPrimeFrom7_ge 1 4 (by decide) _ _ _ _
    (Option.some_get exampleRun_isSome).symm, by decide, by decide⟩

/-! ## The invariants of the slots of a reachable table -/

theorem exampleTable_reachable : Reachable pairCallbacks nearPrimeFrom7 exampleTable :=
  reachable_tableOf [(1, 1), (1, 2), (2, 3), (1, 4), (8, 0)] (by decide)

theorem exampleBucket_get : exampleTable.buckets[0]? = some exampleBucket := by rfl

theorem mem_bucket_elements {b : Bucket E} {i : Nat} {e : E} (hi : i < b.nrAlloc)
    (hp : (b.table i).ptr = some e) : e ∈ b.elements := by
  unfold Bucket.elements
  exact List.mem_filterMap.2 ⟨i, List.mem_range.2 hi, hp⟩

/-- The walk along the successors of a stored entry ends. -/
theorem Shape.walk_ends {cb : Callbacks K E} {b : Bucket E} {gs : List (Group E)}
    (s : Shape cb b gs) {c : Nat × E} (hm : c ∈ cells gs) :
    ∃ k, walkToEnd b.table b.nrAlloc c.1 = some k := by
  obtain ⟨g, hg, pre, post, hsplit, _, _⟩ := s.split hm
  have hch : (c :: post).Chain' (Linked b.table) := by
    have := s.links g hg
    rw [hsplit] at this
    exact this.right_of_append
  have hl : ∀ x ∈ (c :: post).getLast?, (b.table x.1).next = none := by
    intro x hx
    apply s.last g hg x
    rw [hsplit, List.getLast?_append]
    simp only [Option.mem_def] at hx
    rw [hx]
    rfl
  have hlen : post.length < b.nrAlloc := by
    have h1 := s.group_length hg
    have h2 : g.cells.length = g.rest.length + 1 := by simp [Group.cells]
    rw [hsplit] at h2
    simp only [List.length_append, List.length_cons] at h2
    omega
  obtain ⟨z, _, hz⟩ := walkToEnd_spec b.table post c b.nrAlloc hch hl hlen
  exact ⟨z.1, hz⟩

/-- C14: the well-formedness of the linked lists is an invariant of insert, remove and resize:
in every bucket of a reachable table, for every slot `i` that holds a record, a predecessor
`p` of `i` is a slot that holds a record and has the successor `i`, a successor `q` of `i` is
a slot that holds a record and has the predecessor `i`, the walk from `i` along the successors
ends (there is no cycle); the slots that hold records form the lists `gs`, one list for the
records of each key; and among the slots with records of one key exactly one has no
predecessor. -/
theorem links_wellformed {cb : Callbacks K E} {nearPrime : Nat → Nat} (hc : Contract cb)
    (hnp : ∀ n, n ≤ nearPrime n) {t : Multi E} (hr : Reachable cb nearPrime t)
    (n : Nat) (b : Bucket E) (hn : t.buckets[n]? = some b) :
    (∀ i e, i < b.nrAlloc → (b.table i).ptr = some e →
      (∀ p, (b.table i).prev = some p →
        p < b.nrAlloc ∧ (b.table p).ptr ≠ none ∧ (b.table p).next = some i) ∧
      (∀ q, (b.table i).next = some q →
        q < b.nrAlloc ∧ (b.table q).ptr ≠ none ∧ (b.table q).prev = some i) ∧
      (∃ k, walkToEnd b.table b.nrAlloc i = some k) ∧
      (∃ h eh, h < b.nrAlloc ∧ (b.table h).ptr = some eh ∧ (b.table h).prev = none ∧
        cb.isEqualElementElementByKey eh e = true)) ∧
    (∃ gs, Shape cb b gs) ∧
    (∀ i j ei ej, i < b.nrAlloc → j < b.nrAlloc → (b.table i).ptr = some ei →
      (b.table j).ptr = some ej → cb.isEqualElementElementByKey ei ej = true →
      (b.table i).prev = none → (b.table j).prev = none → i = j) := by
  have ti := hr.tinv hc hnp
  obtain ⟨gs, inv⟩ := ti.inv n b hn
  have s := inv.shape
  refine ⟨?_, ⟨gs, s⟩, ?_⟩
  · intro i e hi hp
    have hm := s.mem_of_ptr hi hp
    obtain ⟨hnext, hprev⟩ := s.neighbours hm
    refine ⟨?_, ?_, s.walk_ends hm, ?_⟩
    · intro p hpp
      obtain ⟨h1, h2, _⟩ := hprev p hpp
      obtain ⟨c, hcm, rfl⟩ := mem_slots.1 h2
      exact ⟨s.lt c hcm, s.used_of_mem h2, h1⟩
    · intro q hq
      obtain ⟨h1, h2, _⟩ := hnext q hq
      obtain ⟨c, hcm, rfl⟩ := mem_slots.1 h2
      exact ⟨s.lt c hcm, s.used_of_mem h2, h1⟩
    · obtain ⟨g, hg, hcg⟩ := mem_cells.1 hm
      refine ⟨g.head.1, g.head.2, s.lt _ (head_mem_cells hg), s.ptrs _ (head_mem_cells hg),
        s.first g hg, ?_⟩
      have hin : (i, e) ∈ g.cells := by
        rcases hcg with h | h
        · rw [h]; exact List.mem_cons_self _ _
        · exact List.mem_cons_of_mem _ h
      exact s.key_of_mem hc hg hin
  · intro i j ei ej hi hj hpi hpj hkey hi0 hj0
    obtain ⟨g, hg, hgi⟩ := s.head_of_prev_none (s.mem_of_ptr hi hpi) hi0
    obtain ⟨g', hg', hgj⟩ := s.head_of_prev_none (s.mem_of_ptr hj hpj) hj0
    have : g = g' := s.diffKey g hg g' hg' (by rw [hgi, hgj]; exact hkey)
    rw [← this, hgi] at hgj
    exact congrArg Prod.fst hgj

theorem links_wellformed_witness :
    (∀ i e, i < exampleBucket.nrAlloc → (exampleBucket.table i).ptr = some e →
      (∀ p, (exampleBucket.table i).prev = some p →
        p < exampleBucket.nrAlloc ∧ (exampleBucket.table p).ptr ≠ none ∧
          (exampleBucket.table p).next = some i) ∧
      (∀ q, (exampleBucket.table i).next = some q →
        q < exampleBucket.nrAlloc ∧ (exampleBucket.table q).ptr ≠ none ∧
          (exampleBucket.table q).prev = some i) ∧
      (∃ k, walkToEnd exampleBucket.table exampleBucket.nrAlloc i = some k) ∧
      (∃ h eh, h < exampleBucket.nrAlloc ∧ (exampleBucket.table h).ptr = some eh ∧
        (exampleBucket.table h).prev = none ∧
        pairCallbacks.isEqualElementElementByKey eh e = true)) ∧
    (∃ gs, Shape pairCallbacks exampleBucket gs) ∧
    (∀ i j ei ej, i < exampleBucket.nrAlloc → j < exampleBucket.nrAlloc →
      (exampleBucket.table i).ptr = some ei → (exampleBucket.table j).ptr = some ej →
      pairCallbacks.isEqualElementElementByKey ei ej = true →
      (exampleBucket.table i).prev = none → (exampleBucket.table j).prev = none → i = j) :=
  links_wellformed pairCallbacks_contract nearPrimeFrom7_ge exampleTable_reachable 0
    exampleBucket exampleBucket_get

/-- C15: the rule of the cached hashes is an invariant of insert, remove and resize: in every
bucket of a reachable table a slot without predecessor (the head of a list) caches the hash by
key of its record and a slot with a predecessor caches the hash of the full identity of its
record; so a member that remove has promoted to head caches the key hash. -/
theorem cached_hash_rule {cb : Callbacks K E} {nearPrime : Nat → Nat} (hc : Contract cb)
    (hnp : ∀ n, n ≤ nearPrime n) {t : Multi E} (hr : Reachable cb nearPrime t)
    (n : Nat) (b : Bucket E) (hn : t.buckets[n]? = some b) (i : Nat) (e : E)
    (hi : i < b.nrAlloc) (hp : (b.table i).ptr = some e) :
    ((b.table i).prev = none → (b.table i).hashCache = cb.hashElement e true) ∧
    ((b.table i).prev ≠ none → (b.table i).hashCache = cb.hashElement e false) := by
  have ti := hr.tinv hc hnp
  obtain ⟨gs, inv⟩ := ti.inv n b hn
  have h := inv.shape.home_eq (inv.shape.mem_of_ptr hi hp)
  simp only at h
  constructor
  · intro h0
    rw [h0] at h
    exact h.symm
  · intro h0
    obtain ⟨p, hp0⟩ := Option.ne_none_iff_exists'.1 h0
    rw [hp0] at h
    exact h.symm

theorem cached_hash_rule_witness :
    ((exampleBucket.table 5).prev = none →
      (exampleBucket.table 5).hashCache = pairCallbacks.hashElement (1, 4) true) ∧
    ((exampleBucket.table 5).prev ≠ none →
      (exampleBucket.table 5).hashCache = pairCallbacks.hashElement (1, 4) false) :=
  cached_hash_rule pairCallbacks_contract nearPrimeFrom7_ge exampleTable_reachable 0
    exampleBucket exampleBucket_get 5 (1, 4) (by decide) (by decide)

/-- C16: probe reachability is an invariant of insert, remove (with its pass of `healHole`)
and resize: in every bucket of a reachable table, for every slot `i` that holds a record, with
the home `h` of the slot (the key hash for a head, the hash of the full identity for a further
member, modulo the capacity), every slot on the cyclic way from `h` up to `i`, without `i`,
holds a record; and if `i` is a head no slot on that way is a head with a record of the same
key. -/
theorem probe_reachability {cb : Callbacks K E} {nearPrime : Nat → Nat} (hc : Contract cb)
    (hnp : ∀ n, n ≤ nearPrime n) {t : Multi E} (hr : Reachable cb nearPrime t)
    (n : Nat) (b : Bucket E) (hn : t.buckets[n]? = some b) (i : Nat) (e : E)
    (hi : i < b.nrAlloc) (hp : (b.table i).ptr = some e) (p : Nat) (hpl : p < b.nrAlloc)
    (hd : dist b.nrAlloc
        (hashToIndex (cb.hashElement e (b.table i).prev.isNone) % b.nrAlloc) p <
      dist b.nrAlloc
        (hashToIndex (cb.hashElement e (b.table i).prev.isNone) % b.nrAlloc) i) :
    (b.table p).ptr ≠ none ∧
    ((b.table i).prev = none → ∀ e1, (b.table p).ptr = some e1 → (b.table p).prev = none →
      cb.isEqualElementElementByKey e e1 = false) := by
  have ti := hr.tinv hc hnp
  obtain ⟨gs, inv⟩ := ti.inv n b hn
  have s := inv.shape
  have hm := s.mem_of_ptr hi hp
  have hh := s.home_eq hm
  simp only at hh
  constructor
  · apply inv.probe (i, e) hm p hpl
    simp only
    rw [← hh]
    exact hd
  · intro hi0 e1 hp1 hp0
    by_contra hk
    have hk : cb.isEqualElementElementByKey e e1 = true := by simpa using hk
    obtain ⟨g, hg, hgi⟩ := s.head_of_prev_none hm hi0
    obtain ⟨g', hg', hgp⟩ := s.head_of_prev_none (s.mem_of_ptr hpl hp1) hp0
    have : g = g' := s.diffKey g hg g' hg' (by rw [hgi, hgp]; exact hk)
    rw [← this, hgi] at hgp
    have hpi : i = p := congrArg Prod.fst hgp
    rw [hpi] at hd
    exact Nat.lt_irrefl _ hd

theorem probe_reachability_witness :
    (exampleBucket.table 2).ptr ≠ none ∧
    ((exampleBucket.table 4).prev = none → ∀ e1, (exampleBucket.table 2).ptr = some e1 →
      (exampleBucket.table 2).prev = none →
      pairCallbacks.isEqualElementElementByKey (8, 0) e1 = false) :=
  probe_reachability pairCallbacks_contract nearPrimeFrom7_ge exampleTable_reachable 0
    exampleBucket exampleBucket_get 4 (8, 0) (by decide) (by decide) 2 (by decide) (by decide)

/-- C17: in every reachable table no two distinct slots, in whatever buckets, hold full-equal
records: every stored record is held by exactly one slot. -/
theorem slots_unique {cb : Callbacks K E} {nearPrime : Nat → Nat} (hc : Contract cb)
    (hnp : ∀ n, n ≤ nearPrime n) {t : Multi E} (hr : Reachable cb nearPrime t)
    (n m : Nat) (b b1 : Bucket E) (hn : t.buckets[n]? = some b) (hm : t.buckets[m]? = some b1)
    (i j : Nat) (e e1 : E) (hi : i < b.nrAlloc) (hj : j < b1.nrAlloc)
    (hp : (b.table i).ptr = some e) (hp1 : (b1.table j).ptr = some e1)
    (heq : cb.isEqualElementElement e e1 = true) : n = m ∧ i = j := by
  have ti := hr.tinv hc hnp
  have h1 := ti.home n b hn e (mem_bucket_elements hi hp)
  have h2 := ti.home m b1 hm e1 (mem_bucket_elements hj hp1)
  have hnm : n = m := by
    rw [← h1, ← h2, hc.hash_key e e1 (hc.eq_key e e1 heq)]
  subst hnm
  rw [hn] at hm
  cases hm
  obtain ⟨gs, inv⟩ := ti.inv n b hn
  have := inv.shape.unique _ (inv.shape.mem_of_ptr hi hp) _ (inv.shape.mem_of_ptr hj hp1) heq
  exact ⟨rfl, congrArg Prod.fst this⟩

theorem slots_unique_witness : 0 = 0 ∧ 5 = 5 :=
  slots_unique pairCallbacks_contract nearPrimeFrom7_ge exampleTable_reachable 0 0
    exampleBucket exampleBucket exampleBucket_get exampleBucket_get 5 5 (1, 4) (1, 4)
    (by decide) (by decide) (by decide) (by decide) (by decide)

theorem resize_buckets_of {cb : Callbacks K E} {nearPrime : Nat → Nat} (hc : Contract cb)
    (hnp : ∀ n, n ≤ nearPrime n) {t : Multi E} (ti : TInv cb t) {size : Nat}
    {x : Multi E × ErrorCode} (h : resize cb nearPrime t size = some x) :
    x.1.bucketsMask = t.bucketsMask ∧ x.1.buckets.length = t.buckets.length ∧
    ∀ (n : Nat) (b1 : Bucket E), x.1.buckets[n]? = some b1 →
      ∃ b gs gs1, t.buckets[n]? = some b ∧ BInv cb b gs ∧ BInv cb b1 gs1 ∧
        (content gs1).Perm (content gs) ∧
        (b1 = b ∨
          (¬ (2 * ((2 * (size / t.buckets.length) + 1) % indexRange)) % indexRange <
              3 * b.nrUsed ∧
            b1.nrAlloc = nearPrime ((2 * (size / t.buckets.length) + 1) % indexRange))) := by
  unfold resize at h
  cases hr : resizeBuckets cb nearPrime (size / t.buckets.length) t.buckets with
  | none => rw [hr] at h; cases h
  | some r =>
    rw [hr] at h
    simp only [Option.map_some', Option.some.injEq] at h
    subst h
    obtain ⟨hlen, hall⟩ := resizeBuckets_spec cb nearPrime _ _ r.1 r.2 hr
    refine ⟨rfl, hlen, ?_⟩
    intro n b1 hn
    obtain ⟨b, hb, hcase⟩ := hall n b1 hn
    obtain ⟨gs, inv⟩ := ti.inv n b hb
    rcases hcase with rfl | ⟨hguard, hres⟩
    · exact ⟨b1, gs, gs, hb, inv, inv, List.Perm.refl _, Or.inl rfl⟩
    · have hu := inv.used
      have hn1 := hnp ((2 * (size / t.buckets.length) + 1) % indexRange)
      have hgb := guard_bound _ _ hguard
      obtain ⟨b2, gs2, h2, inv2, hal2, hcont⟩ := resizeInternal_spec hc inv nearPrime
        ((2 * (size / t.buckets.length) + 1) % indexRange) (by omega)
      rw [hres] at h2
      cases h2
      exact ⟨b, gs, gs2, hb, inv, inv2, hcont, Or.inr ⟨hguard, hal2⟩⟩

/-- C18: in every reachable table every record R that is stored in the bucket with the index
n satisfies `hash-record(R, by_key = true) & bucket_mask = n`; remove (with its pass of
`healHole`) and resize move no record to another bucket: the records of a bucket after the
call were records of the same bucket before the call. -/
theorem bucket_of_record {cb : Callbacks K E} {nearPrime : Nat → Nat} (hc : Contract cb)
    (hnp : ∀ n, n ≤ nearPrime n) {t : Multi E} (hr : Reachable cb nearPrime t) :
    (∀ (n : Nat) (b : Bucket E), t.buckets[n]? = some b → ∀ i e, i < b.nrAlloc →
      (b.table i).ptr = some e → cb.hashElement e true &&& t.bucketsMask = n) ∧
    (∀ e x, remove cb t e = some x → x.1.bucketsMask = t.bucketsMask ∧
      ∀ (n : Nat) (b1 : Bucket E), x.1.buckets[n]? = some b1 →
        ∃ b, t.buckets[n]? = some b ∧ ∀ y ∈ b1.elements, y ∈ b.elements) ∧
    (∀ size x, resize cb nearPrime t size = some x → x.1.bucketsMask = t.bucketsMask ∧
      ∀ (n : Nat) (b1 : Bucket E), x.1.buckets[n]? = some b1 →
        ∃ b, t.buckets[n]? = some b ∧ ∀ y ∈ b1.elements, y ∈ b.elements) := by
  have ti := hr.tinv hc hnp
  refine ⟨?_, ?_, ?_⟩
  · intro n b hn i e hi hp
    exact ti.home n b hn e (mem_bucket_elements hi hp)
  · intro e x hx
    obtain ⟨b, hb⟩ := ti.bucket (cb.hashElement e true)
    obtain ⟨gs, inv⟩ := ti.inv _ b hb
    rw [remove_eq cb e hb] at hx
    cases hrb : removeBucket cb b e with
    | none => rw [hrb] at hx; cases hx
    | some r =>
      rw [hrb] at hx
      simp only [Option.map_some', Option.some.injEq] at hx
      subst hx
      refine ⟨rfl, ?_⟩
      intro n b1 hn
      simp only [List.getElem?_set] at hn
      split at hn
      · rename_i hnn
        split at hn
        · cases hn
          refine ⟨b, by rw [← hnn]; exact hb, ?_⟩
          by_cases hex : ∃ c ∈ cells gs, cb.isEqualElementElement e c.2 = true
          · obtain ⟨c, hm, heq⟩ := hex
            obtain ⟨b2, gs2, pre, post, h1, inv2, _, _, hsub, _⟩ :=
              removeBucket_obs hc inv hm heq
            rw [h1] at hrb
            cases hrb
            intro y hy
            exact (elements_perm inv.shape).mem_iff.2
              (hsub y ((elements_perm inv2.shape).mem_iff.1 hy)).1
          · push_neg at hex
            have := removeBucket_absent_sound hc inv
              (fun c hm => by simpa using hex c hm) hrb
            subst this
            exact fun y hy => hy
        · cases hn
      · exact ⟨b1, hn, fun y hy => hy⟩
  · intro size x hx
    obtain ⟨hmask, _, hall⟩ := resize_buckets_of hc hnp ti hx
    refine ⟨hmask, ?_⟩
    intro n b1 hn
    obtain ⟨b, gs, gs1, hb, inv, inv1, hcont, _⟩ := hall n b1 hn
    refine ⟨b, hb, fun y hy => ?_⟩
    exact (elements_perm inv.shape).mem_iff.2
      (mem_elems_of_content hcont ((elements_perm inv1.shape).mem_iff.1 hy))

theorem bucket_of_record_witness :
    (∀ (n : Nat) (b : Bucket (Nat × Nat)), exampleTable.buckets[n]? = some b → ∀ i e,
      i < b.nrAlloc → (b.table i).ptr = some e →
      pairCallbacks.hashElement e true &&& exampleTable.bucketsMask = n) ∧
    (∀ e x, remove pairCallbacks exampleTable e = some x →
      x.1.bucketsMask = exampleTable.bucketsMask ∧
      ∀ (n : Nat) (b1 : Bucket (Nat × Nat)), x.1.buckets[n]? = some b1 →
        ∃ b, exampleTable.buckets[n]? = some b ∧ ∀ y ∈ b1.elements, y ∈ b.elements) ∧
    (∀ size x, resize pairCallbacks nearPrimeFrom7 exampleTable size = some x →
      x.1.bucketsMask = exampleTable.bucketsMask ∧
      ∀ (n : Nat) (b1 : Bucket (Nat × Nat)), x.1.buckets[n]? = some b1 →
        ∃ b, exampleTable.buckets[n]? = some b ∧ ∀ y ∈ b1.elements, y ∈ b.elements) :=
  bucket_of_record pairCallbacks_contract nearPrimeFrom7_ge exampleTable_reachable

/-! ## The resize -/

/-- C19: for every bucket of a reachable table and every target size that leaves an empty slot
(the number of used slots is below `TRI_NearPrime(size)`), `resizeInternal` returns a bucket
of the new capacity with the same counters of used slots and of collisions, in which
`lookupByKey(K, 0)` returns for every key K exactly the sequence that it returned before: the
same records in the same order. -/
theorem resizeInternal_preserves {cb : Callbacks K E} {nearPrime : Nat → Nat}
    (hc : Contract cb) (hnp : ∀ n, n ≤ nearPrime n) {t : Multi E}
    (hr : Reachable cb nearPrime t) (n : Nat) (b : Bucket E) (hn : t.buckets[n]? = some b)
    (size : Nat) (hsize : b.nrUsed < nearPrime size) :
    ∃ b1, resizeInternal cb nearPrime b size = some b1 ∧ b1.nrAlloc = nearPrime size ∧
      b1.nrUsed = b.nrUsed ∧ b1.nrCollisions = b.nrCollisions ∧
      ∀ (k : K) (l : List (Option E)), lookupByKey cb t k 0 = some l →
        lookupByKey cb (t.setBucket n b1) k 0 = some l := by
  have ti := hr.tinv hc hnp
  obtain ⟨gs, inv⟩ := ti.inv n b hn
  obtain ⟨b1, gs1, h1, inv1, hal, hcont⟩ := resizeInternal_spec hc inv nearPrime size
    (by rw [← inv.used]; exact hsize)
  have hlen := cells_length_of_content hcont
  have hu : b1.nrUsed = b.nrUsed := by rw [inv1.used, inv.used, hlen]
  have hg : gs1.length = gs.length := by
    rw [← content_length gs1, ← content_length gs]
    exact hcont.length_eq
  have hco : b1.nrCollisions = b.nrCollisions := by
    have e1 := inv1.coll
    have e2 := inv.coll
    omega
  refine ⟨b1, h1, hal, hu, hco, ?_⟩
  intro k l hl
  exact lookupByKey_set_congr hc ti hn inv inv1 hcont (by omega) hl

theorem resizeInternal_preserves_witness :
    ∃ b1, resizeInternal pairCallbacks nearPrimeFrom7 exampleBucket 12 = some b1 ∧
      b1.nrAlloc = nearPrimeFrom7 12 ∧ b1.nrUsed = exampleBucket.nrUsed ∧
      b1.nrCollisions = exampleBucket.nrCollisions ∧
      ∀ (k : Nat) (l : List (Option (Nat × Nat))),
        lookupByKey pairCallbacks exampleTable k 0 = some l →
        lookupByKey pairCallbacks (exampleTable.setBucket 0 b1) k 0 = some l :=
  resizeInternal_preserves pairCallbacks_contract nearPrimeFrom7_ge exampleTable_reachable 0
    exampleBucket exampleBucket_get 12 (by decide)

theorem resizeBuckets_result {cb : Callbacks K E} {nearPrime : Nat → Nat} (hc : Contract cb)
    (hnp : ∀ n, n ≤ nearPrime n) (s : Nat) :
    ∀ l : List (Bucket E), (∀ b ∈ l, ∃ gs, BInv cb b gs) →
      ∃ l1 code, resizeBuckets cb nearPrime s l = some (l1, code) ∧
        (code = ErrorCode.TRI_ERROR_BAD_PARAMETER ↔
          ∃ b ∈ l, (2 * ((2 * s + 1) % indexRange)) % indexRange < 3 * b.nrUsed) ∧
        (code ≠ ErrorCode.TRI_ERROR_BAD_PARAMETER →
          code = ErrorCode.TRI_ERROR_NO_ERROR ∧
          ∀ b1 ∈ l1, b1.nrAlloc = nearPrime ((2 * s + 1) % indexRange)) := by
  intro l
  induction l with
  | nil =>
    intro _
    refine ⟨[], ErrorCode.TRI_ERROR_NO_ERROR, rfl, ?_, ?_⟩
    · simp
    · intro _
      exact ⟨rfl, fun b1 hb1 => by cases hb1⟩
  | cons a l ih =>
    intro hall
    by_cases hguard : (2 * ((2 * s + 1) % indexRange)) % indexRange < 3 * a.nrUsed
    · refine ⟨a :: l, ErrorCode.TRI_ERROR_BAD_PARAMETER, ?_, ?_, ?_⟩
      · unfold resizeBuckets
        rw [if_pos hguard]
      · exact ⟨fun _ => ⟨a, List.mem_cons_self _ _, hguard⟩, fun _ => rfl⟩
      · intro h; exact absurd rfl h
    · obtain ⟨gs, inv⟩ := hall a (List.mem_cons_self _ _)
      have hu := inv.used
      have hn1 := hnp ((2 * s + 1) % indexRange)
      have hbound := guard_bound _ _ hguard
      obtain ⟨a1, gs1, h1, _, hal, _⟩ := resizeInternal_spec hc inv nearPrime
        ((2 * s + 1) % indexRange) (by omega)
      obtain ⟨l1, code, h2, hiff, hok⟩ := ih fun b hb => hall b (List.mem_cons_of_mem _ hb)
      refine ⟨a1 :: l1, code, ?_, ?_, ?_⟩
      · unfold resizeBuckets
        rw [if_neg hguard, h1]
        simp only [Option.some_bind, h2, Option.map_some']
      · rw [hiff]
        constructor
        · rintro ⟨b, hb, hgb⟩
          exact ⟨b, List.mem_cons_of_mem _ hb, hgb⟩
        · rintro ⟨b, hb, hgb⟩
          rcases List.mem_cons.1 hb with rfl | hb
          · exact absurd hgb hguard
          · exact ⟨b, hb, hgb⟩
      · intro hne
        obtain ⟨h3, h4⟩ := hok hne
        refine ⟨h3, ?_⟩
        intro b1 hb1
        rcases List.mem_cons.1 hb1 with rfl | hb1
        · exact hal
        · exact h4 b1 hb1

/-- C20 (amended): with B buckets and `s = size / B`, and without a failure of an allocation,
the call `resize(size)` on a reachable table returns `TRI_ERROR_BAD_PARAMETER` if and only if
some bucket has `2 * (2 * s + 1) < 3 * used`, where the left side is computed in `size_t`, that
is modulo `2 ^ 64`; otherwise it returns `TRI_ERROR_NO_ERROR` and the capacity of every bucket
becomes `TRI_NearPrime` of `2 * s + 1` modulo `2 ^ 64`.  When `2 * (2 * s + 1)` is below
`2 ^ 64` these are the numbers `2 * (2 * s + 1)` and `2 * s + 1` themselves. -/
theorem resize_result {cb : Callbacks K E} {nearPrime : Nat → Nat} (hc : Contract cb)
    (hnp : ∀ n, n ≤ nearPrime n) {t : Multi E} (hr : Reachable cb nearPrime t) (size : Nat) :
    ∃ t1 code, resize cb nearPrime t size = some (t1, code) ∧
      (code = ErrorCode.TRI_ERROR_BAD_PARAMETER ↔
        ∃ b ∈ t.buckets,
          (2 * ((2 * (size / t.buckets.length) + 1) % 2 ^ 64)) % 2 ^ 64 < 3 * b.nrUsed) ∧
      (code ≠ ErrorCode.TRI_ERROR_BAD_PARAMETER →
        code = ErrorCode.TRI_ERROR_NO_ERROR ∧
        ∀ b1 ∈ t1.buckets,
          b1.nrAlloc = nearPrime ((2 * (size / t.buckets.length) + 1) % 2 ^ 64)) ∧
      (2 * (2 * (size / t.buckets.length) + 1) < 2 ^ 64 →
        (code = ErrorCode.TRI_ERROR_BAD_PARAMETER ↔
          ∃ b ∈ t.buckets, 2 * (2 * (size / t.buckets.length) + 1) < 3 * b.nrUsed) ∧
        (code ≠ ErrorCode.TRI_ERROR_BAD_PARAMETER →
          code = ErrorCode.TRI_ERROR_NO_ERROR ∧
          ∀ b1 ∈ t1.buckets,
            b1.nrAlloc = nearPrime (2 * (size / t.buckets.length) + 1))) := by
  have ti := hr.tinv hc hnp
  obtain ⟨l1, code, h1, hiff, hok⟩ := resizeBuckets_result hc hnp (size / t.buckets.length)
    t.buckets (fun b hb => by
      obtain ⟨n, hn⟩ := List.mem_iff_getElem?.1 hb
      exact ti.inv n b hn)
  have hres : resize cb nearPrime t size = some ({ t with buckets := l1 }, code) := by
    unfold resize
    rw [h1]
    rfl
  refine ⟨{ t with buckets := l1 }, code, hres, hiff, hok, ?_⟩
  intro hsmall
  obtain ⟨e1, e2⟩ := guard_exact (size / t.buckets.length) hsmall
  have hiff2 := hiff
  have hok2 := hok
  rw [e1] at hiff2
  rw [e2] at hok2
  exact ⟨hiff2, hok2⟩

theorem resize_result_witness :
    ∃ t1 code, resize pairCallbacks nearPrimeFrom7 exampleTable 1 = some (t1, code) ∧
      (code = ErrorCode.TRI_ERROR_BAD_PARAMETER ↔
        ∃ b ∈ exampleTable.buckets,
          (2 * ((2 * (1 / exampleTable.buckets.length) + 1) % 2 ^ 64)) % 2 ^ 64 <
            3 * b.nrUsed) ∧
      (code ≠ ErrorCode.TRI_ERROR_BAD_PARAMETER →
        code = ErrorCode.TRI_ERROR_NO_ERROR ∧
        ∀ b1 ∈ t1.buckets,
          b1.nrAlloc = nearPrimeFrom7 ((2 * (1 / exampleTable.buckets.length) + 1) % 2 ^ 64)) ∧
      (2 * (2 * (1 / exampleTable.buckets.length) + 1) < 2 ^ 64 →
        (code = ErrorCode.TRI_ERROR_BAD_PARAMETER ↔
          ∃ b ∈ exampleTable.buckets,
            2 * (2 * (1 / exampleTable.buckets.length) + 1) < 3 * b.nrUsed) ∧
        (code ≠ ErrorCode.TRI_ERROR_BAD_PARAMETER →
          code = ErrorCode.TRI_ERROR_NO_ERROR ∧
          ∀ b1 ∈ t1.buckets,
            b1.nrAlloc = nearPrimeFrom7 (2 * (1 / exampleTable.buckets.length) + 1))) :=
  resize_result pairCallbacks_contract nearPrimeFrom7_ge exampleTable_reachable 1

/-- C20 (counterexample): the reachable table of the example has one bucket with five
records; `resize(2 ^ 62)` returns `TRI_ERROR_BAD_PARAMETER`, although no bucket has
`2 * (2 * s + 1) < 3 * used` for `s = 2 ^ 62`: in `size_t` the product `2 * (2 * s + 1)` is
2. -/
theorem resize_overflow :
    Reachable pairCallbacks nearPrimeFrom7 exampleTable ∧
    exampleTable.buckets.map (fun b => b.nrUsed) = [5] ∧
    (resize pairCallbacks nearPrimeFrom7 exampleTable 4611686018427387904).map (fun r => r.2) =
      some ErrorCode.TRI_ERROR_BAD_PARAMETER ∧
    ¬ ∃ b ∈ exampleTable.buckets,
      2 * (2 * (4611686018427387904 / exampleTable.buckets.length) + 1) < 3 * b.nrUsed :=
  ⟨exampleTable_reachable, by decide, by decide, by decide⟩

/-! ## The growth of a bucket by insert -/

theorem loadedTable_reachable : Reachable pairCallbacks nearPrimeFrom7 loadedTable :=
  reachable_tableOf [(1, 1), (2, 2), (3, 3)] (by decide)

theorem loadedBucket_get : loadedTable.buckets[0]? = some loadedBucket := by rfl

/-- The insertion into a table: the bucket of the element after the call, its capacity and its
number of used slots. -/
theorem insert_capacity {cb : Callbacks K E} {nearPrime : Nat → Nat} (hc : Contract cb)
    (hnp : ∀ n, n ≤ nearPrime n) {t : Multi E} (ti : TInv cb t) (e : E) (ow chk : Bool)
    (hchk : chk = true ∨ ∀ y ∈ elements t, cb.isEqualElementElement e y = false)
    {b : Bucket E} (hb : t.buckets[cb.hashElement e true &&& t.bucketsMask]? = some b) :
    ∃ t1 r b1, insert cb nearPrime t e ow chk = some (t1, r) ∧
      t1.buckets[cb.hashElement e true &&& t.bucketsMask]? = some b1 ∧
      (2 * b.nrAlloc < 3 * b.nrUsed → b1.nrAlloc = nearPrime (2 * b.nrAlloc + 1)) ∧
      (¬ 2 * b.nrAlloc < 3 * b.nrUsed → b1.nrAlloc = b.nrAlloc) ∧
      b1.nrUsed = b.nrUsed + (if r.isNone then 1 else 0) ∧ b.nrUsed ≤ b.nrAlloc ∧
      0 < b.nrAlloc := by
  obtain ⟨gs, inv⟩ := ti.inv _ b hb
  obtain ⟨b0, gs0, b1, r, gs1, hg, inv0, _, _, hu0, _, _, hins, inv1, hal, hrel, _, _, _⟩ :=
    insert_table_spec hc hnp ti e ow chk hchk hb inv
  obtain ⟨b0', _, hg', _, _, _, _, _, hsame, _, hgrown⟩ := growBucket_spec hc hnp inv
  rw [hg] at hg'
  cases hg'
  have hlen := hrel.length
  rw [← inv1.used, ← inv0.used, hu0] at hlen
  have hle := inv.shape.length_le
  rw [← inv.used] at hle
  refine ⟨_, r, b1, hins, getElem?_set_same b1 hb, ?_, ?_, hlen, hle, inv.shape.cap_pos⟩
  · intro h
    rw [hal, hgrown h]
  · intro h
    rw [hal, hsame h]

/-- C21: `insert(R, ...)` evaluates the growth trigger on the bucket of R before any probing:
if `2 * capacity < 3 * used` holds on entry, the capacity of the bucket becomes
`TRI_NearPrime(2 * capacity + 1)` (an external function, assumed to return a number that is
not below its argument), also when the call then finds R stored already and adds no record;
if it does not hold, the call leaves the capacity as it is.  The call is made with the check
of equality, or without it for a record that is not stored, as the contract of the flag
demands. -/
theorem insert_growth {cb : Callbacks K E} {nearPrime : Nat → Nat} (hc : Contract cb)
    (hnp : ∀ n, n ≤ nearPrime n) {t : Multi E} (hr : Reachable cb nearPrime t) (e : E)
    (ow chk : Bool)
    (hchk : chk = true ∨ ∀ y ∈ elements t, cb.isEqualElementElement e y = false)
    (b : Bucket E) (hb : t.buckets[cb.hashElement e true &&& t.bucketsMask]? = some b) :
    ∃ t1 r b1, insert cb nearPrime t e ow chk = some (t1, r) ∧
      t1.buckets[cb.hashElement e true &&& t.bucketsMask]? = some b1 ∧
      (2 * b.nrAlloc < 3 * b.nrUsed → b1.nrAlloc = nearPrime (2 * b.nrAlloc + 1)) ∧
      (¬ 2 * b.nrAlloc < 3 * b.nrUsed → b1.nrAlloc = b.nrAlloc) := by
  obtain ⟨t1, r, b1, h1, h2, h3, h4, _⟩ :=
    insert_capacity hc hnp (hr.tinv hc hnp) e ow chk hchk hb
  exact ⟨t1, r, b1, h1, h2, h3, h4⟩

theorem insert_growth_witness :
    ∃ t1 r b1, insert pairCallbacks nearPrimeFrom7 loadedTable (2, 2) false true =
        some (t1, r) ∧
      t1.buckets[pairCallbacks.hashElement (2, 2) true &&& loadedTable.bucketsMask]? =
        some b1 ∧
      (2 * loadedBucket.nrAlloc < 3 * loadedBucket.nrUsed →
        b1.nrAlloc = nearPrimeFrom7 (2 * loadedBucket.nrAlloc + 1)) ∧
      (¬ 2 * loadedBucket.nrAlloc < 3 * loadedBucket.nrUsed →
        b1.nrAlloc = loadedBucket.nrAlloc) :=
  insert_growth pairCallbacks_contract nearPrimeFrom7_ge loadedTable_reachable (2, 2) false
    true (Or.inl rfl) loadedBucket loadedBucket_get

/-- C22: for every bucket of a reachable table (its capacity is at least 1) and with
`TRI_NearPrime(n) ≥ n`, after every call of insert in which the growth trigger fired the
bucket satisfies `used ≤ capacity` and `2 * capacity ≥ 3 * used`. -/
theorem load_after_growth {cb : Callbacks K E} {nearPrime : Nat → Nat} (hc : Contract cb)
    (hnp : ∀ n, n ≤ nearPrime n) {t : Multi E} (hr : Reachable cb nearPrime t) (e : E)
    (ow chk : Bool)
    (hchk : chk = true ∨ ∀ y ∈ elements t, cb.isEqualElementElement e y = false)
    (b : Bucket E) (hb : t.buckets[cb.hashElement e true &&& t.bucketsMask]? = some b)
    (hfire : 2 * b.nrAlloc < 3 * b.nrUsed) :
    ∃ t1 r b1, insert cb nearPrime t e ow chk = some (t1, r) ∧
      t1.buckets[cb.hashElement e true &&& t.bucketsMask]? = some b1 ∧
      b1.nrUsed ≤ b1.nrAlloc ∧ 3 * b1.nrUsed ≤ 2 * b1.nrAlloc := by
  obtain ⟨t1, r, b1, h1, h2, h3, _, h5, h6, h7⟩ :=
    insert_capacity hc hnp (hr.tinv hc hnp) e ow chk hchk hb
  have hcap := h3 hfire
  have hn := hnp (2 * b.nrAlloc + 1)
  refine ⟨t1, r, b1, h1, h2, ?_, ?_⟩
  · split at h5 <;> omega
  · split at h5 <;> omega

theorem load_after_growth_witness :
    ∃ t1 r b1, insert pairCallbacks nearPrimeFrom7 loadedTable (4, 4) false true =
        some (t1, r) ∧
      t1.buckets[pairCallbacks.hashElement (4, 4) true &&& loadedTable.bucketsMask]? =
        some b1 ∧
      b1.nrUsed ≤ b1.nrAlloc ∧ 3 * b1.nrUsed ≤ 2 * b1.nrAlloc :=
  load_after_growth pairCallbacks_contract nearPrimeFrom7_ge loadedTable_reachable (4, 4) false
    true (Or.inl rfl) loadedBucket loadedBucket_get (by decide)

/-! ## The test of the hole healing -/

theorem healMoves_iff (cb : Callbacks K E) (b : Bucket E) {i j : Nat} {e : E}
    (hi : i < b.nrAlloc) (hj : j < b.nrAlloc) (hp : (b.table j).ptr = some e) :
    healMoves cb b i j = true ↔ onPathInclExcl b.nrAlloc (homeOf cb b j) i j = true := by
  have hk : homeOf cb b j < b.nrAlloc := by
    unfold homeOf
    rw [hp]
    exact Nat.mod_lt _ (by omega)
  unfold healMoves onPathInclExcl
  rw [hp]
  simp only [Option.isSome_some, Bool.true_and, Bool.not_eq_true', decide_eq_true_eq]
  constructor
  · exact isBetween_false_dist hi hk
  · intro h
    cases hb : isBetween i (homeOf cb b j) j with
    | false => rfl
    | true => exact absurd h (isBetween_true_dist hj hk hb)

theorem healHoleLoop_step (cb : Callbacks K E) (b : Bucket E) (fuel i j : Nat) {e : E}
    (hp : (b.table j).ptr = some e) :
    healHoleLoop cb (fuel + 1) b i j =
      if healMoves cb b i j then healHoleLoop cb fuel (moveEntry b j i) j (incr b j)
      else healHoleLoop cb fuel b i (incr b j) := by
  rw [healHoleLoop]
  unfold healMoves homeOf
  simp only [hp, Option.isSome_some, Bool.true_and]

/-- C30 (amended): in `healHole`, with current hole I, a non-empty slot J reached by the
forward walk and H the home position (governing hash modulo the capacity) of the entry at J,
the entry at J is moved into I (and J becomes the hole) if and only if I lies on the forward
cyclic path from H to J inclusive of H and exclusive of J; otherwise the walk goes on with
the same hole. -/
theorem healHole_moves (cb : Callbacks K E) (b : Bucket E) (fuel i j : Nat) (e : E)
    (hi : i < b.nrAlloc) (hj : j < b.nrAlloc) (hp : (b.table j).ptr = some e) :
    (healMoves cb b i j = true ↔ onPathInclExcl b.nrAlloc (homeOf cb b j) i j = true) ∧
    healHoleLoop cb (fuel + 1) b i j =
      (if healMoves cb b i j then healHoleLoop cb fuel (moveEntry b j i) j (incr b j)
       else healHoleLoop cb fuel b i (incr b j)) :=
  ⟨healMoves_iff cb b hi hj hp, healHoleLoop_step cb b fuel i j hp⟩

theorem healHole_moves_witness :
    (healMoves pairCallbacks holeBucket 1 2 = true ↔
      onPathInclExcl holeBucket.nrAlloc (homeOf pairCallbacks holeBucket 2) 1 2 = true) ∧
    healHoleLoop pairCallbacks (5 + 1) holeBucket 1 2 =
      (if healMoves pairCallbacks holeBucket 1 2 then
        healHoleLoop pairCallbacks 5 (moveEntry holeBucket 2 1) 2 (incr holeBucket 2)
       else healHoleLoop pairCallbacks 5 holeBucket 1 (incr holeBucket 2)) :=
  healHole_moves pairCallbacks holeBucket 5 1 2 (8, 0) (by decide) (by decide) (by decide)

/-- C30 (counterexample): in the bucket of seven slots with the hole at slot 1 and the record
`(8, 0)`, whose home is slot 1, in slot 2, the hole is the home itself, so it does not lie on
the path from the home to slot 2 exclusive of the home; yet `healHole` moves the record into
the hole: afterwards slot 1 holds the record and slot 2 is empty. -/
theorem healHole_moves_home :
    (holeBucket.table 1).ptr = none ∧ (holeBucket.table 2).ptr = some (8, 0) ∧
    homeOf pairCallbacks holeBucket 2 = 1 ∧
    onPathExclIncl holeBucket.nrAlloc (homeOf pairCallbacks holeBucket 2) 1 2 = false ∧
    healMoves pairCallbacks holeBucket 1 2 = true ∧
    (healHole pairCallbacks holeBucket 1).map (fun b => ((b.table 1).ptr, (b.table 2).ptr)) =
      some (some (8, 0), none) := by
  decide

/-! ## The number of buckets of a new table -/

theorem bucketCountLoop_exact : ∀ (fuel n nr : Nat), n ≤ fuel →
    ∃ k, bucketCountLoop fuel n nr = nr * 2 ^ k ∧
      ((n = 0 ∧ k = 0) ∨ (2 ^ k ≤ 2 * n ∧ n < 2 ^ k)) := by
  intro fuel
  induction fuel with
  | zero =>
    intro n nr h
    exact ⟨0, by simp [bucketCountLoop], Or.inl ⟨by omega, rfl⟩⟩
  | succ fuel ih =>
    intro n nr h
    unfold bucketCountLoop
    split
    · rename_i hpos
      have hhalf : n >>> 1 = n / 2 := by simp [Nat.shiftRight_eq_div_pow]
      obtain ⟨k, hk, hcase⟩ := ih (n >>> 1) (nr <<< 1) (by rw [hhalf]; omega)
      refine ⟨k + 1, ?_, Or.inr ?_⟩
      · rw [hk, Nat.shiftLeft_eq, pow_succ]
        ring
      · rw [hhalf] at hcase
        rw [pow_succ]
        rcases hcase with ⟨h0, hk0⟩ | ⟨h1, h2⟩
        · subst hk0
          simp only [pow_zero]
          omega
        · omega
    · exact ⟨0, by simp, Or.inl ⟨by omega, rfl⟩⟩

theorem mk0_buckets (numberBuckets initialSize : Nat) (h : 1 ≤ numberBuckets) :
    ∃ k, 2 ^ k ≤ numberBuckets ∧ numberBuckets < 2 ^ (k + 1) ∧
      (Multi.mk0 numberBuckets initialSize : Multi E).buckets =
        List.replicate (2 ^ k) (emptyBucket E initialSize) ∧
      (Multi.mk0 numberBuckets initialSize : Multi E).bucketsMask = 2 ^ k - 1 := by
  have hhalf : numberBuckets >>> 1 = numberBuckets / 2 := by simp [Nat.shiftRight_eq_div_pow]
  obtain ⟨k, hk, hcase⟩ :=
    bucketCountLoop_exact numberBuckets (numberBuckets >>> 1) 1 (by rw [hhalf]; omega)
  rw [one_mul] at hk
  rw [hhalf] at hcase
  refine ⟨k, ?_, ?_, ?_, ?_⟩
  · rcases hcase with ⟨_, hk0⟩ | ⟨h1, _⟩
    · subst hk0
      simpa using h
    · omega
  · rw [pow_succ]
    rcases hcase with ⟨h0, hk0⟩ | ⟨_, h2⟩
    · subst hk0
      simp only [pow_zero]
      omega
    · omega
  · simp only [Multi.mk0, hk]
  · simp only [Multi.mk0, hk]

/-- C24 (amended): for every requested `numberBuckets ≥ 1` the constructor creates B buckets
where B is the largest power of two that is not above `numberBuckets` (the request is rounded
down: `B ≤ numberBuckets < 2 * B`), and sets the mask to `B - 1`, so that `hash & mask` is
always a valid bucket index. -/
theorem constructor_buckets (E : Type) (numberBuckets initialSize : Nat)
    (h : 1 ≤ numberBuckets) :
    ∃ k, 2 ^ k ≤ numberBuckets ∧ numberBuckets < 2 ^ (k + 1) ∧
      (Multi.mk0 numberBuckets initialSize : Multi E).buckets.length = 2 ^ k ∧
      (Multi.mk0 numberBuckets initialSize : Multi E).bucketsMask = 2 ^ k - 1 ∧
      ∀ hash : Nat, hash &&& (Multi.mk0 numberBuckets initialSize : Multi E).bucketsMask <
        (Multi.mk0 numberBuckets initialSize : Multi E).buckets.length := by
  obtain ⟨k, h1, h2, h3, h4⟩ := mk0_buckets (E := E) numberBuckets initialSize h
  refine ⟨k, h1, h2, by rw [h3, List.length_replicate], h4, ?_⟩
  intro hash
  rw [h3, h4, List.length_replicate, Nat.and_pow_two_sub_one_eq_mod]
  exact Nat.mod_lt _ (by positivity)

theorem constructor_buckets_witness :
    ∃ k, 2 ^ k ≤ 5 ∧ 5 < 2 ^ (k + 1) ∧
      (Multi.mk0 5 4 : Multi (Nat × Nat)).buckets.length = 2 ^ k ∧
      (Multi.mk0 5 4 : Multi (Nat × Nat)).bucketsMask = 2 ^ k - 1 ∧
      ∀ hash : Nat, hash &&& (Multi.mk0 5 4 : Multi (Nat × Nat)).bucketsMask <
        (Multi.mk0 5 4 : Multi (Nat × Nat)).buckets.length :=
  constructor_buckets (Nat × Nat) 5 4 (by decide)

/-- C24 (counterexample): for `numberBuckets = 3` the constructor creates 2 buckets and the
mask 1; the smallest power of two that is at least 3 is 4. -/
theorem constructor_rounds_down :
    (Multi.mk0 3 4 : Multi (Nat × Nat)).buckets.length = 2 ∧
    (Multi.mk0 3 4 : Multi (Nat × Nat)).bucketsMask = 1 ∧
    ¬ 3 ≤ (Multi.mk0 3 4 : Multi (Nat × Nat)).buckets.length := by
  decide

/-! ## The first growth of a bucket of four slots -/

theorem insert_mem_elements {cb : Callbacks K E} {nearPrime : Nat → Nat} (hc : Contract cb)
    (hnp : ∀ n, n ≤ nearPrime n) {t : Multi E} (ti : TInv cb t) {e : E} {ow chk : Bool}
    (hchk : chk = true ∨ ∀ y ∈ elements t, cb.isEqualElementElement e y = false)
    {x : Multi E × Option E} (h : insert cb nearPrime t e ow chk = some x) {y : E}
    (hy : y ∈ elements x.1) : y = e ∨ y ∈ elements t := by
  obtain ⟨b, hb⟩ := ti.bucket (cb.hashElement e true)
  obtain ⟨gs, inv⟩ := ti.inv _ b hb
  obtain ⟨b0, gs0, b1, r, gs1, _, inv0, hcont, _, _, _, _, hins, inv1, _, hrel, _, _, _⟩ :=
    insert_table_spec hc hnp ti e ow chk hchk hb inv
  rw [hins] at h
  cases h
  obtain ⟨n, b2, hn, hyb⟩ := mem_elements.1 hy
  by_cases hne : n = cb.hashElement e true &&& t.bucketsMask
  · subst hne
    rw [getElem?_set_same b1 hb] at hn
    cases hn
    obtain ⟨c, hm, rfl⟩ := inv1.mem_elements_iff.1 hyb
    rcases hrel.mem_elems (List.mem_map_of_mem Prod.snd hm) with h1 | h1
    · exact Or.inl h1
    · obtain ⟨c1, hm1, h2⟩ := List.mem_map.1 (mem_elems_of_content hcont h1)
      exact Or.inr (mem_elements.2 ⟨_, b, hb, inv.mem_elements_iff.2 ⟨c1, hm1, h2⟩⟩)
  · rw [getElem?_set_other b1 hne] at hn
    exact Or.inr (mem_elements.2 ⟨n, b2, hn, hyb⟩)

/-- The insertion of a record with a new key into a table of one bucket. -/
theorem insert_single {cb : Callbacks K E} {nearPrime : Nat → Nat} (hc : Contract cb)
    (hnp : ∀ n, n ≤ nearPrime n) {t : Multi E} (ti : TInv cb t) {b : Bucket E}
    (hone : t.buckets = [b]) (e : E)
    (hkey : ∀ y ∈ elements t, cb.isEqualElementElementByKey e y = false) :
    ∃ t1 b1, insert cb nearPrime t e false true = some (t1, none) ∧ TInv cb t1 ∧
      t1.buckets = [b1] ∧ b1.nrUsed = b.nrUsed + 1 ∧
      b1.nrAlloc = (if 2 * b.nrAlloc < 3 * b.nrUsed then nearPrime (2 * b.nrAlloc + 1)
        else b.nrAlloc) := by
  have hidx : cb.hashElement e true &&& t.bucketsMask = 0 := by
    have := ti.index_lt (cb.hashElement e true)
    rw [hone] at this
    simpa using this
  have hb : t.buckets[cb.hashElement e true &&& t.bucketsMask]? = some b := by
    rw [hidx, hone]
    rfl
  have habs : ∀ y ∈ elements t, cb.isEqualElementElement e y = false := by
    intro y hy
    cases h : cb.isEqualElementElement e y with
    | false => rfl
    | true =>
      have := hc.eq_key e y h
      rw [hkey y hy] at this
      cases this
  obtain ⟨gs, inv⟩ := ti.inv _ b hb
  obtain ⟨b0, gs0, b1, r, gs1, hg, inv0, hcont, _, hu0, _, _, hins, inv1, hal, hrel, _, _, ti1⟩ :=
    insert_table_spec hc hnp ti e false true (Or.inl rfl) hb inv
  obtain ⟨b2, _, hg2, _, _, _, _, _, hsame, _, hgrown⟩ := growBucket_spec hc hnp inv
  rw [hg] at hg2
  cases hg2
  have hr : r = none := hrel.result_none.2 (TInv.absent_cells_grown habs hb inv hcont)
  subst hr
  have hlen := hrel.length
  rw [← inv1.used, ← inv0.used, hu0] at hlen
  refine ⟨_, b1, hins, ti1, ?_, by simpa using hlen, ?_⟩
  · simp only [hidx, hone, List.set_cons_zero]
  · rw [hal]
    split
    · rename_i h
      exact hgrown h
    · rename_i h
      rw [hsame h]

theorem insertAll_single {cb : Callbacks K E} {nearPrime : Nat → Nat} (hc : Contract cb)
    (hnp : ∀ n, n ≤ nearPrime n) : ∀ (es : List E) (t : Multi E) (b : Bucket E) (u : Nat),
    TInv cb t → t.buckets = [b] → b.nrUsed = u →
    b.nrAlloc = (if u ≤ 3 then 4 else nearPrime 9) → u + es.length ≤ 6 →
    es.Pairwise (fun x y => cb.isEqualElementElementByKey x y = false) →
    (∀ e ∈ es, ∀ y ∈ elements t, cb.isEqualElementElementByKey e y = false) →
    ∃ t1 b1, insertAll cb nearPrime false true t es = some t1 ∧ t1.buckets = [b1] ∧
      b1.nrUsed = u + es.length ∧
      b1.nrAlloc = (if u + es.length ≤ 3 then 4 else nearPrime 9) := by
  intro es
  induction es with
  | nil =>
    intro t b u _ hone hu hcap _ _ _
    exact ⟨t, b, rfl, hone, by simpa using hu, by simpa using hcap⟩
  | cons e es ih =>
    intro t b u ti hone hu hcap hle hpw hkey
    rw [List.pairwise_cons] at hpw
    simp only [List.length_cons] at hle
    obtain ⟨t1, b1, hins, ti1, hone1, hu1, hcap1⟩ :=
      insert_single hc hnp ti hone e (hkey e (List.mem_cons_self _ _))
    have hn9 := hnp 9
    have hcap2 : b1.nrAlloc = (if u + 1 ≤ 3 then 4 else nearPrime 9) := by
      rw [hcap1, hcap, hu]
      split_ifs <;> first | rfl | omega
    have hkey1 : ∀ e1 ∈ es, ∀ y ∈ elements t1, cb.isEqualElementElementByKey e1 y = false := by
      intro e1 he1 y hy
      rcases insert_mem_elements hc hnp ti (Or.inl rfl) hins hy with h | h
      · subst h
        cases h2 : cb.isEqualElementElementByKey e1 y with
        | false => rfl
        | true =>
          have := hc.key_symm _ _ h2
          rw [hpw.1 e1 he1] at this
          cases this
      · exact hkey e1 (List.mem_cons_of_mem _ he1) y h
    obtain ⟨t2, b2, hall, hone2, hu2, hcap3⟩ :=
      ih t1 b1 (u + 1) ti1 hone1 (by rw [hu1, hu]) hcap2 (by omega) hpw.2 hkey1
    refine ⟨t2, b2, ?_, hone2, ?_, ?_⟩
    · unfold insertAll
      rw [hins]
      exact hall
    · rw [hu2, List.length_cons]
      omega
    · rw [hcap3, List.length_cons]
      have : u + 1 + es.length = u + (es.length + 1) := by omega
      rw [this]

/-- C23 (amended): starting from an empty table with 1 bucket of capacity 4 and inserting six
records with pairwise distinct keys, after `k` of the inserts the bucket holds `k` records;
its capacity is 4 after the first three inserts and `TRI_NearPrime(9)` after the fourth and
every later one, so the resize occurs in the fourth call of insert; and the condition
`3 * used > 2 * capacity` holds after `k` inserts exactly for `k = 3`: it first becomes true
after the third insert. -/
theorem growth_after_three {cb : Callbacks K E} {nearPrime : Nat → Nat} (hc : Contract cb)
    (hnp : ∀ n, n ≤ nearPrime n) (es : List E) (hlen : es.length = 6)
    (hkeys : es.Pairwise (fun x y => cb.isEqualElementElementByKey x y = false))
    (k : Nat) (hk : k ≤ 6) :
    ∃ t b, insertAll cb nearPrime false true (Multi.mk0 1 4) (es.take k) = some t ∧
      t.buckets = [b] ∧ b.nrUsed = k ∧
      b.nrAlloc = (if k ≤ 3 then 4 else nearPrime 9) ∧
      (2 * b.nrAlloc < 3 * b.nrUsed ↔ k = 3) := by
  have hone : (Multi.mk0 1 4 : Multi E).buckets = [emptyBucket E 4] := rfl
  have hl : (es.take k).length = k := by
    rw [List.length_take, hlen]
    omega
  obtain ⟨t, b, hall, hb, hu, hcap⟩ :=
    insertAll_single hc hnp (es.take k) (Multi.mk0 1 4) (emptyBucket E 4) 0
      (TInv.mk0 cb 1 (by decide)) hone rfl rfl (by rw [hl]; omega)
      (hkeys.sublist (List.take_sublist k es))
      (by
        intro e _ y hy
        unfold elements at hy
        rw [hone] at hy
        simp [emptyBucket_elements] at hy)
  rw [hl] at hu hcap
  simp only [Nat.zero_add] at hu hcap
  refine ⟨t, b, hall, hb, hu, hcap, ?_⟩
  rw [hu, hcap]
  have hn9 := hnp 9
  split_ifs <;> omega

theorem growth_after_three_witness :
    ∃ t b, insertAll pairCallbacks nearPrimeFrom7 false true (Multi.mk0 1 4)
        ([(1, 1), (2, 2), (3, 3), (4, 4), (5, 5), (6, 6)].take 4) = some t ∧
      t.buckets = [b] ∧ b.nrUsed = 4 ∧
      b.nrAlloc = (if 4 ≤ 3 then 4 else nearPrimeFrom7 9) ∧
      (2 * b.nrAlloc < 3 * b.nrUsed ↔ 4 = 3) :=
  growth_after_three pairCallbacks_contract nearPrimeFrom7_ge
    [(1, 1), (2, 2), (3, 3), (4, 4), (5, 5), (6, 6)] (by decide) (by decide) 4 (by decide)

/-- C23 (counterexample): with one bucket of capacity 4 and the records `(1, 1)` ... `(6, 6)`
the bucket holds 3 records in 4 slots after the third insert, so `3 * used > 2 * capacity`
is true already then; after the fourth insert the bucket holds 4 records in 9 slots and the
condition is false. -/
theorem growth_not_after_four :
    (tableOf [(1, 1), (2, 2), (3, 3)] 4).buckets.map (fun b => (b.nrUsed, b.nrAlloc)) =
      [(3, 4)] ∧ 2 * 4 < 3 * 3 ∧
    (tableOf [(1, 1), (2, 2), (3, 3), (4, 4)] 4).buckets.map (fun b => (b.nrUsed, b.nrAlloc)) =
      [(4, 9)] ∧ ¬ 2 * 9 < 3 * 4 := by
  decide

/-! ## Insertion without the check of equality -/

theorem probe_congr (b : Bucket E) {c1 c2 : Entry E → Bool}
    (h : ∀ p, p < b.nrAlloc → c1 (b.table p) = c2 (b.table p)) :
    ∀ (fuel s : Nat), s < b.nrAlloc → probe b c1 fuel s = probe b c2 fuel s := by
  intro fuel
  induction fuel with
  | zero => intro s _; rfl
  | succ f ih =>
    intro s hs
    unfold probe
    rw [h s hs, ih (incr b s) (incr_lt b hs)]

theorem findElementPlace_chk (cb : Callbacks K E) (b : Bucket E) (e : E) (hpos : 0 < b.nrAlloc)
    (habs : ∀ p, p < b.nrAlloc → ∀ x, (b.table p).ptr = some x →
      cb.isEqualElementElement e x = false) :
    findElementPlace cb b e false = findElementPlace cb b e true := by
  unfold findElementPlace
  simp only
  rw [probe_congr b _ b.nrAlloc _ (Nat.mod_lt _ hpos)]
  intro p hp
  unfold placeCont
  cases hx : (b.table p).ptr with
  | none => rfl
  | some x => simp [habs p hp x hx]

theorem insertCore_chk (cb : Callbacks K E) (b : Bucket E) (e : E) (ow : Bool)
    (hpos : 0 < b.nrAlloc)
    (habs : ∀ p, p < b.nrAlloc → ∀ x, (b.table p).ptr = some x →
      cb.isEqualElementElement e x = false) :
    insertCore cb b e ow false = insertCore cb b e ow true := by
  unfold insertCore
  simp only
  split
  · rfl
  · cases hp : probe b (headCont (cb.isEqualElementElementByKey e) (cb.hashElement e true))
        b.nrAlloc (hashToIndex (cb.hashElement e true) % b.nrAlloc) with
    | none => rfl
    | some i =>
      have hi := (probe_sound b _ _ _ i (Nat.mod_lt _ hpos) hp).1
      simp only [Option.some_bind]
      cases hx : (b.table i).ptr with
      | none => rfl
      | some x =>
        simp only [habs i hi x hx, Bool.and_false, Bool.false_and, Bool.false_eq_true,
          if_false]
        rw [findElementPlace_chk cb b e hpos habs]

theorem insert_chk_eq {cb : Callbacks K E} {nearPrime : Nat → Nat} (hc : Contract cb)
    (hnp : ∀ n, n ≤ nearPrime n) {t : Multi E} (ti : TInv cb t) (e : E) (ow : Bool)
    (habs : ∀ y ∈ elements t, cb.isEqualElementElement e y = false) :
    insert cb nearPrime t e ow false = insert cb nearPrime t e ow true ∧
    ∃ t1, insert cb nearPrime t e ow true = some (t1, none) := by
  obtain ⟨b, hb⟩ := ti.bucket (cb.hashElement e true)
  obtain ⟨gs, inv⟩ := ti.inv _ b hb
  obtain ⟨b0, gs0, b1, r, gs1, hg, inv0, hcont, _, _, _, _, hins, _, _, hrel, _, _, _⟩ :=
    insert_table_spec hc hnp ti e ow true (Or.inl rfl) hb inv
  have hcells := TInv.absent_cells_grown habs hb inv hcont
  have hr : r = none := hrel.result_none.2 hcells
  subst hr
  refine ⟨?_, _, hins⟩
  rw [insert_eq cb nearPrime e ow false hb, insert_eq cb nearPrime e ow true hb]
  unfold insertBucket
  rw [hg]
  simp only [Option.some_bind]
  rw [insertCore_chk cb b0 e ow inv0.shape.cap_pos]
  intro p hp x hx
  obtain ⟨c, hm, hcx⟩ := inv0.mem_elements_iff.1 (mem_bucket_elements hp hx)
  rw [← hcx]
  exact hcells c hm

/-- C29: for every reachable table and every record R that is not full-equal to any stored
record, `insert(R, overwrite, check_equality = false)` and
`insert(R, overwrite, check_equality = true)` return null and produce exactly the same table
state (the two calls are equal as values: same result, same slots, links and counters). -/
theorem insert_unchecked_eq {cb : Callbacks K E} {nearPrime : Nat → Nat} (hc : Contract cb)
    (hnp : ∀ n, n ≤ nearPrime n) {t : Multi E} (hr : Reachable cb nearPrime t) (e : E)
    (ow : Bool) (habs : ∀ y ∈ elements t, cb.isEqualElementElement e y = false) :
    insert cb nearPrime t e ow false = insert cb nearPrime t e ow true ∧
    ∃ t1, insert cb nearPrime t e ow true = some (t1, none) :=
  insert_chk_eq hc hnp (hr.tinv hc hnp) e ow habs

theorem insert_unchecked_eq_witness :
    insert pairCallbacks nearPrimeFrom7 exampleTable (1, 7) true false =
      insert pairCallbacks nearPrimeFrom7 exampleTable (1, 7) true true ∧
    ∃ t1, insert pairCallbacks nearPrimeFrom7 exampleTable (1, 7) true true = some (t1, none) :=
  insert_unchecked_eq pairCallbacks_contract nearPrimeFrom7_ge exampleTable_reachable (1, 7)
    true (by decide)

/-! ## Termination of the operations -/

theorem insert_returns {cb : Callbacks K E} {nearPrime : Nat → Nat} (hc : Contract cb)
    (hnp : ∀ n, n ≤ nearPrime n) {t : Multi E} (ti : TInv cb t) (e : E) (ow : Bool) :
    (insert cb nearPrime t e ow true).isSome = true := by
  obtain ⟨b, hb⟩ := ti.bucket (cb.hashElement e true)
  obtain ⟨gs, inv⟩ := ti.inv _ b hb
  obtain ⟨b0, gs0, b1, r, gs1, _, _, _, _, _, _, _, hins, _⟩ :=
    insert_table_spec hc hnp ti e ow true (Or.inl rfl) hb inv
  rw [hins]
  rfl

theorem lookup_returns {cb : Callbacks K E} {t : Multi E} (hc : Contract cb) (ti : TInv cb t)
    (e : E)
    (h : (∃ y ∈ elements t, cb.isEqualElementElement e y = true) ∨
      hasFreeSlot t (cb.hashElement e true) = true) :
    (lookup cb t e).isSome = true := by
  by_cases hex : ∃ y ∈ elements t, cb.isEqualElementElement e y = true
  · obtain ⟨y, hy, heq⟩ := hex
    rw [lookup_stored hc ti hy heq]
    rfl
  · rcases h with h | h
    · exact absurd h hex
    · rw [lookup_absent hc ti (fun y hy => by
        cases h1 : cb.isEqualElementElement e y with
        | false => rfl
        | true => exact absurd ⟨y, hy, h1⟩ hex) h]
      rfl

theorem remove_returns {cb : Callbacks K E} {t : Multi E} (hc : Contract cb) (ti : TInv cb t)
    (e : E)
    (h : (∃ y ∈ elements t, cb.isEqualElementElement e y = true) ∨
      hasFreeSlot t (cb.hashElement e true) = true) :
    (remove cb t e).isSome = true := by
  obtain ⟨b, hb⟩ := ti.bucket (cb.hashElement e true)
  obtain ⟨gs, inv⟩ := ti.inv _ b hb
  by_cases hex : ∃ y ∈ elements t, cb.isEqualElementElement e y = true
  · obtain ⟨y, hy, heq⟩ := hex
    obtain ⟨c, b1, gs1, pre, post, _, _, hrem, _⟩ := remove_table_spec hc ti hy heq hb inv
    rw [hrem]
    rfl
  · rcases h with h | h
    · exact absurd h hex
    · have habs : ∀ y ∈ elements t, cb.isEqualElementElement e y = false := by
        intro y hy
        cases h1 : cb.isEqualElementElement e y with
        | false => rfl
        | true => exact absurd ⟨y, hy, h1⟩ hex
      rw [remove_eq cb e hb, removeBucket_absent hc inv
        (inv.free_slot ((hasFreeSlot_iff hb).1 h)) (TInv.absent_cells habs hb inv)]
      rfl

theorem lookupByKey_returns {cb : Callbacks K E} {t : Multi E} (hc : Contract cb)
    (ti : TInv cb t) (key : K) (limit : Nat)
    (h : (∃ y ∈ elements t, cb.isEqualKeyElement key y = true) ∨
      hasFreeSlot t (cb.hashKey key) = true) :
    (lookupByKey cb t key limit).isSome = true := by
  obtain ⟨b, hb⟩ := ti.bucket (cb.hashKey key)
  obtain ⟨gs, inv⟩ := ti.inv _ b hb
  have h0 := lookupByKey_spec hc ti key hb inv h
  rcases Nat.eq_zero_or_pos limit with hl | hl
  · subst hl
    rw [h0]
    rfl
  · have h1 : lookupByKey cb t key limit = (lookupByKey cb t key 0).map (List.take limit) := by
      rw [lookupByKey_eq cb key limit hb, lookupByKey_eq cb key 0 hb]
      exact lookupHead_limit inv (keyPred_key hc key) hl
    rw [h1, h0]
    rfl

/-- C28 (amended): for every table constructed with an initial capacity of at least 1 per
bucket and then modified only by insert (with the check of equality), remove and resize, with
valid callbacks: every call of insert terminates; `lookup(R)` and `remove(R)` terminate
whenever a record full-equal to R is stored or the bucket of R has an unused slot;
`lookupByKey(K, limit)` terminates whenever a record of key K is stored or the bucket of K has
an unused slot; and all of them terminate when every bucket has at least four slots. -/
theorem operations_terminate {cb : Callbacks K E} {nearPrime : Nat → Nat} (hc : Contract cb)
    (hnp : ∀ n, n ≤ nearPrime n) {t : Multi E} (hr : Reachable cb nearPrime t) (e : E)
    (ow : Bool) (key : K) (limit : Nat) :
    (insert cb nearPrime t e ow true).isSome = true ∧
    ((∃ y ∈ elements t, cb.isEqualElementElement e y = true) ∨
        hasFreeSlot t (cb.hashElement e true) = true →
      (lookup cb t e).isSome = true ∧ (remove cb t e).isSome = true) ∧
    ((∃ y ∈ elements t, cb.isEqualKeyElement key y = true) ∨
        hasFreeSlot t (cb.hashKey key) = true →
      (lookupByKey cb t key limit).isSome = true) ∧
    ((∀ b ∈ t.buckets, 4 ≤ b.nrAlloc) →
      (lookup cb t e).isSome = true ∧ (remove cb t e).isSome = true ∧
      (lookupByKey cb t key limit).isSome = true) := by
  have ti := hr.tinv hc hnp
  refine ⟨insert_returns hc hnp ti e ow,
    fun h => ⟨lookup_returns hc ti e h, remove_returns hc ti e h⟩,
    fun h => lookupByKey_returns hc ti key limit h, fun hcap => ?_⟩
  have hfree : ∀ h : Nat, hasFreeSlot t h = true := fun h =>
    ti.hasFreeSlot_of_capacity h fun b hb => hcap b (List.mem_iff_getElem?.2 ⟨_, hb⟩)
  exact ⟨lookup_returns hc ti e (Or.inr (hfree _)), remove_returns hc ti e (Or.inr (hfree _)),
    lookupByKey_returns hc ti key limit (Or.inr (hfree _))⟩

theorem operations_terminate_witness :
    (insert pairCallbacks nearPrimeFrom7 exampleTable (3, 3) false true).isSome = true ∧
    ((∃ y ∈ elements exampleTable, pairCallbacks.isEqualElementElement (3, 3) y = true) ∨
        hasFreeSlot exampleTable (pairCallbacks.hashElement (3, 3) true) = true →
      (lookup pairCallbacks exampleTable (3, 3)).isSome = true ∧
      (remove pairCallbacks exampleTable (3, 3)).isSome = true) ∧
    ((∃ y ∈ elements exampleTable, pairCallbacks.isEqualKeyElement 1 y = true) ∨
        hasFreeSlot exampleTable (pairCallbacks.hashKey 1) = true →
      (lookupByKey pairCallbacks exampleTable 1 2).isSome = true) ∧
    ((∀ b ∈ exampleTable.buckets, 4 ≤ b.nrAlloc) →
      (lookup pairCallbacks exampleTable (3, 3)).isSome = true ∧
      (remove pairCallbacks exampleTable (3, 3)).isSome = true ∧
      (lookupByKey pairCallbacks exampleTable 1 2).isSome = true) :=
  operations_terminate pairCallbacks_contract nearPrimeFrom7_ge exampleTable_reachable (3, 3)
    false 1 2

/-- C28 (counterexample): the table with one bucket of initial capacity 1 holds the record
`(1, 1)` after one insert; its only slot is used, so the probe loops of `lookup((2, 2))`,
`lookupByKey(2, 0)` and `remove((2, 2))` meet neither an empty nor a matching slot: the
calls return no result. -/
theorem operations_full_table :
    Reachable pairCallbacks nearPrimeFrom7 (tableOf [(1, 1)] 1) ∧
    elements (tableOf [(1, 1)] 1) = [(1, 1)] ∧
    capacity (tableOf [(1, 1)] 1) = 1 ∧
    (lookup pairCallbacks (tableOf [(1, 1)] 1) (2, 2)).isNone = true ∧
    (lookupByKey pairCallbacks (tableOf [(1, 1)] 1) 2 0).isNone = true ∧
    (remove pairCallbacks (tableOf [(1, 1)] 1) (2, 2)).isNone = true :=
  ⟨reachable_tableOf _ (by decide), by decide, by decide, by decide, by decide, by decide⟩

/-! ## The counter of collisions -/

theorem used_slots_perm {cb : Callbacks K E} {b : Bucket E} {gs : List (Group E)}
    (s : Shape cb b gs) :
    ((List.range b.nrAlloc).filter fun i => (b.table i).ptr.isSome).Perm (slots gs) := by
  apply (List.perm_ext_iff_of_nodup ((List.nodup_range _).filter _) s.nodup).2
  intro i
  simp only [List.mem_filter, List.mem_range]
  constructor
  · rintro ⟨h1, h2⟩
    exact s.cover i h1 (by intro h; simp [h] at h2)
  · intro h
    obtain ⟨c, hc, rfl⟩ := List.mem_map.1 h
    exact ⟨s.lt c hc, by simp [s.ptrs c hc]⟩

theorem chain_prev {T : Nat → Entry E} : ∀ (l : List (Nat × E)) (a : Nat × E),
    List.Chain (Linked T) a l → ∀ c ∈ l, (T c.1).prev.isSome = true := by
  intro l
  induction l with
  | nil => intro a _ c hc; cases hc
  | cons x l ih =>
    intro a h c hc
    rw [List.chain_cons] at h
    rcases List.mem_cons.1 hc with rfl | hc
    · rw [h.1.2]
      rfl
    · exact ih x h.2 c hc

theorem Shape.rest_prev {cb : Callbacks K E} {b : Bucket E} {gs : List (Group E)}
    (s : Shape cb b gs) {g : Group E} (hg : g ∈ gs) {c : Nat × E} (hc : c ∈ g.rest) :
    (b.table c.1).prev.isSome = true :=
  chain_prev g.rest g.head (s.links g hg) c hc

theorem count_rest (P : Nat → Bool) : ∀ (gs : List (Group E)),
    (∀ g ∈ gs, P g.head.1 = false ∧ ∀ c ∈ g.rest, P c.1 = true) →
    ((slots gs).filter P).length + gs.length = (cells gs).length := by
  intro gs
  induction gs with
  | nil => intro _; rfl
  | cons g gs ih =>
    intro h
    have hg := h g (List.mem_cons_self _ _)
    have ih1 := ih fun g1 hg1 => h g1 (List.mem_cons_of_mem _ hg1)
    have hrest : ((g.rest.map Prod.fst).filter P) = g.rest.map Prod.fst := by
      apply List.filter_eq_self.2
      intro i hi
      obtain ⟨c, hc, rfl⟩ := List.mem_map.1 hi
      exact hg.2 c hc
    unfold slots at ih1 ⊢
    rw [cells_cons]
    simp only [List.map_cons, List.map_append, List.filter_cons, hg.1, Bool.false_eq_true,
      if_false, List.filter_append, hrest, List.length_append, List.length_map,
      List.length_cons]
    omega

theorem BInv.collisions_eq {cb : Callbacks K E} {b : Bucket E} {gs : List (Group E)}
    (inv : BInv cb b gs) : b.nrCollisions = nonHeadSlots b := by
  have s := inv.shape
  have h1 : nonHeadSlots b =
      (((List.range b.nrAlloc).filter fun i => (b.table i).ptr.isSome).filter
        fun i => (b.table i).prev.isSome).length := by
    unfold nonHeadSlots
    rw [List.filter_filter]
    congr 2
    funext i
    rw [Bool.and_comm]
  have h2 := ((used_slots_perm s).filter fun i => (b.table i).prev.isSome).length_eq
  have h3 := count_rest (fun i => (b.table i).prev.isSome) gs fun g hg =>
    ⟨by simp [s.first g hg], fun c hc => s.rest_prev hg hc⟩
  have h4 := inv.coll
  rw [h1, h2]
  omega

/-! ## The number of distinct keys -/

theorem any_key_congr {cb : Callbacks K E} (hc : Contract cb) {x y : E}
    (h : cb.isEqualElementElementByKey x y = true) (l : List E) :
    l.any (fun z => cb.isEqualElementElementByKey x z) =
      l.any (fun z => cb.isEqualElementElementByKey y z) := by
  rw [Bool.eq_iff_iff, List.any_eq_true, List.any_eq_true]
  constructor
  · rintro ⟨z, hz, h1⟩
    exact ⟨z, hz, hc.key_trans _ _ _ (hc.key_symm _ _ h) h1⟩
  · rintro ⟨z, hz, h1⟩
    exact ⟨z, hz, hc.key_trans _ _ _ h h1⟩

theorem any_perm {α : Type} (f : α → Bool) {l1 l2 : List α} (h : l1.Perm l2) :
    l1.any f = l2.any f := by
  rw [Bool.eq_iff_iff, List.any_eq_true, List.any_eq_true]
  constructor
  · rintro ⟨z, hz, h1⟩
    exact ⟨z, h.mem_iff.1 hz, h1⟩
  · rintro ⟨z, hz, h1⟩
    exact ⟨z, h.mem_iff.2 hz, h1⟩

theorem distinctKeys_perm {cb : Callbacks K E} (hc : Contract cb) {l1 l2 : List E}
    (h : l1.Perm l2) : distinctKeys cb l1 = distinctKeys cb l2 := by
  induction h with
  | nil => rfl
  | cons x h ih =>
    unfold distinctKeys
    rw [ih, any_perm _ h]
  | swap x y l =>
    simp only [distinctKeys, List.any_cons]
    by_cases hxy : cb.isEqualElementElementByKey x y = true
    · have hyx := hc.key_symm _ _ hxy
      have hany := any_key_congr hc hxy l
      simp only [hyx, hxy, Bool.true_or, if_true, hany]
    · have hyx : ¬ cb.isEqualElementElementByKey y x = true := fun h1 =>
        hxy (hc.key_symm _ _ h1)
      simp only [Bool.not_eq_true] at hxy hyx
      simp only [hyx, hxy, Bool.false_or]
      omega
  | trans _ _ ih1 ih2 => rw [ih1, ih2]

theorem distinctKeys_append (cb : Callbacks K E) : ∀ (l1 l2 : List E),
    (∀ x ∈ l1, ∀ y ∈ l2, cb.isEqualElementElementByKey x y = false) →
    distinctKeys cb (l1 ++ l2) = distinctKeys cb l1 + distinctKeys cb l2 := by
  intro l1
  induction l1 with
  | nil => intro l2 _; simp [distinctKeys]
  | cons x l ih =>
    intro l2 h
    have h2 : l2.any (fun y => cb.isEqualElementElementByKey x y) = false := by
      rw [List.any_eq_false]
      intro y hy
      rw [h x (List.mem_cons_self _ _) y hy]
      simp
    rw [List.cons_append, distinctKeys, distinctKeys, List.any_append, h2, Bool.or_false,
      ih l2 fun a ha => h a (List.mem_cons_of_mem _ ha)]
    omega

theorem distinctKeys_class (cb : Callbacks K E) : ∀ (l : List E) (a : E),
    (∀ x ∈ a :: l, ∀ y ∈ a :: l, cb.isEqualElementElementByKey x y = true) →
    distinctKeys cb (a :: l) = 1 := by
  intro l
  induction l with
  | nil => intro a _; simp [distinctKeys]
  | cons b l ih =>
    intro a h
    have h1 := ih b fun x hx y hy => h x (List.mem_cons_of_mem _ hx) y (List.mem_cons_of_mem _ hy)
    have h2 : (b :: l).any (fun y => cb.isEqualElementElementByKey a y) = true := by
      rw [List.any_eq_true]
      exact ⟨b, List.mem_cons_self _ _,
        h a (List.mem_cons_self _ _) b (List.mem_cons_of_mem _ (List.mem_cons_self _ _))⟩
    rw [distinctKeys, h2, h1]
    simp

theorem distinctKeys_pos (cb : Callbacks K E) : ∀ (l : List E), l ≠ [] →
    0 < distinctKeys cb l := by
  intro l
  induction l with
  | nil => intro h; exact absurd rfl h
  | cons x l ih =>
    intro _
    unfold distinctKeys
    cases l with
    | nil => simp
    | cons y l =>
      have := ih (List.cons_ne_nil _ _)
      omega

theorem distinctKeys_le (cb : Callbacks K E) : ∀ (l : List E), distinctKeys cb l ≤ l.length := by
  intro l
  induction l with
  | nil => simp [distinctKeys]
  | cons x l ih =>
    unfold distinctKeys
    rw [List.length_cons]
    split <;> omega

theorem distinctKeys_groups {cb : Callbacks K E} (hc : Contract cb) :
    ∀ (gs : List (Group E)),
    (∀ g ∈ gs, ∀ c ∈ g.rest, cb.isEqualElementElementByKey g.head.2 c.2 = true) →
    (∀ g ∈ gs, ∀ g1 ∈ gs, cb.isEqualElementElementByKey g.head.2 g1.head.2 = true → g = g1) →
    (slots gs).Nodup →
    distinctKeys cb ((cells gs).map Prod.snd) = gs.length := by
  intro gs
  induction gs with
  | nil => intro _ _ _; rfl
  | cons g gs ih =>
    intro hsame hdiff hnd
    have hcells : cells (g :: gs) = g.cells ++ cells gs := by
      simp [cells]
    have hkey : ∀ g1 ∈ g :: gs, ∀ c ∈ g1.cells,
        cb.isEqualElementElementByKey g1.head.2 c.2 = true := by
      intro g1 hg1 c hcm
      rcases List.mem_cons.1 hcm with rfl | hcm
      · exact hc.key_refl _
      · exact hsame g1 hg1 c hcm
    unfold slots at hnd
    rw [hcells, List.map_append] at hnd
    have hnd2 := (List.nodup_append.1 hnd)
    rw [hcells, List.map_append, distinctKeys_append, List.length_cons]
    · have h1 : distinctKeys cb (g.cells.map Prod.snd) = 1 := by
        unfold Group.cells
        rw [List.map_cons]
        apply distinctKeys_class
        intro x hx y hy
        rw [← List.map_cons] at hx hy
        obtain ⟨c, hcm, rfl⟩ := List.mem_map.1 hx
        obtain ⟨c1, hcm1, rfl⟩ := List.mem_map.1 hy
        have k1 := hkey g (List.mem_cons_self _ _) c hcm
        have k2 := hkey g (List.mem_cons_self _ _) c1 hcm1
        exact hc.key_trans _ _ _ (hc.key_symm _ _ k1) k2
      have h2 := ih (fun g1 hg1 => hsame g1 (List.mem_cons_of_mem _ hg1))
        (fun g1 hg1 g2 hg2 => hdiff g1 (List.mem_cons_of_mem _ hg1) g2
          (List.mem_cons_of_mem _ hg2)) hnd2.2.1
      rw [h1, h2]
      omega
    · intro x hx y hy
      obtain ⟨c, hcm, rfl⟩ := List.mem_map.1 hx
      obtain ⟨c1, hcm1, rfl⟩ := List.mem_map.1 hy
      obtain ⟨g1, hg1, hc1⟩ := List.mem_flatMap.1 hcm1
      cases hk : cb.isEqualElementElementByKey c.2 c1.2 with
      | false => rfl
      | true =>
        exfalso
        have k1 := hkey g (List.mem_cons_self _ _) c hcm
        have k2 := hkey g1 (List.mem_cons_of_mem _ hg1) c1 hc1
        have k3 : cb.isEqualElementElementByKey g.head.2 g1.head.2 = true :=
          hc.key_trans _ _ _ (hc.key_trans _ _ _ k1 hk) (hc.key_symm _ _ k2)
        have heq := hdiff g (List.mem_cons_self _ _) g1 (List.mem_cons_of_mem _ hg1) k3
        subst heq
        have m1 : g.head.1 ∈ g.cells.map Prod.fst :=
          List.mem_map_of_mem Prod.fst (List.mem_cons_self _ _)
        have m2 : g.head.1 ∈ (cells gs).map Prod.fst :=
          List.mem_map_of_mem Prod.fst
            (List.mem_flatMap.2 ⟨g, hg1, List.mem_cons_self _ _⟩)
        exact hnd2.2.2 m1 m2

theorem BInv.distinctKeys_eq {cb : Callbacks K E} {b : Bucket E} {gs : List (Group E)}
    (hc : Contract cb) (inv : BInv cb b gs) :
    distinctKeys cb b.elements + b.nrCollisions = b.nrUsed := by
  have s := inv.shape
  rw [distinctKeys_perm hc (elements_perm s),
    distinctKeys_groups hc gs s.sameKey s.diffKey s.nodup, inv.used, ← inv.coll]
  omega

/-! ## The selectivity -/

theorem foldl_pair_sums (l : List (Bucket E)) (a : Nat × Nat) :
    l.foldl (fun r b => (r.1 + b.nrUsed, r.2 + b.nrCollisions)) a =
      (a.1 + (l.map Bucket.nrUsed).sum, a.2 + (l.map Bucket.nrCollisions).sum) := by
  induction l generalizing a with
  | nil => simp
  | cons b l ih =>
    simp only [List.foldl_cons, List.map_cons, List.sum_cons]
    rw [ih]
    simp only [Nat.add_assoc]

theorem sum_map_add (f g h : Bucket E → Nat) : ∀ (l : List (Bucket E)),
    (∀ b ∈ l, f b + g b = h b) → (l.map f).sum + (l.map g).sum = (l.map h).sum := by
  intro l
  induction l with
  | nil => intro _; rfl
  | cons b l ih =>
    intro hl
    have h1 := hl b (List.mem_cons_self _ _)
    have h2 := ih fun b1 hb1 => hl b1 (List.mem_cons_of_mem _ hb1)
    simp only [List.map_cons, List.sum_cons]
    omega

theorem distinctKeys_flatMap (cb : Callbacks K E) : ∀ (bs : List (Bucket E)),
    bs.Pairwise (fun b b1 => ∀ x ∈ b.elements, ∀ y ∈ b1.elements,
      cb.isEqualElementElementByKey x y = false) →
    distinctKeys cb (bs.flatMap Bucket.elements) =
      (bs.map fun b => distinctKeys cb b.elements).sum := by
  intro bs
  induction bs with
  | nil => intro _; rfl
  | cons b bs ih =>
    intro hp
    rw [List.pairwise_cons] at hp
    rw [List.flatMap_cons, distinctKeys_append, ih hp.2, List.map_cons, List.sum_cons]
    intro x hx y hy
    obtain ⟨b1, hb1, hy1⟩ := List.mem_flatMap.1 hy
    exact hp.1 b1 hb1 x hx y hy1

theorem TInv.buckets_pairwise {cb : Callbacks K E} {t : Multi E} (hc : Contract cb)
    (ti : TInv cb t) :
    t.buckets.Pairwise (fun b b1 => ∀ x ∈ b.elements, ∀ y ∈ b1.elements,
      cb.isEqualElementElementByKey x y = false) := by
  rw [List.pairwise_iff_getElem]
  intro i j hi hj hij x hx y hy
  by_contra hne
  have hk : cb.isEqualElementElementByKey x y = true := by simpa using hne
  have h1 := ti.home i _ (List.getElem?_eq_getElem hi) x hx
  have h2 := ti.home j _ (List.getElem?_eq_getElem hj) y hy
  rw [hc.hash_key x y hk] at h1
  omega

theorem length_flatMap_elements : ∀ (bs : List (Bucket E)),
    (bs.flatMap Bucket.elements).length = (bs.map fun b => b.elements.length).sum := by
  intro bs
  induction bs with
  | nil => rfl
  | cons b bs ih => rw [List.flatMap_cons, List.length_append, ih, List.map_cons, List.sum_cons]

theorem TInv.elements_length {cb : Callbacks K E} {t : Multi E} (ti : TInv cb t) :
    (elements t).length = size t := by
  unfold elements
  rw [length_flatMap_elements, size_eq_sum]
  congr 1
  apply List.map_congr_left
  intro b hb
  obtain ⟨n, hn⟩ := List.mem_iff_getElem?.1 hb
  obtain ⟨gs, inv⟩ := ti.inv n b hn
  exact inv.used_eq_elements.symm

theorem TInv.distinctKeys_sum {cb : Callbacks K E} {t : Multi E} (hc : Contract cb)
    (ti : TInv cb t) :
    distinctKeys cb (elements t) + (t.buckets.map Bucket.nrCollisions).sum = size t := by
  unfold elements
  rw [distinctKeys_flatMap cb _ (ti.buckets_pairwise hc), size_eq_sum]
  apply sum_map_add
  intro b hb
  obtain ⟨n, hn⟩ := List.mem_iff_getElem?.1 hb
  obtain ⟨gs, inv⟩ := ti.inv n b hn
  exact inv.distinctKeys_eq hc

theorem selectivity_eq {cb : Callbacks K E} {t : Multi E} (hc : Contract cb) (ti : TInv cb t) :
    selectivity t = if 0 < (elements t).length then
      (distinctKeys cb (elements t) : ℚ) / ((elements t).length : ℚ) else 1 := by
  have h1 := ti.distinctKeys_sum hc
  have h2 := size_eq_sum t
  have h3 := ti.elements_length
  unfold selectivity
  simp only [foldl_pair_sums, Nat.zero_add]
  rw [← h2, ← h3]
  have h4 : (elements t).length - (t.buckets.map Bucket.nrCollisions).sum =
      distinctKeys cb (elements t) := by omega
  rw [h4]

/-- C25: in every reachable table the collisions counter of each bucket equals the number of
its non-head non-empty slots, so that, as an exact ratio, `selectivity()` equals (number of
distinct keys stored) / (number of records stored) when the table is non-empty and 1 when it
is empty; hence `0 < selectivity() ≤ 1` always. -/
theorem selectivity_exact {cb : Callbacks K E} {nearPrime : Nat → Nat} (hc : Contract cb)
    (hnp : ∀ n, n ≤ nearPrime n) {t : Multi E} (hr : Reachable cb nearPrime t) :
    (∀ (n : Nat) (b : Bucket E), t.buckets[n]? = some b → b.nrCollisions = nonHeadSlots b) ∧
    (elements t ≠ [] → selectivity t =
      (distinctKeys cb (elements t) : ℚ) / ((elements t).length : ℚ)) ∧
    (elements t = [] → selectivity t = 1) ∧
    0 < selectivity t ∧ selectivity t ≤ 1 := by
  have ti := hr.tinv hc hnp
  have heq := selectivity_eq hc ti
  refine ⟨?_, ?_, ?_, ?_, ?_⟩
  · intro n b hb
    obtain ⟨gs, inv⟩ := ti.inv n b hb
    exact inv.collisions_eq
  · intro hne
    rw [heq, if_pos (List.length_pos.2 hne)]
  · intro he
    rw [heq, he]
    rfl
  · rw [heq]
    split
    · rename_i hpos
      have hd := distinctKeys_pos cb (elements t) (List.length_pos.1 hpos)
      exact div_pos (by exact_mod_cast hd) (by exact_mod_cast hpos)
    · exact zero_lt_one
  · rw [heq]
    split
    · rename_i hpos
      rw [div_le_one (by exact_mod_cast hpos)]
      exact_mod_cast distinctKeys_le cb (elements t)
    · exact le_refl _

theorem selectivity_exact_witness :
    (∀ (n : Nat) (b : Bucket (Nat × Nat)), exampleTable.buckets[n]? = some b →
      b.nrCollisions = nonHeadSlots b) ∧
    (elements exampleTable ≠ [] → selectivity exampleTable =
      (distinctKeys pairCallbacks (elements exampleTable) : ℚ) /
        ((elements exampleTable).length : ℚ)) ∧
    (elements exampleTable = [] → selectivity exampleTable = 1) ∧
    0 < selectivity exampleTable ∧ selectivity exampleTable ≤ 1 :=
  selectivity_exact pairCallbacks_contract nearPrimeFrom7_ge exampleTable_reachable

/-! ## The iteration over the stored records -/

theorem foldl_ptr_filterMap {σ : Type} (T : Nat → Entry E) (callback : σ → E → σ) :
    ∀ (l : List Nat) (s : σ),
    l.foldl (fun s i => match (T i).ptr with
      | some e => callback s e
      | none => s) s = (l.filterMap fun i => (T i).ptr).foldl callback s := by
  intro l
  induction l with
  | nil => intro s; rfl
  | cons i l ih =>
    intro s
    rw [List.foldl_cons, ih]
    simp only [List.filterMap_cons]
    cases (T i).ptr with
    | none => rfl
    | some e => rfl

theorem foldl_flatMap_elements {σ : Type} (callback : σ → E → σ) :
    ∀ (bs : List (Bucket E)) (s : σ),
    bs.foldl (fun s b => b.elements.foldl callback s) s =
      (bs.flatMap Bucket.elements).foldl callback s := by
  intro bs
  induction bs with
  | nil => intro s; rfl
  | cons b bs ih =>
    intro s
    rw [List.foldl_cons, ih, List.flatMap_cons, List.foldl_append]

theorem iterate_eq {σ : Type} (t : Multi E) (callback : σ → E → σ) (init : σ) :
    iterate t callback init = (elements t).foldl callback init := by
  unfold iterate elements
  rw [← foldl_flatMap_elements]
  congr 1
  funext s b
  exact foldl_ptr_filterMap b.table callback _ s

theorem foldl_snoc_eq (l : List E) : ∀ (acc : List E),
    l.foldl (fun r e => r ++ [e]) acc = acc ++ l := by
  induction l with
  | nil => intro acc; simp
  | cons x l ih =>
    intro acc
    rw [List.foldl_cons, ih]
    simp

theorem foldl_count_eq (l : List E) : ∀ (n : Nat),
    l.foldl (fun r _ => r + 1) n = n + l.length := by
  induction l with
  | nil => intro n; rfl
  | cons x l ih =>
    intro n
    rw [List.foldl_cons, ih, List.length_cons]
    omega

theorem BInv.bucket_pairwise {cb : Callbacks K E} {b : Bucket E} {gs : List (Group E)}
    (hc : Contract cb) (inv : BInv cb b gs) :
    b.elements.Pairwise (fun x y => cb.isEqualElementElement x y = false) := by
  have s := inv.shape
  have hsymm : ∀ {x y : E}, cb.isEqualElementElement x y = false →
      cb.isEqualElementElement y x = false := by
    intro x y h
    by_contra hne
    have h1 := hc.eq_symm _ _ (by simpa using hne)
    rw [h] at h1
    cases h1
  rw [List.Perm.pairwise_iff hsymm (elements_perm s), List.pairwise_map]
  have hnd : (cells gs).Nodup := List.Nodup.of_map Prod.fst s.nodup
  apply List.Pairwise.imp_of_mem _ hnd
  intro c c1 hm hm1 hne
  by_contra h
  exact hne (s.unique c hm c1 hm1 (by simpa using h))

theorem TInv.elements_pairwise {cb : Callbacks K E} {t : Multi E} (hc : Contract cb)
    (ti : TInv cb t) :
    (elements t).Pairwise (fun x y => cb.isEqualElementElement x y = false) := by
  unfold elements
  rw [List.pairwise_flatMap]
  constructor
  · intro b hb
    obtain ⟨n, hn⟩ := List.mem_iff_getElem?.1 hb
    obtain ⟨gs, inv⟩ := ti.inv n b hn
    exact inv.bucket_pairwise hc
  · apply (ti.buckets_pairwise hc).imp
    intro b b1 h x hx y hy
    by_contra hne
    have := hc.eq_key x y (by simpa using hne)
    rw [h x hx y hy] at this
    cases this

theorem lookupByElementBucket_lt {cb : Callbacks K E} {b : Bucket E} {e : E} {i : Nat}
    (hpos : 0 < b.nrAlloc) (h : lookupByElementBucket cb b e = some i) : i < b.nrAlloc := by
  unfold lookupByElementBucket at h
  simp only at h
  cases hp : probe b (headCont (cb.isEqualElementElementByKey e) (cb.hashElement e true))
      b.nrAlloc (hashToIndex (cb.hashElement e true) % b.nrAlloc) with
  | none => rw [hp] at h; cases h
  | some j =>
    have hj := (probe_sound b _ _ _ j (Nat.mod_lt _ hpos) hp).1
    rw [hp] at h
    simp only [Option.some_bind] at h
    split at h
    · split at h
      · cases h
        exact hj
      · unfold findElementPlace at h
        simp only [Option.map_map] at h
        cases hq : probe b (placeCont (cb.isEqualElementElement e) true (cb.hashElement e false))
            b.nrAlloc (hashToIndex (cb.hashElement e false) % b.nrAlloc) with
        | none => rw [hq] at h; cases h
        | some k =>
          rw [hq] at h
          cases h
          exact (probe_sound b _ _ _ k (Nat.mod_lt _ hpos) hq).1
    · cases h
      exact hj

theorem TInv.lookup_mem {cb : Callbacks K E} {t : Multi E} (ti : TInv cb t) {e y : E}
    (h : lookup cb t e = some (some y)) : y ∈ elements t := by
  obtain ⟨b, hb⟩ := ti.bucket (cb.hashElement e true)
  obtain ⟨gs, inv⟩ := ti.inv _ b hb
  rw [lookup_eq cb e hb] at h
  cases hl : lookupByElementBucket cb b e with
  | none => rw [hl] at h; cases h
  | some i =>
    rw [hl] at h
    simp only [Option.map_some', Option.some.injEq] at h
    exact mem_elements.2 ⟨_, b, hb,
      mem_bucket_elements (lookupByElementBucket_lt inv.shape.cap_pos hl) h⟩

/-- C26: for every reachable table, `iterate(callback)` invokes the callback exactly once for
each stored record and for nothing else: the run of any callback is the run over the list of
the records in the slots, the number of invocations equals `size()`, no two visited records
are full-equal, every visited record is found by `lookup`, and every record that `lookup`
finds is visited. -/
theorem iterate_visits {cb : Callbacks K E} {nearPrime : Nat → Nat} (hc : Contract cb)
    (hnp : ∀ n, n ≤ nearPrime n) {t : Multi E} (hr : Reachable cb nearPrime t) :
    (∀ (σ : Type) (callback : σ → E → σ) (init : σ),
      iterate t callback init = (elements t).foldl callback init) ∧
    iterate t (fun r e => r ++ [e]) [] = elements t ∧
    iterate t (fun r _ => r + 1) 0 = size t ∧
    (elements t).length = size t ∧
    (elements t).Pairwise (fun x y => cb.isEqualElementElement x y = false) ∧
    (∀ y ∈ elements t, lookup cb t y = some (some y)) ∧
    (∀ e y, lookup cb t e = some (some y) → y ∈ elements t) := by
  have ti := hr.tinv hc hnp
  refine ⟨fun σ callback init => iterate_eq t callback init, ?_, ?_, ti.elements_length,
    ti.elements_pairwise hc, fun y hy => lookup_stored hc ti hy (hc.eq_refl y),
    fun e y h => ti.lookup_mem h⟩
  · rw [iterate_eq, foldl_snoc_eq]
    rfl
  · rw [iterate_eq, foldl_count_eq, ti.elements_length]
    omega

theorem iterate_visits_witness :
    (∀ (σ : Type) (callback : σ → Nat × Nat → σ) (init : σ),
      iterate exampleTable callback init = (elements exampleTable).foldl callback init) ∧
    iterate exampleTable (fun r e => r ++ [e]) [] = elements exampleTable ∧
    iterate exampleTable (fun r _ => r + 1) 0 = size exampleTable ∧
    (elements exampleTable).length = size exampleTable ∧
    (elements exampleTable).Pairwise
      (fun x y => pairCallbacks.isEqualElementElement x y = false) ∧
    (∀ y ∈ elements exampleTable, lookup pairCallbacks exampleTable y = some (some y)) ∧
    (∀ e y, lookup pairCallbacks exampleTable e = some (some y) → y ∈ elements exampleTable) :=
  iterate_visits pairCallbacks_contract nearPrimeFrom7_ge exampleTable_reachable

/-! ## Lookups in a bucket without an unused slot -/

theorem lookup_full {cb : Callbacks K E} {t : Multi E} (hc : Contract cb) (ti : TInv cb t)
    {e : E} (habs : ∀ y ∈ elements t, cb.isEqualElementElement e y = false)
    (hfull : hasFreeSlot t (cb.hashElement e true) = false) : lookup cb t e = none := by
  obtain ⟨b, hb⟩ := ti.bucket (cb.hashElement e true)
  obtain ⟨gs, inv⟩ := ti.inv _ b hb
  rw [lookup_eq cb e hb]
  cases h : lookupByElementBucket cb b e with
  | none => rfl
  | some i =>
    exfalso
    obtain ⟨hi, h2⟩ := lookupByElementBucket_sound hc inv h
    rcases h2 with ⟨h3, _⟩ | ⟨c, hm, heq, _⟩
    · have := (hasFreeSlot_iff hb).2 (inv.used_lt_of_free ⟨i, hi, h3⟩)
      rw [hfull] at this
      cases this
    · rw [TInv.absent_cells habs hb inv c hm] at heq
      cases heq

theorem lookupByKey_full {cb : Callbacks K E} {t : Multi E} (hc : Contract cb) (ti : TInv cb t)
    {key : K} (limit : Nat) (habs : ∀ y ∈ elements t, cb.isEqualKeyElement key y = false)
    (hfull : hasFreeSlot t (cb.hashKey key) = false) : lookupByKey cb t key limit = none := by
  obtain ⟨b, hb⟩ := ti.bucket (cb.hashKey key)
  obtain ⟨gs, inv⟩ := ti.inv _ b hb
  rw [lookupByKey_eq cb key limit hb]
  simp only [lookupHead]
  cases hp : probe b (headCont (cb.isEqualKeyElement key) (cb.hashKey key)) b.nrAlloc
      (hashToIndex (cb.hashKey key) % b.nrAlloc) with
  | none => rfl
  | some i =>
    exfalso
    obtain ⟨hi, _, h3⟩ := probe_head_sound inv (keyPred_key hc key) hp
    rcases h3 with ⟨h4, _⟩ | ⟨g, hg, hkey, _⟩
    · have := (hasFreeSlot_iff hb).2 (inv.used_lt_of_free ⟨i, hi, h4⟩)
      rw [hfull] at this
      cases this
    · have hm : g.head.2 ∈ elements t :=
        mem_elements.2 ⟨_, b, hb, inv.mem_elements_iff.2 ⟨g.head, head_mem_cells hg, rfl⟩⟩
      rw [habs _ hm] at hkey
      cases hkey

/-- The lookup of a record is determined by the stored records and by the presence of an
unused slot in the bucket of the record. -/
theorem lookup_congr_tables {cb : Callbacks K E} {t t2 : Multi E} (hc : Contract cb)
    (ti : TInv cb t) (ti2 : TInv cb t2) (hmem : ∀ y, y ∈ elements t2 ↔ y ∈ elements t)
    (hfree : ∀ h, hasFreeSlot t2 h = hasFreeSlot t h) (e : E) :
    lookup cb t2 e = lookup cb t e := by
  by_cases hex : ∃ y ∈ elements t, cb.isEqualElementElement e y = true
  · obtain ⟨y, hy, heq⟩ := hex
    rw [lookup_stored hc ti hy heq, lookup_stored hc ti2 ((hmem y).2 hy) heq]
  · have habs : ∀ y ∈ elements t, cb.isEqualElementElement e y = false := by
      intro y hy
      by_contra h
      exact hex ⟨y, hy, by simpa using h⟩
    have habs2 : ∀ y ∈ elements t2, cb.isEqualElementElement e y = false :=
      fun y hy => habs y ((hmem y).1 hy)
    cases hf : hasFreeSlot t (cb.hashElement e true) with
    | true =>
      rw [lookup_absent hc ti habs hf, lookup_absent hc ti2 habs2 (by rw [hfree, hf])]
    | false =>
      rw [lookup_full hc ti habs hf, lookup_full hc ti2 habs2 (by rw [hfree, hf])]

/-- The insertion of a new record does not change the lists of the other keys. -/
theorem InsertRel.frame {cb : Callbacks K E} {b b1 : Bucket E} {e : E} {ow : Bool}
    {gs gs1 : List (Group E)} {r : Option E} (s : Shape cb b gs) (s1 : Shape cb b1 gs1)
    (h : InsertRel cb e ow gs gs1 r)
    (habs : ∀ c ∈ cells gs, cb.isEqualElementElement e c.2 = false)
    {keyP : E → Bool} {hk : Nat} (kp : KeyPred cb keyP hk) (hke : keyP e = false) :
    groupElems keyP gs1 = groupElems keyP gs := by
  have key : (∀ g ∈ gs, keyP g.head.2 = true → ∃ g1 ∈ gs1, keyP g1.head.2 = true ∧
        g1.elems = g.elems) ∧
      (∀ g1 ∈ gs1, keyP g1.head.2 = true → ∃ g ∈ gs, keyP g.head.2 = true) := by
    rcases h with ⟨_, _, h | h⟩ | ⟨c, hm, heq, _, _⟩
    · obtain ⟨_, t, rfl⟩ := h
      constructor
      · intro g hg hkey
        exact ⟨g, List.mem_cons_of_mem _ hg, hkey, rfl⟩
      · intro g1 hg1 hkey
        rcases List.mem_cons.1 hg1 with rfl | hg1
        · rw [hke] at hkey
          cases hkey
        · exact ⟨g1, hg1, hkey⟩
    · obtain ⟨g, r0, j, hr0, hkg, rfl⟩ := h
      have hgk : keyP g.head.2 = false := by
        by_contra hne
        have := kp.congr _ _ (by simpa using hne) hkg
        rw [hke] at this
        cases this
      constructor
      · intro g2 hg2 hkey
        rcases List.mem_cons.1 (hr0.mem_iff.1 hg2) with rfl | hg3
        · rw [hgk] at hkey
          cases hkey
        · exact ⟨g2, List.mem_cons_of_mem _ hg3, hkey, rfl⟩
      · intro g1 hg1 hkey
        rcases List.mem_cons.1 hg1 with rfl | hg1
        · rw [hgk] at hkey
          cases hkey
        · exact ⟨g1, hr0.mem_iff.2 (List.mem_cons_of_mem _ hg1), hkey⟩
    · rw [habs c hm] at heq
      cases heq
  by_cases hex : ∃ g ∈ gs, keyP g.head.2 = true
  · obtain ⟨g, hg, hkey⟩ := hex
    obtain ⟨g1, hg1, hkey1, hel⟩ := key.1 g hg hkey
    rw [groupElems_of_mem s kp hg hkey, groupElems_of_mem s1 kp hg1 hkey1, hel]
  · have h0 : ∀ g ∈ gs, keyP g.head.2 = false := by
      intro g hg
      by_contra hne
      exact hex ⟨g, hg, by simpa using hne⟩
    have h1 : ∀ g1 ∈ gs1, keyP g1.head.2 = false := by
      intro g1 hg1
      by_contra hne
      obtain ⟨g, hg, hkey⟩ := key.2 g1 hg1 (by simpa using hne)
      rw [h0 g hg] at hkey
      cases hkey
    rw [groupElems_of_absent h0, groupElems_of_absent h1]

/-! ## Removal followed by insertion of the same record -/

/-- The removal of a stored record followed by its insertion, in terms of the bucket of the
record. -/
theorem remove_insert_spec {cb : Callbacks K E} {nearPrime : Nat → Nat} (hc : Contract cb)
    (hnp : ∀ n, n ≤ nearPrime n) {t : Multi E} (ti : TInv cb t) {e : E}
    (he : e ∈ elements t) {b : Bucket E}
    (hb : t.buckets[cb.hashElement e true &&& t.bucketsMask]? = some b)
    {gs : List (Group E)} (inv : BInv cb b gs) :
    ∃ t1 b2 gs2, remove cb t e = some (t1, some e) ∧
      insert cb nearPrime t1 e false true =
        some (t.setBucket (cb.hashElement e true &&& t.bucketsMask) b2, none) ∧
      TInv cb (t.setBucket (cb.hashElement e true &&& t.bucketsMask) b2) ∧
      BInv cb b2 gs2 ∧ b2.nrAlloc = b.nrAlloc ∧ b2.nrUsed = b.nrUsed ∧
      (∀ y ∈ b2.elements, y ∈ b.elements) ∧
      (∀ (keyP : E → Bool) (hk : Nat), KeyPred cb keyP hk → keyP e = false →
        groupElems keyP gs2 = groupElems keyP gs) := by
  obtain ⟨c, b1, gs1, pre, post, hm, hcy, hrem, inv1, hal, hus, hsub, _, hframe, ti1⟩ :=
    remove_table_spec hc ti he (hc.eq_refl e) hb inv
  have hb1 := getElem?_setBucket_same b1 hb (h := cb.hashElement e true) rfl
  have habs1 := remove_absent_after hc ti hb hsub
  obtain ⟨b0, gs0, b2, r, gs2, hg, inv0, hcont, _, hu0, _, _, hins, inv2, hal2, hrel, _, _, ti2⟩ :=
    insert_table_spec hc hnp ti1 e false true (Or.inl rfl) hb1 inv1
  have hcells0 := TInv.absent_cells_grown habs1 hb1 inv1 hcont
  have hr : r = none := hrel.result_none.2 hcells0
  subst hr
  have hload := ti.load _ b hb
  have hb0 : b0 = b1 := by
    obtain ⟨b3, _, hg3, _, _, _, _, _, hsame, _, _⟩ := growBucket_spec hc hnp inv1
    rw [hg] at hg3
    cases hg3
    exact hsame (by omega)
  subst hb0
  have hlen := hrel.length
  rw [← inv2.used, ← inv0.used] at hlen
  simp only [Option.isNone_none, if_true] at hlen
  have hset : ((t.setBucket (cb.hashElement e true &&& t.bucketsMask) b0).setBucket
      (cb.hashElement e true &&& t.bucketsMask) b2) =
      t.setBucket (cb.hashElement e true &&& t.bucketsMask) b2 := by
    show ({ bucketsMask := _, buckets := _ } : Multi E) = { bucketsMask := _, buckets := _ }
    congr 1
    exact List.set_set _ _ _ _
  refine ⟨_, b2, gs2, hrem, ?_, ?_, inv2, by rw [hal2, hal], by omega, ?_, ?_⟩
  · rw [← hset]
    exact hins
  · rw [← hset]
    exact ti2
  · intro y hy
    obtain ⟨c2, hm2, hc2⟩ := inv2.mem_elements_iff.1 hy
    rcases hrel.mem_elems (List.mem_map_of_mem Prod.snd hm2) with h1 | h1
    · rw [← hc2, h1]
      exact ti.mem_bucket he hb
    · obtain ⟨c1, hm1, h2⟩ := List.mem_map.1 (mem_elems_of_content hcont h1)
      rw [← hc2, ← h2]
      exact (hsub c1.2 (inv1.mem_elements_iff.2 ⟨c1, hm1, rfl⟩)).1
  · intro keyP hk kp hke
    rw [InsertRel.frame inv0.shape inv2.shape hrel hcells0 kp hke,
      groupElems_congr inv1.shape inv0.shape kp hcont,
      hframe keyP hk kp (by rw [hcy]; exact hke)]

theorem elements_nodup {cb : Callbacks K E} {t : Multi E} (hc : Contract cb) (ti : TInv cb t) :
    (elements t).Nodup := by
  apply (ti.elements_pairwise hc).imp
  intro x y h hxy
  subst hxy
  rw [hc.eq_refl x] at h
  cases h

/-- The replacement of a bucket by a bucket with the same counters and no other records. -/
theorem setBucket_same_records {cb : Callbacks K E} {t : Multi E} (hc : Contract cb)
    (ti : TInv cb t) {n : Nat} {b b2 : Bucket E} (hb : t.buckets[n]? = some b)
    (ti2 : TInv cb (t.setBucket n b2)) (hal : b2.nrAlloc = b.nrAlloc)
    (hus : b2.nrUsed = b.nrUsed) (hsub : ∀ y ∈ b2.elements, y ∈ b.elements) :
    size (t.setBucket n b2) = size t ∧ (elements (t.setBucket n b2)).Perm (elements t) ∧
    ∀ h, hasFreeSlot (t.setBucket n b2) h = hasFreeSlot t h := by
  have hsize : size (t.setBucket n b2) = size t := by
    have := size_set b2 hb
    show size { t with buckets := t.buckets.set n b2 } = size t
    omega
  have hsubset : elements (t.setBucket n b2) ⊆ elements t := by
    intro y hy
    obtain ⟨m, bm, hm, hym⟩ := mem_elements.1 hy
    have hm1 : (t.buckets.set n b2)[m]? = some bm := hm
    by_cases hmn : m = n
    · subst hmn
      rw [getElem?_set_same b2 hb] at hm1
      cases hm1
      exact mem_elements.2 ⟨m, b, hb, hsub y hym⟩
    · rw [getElem?_set_other b2 hmn] at hm1
      exact mem_elements.2 ⟨m, bm, hm1, hym⟩
  refine ⟨hsize, ?_, ?_⟩
  · apply (List.subperm_of_subset (elements_nodup hc ti2) hsubset).perm_of_length_le
    rw [ti.elements_length, ti2.elements_length, hsize]
  · intro h
    by_cases hmn : h &&& t.bucketsMask = n
    · have hb1 : t.buckets[h &&& t.bucketsMask]? = some b := by
        rw [hmn]
        exact hb
      have hb2 := getElem?_setBucket_same b2 hb hmn
      rw [Bool.eq_iff_iff, hasFreeSlot_iff hb2, hasFreeSlot_iff hb1, hal, hus]
    · obtain ⟨bm, hbm⟩ := ti.bucket h
      have hb2 := getElem?_setBucket_other b2 hbm hmn
      rw [Bool.eq_iff_iff, hasFreeSlot_iff hb2, hasFreeSlot_iff hbm]

theorem lookupByKey_take {cb : Callbacks K E} {t : Multi E} (hc : Contract cb) (ti : TInv cb t)
    (key : K) {limit : Nat} (hl : 0 < limit) :
    lookupByKey cb t key limit = (lookupByKey cb t key 0).map (List.take limit) := by
  obtain ⟨b, hb⟩ := ti.bucket (cb.hashKey key)
  obtain ⟨gs, inv⟩ := ti.inv _ b hb
  rw [lookupByKey_eq cb key limit hb, lookupByKey_eq cb key 0 hb]
  exact lookupHead_limit inv (keyPred_key hc key) hl

/-- C27: for every reachable table T and stored record R, `remove(R)` followed by
`insert(R, overwrite = false, check_equality = true)` yields a table with the same `size()`,
the same `lookup` result for every record, the same `lookupByKey` sequence for every key
other than the key of R (for every limit), and for the key of R the same set of records: the
new sequence is a permutation of the old one. -/
theorem remove_insert_equiv {cb : Callbacks K E} {nearPrime : Nat → Nat} (hc : Contract cb)
    (hnp : ∀ n, n ≤ nearPrime n) {t : Multi E} (hr : Reachable cb nearPrime t) (e : E)
    (he : e ∈ elements t) :
    ∃ t1 t2, remove cb t e = some (t1, some e) ∧
      insert cb nearPrime t1 e false true = some (t2, none) ∧
      size t2 = size t ∧
      (∀ x, lookup cb t2 x = lookup cb t x) ∧
      (∀ key limit, cb.isEqualKeyElement key e = false →
        lookupByKey cb t2 key limit = lookupByKey cb t key limit) ∧
      (∀ key, cb.isEqualKeyElement key e = true →
        ∃ l l2 : List E, lookupByKey cb t key 0 = some (l.map some) ∧
          lookupByKey cb t2 key 0 = some (l2.map some) ∧ l2.Perm l) := by
  have ti := hr.tinv hc hnp
  obtain ⟨b, hb⟩ := ti.bucket (cb.hashElement e true)
  obtain ⟨gs, inv⟩ := ti.inv _ b hb
  obtain ⟨t1, b2, gs2, hrem, hins, ti2, inv2, hal, hus, hsub, hgroup⟩ :=
    remove_insert_spec hc hnp ti he hb inv
  obtain ⟨hsize, hperm, hfree⟩ := setBucket_same_records hc ti hb ti2 hal hus hsub
  refine ⟨t1, _, hrem, hins, hsize,
    lookup_congr_tables hc ti ti2 (fun y => hperm.mem_iff) hfree, ?_, ?_⟩
  · intro key limit hke
    obtain ⟨bk, hbk⟩ := ti.bucket (cb.hashKey key)
    by_cases hn : cb.hashKey key &&& t.bucketsMask = cb.hashElement e true &&& t.bucketsMask
    · have h0 : lookupByKey cb (t.setBucket (cb.hashElement e true &&& t.bucketsMask) b2)
          key 0 = lookupByKey cb t key 0 := by
        by_cases hcond : (∃ y ∈ elements t, cb.isEqualKeyElement key y = true) ∨
            hasFreeSlot t (cb.hashKey key) = true
        · have hcond2 : (∃ y ∈ elements (t.setBucket
                (cb.hashElement e true &&& t.bucketsMask) b2),
              cb.isEqualKeyElement key y = true) ∨
              hasFreeSlot (t.setBucket (cb.hashElement e true &&& t.bucketsMask) b2)
                (cb.hashKey key) = true := by
            rcases hcond with ⟨y, hy, hky⟩ | h
            · exact Or.inl ⟨y, hperm.mem_iff.2 hy, hky⟩
            · exact Or.inr (by rw [hfree, h])
          have hbk1 : t.buckets[cb.hashKey key &&& t.bucketsMask]? = some b := by
            rw [hn]
            exact hb
          rw [lookupByKey_spec hc ti key hbk1 inv hcond,
            lookupByKey_spec hc ti2 key (getElem?_setBucket_same b2 hb hn) inv2 hcond2,
            hgroup _ _ (keyPred_key hc key) hke]
        · have habs : ∀ y ∈ elements t, cb.isEqualKeyElement key y = false := by
            intro y hy
            by_contra hne
            exact hcond (Or.inl ⟨y, hy, by simpa using hne⟩)
          have hfull : hasFreeSlot t (cb.hashKey key) = false := by
            by_contra hne
            exact hcond (Or.inr (by simpa using hne))
          rw [lookupByKey_full hc ti 0 habs hfull,
            lookupByKey_full hc ti2 0 (fun y hy => habs y (hperm.mem_iff.1 hy))
              (by rw [hfree, hfull])]
      rcases Nat.eq_zero_or_pos limit with hl | hl
      · rw [hl]
        exact h0
      · rw [lookupByKey_take hc ti2 key hl, lookupByKey_take hc ti key hl, h0]
    · rw [lookupByKey_eq cb key limit hbk,
        lookupByKey_eq cb key limit (getElem?_setBucket_other b2 hbk hn)]
  · intro key hke
    have hh := hc.keyEl_hash key e hke
    have hbk : t.buckets[cb.hashKey key &&& t.bucketsMask]? = some b := by
      rw [hh]
      exact hb
    have hn : cb.hashKey key &&& t.bucketsMask = cb.hashElement e true &&& t.bucketsMask := by
      rw [hh]
    have hbk2 := getElem?_setBucket_same b2 hb hn
    refine ⟨_, _, lookupByKey_spec hc ti key hbk inv (Or.inl ⟨e, he, hke⟩),
      lookupByKey_spec hc ti2 key hbk2 inv2 (Or.inl ⟨e, hperm.mem_iff.2 he, hke⟩), ?_⟩
    exact (elements_filter_key hc ti2 key hbk2 inv2).trans
      ((hperm.filter _).trans (elements_filter_key hc ti key hbk inv).symm)

theorem remove_insert_equiv_witness :
    ∃ t1 t2, remove pairCallbacks exampleTable (1, 2) = some (t1, some (1, 2)) ∧
      insert pairCallbacks nearPrimeFrom7 t1 (1, 2) false true = some (t2, none) ∧
      size t2 = size exampleTable ∧
      (∀ x, lookup pairCallbacks t2 x = lookup pairCallbacks exampleTable x) ∧
      (∀ key limit, pairCallbacks.isEqualKeyElement key (1, 2) = false →
        lookupByKey pairCallbacks t2 key limit =
          lookupByKey pairCallbacks exampleTable key limit) ∧
      (∀ key, pairCallbacks.isEqualKeyElement key (1, 2) = true →
        ∃ l l2 : List (Nat × Nat),
          lookupByKey pairCallbacks exampleTable key 0 = some (l.map some) ∧
          lookupByKey pairCallbacks t2 key 0 = some (l2.map some) ∧ l2.Perm l) :=
  remove_insert_equiv pairCallbacks_contract nearPrimeFrom7_ge exampleTable_reachable (1, 2)
    (by decide)

/-! ## The test `isBetween`, the frame of the operations and the load of the buckets -/

theorem twoBuckets_reachable : Reachable pairCallbacks nearPrimeFrom7 twoBuckets := by
  unfold twoBuckets
  cases h : insertAll pairCallbacks nearPrimeFrom7 false true (Multi.mk0 2 4)
      [(1, 1), (3, 3), (5, 5)] with
  | none => exact Reachable.init 2 4 (by decide)
  | some t1 => exact reachable_insertAll false _ (Reachable.init 2 4 (by decide)) h

/-- C31 (amended): for all indices `from` and `to` that differ, `isBetween(from, from, to)`
is false; for `from = to` the call returns true for every `x`, also for `x = from`. -/
theorem isBetween_from (src dst x : Nat) (h : src ≠ dst) :
    isBetween src src dst = false ∧ isBetween src x src = true := by
  unfold isBetween
  constructor
  · split
    · simp
    · simp only [gt_iff_lt, lt_self_iff_false, decide_False, Bool.false_or, decide_eq_false_iff_not,
        not_le]
      omega
  · simp only [lt_self_iff_false, if_false, gt_iff_lt, Bool.or_eq_true, decide_eq_true_eq]
    omega

theorem isBetween_from_witness :
    isBetween 2 2 5 = false ∧ isBetween 2 4 2 = true :=
  isBetween_from 2 5 4 (by decide)

/-- C31 (counterexample): for `from = x = to = 3` the call `isBetween(3, 3, 3)` returns true,
although `x` equals `from`. -/
theorem isBetween_from_eq_to : isBetween 3 3 3 = true := by
  decide

/-- C32: for every reachable table and record R, `insert(R, ...)` and `remove(R)` leave every
bucket other than the bucket with index `hashElement(R, true) & bucketsMask` completely
unchanged (the bucket is the same value: slot array, capacity, used, collisions), as well as
the number of buckets and the mask; insert (with the check of equality) returns, and remove
returns when R is stored or its bucket has an unused slot. -/
theorem other_buckets_unchanged {cb : Callbacks K E} {nearPrime : Nat → Nat} (hc : Contract cb)
    (hnp : ∀ n, n ≤ nearPrime n) {t : Multi E} (hr : Reachable cb nearPrime t) (e : E)
    (n : Nat) (hn : n ≠ cb.hashElement e true &&& t.bucketsMask) :
    (∀ (ow chk : Bool) (x : Multi E × Option E), insert cb nearPrime t e ow chk = some x →
      x.1.buckets[n]? = t.buckets[n]? ∧ x.1.buckets.length = t.buckets.length ∧
      x.1.bucketsMask = t.bucketsMask) ∧
    (∀ x : Multi E × Option E, remove cb t e = some x →
      x.1.buckets[n]? = t.buckets[n]? ∧ x.1.buckets.length = t.buckets.length ∧
      x.1.bucketsMask = t.bucketsMask) ∧
    (∀ ow : Bool, (insert cb nearPrime t e ow true).isSome = true) ∧
    ((∃ y ∈ elements t, cb.isEqualElementElement e y = true) ∨
        hasFreeSlot t (cb.hashElement e true) = true → (remove cb t e).isSome = true) := by
  have ti := hr.tinv hc hnp
  obtain ⟨b, hb⟩ := ti.bucket (cb.hashElement e true)
  refine ⟨?_, ?_, fun ow => insert_returns hc hnp ti e ow, fun h => remove_returns hc ti e h⟩
  · intro ow chk x hx
    rw [insert_eq cb nearPrime e ow chk hb] at hx
    cases hi : insertBucket cb nearPrime b e ow chk with
    | none => rw [hi] at hx; cases hx
    | some r =>
      rw [hi] at hx
      cases hx
      exact ⟨getElem?_set_other r.1 hn, List.length_set _ _ _, rfl⟩
  · intro x hx
    rw [remove_eq cb e hb] at hx
    cases hi : removeBucket cb b e with
    | none => rw [hi] at hx; cases hx
    | some r =>
      rw [hi] at hx
      cases hx
      exact ⟨getElem?_set_other r.1 hn, List.length_set _ _ _, rfl⟩

theorem other_buckets_unchanged_witness :
    (∀ (ow chk : Bool) (x : Multi (Nat × Nat) × Option (Nat × Nat)),
      insert pairCallbacks nearPrimeFrom7 twoBuckets (7, 7) ow chk = some x →
      x.1.buckets[0]? = twoBuckets.buckets[0]? ∧
      x.1.buckets.length = twoBuckets.buckets.length ∧
      x.1.bucketsMask = twoBuckets.bucketsMask) ∧
    (∀ x : Multi (Nat × Nat) × Option (Nat × Nat),
      remove pairCallbacks twoBuckets (7, 7) = some x →
      x.1.buckets[0]? = twoBuckets.buckets[0]? ∧
      x.1.buckets.length = twoBuckets.buckets.length ∧
      x.1.bucketsMask = twoBuckets.bucketsMask) ∧
    (∀ ow : Bool, (insert pairCallbacks nearPrimeFrom7 twoBuckets (7, 7) ow true).isSome =
      true) ∧
    ((∃ y ∈ elements twoBuckets, pairCallbacks.isEqualElementElement (7, 7) y = true) ∨
        hasFreeSlot twoBuckets (pairCallbacks.hashElement (7, 7) true) = true →
      (remove pairCallbacks twoBuckets (7, 7)).isSome = true) :=
  other_buckets_unchanged pairCallbacks_contract nearPrimeFrom7_ge twoBuckets_reachable (7, 7)
    0 (by decide)

/-- C33: in every table reachable from construction (initial capacity at least 1,
`TRI_NearPrime(n) ≥ n`) by insert (with the check of equality), remove and resize, each bucket
satisfies `3 * used ≤ 2 * capacity + 3`, that is, the load exceeds the 2/3 threshold by at
most one record; consequently every bucket of capacity at least 4 has `used < capacity` and
an empty slot. -/
theorem load_bound {cb : Callbacks K E} {nearPrime : Nat → Nat} (hc : Contract cb)
    (hnp : ∀ n, n ≤ nearPrime n) {t : Multi E} (hr : Reachable cb nearPrime t)
    (n : Nat) (b : Bucket E) (hn : t.buckets[n]? = some b) :
    3 * b.nrUsed ≤ 2 * b.nrAlloc + 3 ∧
    (4 ≤ b.nrAlloc → b.nrUsed < b.nrAlloc ∧ ∃ i, i < b.nrAlloc ∧ (b.table i).ptr = none) := by
  have ti := hr.tinv hc hnp
  have hl := ti.load n b hn
  refine ⟨hl, fun h4 => ?_⟩
  obtain ⟨gs, inv⟩ := ti.inv n b hn
  have hlt : b.nrUsed < b.nrAlloc := by omega
  exact ⟨hlt, inv.free_slot hlt⟩

theorem load_bound_witness :
    3 * exampleBucket.nrUsed ≤ 2 * exampleBucket.nrAlloc + 3 ∧
    (4 ≤ exampleBucket.nrAlloc → exampleBucket.nrUsed < exampleBucket.nrAlloc ∧
      ∃ i, i < exampleBucket.nrAlloc ∧ (exampleBucket.table i).ptr = none) :=
  load_bound pairCallbacks_contract nearPrimeFrom7_ge exampleTable_reachable 0 exampleBucket
    exampleBucket_get

/-! ## A resize that is refused -/

theorem resizeBuckets_bad (cb : Callbacks K E) (nearPrime : Nat → Nat) (s : Nat) :
    ∀ (l l1 : List (Bucket E)),
    resizeBuckets cb nearPrime s l = some (l1, ErrorCode.TRI_ERROR_BAD_PARAMETER) →
    ∃ (k : Nat) (b : Bucket E), l[k]? = some b ∧
      (2 * ((2 * s + 1) % indexRange)) % indexRange < 3 * b.nrUsed ∧
      l1.length = l.length ∧ (∀ n, k ≤ n → l1[n]? = l[n]?) ∧
      (∀ (n : Nat) (b0 : Bucket E), n < k → l[n]? = some b0 →
        ¬ (2 * ((2 * s + 1) % indexRange)) % indexRange < 3 * b0.nrUsed ∧ (l1[n]?).isSome = true ∧
        l1[n]? = resizeInternal cb nearPrime b0 ((2 * s + 1) % indexRange)) := by
  intro l
  induction l with
  | nil =>
    intro l1 h
    simp [resizeBuckets] at h
  | cons a l ih =>
    intro l1 h
    unfold resizeBuckets at h
    by_cases hg : (2 * ((2 * s + 1) % indexRange)) % indexRange < 3 * a.nrUsed
    · rw [if_pos hg] at h
      cases h
      exact ⟨0, a, List.getElem?_cons_zero, hg, rfl, fun n _ => rfl, fun n b0 hn _ => absurd hn (Nat.not_lt_zero n)⟩
    · rw [if_neg hg] at h
      cases h1 : resizeInternal cb nearPrime a ((2 * s + 1) % indexRange) with
      | none => rw [h1] at h; cases h
      | some a1 =>
        rw [h1] at h
        simp only [Option.some_bind] at h
        cases h2 : resizeBuckets cb nearPrime s l with
        | none => rw [h2] at h; cases h
        | some r =>
          obtain ⟨r1, code⟩ := r
          rw [h2] at h
          simp only [Option.map_some', Option.some.injEq, Prod.mk.injEq] at h
          obtain ⟨hl1, hcode⟩ := h
          subst hl1
          subst hcode
          obtain ⟨k, b, hk, hgb, hlen, hafter, hbefore⟩ := ih r1 h2
          refine ⟨k + 1, b, by simpa using hk, hgb, by simp [hlen], ?_, ?_⟩
          · intro n hn
            cases n with
            | zero => omega
            | succ m =>
              simp only [List.getElem?_cons_succ]
              exact hafter m (by omega)
          · intro n b0 hn hb0
            cases n with
            | zero =>
              simp only [List.getElem?_cons_zero, Option.some.injEq] at hb0
              subst hb0
              exact ⟨hg, by simp, by rw [h1]; simp⟩
            | succ m =>
              simp only [List.getElem?_cons_succ] at hb0 ⊢
              exact hbefore m b0 (by omega) hb0

/-- C34 (amended): whenever `resize(size)` returns `TRI_ERROR_BAD_PARAMETER`, the first
bucket (in the order of the buckets) with `2 * (2 * s + 1) < 3 * used`, where `s = size / B`
and the left side is computed in `size_t` (modulo `2 ^ 64`), and all buckets after it are the
same as before the call; every bucket before it has been resized already (its slot array is
the result of `resizeInternal` for the size `2 * s + 1`, computed in `size_t`).  In particular
a table with one bucket is not modified at all. -/
theorem resize_refused {cb : Callbacks K E} {nearPrime : Nat → Nat} (hc : Contract cb)
    (hnp : ∀ n, n ≤ nearPrime n) {t : Multi E} (hr : Reachable cb nearPrime t) (size : Nat) :
    ∃ t1 code, resize cb nearPrime t size = some (t1, code) ∧
      (code = ErrorCode.TRI_ERROR_BAD_PARAMETER →
        ∃ (k : Nat) (b : Bucket E), t.buckets[k]? = some b ∧
          (2 * ((2 * (size / t.buckets.length) + 1) % indexRange)) % indexRange < 3 * b.nrUsed ∧
          t1.bucketsMask = t.bucketsMask ∧ t1.buckets.length = t.buckets.length ∧
          (∀ n, k ≤ n → t1.buckets[n]? = t.buckets[n]?) ∧
          (∀ (n : Nat) (b0 : Bucket E), n < k → t.buckets[n]? = some b0 →
            ¬ (2 * ((2 * (size / t.buckets.length) + 1) % indexRange)) % indexRange < 3 * b0.nrUsed ∧
            (t1.buckets[n]?).isSome = true ∧
            t1.buckets[n]? =
              resizeInternal cb nearPrime b0 ((2 * (size / t.buckets.length) + 1) % indexRange)) ∧
          (t.buckets.length = 1 → t1 = t)) := by
  have ti := hr.tinv hc hnp
  obtain ⟨l1, code, h1, _, _⟩ := resizeBuckets_result hc hnp (size / t.buckets.length)
    t.buckets (fun b hb => by
      obtain ⟨n, hn⟩ := List.mem_iff_getElem?.1 hb
      exact ti.inv n b hn)
  refine ⟨{ t with buckets := l1 }, code, ?_, ?_⟩
  · unfold resize
    rw [h1]
    rfl
  · intro hcode
    subst hcode
    obtain ⟨k, b, hk, hgb, hlen, hafter, hbefore⟩ := resizeBuckets_bad cb nearPrime _ _ _ h1
    refine ⟨k, b, hk, hgb, rfl, hlen, hafter, hbefore, ?_⟩
    intro hone
    have hk0 : k = 0 := by
      have := (List.getElem?_eq_some_iff.1 hk).1
      omega
    have hl : l1 = t.buckets := by
      apply List.ext_getElem?
      intro n
      exact hafter n (by omega)
    rw [hl]

theorem resize_refused_witness :
    ∃ t1 code, resize pairCallbacks nearPrimeFrom7 twoBuckets 0 = some (t1, code) ∧
      (code = ErrorCode.TRI_ERROR_BAD_PARAMETER →
        ∃ (k : Nat) (b : Bucket (Nat × Nat)), twoBuckets.buckets[k]? = some b ∧
          (2 * ((2 * (0 / twoBuckets.buckets.length) + 1) % indexRange)) % indexRange < 3 * b.nrUsed ∧
          t1.bucketsMask = twoBuckets.bucketsMask ∧
          t1.buckets.length = twoBuckets.buckets.length ∧
          (∀ n, k ≤ n → t1.buckets[n]? = twoBuckets.buckets[n]?) ∧
          (∀ (n : Nat) (b0 : Bucket (Nat × Nat)), n < k → twoBuckets.buckets[n]? = some b0 →
            ¬ (2 * ((2 * (0 / twoBuckets.buckets.length) + 1) % indexRange)) % indexRange < 3 * b0.nrUsed ∧
            (t1.buckets[n]?).isSome = true ∧
            t1.buckets[n]? =
              resizeInternal pairCallbacks nearPrimeFrom7 b0
                ((2 * (0 / twoBuckets.buckets.length) + 1) % indexRange)) ∧
          (twoBuckets.buckets.length = 1 → t1 = twoBuckets)) :=
  resize_refused pairCallbacks_contract nearPrimeFrom7_ge twoBuckets_reachable 0

/-- C34 (counterexample): the table with two buckets of four slots holds three records in
its second bucket; `resize(0)` resizes the empty first bucket to `TRI_NearPrime(1) = 7`
slots and then returns `TRI_ERROR_BAD_PARAMETER` for the second bucket: `capacity()` was 8
and is 11 after the call. -/
theorem resize_refused_modifies :
    Reachable pairCallbacks nearPrimeFrom7 twoBuckets ∧
    twoBuckets.buckets.map (fun b => (b.nrUsed, b.nrAlloc)) = [(0, 4), (3, 4)] ∧
    capacity twoBuckets = 8 ∧
    (resize pairCallbacks nearPrimeFrom7 twoBuckets 0).map
      (fun r => (r.2, capacity r.1, r.1.buckets.map (fun b => (b.nrUsed, b.nrAlloc)))) =
      some (ErrorCode.TRI_ERROR_BAD_PARAMETER, 11, [(0, 7), (3, 4)]) :=
  ⟨twoBuckets_reachable, by decide, by decide, by decide⟩

end AssocMulti

namespace FulltextQuery

/-! ## The tokens of a query string -/

theorem scanWord_eq : ∀ (s : List Char) (sp : Option (List Char)),
    scanWord s sp = (s.dropWhile notSep,
      if sp.isSome then sp
      else (afterColon (s.takeWhile notSep)).map fun w => w ++ s.dropWhile notSep) := by
  intro s
  induction s with
  | nil =>
    intro sp
    cases sp <;> simp [scanWord, afterColon]
  | cons c r ih =>
    intro sp
    unfold scanWord
    by_cases hs : isSeparator c = true
    · rw [if_pos hs]
      have hn : notSep c = false := by simp [notSep, hs]
      cases sp <;> simp [List.dropWhile_cons, List.takeWhile_cons, hn, afterColon]
    · rw [if_neg hs]
      have hn : notSep c = true := by simpa [notSep] using hs
      rw [List.dropWhile_cons, List.takeWhile_cons, hn]
      simp only [if_true]
      cases sp with
      | some x =>
        simp only [Option.isNone_some, Bool.false_and, Bool.false_eq_true, if_false, ih,
          Option.isSome_some, if_true]
      | none =>
        by_cases hcol : c = ':'
        · subst hcol
          simp [ih, afterColon]
        · have h1 : (c == ':') = false := by simpa using hcol
          simp only [Option.isNone_none, Bool.true_and, h1, Bool.false_eq_true, if_false, ih,
            Option.isSome_none, afterColon]

theorem dropWhile_length_le (s : List Char) : (s.dropWhile notSep).length ≤ s.length := by
  induction s with
  | nil => simp
  | cons c r ih =>
    rw [List.dropWhile_cons]
    split
    · simp only [List.length_cons]
      omega
    · exact le_refl _

theorem take_drop_length (s : List Char) :
    (s.takeWhile notSep).length + (s.dropWhile notSep).length = s.length := by
  have := congrArg List.length (List.takeWhile_append_dropWhile notSep s)
  rw [List.length_append] at this
  exact this

theorem takeWhile_notSep (s : List Char) : ∀ c ∈ s.takeWhile notSep, isSeparator c = false := by
  intro c hc
  have := List.mem_takeWhile_imp hc
  simpa [notSep] using this

theorem dropWhile_head (s : List Char) :
    s.dropWhile notSep = [] ∨
      ∃ c r, s.dropWhile notSep = c :: r ∧ isSeparator c = true := by
  cases h : s.dropWhile notSep with
  | nil => exact Or.inl rfl
  | cons c r =>
    refine Or.inr ⟨c, r, rfl, ?_⟩
    have := List.head_dropWhile_not notSep s (by rw [h]; simp)
    simp only [h, List.head_cons] at this
    simpa [notSep] using this

theorem tokensAux_cur : ∀ (s cur : List Char), cur ≠ [] →
    tokensAux s cur = (cur ++ s.takeWhile notSep) :: tokensAux (s.dropWhile notSep) [] := by
  intro s
  induction s with
  | nil =>
    intro cur hcur
    simp [tokensAux, hcur]
  | cons c r ih =>
    intro cur hcur
    by_cases hs : isSeparator c = true
    · have hn : notSep c = false := by simp [notSep, hs]
      simp [tokensAux, hs, hcur, List.takeWhile_cons, List.dropWhile_cons, hn]
    · have hn : notSep c = true := by simpa [notSep] using hs
      have hs1 : isSeparator c = false := by simpa using hs
      rw [tokensAux, if_neg hs, ih (cur ++ [c]) (by simp), List.takeWhile_cons,
        List.dropWhile_cons, hn]
      simp

theorem tokens_nil : tokens [] = [] := rfl

theorem tokens_sep {c : Char} (r : List Char) (hs : isSeparator c = true) :
    tokens (c :: r) = tokens r := by
  simp [tokens, tokensAux, hs]

theorem tokens_word {c : Char} (r : List Char) (hs : isSeparator c = false) :
    tokens (c :: r) =
      (c :: r).takeWhile notSep :: tokens ((c :: r).dropWhile notSep) := by
  have hn : notSep c = true := by simp [notSep, hs]
  unfold tokens
  rw [tokensAux, if_neg (by simp [hs]), List.nil_append, tokensAux_cur r [c] (by simp),
    List.takeWhile_cons, List.dropWhile_cons, hn]
  simp

/-! ## One iteration of the parser -/

theorem isOperator_notSep {c : Char} (h : isOperator c = true) : isSeparator c = false := by
  simp only [isOperator, Bool.or_eq_true, beq_iff_eq] at h
  rcases h with (h | h) | h <;> subst h <;> decide

theorem isOperator_ne_colon {c : Char} (h : isOperator c = true) : (c == ':') = false := by
  simp only [isOperator, Bool.or_eq_true, beq_iff_eq] at h
  rcases h with (h | h) | h <;> subst h <;> decide

theorem afterColon_length : ∀ (l w : List Char), afterColon l = some w → w.length < l.length := by
  intro l
  induction l with
  | nil => intro w h; simp [afterColon] at h
  | cons c r ih =>
    intro w h
    unfold afterColon at h
    split at h
    · cases h
      simp
    · have := ih w h
      simp only [List.length_cons]
      omega

theorem afterColon_tokenRest (tok : List Char) :
    afterColon (tokenRest tok) = afterColon tok := by
  cases tok with
  | nil => rfl
  | cons c r =>
    unfold tokenRest
    by_cases ho : isOperator c = true
    · simp only [ho, if_true]
      rw [afterColon, isOperator_ne_colon ho]
      simp
    · simp only [ho, Bool.false_eq_true, if_false]

theorem tokenOperation_eq (c : Char) (r : List Char) :
    tokenOperation (c :: r) =
      if isOperator c then ParseOperation c
      else TRI_fulltext_query_operation_e.TRI_FULLTEXT_AND := by
  unfold tokenOperation ParseOperation
  by_cases ho : isOperator c = true
  · simp only [ho, if_true]
  · simp only [ho, Bool.false_eq_true, if_false]
    simp only [isOperator, Bool.or_eq_true, beq_iff_eq, not_or] at ho
    simp [ho.1.2, ho.2]

theorem start_split (c : Char) (rest : List Char) (hs : isSeparator c = false) :
    (if isOperator c then rest else c :: rest).takeWhile notSep =
        tokenRest ((c :: rest).takeWhile notSep) ∧
    (if isOperator c then rest else c :: rest).dropWhile notSep =
        (c :: rest).dropWhile notSep := by
  have hn : notSep c = true := by simp [notSep, hs]
  by_cases ho : isOperator c = true
  · simp [ho, List.takeWhile_cons, List.dropWhile_cons, hn, tokenRest]
  · simp [ho, List.takeWhile_cons, List.dropWhile_cons, hn, tokenRest]

/-- One iteration of the loop of the parser at the first character of a token. -/
theorem parseLoop_word (env : Env) (fuel : Nat) (c : Char) (rest : List Char) (i : Nat)
    (q : TRI_fulltext_query_t) (hs : isSeparator c = false) :
    parseLoop env (fuel + 1) (c :: rest) i q =
      if (tokenRest ((c :: rest).takeWhile notSep)).isEmpty ||
          (tokenWord ((c :: rest).takeWhile notSep)).isEmpty then
        some (ResultCode.TRI_ERROR_BAD_PARAMETER, q)
      else if !(TRI_SetQueryFulltextIndex env q i (tokenWord ((c :: rest).takeWhile notSep))
          (codeMatch env ((c :: rest).takeWhile notSep) ((c :: rest).dropWhile notSep))
          (tokenOperation ((c :: rest).takeWhile notSep))).2 then
        some (ResultCode.TRI_ERROR_OUT_OF_MEMORY,
          (TRI_SetQueryFulltextIndex env q i (tokenWord ((c :: rest).takeWhile notSep))
            (codeMatch env ((c :: rest).takeWhile notSep) ((c :: rest).dropWhile notSep))
            (tokenOperation ((c :: rest).takeWhile notSep))).1)
      else if i + 1 ≥ env.maxWords then
        some (finish (i + 1),
          (TRI_SetQueryFulltextIndex env q i (tokenWord ((c :: rest).takeWhile notSep))
            (codeMatch env ((c :: rest).takeWhile notSep) ((c :: rest).dropWhile notSep))
            (tokenOperation ((c :: rest).takeWhile notSep))).1)
      else
        parseLoop env fuel ((c :: rest).dropWhile notSep) (i + 1)
          (TRI_SetQueryFulltextIndex env q i (tokenWord ((c :: rest).takeWhile notSep))
            (codeMatch env ((c :: rest).takeWhile notSep) ((c :: rest).dropWhile notSep))
            (tokenOperation ((c :: rest).takeWhile notSep))).1 := by
  obtain ⟨htake, hdrop⟩ := start_split c rest hs
  have hop := tokenOperation_eq c (rest.takeWhile notSep)
  have htok : (c :: rest).takeWhile notSep = c :: rest.takeWhile notSep := by
    simp [List.takeWhile_cons, notSep, hs]
  rw [← htok] at hop
  generalize (c :: rest).takeWhile notSep = tok at *
  generalize (c :: rest).dropWhile notSep = e at *
  have hsplit := List.takeWhile_append_dropWhile notSep (if isOperator c then rest else c :: rest)
  rw [htake, hdrop] at hsplit
  have hac := afterColon_tokenRest tok
  rw [parseLoop]
  simp only [hs, Bool.false_eq_true, if_false, scanWord_eq, Option.isSome_none, htake, hdrop,
    ← hop]
  rw [← hsplit]
  cases hw : afterColon (tokenRest tok) with
  | none =>
    have hword : tokenWord tok = tokenRest tok := by
      unfold tokenWord
      rw [← hac, hw]
    simp only [Option.map_none', List.length_append, Nat.add_sub_cancel, hword, codeMatch, hw,
      Option.isSome_none, Bool.false_eq_true, if_false, Bool.or_false, Bool.or_self,
      Nat.lt_irrefl, List.take_left', List.isEmpty_eq_true, beq_iff_eq, List.length_eq_zero,
      Nat.not_lt.2 (Nat.le_add_left _ _)]
  | some w =>
    have hword : tokenWord tok = w := by
      unfold tokenWord
      rw [← hac, hw]
    have hlt := afterColon_length _ _ hw
    have h1 : ((tokenRest tok).length + e.length - (w.length + e.length) == 0) = false := by
      rw [beq_eq_false_iff_ne]
      omega
    have h2 : ¬ (w.length + e.length < e.length) := by omega
    simp only [Option.map_some', List.length_append, Nat.add_sub_cancel, hword, codeMatch, hw,
      Option.isSome_some, if_true, h1, Bool.false_or, h2, if_false, List.take_left',
      List.isEmpty_eq_true, beq_iff_eq, List.length_eq_zero, Bool.or_eq_true,
      decide_eq_true_eq]

/-! ## Query strings without a word -/

theorem parseLoop_seps (env : Env) (s : List Char) (i : Nat) (q : TRI_fulltext_query_t) :
    ∀ (pre : List Char) (fuel : Nat), (∀ x ∈ pre, isSeparator x = true) →
    parseLoop env (pre.length + fuel) (pre ++ s) i q = parseLoop env fuel s i q := by
  intro pre
  induction pre with
  | nil =>
    intro fuel _
    simp
  | cons x pre ih =>
    intro fuel h
    have hx := h x (List.mem_cons_self _ _)
    have : (x :: pre).length + fuel = (pre.length + fuel) + 1 := by
      simp only [List.length_cons]
      omega
    rw [this, List.cons_append, parseLoop, if_pos hx]
    exact ih fuel fun y hy => h y (List.mem_cons_of_mem _ hy)

theorem takeWhile_lone (c : Char) (post : List Char) (hs : isSeparator c = false)
    (hpost : ∀ x ∈ post.head?, isSeparator x = true) :
    (c :: post).takeWhile notSep = [c] := by
  have hn : notSep c = true := by simp [notSep, hs]
  rw [List.takeWhile_cons, hn]
  simp only [if_true, List.cons.injEq, true_and]
  cases post with
  | nil => rfl
  | cons y r =>
    have hy := hpost y (by simp)
    simp [List.takeWhile_cons, notSep, hy]

/-- C38: `TRI_ParseQueryFulltextIndex` returns `TRI_ERROR_BAD_PARAMETER` for the empty query
string, for every query string that consists of separator characters only (space, tab, CR,
LF, form feed, backspace, comma), and for every query string whose first token is a lone
operator character: separators, then `+`, `-` or `|`, followed by a separator or by the end
of the string.  The query is not changed. -/
theorem parse_rejects (env : Env) (q : TRI_fulltext_query_t) (pre post : List Char) (c : Char)
    (hpre : ∀ x ∈ pre, isSeparator x = true) (hop : isOperator c = true)
    (hpost : ∀ x ∈ post.head?, isSeparator x = true) :
    TRI_ParseQueryFulltextIndex env q [] = some (ResultCode.TRI_ERROR_BAD_PARAMETER, q) ∧
    TRI_ParseQueryFulltextIndex env q pre = some (ResultCode.TRI_ERROR_BAD_PARAMETER, q) ∧
    TRI_ParseQueryFulltextIndex env q (pre ++ c :: post) =
      some (ResultCode.TRI_ERROR_BAD_PARAMETER, q) := by
  refine ⟨rfl, ?_, ?_⟩
  · unfold TRI_ParseQueryFulltextIndex
    split
    · rfl
    · have := parseLoop_seps env [] 0 q pre 1 hpre
      rw [List.append_nil] at this
      rw [this]
      rfl
  · unfold TRI_ParseQueryFulltextIndex
    have hne : (pre ++ c :: post).isEmpty = false := by
      cases pre <;> rfl
    rw [hne]
    simp only [Bool.false_eq_true, if_false]
    have hlen : (pre ++ c :: post).length + 1 = pre.length + (post.length + 1 + 1) := by
      simp only [List.length_append, List.length_cons]
      omega
    rw [hlen, parseLoop_seps env (c :: post) 0 q pre _ hpre,
      parseLoop_word env _ c post 0 q (isOperator_notSep hop),
      takeWhile_lone c post (isOperator_notSep hop) hpost]
    simp [tokenRest, hop]

theorem parse_rejects_witness :
    TRI_ParseQueryFulltextIndex exampleEnv emptyQuery [] =
      some (ResultCode.TRI_ERROR_BAD_PARAMETER, emptyQuery) ∧
    TRI_ParseQueryFulltextIndex exampleEnv emptyQuery [' ', ','] =
      some (ResultCode.TRI_ERROR_BAD_PARAMETER, emptyQuery) ∧
    TRI_ParseQueryFulltextIndex exampleEnv emptyQuery ([' ', ','] ++ '-' :: [' ', 'a']) =
      some (ResultCode.TRI_ERROR_BAD_PARAMETER, emptyQuery) :=
  parse_rejects exampleEnv emptyQuery [' ', ','] [' ', 'a'] '-' (by decide) (by decide)
    (by decide)

/-! ## The comparison with the literal `prefix:` -/

theorem toLower_eq_colon {c : Char} (h : c.toLower = ':') : c = ':' := by
  unfold Char.toLower at h
  simp only at h
  split at h
  · rename_i hr
    exfalso
    obtain ⟨h1, h2⟩ := hr
    generalize c.toNat = n at h h1 h2
    interval_cases n <;> exact absurd h (by decide)
  · exact h

theorem sep_toLower_prefixLit {c : Char} (hs : isSeparator c = true) :
    ∀ l ∈ prefixLit, (c.toLower == l) = false := by
  simp only [isSeparator, Bool.or_eq_true, beq_iff_eq] at hs
  rcases hs with (((((h | h) | h) | h) | h) | h) | h <;> subst h <;> decide

theorem startsWithNoCase_append : ∀ (lit rest e : List Char),
    (∀ c, isSeparator c = true → ∀ l ∈ lit, (c.toLower == l) = false) →
    (e = [] ∨ ∃ c r, e = c :: r ∧ isSeparator c = true) →
    startsWithNoCase (rest ++ e) lit = startsWithNoCase rest lit := by
  intro lit
  induction lit with
  | nil =>
    intro rest e _ _
    simp [startsWithNoCase]
  | cons l lit ih =>
    intro rest e hsep he
    cases rest with
    | nil =>
      rcases he with rfl | ⟨c, r, rfl, hc⟩
      · rfl
      · simp [startsWithNoCase, hsep c hc l (List.mem_cons_self _ _)]
    | cons x rest =>
      rw [List.cons_append, startsWithNoCase, startsWithNoCase,
        ih rest e (fun c hc l1 hl1 => hsep c hc l1 (List.mem_cons_of_mem _ hl1)) he]

theorem startsWithNoCase_colon : ∀ (lit rest : List Char), ':' ∈ lit →
    startsWithNoCase rest lit = true → (afterColon rest).isSome = true := by
  intro lit
  induction lit with
  | nil => intro rest h; cases h
  | cons l lit ih =>
    intro rest hmem h
    cases rest with
    | nil => simp [startsWithNoCase] at h
    | cons x rest =>
      simp only [startsWithNoCase, Bool.and_eq_true, beq_iff_eq] at h
      unfold afterColon
      by_cases hx : (x == ':') = true
      · simp [hx]
      · simp only [hx, Bool.false_eq_true, if_false]
        rcases List.mem_cons.1 hmem with hl | hl
        · exfalso
          apply hx
          rw [← hl] at h
          rw [toLower_eq_colon h.1]
          rfl
        · exact ih rest hl h.2

theorem codeMatch_eq (env : Env)
    (hce : ∀ s, env.caseEqual s prefixLit prefixLit.length = startsWithNoCase s prefixLit)
    (tok e : List Char) (he : e = [] ∨ ∃ c r, e = c :: r ∧ isSeparator c = true) :
    codeMatch env tok e = tokenMatch tok := by
  unfold codeMatch commandMatch tokenMatch
  rw [hce, startsWithNoCase_append prefixLit _ e (fun c hc => sep_toLower_prefixLit hc) he]
  by_cases hsw : startsWithNoCase (tokenRest tok) prefixLit = true
  · rw [startsWithNoCase_colon prefixLit _ (by decide) hsw]
    simp [hsw]
  · simp [hsw]

theorem startsWithNoCase_take : ∀ (lit s : List Char),
    ((s.take lit.length).map Char.toLower == lit) = startsWithNoCase s lit := by
  intro lit
  induction lit with
  | nil =>
    intro s
    simp [startsWithNoCase]
  | cons l lit ih =>
    intro s
    cases s with
    | nil => simp [startsWithNoCase]
    | cons x s =>
      simp only [List.length_cons, List.take_succ_cons, List.map_cons, startsWithNoCase]
      rw [← ih s]
      rw [Bool.eq_iff_iff]
      simp

theorem exampleEnv_caseEqual (s : List Char) :
    exampleEnv.caseEqual s prefixLit prefixLit.length = startsWithNoCase s prefixLit := by
  rw [← startsWithNoCase_take]
  rfl

/-! ## The call that stores a word -/

theorem set_spec (env : Env) (q : TRI_fulltext_query_t) (i : Nat) (word : List Char)
    (m : TRI_fulltext_query_match_e) (op : TRI_fulltext_query_operation_e) :
    (TRI_SetQueryFulltextIndex env q i word m op).1.numWords = q.numWords ∧
    (∀ p, p ≠ i →
      (TRI_SetQueryFulltextIndex env q i word m op).1.words p = q.words p ∧
      (TRI_SetQueryFulltextIndex env q i word m op).1.matchArray p = q.matchArray p ∧
      (TRI_SetQueryFulltextIndex env q i word m op).1.operations p = q.operations p) ∧
    ((TRI_SetQueryFulltextIndex env q i word m op).2 = true →
      i < q.numWords ∧
      (TRI_SetQueryFulltextIndex env q i word m op).1.words i = NormaliseWord env word ∧
      (NormaliseWord env word).isSome = true ∧
      (TRI_SetQueryFulltextIndex env q i word m op).1.matchArray i = m ∧
      (TRI_SetQueryFulltextIndex env q i word m op).1.operations i = op) := by
  unfold TRI_SetQueryFulltextIndex
  by_cases hpos : i ≥ q.numWords
  · simp [hpos]
  · rw [if_neg hpos]
    cases hn : NormaliseWord env word with
    | none =>
      refine ⟨rfl, fun p hp => ?_, fun h => by cases h⟩
      simp [hp]
    | some w =>
      refine ⟨rfl, fun p hp => ?_, fun _ => ?_⟩
      · simp [hp]
      · simp only [if_true, Option.isSome_some, and_self, and_true]
        omega

/-! ## The words that the parser stores -/

theorem parseLoop_spec (env : Env) : ∀ (fuel : Nat) (s : List Char) (i : Nat)
    (q : TRI_fulltext_query_t), s.length < fuel →
    ∃ code q1, parseLoop env fuel s i q = some (code, q1) ∧ q1.numWords = q.numWords ∧
      (∀ p, p < i → q1.words p = q.words p ∧ q1.matchArray p = q.matchArray p ∧
        q1.operations p = q.operations p) ∧
      (code = ResultCode.TRI_ERROR_NO_ERROR →
        ∀ (j : Nat) (tok : List Char), (tokens s)[j]? = some tok →
          (j = 0 ∨ i + j < env.maxWords) → Stored env q1 (i + j) tok ∧ i + j < q.numWords) := by
  intro fuel
  induction fuel with
  | zero => intro s i q h; omega
  | succ fuel ih =>
    intro s i q hlen
    cases s with
    | nil =>
      refine ⟨finish i, q, rfl, rfl, fun p _ => ⟨rfl, rfl, rfl⟩, ?_⟩
      intro _ j tok hj
      simp [tokens_nil] at hj
    | cons c rest =>
      simp only [List.length_cons] at hlen
      by_cases hs : isSeparator c = true
      · obtain ⟨code, q1, h1, h2, h3, h4⟩ := ih rest i q (by omega)
        refine ⟨code, q1, ?_, h2, h3, ?_⟩
        · rw [parseLoop, if_pos hs]
          exact h1
        · rw [tokens_sep rest hs]
          exact h4
      · have hs1 : isSeparator c = false := by simpa using hs
        have hn : notSep c = true := by simp [notSep, hs1]
        have hdrop : (c :: rest).dropWhile notSep = rest.dropWhile notSep := by
          rw [List.dropWhile_cons, hn]
          rfl
        have hdl := dropWhile_length_le rest
        have hhead := dropWhile_head (c :: rest)
        rw [parseLoop_word env fuel c rest i q hs1, tokens_word rest hs1]
        generalize (c :: rest).takeWhile notSep = tok at *
        generalize hedef : (c :: rest).dropWhile notSep = e at *
        obtain ⟨hnum, hframe, hset⟩ := set_spec env q i (tokenWord tok) (codeMatch env tok e)
          (tokenOperation tok)
        generalize TRI_SetQueryFulltextIndex env q i (tokenWord tok) (codeMatch env tok e)
          (tokenOperation tok) = r at *
        by_cases hbad : ((tokenRest tok).isEmpty || (tokenWord tok).isEmpty) = true
        · rw [if_pos hbad]
          exact ⟨_, q, rfl, rfl, fun p _ => ⟨rfl, rfl, rfl⟩, fun h => by cases h⟩
        · rw [if_neg hbad]
          simp only [Bool.or_eq_true, List.isEmpty_eq_true, not_or] at hbad
          by_cases hr2 : r.2 = true
          · obtain ⟨hi, hw, hsome, hm, hop⟩ := hset hr2
            have hstored : ∀ q1 : TRI_fulltext_query_t, q1.words i = r.1.words i →
                q1.matchArray i = r.1.matchArray i → q1.operations i = r.1.operations i →
                Stored env q1 i tok := by
              intro q1 e1 e2 e3
              exact ⟨hbad.1, hbad.2, by rw [e3, hop], ⟨e, hhead, by rw [e2, hm]⟩,
                by rw [e1, hw], hsome⟩
            simp only [hr2, Bool.not_true, Bool.false_eq_true, if_false]
            by_cases hmax : i + 1 ≥ env.maxWords
            · rw [if_pos hmax]
              refine ⟨_, r.1, rfl, hnum, fun p hp => hframe p (by omega), ?_⟩
              intro _ j tok1 hj hcond
              cases j with
              | zero =>
                simp only [List.getElem?_cons_zero, Option.some.injEq] at hj
                subst hj
                exact ⟨hstored r.1 rfl rfl rfl, hi⟩
              | succ j => omega
            · rw [if_neg hmax]
              obtain ⟨code, q1, h1, h2, h3, h4⟩ := ih e (i + 1) r.1 (by
                rw [hdrop]
                omega)
              refine ⟨code, q1, h1, by rw [h2, hnum], ?_, ?_⟩
              · intro p hp
                obtain ⟨a1, a2, a3⟩ := h3 p (by omega)
                obtain ⟨b1, b2, b3⟩ := hframe p (by omega)
                exact ⟨by rw [a1, b1], by rw [a2, b2], by rw [a3, b3]⟩
              · intro hcode j tok1 hj hcond
                cases j with
                | zero =>
                  simp only [List.getElem?_cons_zero, Option.some.injEq] at hj
                  subst hj
                  obtain ⟨a1, a2, a3⟩ := h3 i (by omega)
                  exact ⟨hstored q1 a1 a2 a3, hi⟩
                | succ j =>
                  simp only [List.getElem?_cons_succ] at hj
                  have := h4 hcode j tok1 hj (Or.inr (by omega))
                  have harith : i + (j + 1) = i + 1 + j := by omega
                  rw [harith, ← hnum]
                  exact this
          · simp only [hr2, Bool.not_false, if_true]
            refine ⟨_, r.1, rfl, hnum, fun p hp => hframe p (by omega), fun h => by cases h⟩

theorem parse_spec (env : Env) (q : TRI_fulltext_query_t) (s : List Char) :
    ∃ code q1, TRI_ParseQueryFulltextIndex env q s = some (code, q1) ∧
      (code = ResultCode.TRI_ERROR_NO_ERROR →
        ∀ (j : Nat) (tok : List Char), (tokens s)[j]? = some tok →
          (j = 0 ∨ j < env.maxWords) → Stored env q1 j tok ∧ j < q.numWords) := by
  unfold TRI_ParseQueryFulltextIndex
  split
  · exact ⟨_, q, rfl, fun h => by cases h⟩
  · obtain ⟨code, q1, h1, _, _, h4⟩ := parseLoop_spec env (s.length + 1) s 0 q (by omega)
    refine ⟨code, q1, h1, fun hcode j tok hj hcond => ?_⟩
    have := h4 hcode j tok hj (by omega)
    simpa using this

/-! ## The claims about the parser -/

theorem exampleParsed_eq :
    TRI_ParseQueryFulltextIndex exampleEnv emptyQuery exampleString =
      some (ResultCode.TRI_ERROR_NO_ERROR, exampleParsed) := by
  rfl

/-- C39: if `TRI_ParseQueryFulltextIndex` accepts a query string, then none of its first
`TRI_FULLTEXT_SEARCH_MAX_WORDS` tokens is a lone operator character or has an empty word
part: a token that contains `:` with nothing after its first `:` (as in `prefix:`) makes the
parser return an error.  (A token with an empty command part, as in `:foo`, is not
rejected.) -/
theorem empty_word_rejected (env : Env) (q q1 : TRI_fulltext_query_t) (s : List Char)
    (hacc : TRI_ParseQueryFulltextIndex env q s = some (ResultCode.TRI_ERROR_NO_ERROR, q1))
    (j : Nat) (tok : List Char) (hj : (tokens s)[j]? = some tok)
    (hmax : j = 0 ∨ j < env.maxWords) :
    tokenRest tok ≠ [] ∧ afterColon tok ≠ some [] := by
  obtain ⟨code, q2, h1, h2⟩ := parse_spec env q s
  rw [hacc] at h1
  cases h1
  obtain ⟨⟨hr, hw, _⟩, _⟩ := h2 rfl j tok hj hmax
  refine ⟨hr, fun h => hw ?_⟩
  unfold tokenWord
  rw [h]

theorem empty_word_rejected_witness :
    tokenRest ['-', 'p', 'r', 'e', 'f', 'i', 'x', ':', 'B', 'a'] ≠ [] ∧
    afterColon ['-', 'p', 'r', 'e', 'f', 'i', 'x', ':', 'B', 'a'] ≠ some [] :=
  empty_word_rejected exampleEnv emptyQuery exampleParsed exampleString exampleParsed_eq 1
    ['-', 'p', 'r', 'e', 'f', 'i', 'x', ':', 'B', 'a'] (by decide) (by decide)

/-- C39 (counterexample): the query string `:foo` is one token that contains `:` and whose
command part before the first `:` is empty; the parser does not reject it but returns
`TRI_ERROR_NO_ERROR` and stores the word `foo` with the match COMPLETE and the operation
AND. -/
theorem parse_accepts_empty_command :
    (TRI_ParseQueryFulltextIndex exampleEnv emptyQuery [':', 'f', 'o', 'o']).map
      (fun r => (r.1, r.2.words 0, r.2.matchArray 0, r.2.operations 0)) =
      some (ResultCode.TRI_ERROR_NO_ERROR, some ['f', 'o', 'o'],
        TRI_fulltext_query_match_e.TRI_FULLTEXT_COMPLETE,
        TRI_fulltext_query_operation_e.TRI_FULLTEXT_AND) := by
  decide

/-- C40: for every accepted query string with at most
`min(TRI_FULLTEXT_SEARCH_MAX_WORDS, query->_numWords)` tokens, the i-th token is stored at
position i with operation OR if it starts with `|`, EXCLUDE if it starts with `-`, and AND
otherwise; with match PREFIX if and only if the rest of the token starts with `prefix:`
compared case-insensitively (`TRI_CaseEqualString2` is assumed to compare so), and COMPLETE
otherwise; and with the word that `NormaliseWord` makes of the text after the first `:` of
the token if it has one, else of the token without its operator character.  The parser
returns for every query string. -/
theorem parse_tokens (env : Env)
    (hce : ∀ s, env.caseEqual s prefixLit prefixLit.length = startsWithNoCase s prefixLit)
    (q q1 : TRI_fulltext_query_t) (s : List Char)
    (hacc : TRI_ParseQueryFulltextIndex env q s = some (ResultCode.TRI_ERROR_NO_ERROR, q1))
    (hn : (tokens s).length ≤ min env.maxWords q.numWords)
    (i : Nat) (tok : List Char) (hi : (tokens s)[i]? = some tok) :
    q1.operations i = tokenOperation tok ∧ q1.matchArray i = tokenMatch tok ∧
    q1.words i = NormaliseWord env (tokenWord tok) ∧ (q1.words i).isSome = true ∧
    ∀ (q0 : TRI_fulltext_query_t) (s0 : List Char),
      (TRI_ParseQueryFulltextIndex env q0 s0).isSome = true := by
  obtain ⟨code, q2, h1, h2⟩ := parse_spec env q s
  rw [hacc] at h1
  cases h1
  have hlt : i < (tokens s).length := (List.getElem?_eq_some_iff.1 hi).1
  obtain ⟨⟨_, _, hop, ⟨e, he, hm⟩, hw, hsome⟩, _⟩ := h2 rfl i tok hi (Or.inr (by omega))
  refine ⟨hop, by rw [hm, codeMatch_eq env hce tok e he], hw, by rw [hw]; exact hsome, ?_⟩
  intro q0 s0
  obtain ⟨c0, q3, h3, _⟩ := parse_spec env q0 s0
  rw [h3]
  rfl

theorem parse_tokens_witness :
    exampleParsed.operations 1 =
      tokenOperation ['-', 'p', 'r', 'e', 'f', 'i', 'x', ':', 'B', 'a'] ∧
    exampleParsed.matchArray 1 = tokenMatch ['-', 'p', 'r', 'e', 'f', 'i', 'x', ':', 'B', 'a'] ∧
    exampleParsed.words 1 =
      NormaliseWord exampleEnv (tokenWord ['-', 'p', 'r', 'e', 'f', 'i', 'x', ':', 'B', 'a']) ∧
    (exampleParsed.words 1).isSome = true ∧
    ∀ (q0 : TRI_fulltext_query_t) (s0 : List Char),
      (TRI_ParseQueryFulltextIndex exampleEnv q0 s0).isSome = true :=
  parse_tokens exampleEnv exampleEnv_caseEqual emptyQuery exampleParsed exampleString
    exampleParsed_eq (by decide) 1 ['-', 'p', 'r', 'e', 'f', 'i', 'x', ':', 'B', 'a']
    (by decide)

end FulltextQuery

namespace QueryCache

/-! ## The deletion of a result after the last reader -/

theorem run_append (w : Nat) : ∀ (p : List Call) (e : QueryCacheResultEntry) (c : Call),
    run w e (p ++ [c]) =
      if (run w e p).destroyed then run w e p else step w (run w e p) c := by
  intro p
  induction p with
  | nil =>
    intro e c
    simp only [List.nil_append, run]
  | cons a p ih =>
    intro e c
    simp only [List.cons_append, run]
    split
    · rename_i h
      simp [h]
    · exact ih _ c

theorem dueAt_append {p : List Call} {c : Call} {j : Nat} (hj : j ≤ p.length) :
    DueAt (p ++ [c]) j ↔ DueAt p j := by
  unfold DueAt
  rw [List.take_append_of_le_length hj]

theorem due_append (p : List Call) (c : Call) :
    (∃ j, j ≤ (p ++ [c]).length ∧ DueAt (p ++ [c]) j) ↔
      (∃ j, j ≤ p.length ∧ DueAt p j) ∨ DueAt (p ++ [c]) (p.length + 1) := by
  constructor
  · rintro ⟨j, hj, hd⟩
    simp only [List.length_append, List.length_singleton] at hj
    by_cases hle : j ≤ p.length
    · exact Or.inl ⟨j, hle, (dueAt_append hle).1 hd⟩
    · have : j = p.length + 1 := by omega
      subst this
      exact Or.inr hd
  · rintro (⟨j, hj, hd⟩ | hd)
    · exact ⟨j, by simp only [List.length_append]; omega, (dueAt_append hj).2 hd⟩
    · exact ⟨p.length + 1, by simp, hd⟩

theorem dueAt_last (p : List Call) (c : Call) :
    DueAt (p ++ [c]) (p.length + 1) ↔
      Call.tryDelete ∈ p ++ [c] ∧ uses (p ++ [c]) = unuses (p ++ [c]) := by
  unfold DueAt
  have : (p ++ [c]).take (p.length + 1) = p ++ [c] := by
    apply List.take_of_length_le
    simp
  rw [this]

theorem dueAt_self (p : List Call) :
    DueAt p p.length ↔ Call.tryDelete ∈ p ∧ uses p = unuses p := by
  unfold DueAt
  rw [List.take_length]

theorem stateOf_snoc (w : Nat) (e : QueryCacheResultEntry) (p : List Call) (c : Call)
    (hs : StateOf w e p)
    (hbal : unuses (p ++ [c]) ≤ uses (p ++ [c]) ∧ uses (p ++ [c]) - unuses (p ++ [c]) < 2 ^ w)
    (hbalp : unuses p ≤ uses p) :
    StateOf w (if e.destroyed then e else step w e c) (p ++ [c]) := by
  unfold StateOf at hs ⊢
  obtain ⟨hdue, hnot⟩ := hs
  by_cases hd : ∃ j, j ≤ p.length ∧ DueAt p j
  · obtain ⟨h1, h2⟩ := hdue hd
    rw [h1]
    simp only [if_true]
    refine ⟨fun _ => ⟨h1, h2⟩, fun hn => ?_⟩
    exact absurd ((due_append p c).2 (Or.inl hd)) hn
  · obtain ⟨h1, h2, h3, h4⟩ := hnot hd
    rw [h1]
    simp only [Bool.false_eq_true, if_false]
    have hself : ¬ (Call.tryDelete ∈ p ∧ uses p = unuses p) := fun h =>
      hd ⟨p.length, le_refl _, (dueAt_self p).2 h⟩
    have hiff := due_append p c
    rw [dueAt_last] at hiff
    have hpos : 0 < 2 ^ w := Nat.two_pow_pos w
    rw [hiff]
    clear hiff hdue hnot
    cases c with
    | use =>
      have hu : uses (p ++ [Call.use]) = uses p + 1 := by simp [uses]
      have hn : unuses (p ++ [Call.use]) = unuses p := by simp [unuses]
      have hm : Call.tryDelete ∈ p ++ [Call.use] ↔ Call.tryDelete ∈ p := by simp
      rw [hu, hn] at hbal
      rw [hu, hn, hm]
      simp only [step, QueryCacheResultEntry.use]
      generalize 2 ^ w = M at *
      have hr : (e.refCount + 1) % M = uses p + 1 - unuses p := by
        rw [h2, Nat.mod_eq_of_lt (by omega)]
        omega
      rw [hr]
      refine ⟨?_, fun _ => ⟨h1, rfl, h3, by omega⟩⟩
      rintro (h | ⟨_, h⟩)
      · exact absurd h hd
      · omega
    | unuse =>
      have hu : uses (p ++ [Call.unuse]) = uses p := by simp [uses]
      have hn : unuses (p ++ [Call.unuse]) = unuses p + 1 := by simp [unuses]
      have hm : Call.tryDelete ∈ p ++ [Call.unuse] ↔ Call.tryDelete ∈ p := by simp
      rw [hu, hn] at hbal
      rw [hu, hn, hm]
      simp only [step, QueryCacheResultEntry.unuse]
      generalize 2 ^ w = M at *
      have hr : (e.refCount + M - 1) % M = uses p - (unuses p + 1) := by
        have : e.refCount + M - 1 = (uses p - (unuses p + 1)) + M := by omega
        rw [this, Nat.add_mod_right, Nat.mod_eq_of_lt (by omega)]
      rw [hr]
      split_ifs with hz hdr
      · simp only [beq_iff_eq] at hz hdr
        refine ⟨fun _ => ⟨rfl, hz⟩, fun hn2 => ?_⟩
        exact absurd (Or.inr ⟨h3.1 hdr, by omega⟩) hn2
      · simp only [beq_iff_eq] at hz hdr
        refine ⟨?_, fun _ => ⟨h1, rfl, h3, by show uses p - (unuses p + 1) < M; omega⟩⟩
        rintro (h | ⟨h, _⟩)
        · exact absurd h hd
        · exact absurd (h3.2 h) hdr
      · simp only [beq_iff_eq] at hz
        refine ⟨?_, fun _ => ⟨h1, rfl, h3, by show uses p - (unuses p + 1) < M; omega⟩⟩
        rintro (h | ⟨_, h⟩)
        · exact absurd h hd
        · omega
    | tryDelete =>
      have hu : uses (p ++ [Call.tryDelete]) = uses p := by simp [uses]
      have hn : unuses (p ++ [Call.tryDelete]) = unuses p := by simp [unuses]
      have hm : Call.tryDelete ∈ p ++ [Call.tryDelete] := by simp
      rw [hu, hn] at hbal
      rw [hu, hn]
      simp only [step, QueryCacheResultEntry.tryDelete]
      generalize 2 ^ w = M at *
      split_ifs with hz
      · simp only [beq_iff_eq] at hz
        refine ⟨fun _ => ⟨rfl, hz⟩, fun hn2 => ?_⟩
        exact absurd (Or.inr ⟨hm, by omega⟩) hn2
      · simp only [beq_iff_eq] at hz
        refine ⟨?_, fun _ => ⟨h1, h2, ⟨fun _ => hm, fun _ => rfl⟩, h4⟩⟩
        rintro (h | ⟨_, h⟩)
        · exact absurd h hd
        · omega

theorem Balanced.init {w : Nat} {p : List Call} {c : Call} (h : Balanced w (p ++ [c])) :
    Balanced w p := by
  intro k hk
  have := h k (by simp only [List.length_append]; omega)
  rwa [List.take_append_of_le_length hk] at this

theorem Balanced.self {w : Nat} {p : List Call} (h : Balanced w p) :
    unuses p ≤ uses p ∧ uses p - unuses p < 2 ^ w := by
  have := h p.length (le_refl _)
  rwa [List.take_length] at this

theorem Balanced.take {w : Nat} {cs : List Call} (h : Balanced w cs) (k : Nat) :
    Balanced w (cs.take k) := by
  intro j hj
  rw [List.length_take] at hj
  have := h j (by omega)
  rw [List.take_take]
  have hmin : min j k = j := by omega
  rw [hmin]
  exact this

theorem stateOf_run (w hash : Nat) : ∀ cs : List Call, Balanced w cs →
    StateOf w (run w (QueryCacheResultEntry.create hash) cs) cs := by
  intro cs
  induction cs using List.reverseRecOn with
  | nil =>
    intro _
    refine ⟨?_, fun _ => ⟨rfl, rfl, ?_, Nat.two_pow_pos w⟩⟩
    · rintro ⟨j, _, h, _⟩
      simp at h
    · simp [run, QueryCacheResultEntry.create]
  | append_singleton p c ih =>
    intro hbal
    rw [run_append]
    exact stateOf_snoc w _ p c (ih hbal.init) hbal.self hbal.init.self.1

/-- C37: for every sequence of `use`, `unuse` and `tryDelete` calls on a cache result entry
in which `unuse` is never called more often than `use` (and the number of readers stays
below the range of the counter), the entry is destroyed after the first `k` calls if and only
if at some point `j ≤ k` the deletion had been requested and the number of readers was zero:
it is destroyed exactly at the first such point, at `tryDelete` if no reader holds it,
otherwise at the `unuse` of the last reader.  When it is destroyed its reference count is
zero; while it is not destroyed its reference count is the number of readers. -/
theorem deferred_deletion (w hash : Nat) (cs : List Call) (hbal : Balanced w cs) (k : Nat)
    (hk : k ≤ cs.length) :
    ((run w (QueryCacheResultEntry.create hash) (cs.take k)).destroyed = true ↔
      ∃ j, j ≤ k ∧ DueAt cs j) ∧
    ((run w (QueryCacheResultEntry.create hash) (cs.take k)).destroyed = true →
      (run w (QueryCacheResultEntry.create hash) (cs.take k)).refCount = 0) ∧
    ((run w (QueryCacheResultEntry.create hash) (cs.take k)).destroyed = false →
      (run w (QueryCacheResultEntry.create hash) (cs.take k)).refCount =
        uses (cs.take k) - unuses (cs.take k)) := by
  obtain ⟨h1, h2⟩ := stateOf_run w hash (cs.take k) (hbal.take k)
  have hlen : (cs.take k).length = k := by
    rw [List.length_take]
    omega
  have hiff : (∃ j, j ≤ (cs.take k).length ∧ DueAt (cs.take k) j) ↔ ∃ j, j ≤ k ∧ DueAt cs j := by
    rw [hlen]
    constructor
    · rintro ⟨j, hj, hd⟩
      refine ⟨j, hj, ?_⟩
      unfold DueAt at hd ⊢
      rw [List.take_take, min_eq_left hj] at hd
      exact hd
    · rintro ⟨j, hj, hd⟩
      refine ⟨j, hj, ?_⟩
      unfold DueAt at hd ⊢
      rw [List.take_take, min_eq_left hj]
      exact hd
  rw [hiff] at h1 h2
  by_cases hd : ∃ j, j ≤ k ∧ DueAt cs j
  · obtain ⟨a, b⟩ := h1 hd
    refine ⟨⟨fun _ => hd, fun _ => a⟩, fun _ => b, fun h => ?_⟩
    rw [a] at h
    cases h
  · obtain ⟨a, b, _, _⟩ := h2 hd
    refine ⟨⟨fun h => ?_, fun h => absurd h hd⟩, fun h => ?_, fun _ => b⟩
    · rw [a] at h
      cases h
    · rw [a] at h
      cases h

theorem deferred_deletion_witness :
    ((run 32 (QueryCacheResultEntry.create 7)
        ([Call.use, Call.tryDelete, Call.use, Call.unuse, Call.unuse].take 5)).destroyed =
        true ↔
      ∃ j, j ≤ 5 ∧ DueAt [Call.use, Call.tryDelete, Call.use, Call.unuse, Call.unuse] j) ∧
    ((run 32 (QueryCacheResultEntry.create 7)
        ([Call.use, Call.tryDelete, Call.use, Call.unuse, Call.unuse].take 5)).destroyed =
        true →
      (run 32 (QueryCacheResultEntry.create 7)
        ([Call.use, Call.tryDelete, Call.use, Call.unuse, Call.unuse].take 5)).refCount = 0) ∧
    ((run 32 (QueryCacheResultEntry.create 7)
        ([Call.use, Call.tryDelete, Call.use, Call.unuse, Call.unuse].take 5)).destroyed =
        false →
      (run 32 (QueryCacheResultEntry.create 7)
        ([Call.use, Call.tryDelete, Call.use, Call.unuse, Call.unuse].take 5)).refCount =
        uses ([Call.use, Call.tryDelete, Call.use, Call.unuse, Call.unuse].take 5) -
          unuses ([Call.use, Call.tryDelete, Call.use, Call.unuse, Call.unuse].take 5)) :=
  deferred_deletion 32 7 [Call.use, Call.tryDelete, Call.use, Call.unuse, Call.unuse]
    (by unfold Balanced; decide) 5 (by decide)

/-! ## The list of the results of a per-database cache -/

theorem unlink_entries (d : QueryCacheDatabaseEntry) (e : Nat)
    (hp : (d.entries e).prev ≠ some e) (hn : (d.entries e).next ≠ some e)
    (hnum : 0 < d.numElements) :
    ∃ d1, d.unlink e = some d1 ∧ d1.entriesByHash = d.entriesByHash ∧
      d1.numElements = d.numElements - 1 ∧
      d1.head = (if d.head = some e then (d.entries e).next else d.head) ∧
      d1.tail = (if d.tail = some e then (d.entries e).prev else d.tail) ∧
      Unlinked d.entries d1.entries e := by
  cases hu : d.unlink e with
  | none =>
    unfold QueryCacheDatabaseEntry.unlink at hu
    simp only [QueryCacheDatabaseEntry.update] at hu
    rw [if_pos hnum] at hu
    cases hu
  | some d1 =>
  unfold QueryCacheDatabaseEntry.unlink at hu
  simp only [QueryCacheDatabaseEntry.update] at hu
  rw [if_pos hnum] at hu
  cases hu
  refine ⟨_, rfl, rfl, rfl, ?_, ?_, ?_⟩
  · simp only [hp, hn, if_false]
  · simp only [hp, hn, if_false]
  · constructor
    · intro x
      simp only
      split_ifs <;> rfl
    · simp only [if_true, and_self]
    · intro x hx
      have hx2 : ¬ some e = some x := fun h => hx (Option.some.inj h).symm
      simp only [hp, hn, if_false, hx2]
      split_ifs <;> rfl
    · intro x hx
      have hx2 : ¬ some e = some x := fun h => hx (Option.some.inj h).symm
      simp only [hp, hn, if_false, hx2]
      split_ifs <;> rfl

/-! ## Unlinking a result -/

theorem Linked.of_same_links {entries entries1 : Nat → QueryCacheResultEntry} :
    ∀ (l : List Nat) (p : Option Nat),
    (∀ x ∈ l, (entries1 x).prev = (entries x).prev ∧ (entries1 x).next = (entries x).next) →
    Linked entries p l → Linked entries1 p l := by
  intro l
  induction l with
  | nil => intro p _ _; trivial
  | cons a rest ih =>
    intro p h hl
    obtain ⟨h1, h2, h3⟩ := hl
    obtain ⟨e1, e2⟩ := h a (List.mem_cons_self _ _)
    exact ⟨by rw [e1, h1], by rw [e2, h2],
      ih (some a) (fun x hx => h x (List.mem_cons_of_mem _ hx)) h3⟩

/-- The links of a member of the list. -/
theorem Linked.at {entries : Nat → QueryCacheResultEntry} {a : Nat} {post : List Nat} :
    ∀ (pre : List Nat) (p0 : Option Nat), Linked entries p0 (pre ++ a :: post) →
    (entries a).prev = (match pre.getLast? with
      | some x => some x
      | none => p0) ∧
    (entries a).next = post.head? := by
  intro pre
  induction pre with
  | nil =>
    intro p0 h
    exact ⟨h.1, h.2.1⟩
  | cons c pre ih =>
    intro p0 h
    obtain ⟨_, _, h3⟩ := h
    obtain ⟨e1, e2⟩ := ih (some c) h3
    refine ⟨?_, e2⟩
    rw [e1]
    cases pre with
    | nil => rfl
    | cons c1 pre1 =>
      rw [List.getLast?_cons_cons]
      cases hl : (c1 :: pre1).getLast? with
      | none => simp at hl
      | some x => rfl

theorem Linked.remove_result {entries entries1 : Nat → QueryCacheResultEntry} {a : Nat}
    {post : List Nat} (hu : Unlinked entries entries1 a) :
    ∀ (pre : List Nat) (p0 : Option Nat), Linked entries p0 (pre ++ a :: post) →
    (pre ++ a :: post).Nodup → (∀ x ∈ pre ++ a :: post, p0 ≠ some x) →
    Linked entries1 p0 (pre ++ post) := by
  intro pre
  induction pre with
  | nil =>
    intro p0 h hnd hp0
    simp only [List.nil_append] at h hnd hp0 ⊢
    obtain ⟨h1, h2, h3⟩ := h
    rw [List.nodup_cons] at hnd
    cases post with
    | nil => trivial
    | cons b post1 =>
      obtain ⟨g1, g2, g3⟩ := h3
      have hba : b ≠ a := fun h => hnd.1 (by rw [← h]; exact List.mem_cons_self _ _)
      have hnd2 := List.nodup_cons.1 hnd.2
      refine ⟨?_, ?_, ?_⟩
      · rw [hu.prev b hba, h2]
        simp [h1]
      · rw [hu.next b hba, h1, if_neg (hp0 b (by simp)), g2]
      · apply Linked.of_same_links post1 (some b) _ g3
        intro x hx
        have hxa : x ≠ a := fun h => hnd.1 (by rw [← h]; exact List.mem_cons_of_mem _ hx)
        have hxb : x ≠ b := fun h => hnd2.1 (by rw [← h]; exact hx)
        rw [hu.prev x hxa, hu.next x hxa, h1, h2]
        constructor
        · rw [if_neg]
          simp only [List.head?_cons, Option.some.injEq]
          exact fun h => hxb h.symm
        · rw [if_neg (hp0 x (by simp [hx]))]
  | cons c pre ih =>
    intro p0 h hnd hp0
    simp only [List.cons_append] at h hnd hp0 ⊢
    obtain ⟨h1, h2, h3⟩ := h
    rw [List.nodup_cons] at hnd
    obtain ⟨ea, eb⟩ := Linked.at pre (some c) h3
    have hca : c ≠ a := fun h => hnd.1 (by rw [h]; simp)
    have hcpost : c ∉ post := fun h => hnd.1 (by simp [h])
    refine ⟨?_, ?_, ?_⟩
    · rw [hu.prev c hca, eb, if_neg, h1]
      intro h
      apply hcpost
      cases post with
      | nil => simp at h
      | cons b post1 =>
        simp only [List.head?_cons, Option.some.injEq] at h
        rw [← h]
        exact List.mem_cons_self _ _
    · rw [hu.next c hca, ea]
      cases pre with
      | nil =>
        simp only [List.getLast?_nil, if_true, eb, List.nil_append]
      | cons c1 pre1 =>
        have hl : ∃ x, (c1 :: pre1).getLast? = some x ∧ x ∈ c1 :: pre1 := by
          cases hx : (c1 :: pre1).getLast? with
          | none => simp at hx
          | some x => exact ⟨x, rfl, List.mem_of_getLast?_eq_some hx⟩
        obtain ⟨x, hx, hxm⟩ := hl
        rw [hx]
        simp only
        rw [if_neg, h2]
        · rfl
        · intro h
          apply hnd.1
          rw [← Option.some.inj h]
          exact List.mem_append_left _ hxm
    · apply ih (some c) h3 hnd.2
      intro x hx h
      apply hnd.1
      rw [Option.some.inj h]
      exact hx

/-! ## The operations on the list -/

theorem getLast?_mem_ne {l : List Nat} {a : Nat} (ha : a ∉ l) : l.getLast? ≠ some a :=
  fun h => ha (List.mem_of_getLast?_eq_some h)

theorem head?_mem_ne {l : List Nat} {a : Nat} (ha : a ∉ l) : l.head? ≠ some a := by
  cases l with
  | nil => simp
  | cons b r =>
    simp only [List.head?_cons, ne_eq, Option.some.injEq]
    intro h
    exact ha (by rw [h]; exact List.mem_cons_self _ _)

theorem ListOk.unlink_result {d : QueryCacheDatabaseEntry} {pre post : List Nat} {a : Nat}
    (lo : ListOk d (pre ++ a :: post)) :
    ∃ d1, d.unlink a = some d1 ∧ ListOk d1 (pre ++ post) ∧
      d1.entriesByHash = d.entriesByHash ∧
      (∀ x, (d1.entries x).hash = (d.entries x).hash) ∧
      (∀ x, x ∉ pre ++ a :: post →
        (d1.entries x).prev = (d.entries x).prev ∧ (d1.entries x).next = (d.entries x).next) := by
  have hnd := lo.nodup
  have hapre : a ∉ pre := fun h => by
    have := (List.nodup_append.1 hnd).2.2 h (List.mem_cons_self _ _)
    exact this
  have hapost : a ∉ post := fun h => by
    have := (List.nodup_cons.1 (List.nodup_append.1 hnd).2.1).1
    exact this h
  obtain ⟨ea, eb⟩ := Linked.at pre none lo.linked
  have ea1 : (d.entries a).prev = pre.getLast? := by
    rw [ea]
    cases pre.getLast? <;> rfl
  have hp : (d.entries a).prev ≠ some a := by
    rw [ea1]
    exact getLast?_mem_ne hapre
  have hn : (d.entries a).next ≠ some a := by
    rw [eb]
    exact head?_mem_ne hapost
  have hnum : 0 < d.numElements := by
    rw [lo.num]
    simp
  obtain ⟨d1, h1, hmap, hnum1, hhead, htail, hu⟩ := unlink_entries d a hp hn hnum
  refine ⟨d1, h1, ⟨?_, ?_, ?_, ?_, ?_⟩, hmap, hu.hash, ?_⟩
  · exact hnd.sublist ((List.sublist_cons_self a post).append_left pre)
  · rw [hhead, lo.head, eb]
    cases pre with
    | nil => simp
    | cons c pre1 =>
      have hca : c ≠ a := fun h => hapre (by rw [h]; exact List.mem_cons_self _ _)
      simp [hca]
  · rw [htail, lo.tail, ea1, List.getLast?_append_cons]
    cases post with
    | nil => simp
    | cons b post1 =>
      have hne : (a :: b :: post1).getLast? ≠ some a := by
        rw [List.getLast?_cons_cons]
        exact getLast?_mem_ne hapost
      rw [if_neg hne, List.getLast?_cons_cons,
        List.getLast?_append_of_ne_nil pre (List.cons_ne_nil b post1)]
  · rw [hnum1, lo.num]
    simp
  · exact Linked.remove_result hu pre none lo.linked hnd (fun x _ h => by cases h)
  · intro x hx
    have hxa : x ≠ a := fun h => hx (by rw [h]; simp)
    have hxpre : x ∉ pre := fun h => hx (List.mem_append_left _ h)
    have hxpost : x ∉ post := fun h => hx (by simp [h])
    rw [hu.prev x hxa, hu.next x hxa, ea1, eb, if_neg (head?_mem_ne hxpost),
      if_neg (getLast?_mem_ne hxpre)]
    exact ⟨rfl, rfl⟩

theorem Linked.snoc {entries entries1 : Nat → QueryCacheResultEntry} {e : Nat}
    (hnext : (entries1 e).next = none) :
    ∀ (l : List Nat) (p0 : Option Nat), Linked entries p0 l → e ∉ l → l.Nodup →
    (entries1 e).prev = (match l.getLast? with
      | some t => some t
      | none => p0) →
    (∀ x ∈ l, (entries1 x).prev = (entries x).prev ∧
      (entries1 x).next = if l.getLast? = some x then some e else (entries x).next) →
    Linked entries1 p0 (l ++ [e]) := by
  intro l
  induction l with
  | nil =>
    intro p0 _ _ _ hprev _
    exact ⟨hprev, hnext, trivial⟩
  | cons c rest ih =>
    intro p0 hl he hnd hprev hother
    obtain ⟨h1, h2, h3⟩ := hl
    rw [List.nodup_cons] at hnd
    obtain ⟨g1, g2⟩ := hother c (List.mem_cons_self _ _)
    cases rest with
    | nil =>
      simp only [List.getLast?_singleton, if_true] at g2 hprev
      exact ⟨by rw [g1, h1], by rw [g2]; rfl, hprev, hnext, trivial⟩
    | cons c1 rest1 =>
      have hlast : (c :: c1 :: rest1).getLast? = (c1 :: rest1).getLast? :=
        List.getLast?_cons_cons
      rw [hlast] at hprev g2
      have hc : (c1 :: rest1).getLast? ≠ some c := getLast?_mem_ne hnd.1
      refine ⟨by rw [g1, h1], ?_, ?_⟩
      · rw [g2, if_neg hc, h2]
        rfl
      · apply ih (some c) h3 (fun h => he (List.mem_cons_of_mem _ h)) hnd.2
        · rw [hprev]
          cases hx : (c1 :: rest1).getLast? with
          | none => simp at hx
          | some x => rfl
        · intro x hx
          have := hother x (List.mem_cons_of_mem _ hx)
          rw [hlast] at this
          exact this

theorem ListOk.link {d : QueryCacheDatabaseEntry} {l : List Nat} {e : Nat}
    (lo : ListOk d l) (he : e ∉ l) (hprev : (d.entries e).prev = none)
    (hnext : (d.entries e).next = none) :
    ∃ d1, d.link e = some d1 ∧ ListOk d1 (l ++ [e]) ∧
      d1.entriesByHash = d.entriesByHash ∧
      (∀ x, (d1.entries x).hash = (d.entries x).hash) := by
  unfold QueryCacheDatabaseEntry.link
  cases l with
  | nil =>
    have hh : d.head = none := lo.head
    have ht : d.tail = none := lo.tail
    simp only [hh, ht, if_true]
    refine ⟨_, rfl, ⟨by simp, rfl, rfl, ?_, ?_⟩, rfl, fun x => rfl⟩
    · simp [lo.num]
    · exact ⟨hprev, hnext, trivial⟩
  | cons c rest =>
    have hh : d.head ≠ none := by
      rw [lo.head]
      simp
    obtain ⟨t, ht⟩ : ∃ t, (c :: rest).getLast? = some t := by
      cases hx : (c :: rest).getLast? with
      | none => simp at hx
      | some x => exact ⟨x, rfl⟩
    have htm : t ∈ c :: rest := List.mem_of_getLast?_eq_some ht
    have hte : t ≠ e := fun h => he (by rw [← h]; exact htm)
    have htail : d.tail = some t := by rw [lo.tail, ht]
    simp only [hh, if_false, QueryCacheDatabaseEntry.update, htail]
    refine ⟨_, rfl, ⟨?_, ?_, ?_, ?_, ?_⟩, rfl, ?_⟩
    · rw [List.nodup_append]
      refine ⟨lo.nodup, by simp, ?_⟩
      intro x hx hx2
      rw [List.mem_singleton] at hx2
      exact he (by rw [← hx2]; exact hx)
    · simp only
      rw [lo.head]
      rfl
    · simp only
      rw [List.getLast?_concat]
    · simp [lo.num]
    · apply Linked.snoc (e := e) _ (c :: rest) none lo.linked he lo.nodup
      · simp only [if_true, ht]
      · intro x hx
        have hxe : x ≠ e := fun h => he (by rw [← h]; exact hx)
        have hxe2 : ¬ some e = some x := fun h => hxe (Option.some.inj h).symm
        simp only [hxe2, if_false, ht]
        split_ifs <;> exact ⟨rfl, rfl⟩
      · have hte2 : ¬ some t = some e := fun h => hte (Option.some.inj h)
        simp only [if_true, hte2, if_false]
        exact hnext
    · intro x
      simp only
      split_ifs <;> rfl

theorem ListOk.of_same_entries {d d1 : QueryCacheDatabaseEntry} {l : List Nat} (lo : ListOk d l)
    (hh : d1.head = d.head) (ht : d1.tail = d.tail) (hn : d1.numElements = d.numElements)
    (he : ∀ x, (d1.entries x).prev = (d.entries x).prev ∧
      (d1.entries x).next = (d.entries x).next) : ListOk d1 l :=
  ⟨lo.nodup, by rw [hh, lo.head], by rw [ht, lo.tail], by rw [hn, lo.num],
    Linked.of_same_links l none (fun x _ => he x) lo.linked⟩

theorem tryDelete_links (e : QueryCacheResultEntry) :
    e.tryDelete.prev = e.prev ∧ e.tryDelete.next = e.next ∧ e.tryDelete.hash = e.hash := by
  unfold QueryCacheResultEntry.tryDelete
  simp only
  split_ifs <;> exact ⟨rfl, rfl, rfl⟩

theorem tryDelete_entries (d : QueryCacheDatabaseEntry) (a x : Nat) :
    ((d.tryDelete a).entries x).prev = (d.entries x).prev ∧
    ((d.tryDelete a).entries x).next = (d.entries x).next ∧
    ((d.tryDelete a).entries x).hash = (d.entries x).hash := by
  unfold QueryCacheDatabaseEntry.tryDelete QueryCacheDatabaseEntry.update
  simp only
  split_ifs
  · exact tryDelete_links _
  · exact ⟨rfl, rfl, rfl⟩

/-! ## The enforcement of the maximum and the store -/

/-- The removal of the result `a` from the list and from the table, as `enforceMaxResults`
does it. -/
theorem remove_member {d : QueryCacheDatabaseEntry} {pre post : List Nat} {a : Nat}
    (lo : ListOk d (pre ++ a :: post)) (mo : MapOk d (pre ++ a :: post)) :
    ∃ d1, d.unlink a = some d1 ∧ d1.entriesByHash (d1.entries a).hash = some a ∧
      (d1.entries a).hash = (d.entries a).hash ∧
      ListOk (({ d1 with entriesByHash := fun h =>
          if h = (d.entries a).hash then none else d1.entriesByHash h }
        : QueryCacheDatabaseEntry).tryDelete a) (pre ++ post) ∧
      MapOk (({ d1 with entriesByHash := fun h =>
          if h = (d.entries a).hash then none else d1.entriesByHash h }
        : QueryCacheDatabaseEntry).tryDelete a) (pre ++ post) ∧
      (∀ x, ((({ d1 with entriesByHash := fun h =>
          if h = (d.entries a).hash then none else d1.entriesByHash h }
        : QueryCacheDatabaseEntry).tryDelete a).entries x).hash = (d.entries x).hash) ∧
      (∀ x, x ∉ pre ++ a :: post →
        ((({ d1 with entriesByHash := fun h =>
            if h = (d.entries a).hash then none else d1.entriesByHash h }
          : QueryCacheDatabaseEntry).tryDelete a).entries x).prev = (d.entries x).prev ∧
        ((({ d1 with entriesByHash := fun h =>
            if h = (d.entries a).hash then none else d1.entriesByHash h }
          : QueryCacheDatabaseEntry).tryDelete a).entries x).next = (d.entries x).next) := by
  obtain ⟨d1, h1, lo1, hmap, hhash, hout⟩ := ListOk.unlink_result lo
  have ham : a ∈ pre ++ a :: post := by simp
  have hnd := lo.nodup
  have hnot : a ∉ pre ++ post := by
    intro h
    rcases List.mem_append.1 h with h | h
    · exact (List.nodup_append.1 hnd).2.2 h (List.mem_cons_self _ _)
    · exact (List.nodup_cons.1 (List.nodup_append.1 hnd).2.1).1 h
  have hsub : ∀ x, x ∈ pre ++ post → x ∈ pre ++ a :: post := by
    intro x hx
    rcases List.mem_append.1 hx with h | h
    · exact List.mem_append_left _ h
    · exact List.mem_append_right _ (List.mem_cons_of_mem _ h)
  refine ⟨d1, h1, ?_, hhash a, ?_, ?_, ?_, ?_⟩
  · rw [hmap, hhash a]
    exact mo.has a ham
  · refine ListOk.of_same_entries lo1 rfl rfl rfl ?_
    intro x
    obtain ⟨e1, e2, _⟩ := tryDelete_entries
      ({ d1 with entriesByHash := fun h =>
        if h = (d.entries a).hash then none else d1.entriesByHash h }) a x
    exact ⟨e1, e2⟩
  · constructor
    · intro h x hx
      have hx1 : (if h = (d.entries a).hash then none else d1.entriesByHash h) = some x := hx
      by_cases hh : h = (d.entries a).hash
      · rw [if_pos hh] at hx1
        cases hx1
      · rw [if_neg hh, hmap] at hx1
        obtain ⟨m1, m2⟩ := mo.mem h x hx1
        have hxa : x ≠ a := fun e => hh (by rw [← m2, e])
        refine ⟨?_, ?_⟩
        · rcases List.mem_append.1 m1 with m | m
          · exact List.mem_append_left _ m
          · rcases List.mem_cons.1 m with m | m
            · exact absurd m hxa
            · exact List.mem_append_right _ m
        · rw [(tryDelete_entries _ a x).2.2]
          show (d1.entries x).hash = h
          rw [hhash x, m2]
    · intro x hx
      have hxa : x ≠ a := fun e => hnot (by rw [← e]; exact hx)
      rw [(tryDelete_entries _ a x).2.2]
      show (if (d1.entries x).hash = (d.entries a).hash then none
        else d1.entriesByHash (d1.entries x).hash) = some x
      rw [hhash x, hmap]
      have hne : (d.entries x).hash ≠ (d.entries a).hash := by
        intro e
        have m1 := mo.has x (hsub x hx)
        have m2 := mo.has a ham
        rw [e, m2] at m1
        exact hxa (Option.some.inj m1).symm
      rw [if_neg hne]
      exact mo.has x (hsub x hx)
  · intro x
    rw [(tryDelete_entries _ a x).2.2]
    exact hhash x
  · intro x hx
    obtain ⟨e1, e2, _⟩ := tryDelete_entries
      ({ d1 with entriesByHash := fun h =>
        if h = (d.entries a).hash then none else d1.entriesByHash h }) a x
    rw [e1, e2]
    exact hout x hx

theorem enforceLoop_spec (value : Nat) : ∀ (fuel : Nat) (d : QueryCacheDatabaseEntry)
    (l : List Nat), ListOk d l → MapOk d l → l.length - value < fuel →
    ∃ d1, QueryCacheDatabaseEntry.enforceLoop value fuel d = some d1 ∧
      ListOk d1 (l.drop (l.length - value)) ∧ MapOk d1 (l.drop (l.length - value)) ∧
      (∀ x, (d1.entries x).hash = (d.entries x).hash) := by
  intro fuel
  induction fuel with
  | zero => intro d l _ _ h; omega
  | succ fuel ih =>
    intro d l lo mo hfuel
    unfold QueryCacheDatabaseEntry.enforceLoop
    by_cases hgt : d.numElements > value
    · rw [if_pos hgt]
      have hlen : value < l.length := by
        rw [← lo.num]
        exact hgt
      cases l with
      | nil => simp at hlen
      | cons a rest =>
        have hh : d.head = some a := lo.head
        rw [hh]
        simp only
        obtain ⟨d1, h1, h2, h3, lo1, mo1, hhash, _⟩ :=
          @remove_member d [] rest a lo mo
        rw [h1]
        rw [h3] at h2
        simp only [Option.some_bind, h3, h2]
        simp only [List.nil_append] at lo1 mo1
        simp only [List.length_cons] at hfuel hlen
        obtain ⟨d2, g1, g2, g3, g4⟩ := ih _ rest lo1 mo1 (by omega)
        have hdrop : (a :: rest).drop ((a :: rest).length - value) =
            rest.drop (rest.length - value) := by
          have : (a :: rest).length - value = (rest.length - value) + 1 := by
            simp only [List.length_cons]
            omega
          rw [this, List.drop_succ_cons]
        rw [hdrop]
        exact ⟨d2, g1, g2, g3, fun x => by rw [g4 x, hhash x]⟩
    · rw [if_neg hgt]
      have hz : l.length - value = 0 := by
        rw [← lo.num]
        omega
      rw [hz, List.drop_zero]
      exact ⟨d, rfl, lo, mo, fun x => rfl⟩

/-- On the path of `store` without a previous result of the same hash, the call returns, its
assertions hold and the cache is well-formed again. -/
theorem store_spec (maxResults : Nat) (hmax : 1 ≤ maxResults) {d : QueryCacheDatabaseEntry}
    {l : List Nat} (lo : ListOk d l) (mo : MapOk d l) {hash entry : Nat} (he : entry ∉ l)
    (hprev : (d.entries entry).prev = none) (hnext : (d.entries entry).next = none)
    (hhash : (d.entries entry).hash = hash) (hnone : d.entriesByHash hash = none) :
    ∃ d1 l1, d.store maxResults hash entry = some d1 ∧ ListOk d1 (l1 ++ [entry]) ∧
      MapOk d1 (l1 ++ [entry]) ∧ d1.numElements ≤ maxResults ∧ d1.head ≠ none ∧
      d1.tail ≠ none ∧ d1.tail = some entry ∧ (d1.entries entry).next = none ∧
      l1 = l.drop (l.length + 1 - maxResults) := by
  have lo3 : ListOk
      ({ d with entriesByHash := fun h => if h = hash then some entry else d.entriesByHash h }
        : QueryCacheDatabaseEntry) l :=
    ListOk.of_same_entries lo rfl rfl rfl (fun x => ⟨rfl, rfl⟩)
  obtain ⟨d4, h4, lo4, hmap4, hhash4⟩ := lo3.link he hprev hnext
  have mo4 : MapOk d4 (l ++ [entry]) := by
    constructor
    · intro h a ha
      rw [hmap4] at ha
      have ha1 : (if h = hash then some entry else d.entriesByHash h) = some a := ha
      by_cases hh : h = hash
      · rw [if_pos hh] at ha1
        cases ha1
        refine ⟨by simp, ?_⟩
        rw [hhash4]
        show (d.entries entry).hash = h
        rw [hhash, hh]
      · rw [if_neg hh] at ha1
        obtain ⟨m1, m2⟩ := mo.mem h a ha1
        refine ⟨List.mem_append_left _ m1, ?_⟩
        rw [hhash4]
        exact m2
    · intro a ha
      rw [hmap4, hhash4]
      show (if (d.entries a).hash = hash then some entry
        else d.entriesByHash (d.entries a).hash) = some a
      rcases List.mem_append.1 ha with ha | ha
      · have hm := mo.has a ha
        have hne : (d.entries a).hash ≠ hash := by
          intro e
          rw [e, hnone] at hm
          cases hm
        rw [if_neg hne]
        exact hm
      · rw [List.mem_singleton] at ha
        subst ha
        rw [if_pos hhash]
  have hfuel : (l ++ [entry]).length - maxResults < d4.numElements + 1 := by
    rw [lo4.num]
    omega
  obtain ⟨d5, h5, lo5, mo5, _⟩ := enforceLoop_spec maxResults _ d4 _ lo4 mo4 hfuel
  have hk : (l ++ [entry]).length - maxResults ≤ l.length := by
    simp only [List.length_append, List.length_singleton]
    omega
  rw [List.drop_append_of_le_length hk] at lo5 mo5
  have hnum : d5.numElements ≤ maxResults := by
    rw [lo5.num]
    simp only [List.length_append, List.length_singleton, List.length_drop]
    omega
  have htail : d5.tail = some entry := by
    rw [lo5.tail, List.getLast?_concat]
  have hhead : d5.head ≠ none := by
    rw [lo5.head]
    cases l.drop ((l ++ [entry]).length - maxResults) <;> simp
  have hnext5 : (d5.entries entry).next = none := (Linked.at _ none lo5.linked).2
  refine ⟨d5, _, ?_, lo5, mo5, hnum, hhead, by rw [htail]; simp, htail, hnext5, ?_⟩
  · have hfin : (if d5.numElements ≤ maxResults ∧ d5.head ≠ none ∧ d5.tail ≠ none ∧
        d5.tail = some entry ∧ (d5.entries entry).next = none then some d5 else none) =
        some d5 :=
      if_pos ⟨hnum, hhead, by rw [htail]; simp, htail, hnext5⟩
    unfold QueryCacheDatabaseEntry.store
    rw [hnone]
    simp only [Option.some_bind, h4]
    unfold QueryCacheDatabaseEntry.enforceMaxResults
    rw [h5]
    simp only [Option.some_bind]
    exact hfin
  · simp only [List.length_append, List.length_singleton]

/-- On the path of `store` with a previous result of the same hash, the call reads through
the erased iterator and has no result. -/
theorem store_erased (maxResults : Nat) (d : QueryCacheDatabaseEntry) (hash entry : Nat)
    (h : d.entriesByHash hash ≠ none) : d.store maxResults hash entry = none := by
  unfold QueryCacheDatabaseEntry.store
  cases hm : d.entriesByHash hash with
  | none => exact absurd hm h
  | some old =>
    simp only
    cases d.unlink old with
    | none => rfl
    | some d0 => rfl

theorem mapM_same {α : Type} (f : α → Option α) :
    ∀ l : List α, (∀ d ∈ l, f d = some d) → l.mapM f = some l
  | [], _ => rfl
  | a :: l, h => by
    rw [List.mapM_cons, h a (List.mem_cons_self _ _),
      mapM_same f l (fun d hd => h d (List.mem_cons_of_mem _ hd))]
    rfl

theorem enforceMaxResults_le (d : QueryCacheDatabaseEntry) (value : Nat)
    (h : d.numElements ≤ value) : d.enforceMaxResults value = some d := by
  unfold QueryCacheDatabaseEntry.enforceMaxResults QueryCacheDatabaseEntry.enforceLoop
  rw [if_neg (by omega)]

theorem oneResult_listOk : ListOk oneResult [0] :=
  ⟨by decide, rfl, rfl, rfl, ⟨rfl, rfl, trivial⟩⟩

theorem oneResult_mapOk : MapOk oneResult [0] := by
  constructor
  · intro h a ha
    have ha1 : (if h = 10 then some 0 else none) = some a := ha
    by_cases hh : h = 10
    · rw [if_pos hh] at ha1
      cases ha1
      exact ⟨by simp, hh.symm⟩
    · rw [if_neg hh] at ha1
      cases ha1
  · intro a ha
    rw [List.mem_singleton] at ha
    subst ha
    rfl

/-- C35: for a well-formed cache of a database (the results of the list are distinct and
doubly linked, `_head` and `_tail` are its ends, `_numElements` is its length, and
`_entriesByHash` holds exactly the results of the list under their hashes), `MaxResults >= 1`
and a new result `entry` with the hash `hash` (not in the list, its links null): when no
result of this hash is in the cache, `store(hash, entry)` returns, and afterwards
`_numElements <= MaxResults`, `_head` and `_tail` are not null, `_tail` is `entry` and its
`_next` is null, and the cache is well-formed again with the list of the newest results
(the oldest ones are evicted).  When a result of this hash is in the cache, the call reads
through an erased iterator and has no defined result. -/
theorem store_asserts (maxResults : Nat) (d : QueryCacheDatabaseEntry) (l : List Nat)
    (hash entry : Nat) (hmax : 1 ≤ maxResults) (lo : ListOk d l) (mo : MapOk d l)
    (he : entry ∉ l) (hprev : (d.entries entry).prev = none)
    (hnext : (d.entries entry).next = none) (hhash : (d.entries entry).hash = hash) :
    (d.entriesByHash hash = none →
      ∃ d1, d.store maxResults hash entry = some d1 ∧
        d1.numElements ≤ maxResults ∧ d1.head ≠ none ∧ d1.tail ≠ none ∧
        d1.tail = some entry ∧ (d1.entries entry).next = none ∧
        ListOk d1 (l.drop (l.length + 1 - maxResults) ++ [entry]) ∧
        MapOk d1 (l.drop (l.length + 1 - maxResults) ++ [entry])) ∧
    (d.entriesByHash hash ≠ none → d.store maxResults hash entry = none) := by
  refine ⟨fun hnone => ?_, store_erased maxResults d hash entry⟩
  obtain ⟨d1, l1, h1, lo1, mo1, a1, a2, a3, a4, a5, hl1⟩ :=
    store_spec maxResults hmax lo mo he hprev hnext hhash hnone
  subst hl1
  exact ⟨d1, h1, a1, a2, a3, a4, a5, lo1, mo1⟩

theorem store_asserts_witness :
    (QueryCacheDatabaseEntry.create exampleEntries).store 1 10 0 = some oneResult ∧
    ((oneResult.store 1 11 1).map fun d => (d.numElements, d.head, d.tail)) =
      some (1, some 1, some 1) ∧
    (oneResult.entriesByHash 11 = none →
      ∃ d1, oneResult.store 1 11 1 = some d1 ∧
        d1.numElements ≤ 1 ∧ d1.head ≠ none ∧ d1.tail ≠ none ∧
        d1.tail = some 1 ∧ (d1.entries 1).next = none ∧
        ListOk d1 ([0].drop ([0].length + 1 - 1) ++ [1]) ∧
        MapOk d1 ([0].drop ([0].length + 1 - 1) ++ [1])) ∧
    (oneResult.entriesByHash 11 ≠ none → oneResult.store 1 11 1 = none) :=
  ⟨rfl, by decide,
    store_asserts 1 oneResult [0] 11 1 (by decide) oneResult_listOk oneResult_mapOk
      (by decide) rfl rfl rfl⟩

/-- C35, the replacement of a result: after `store(10, 0)` on a new cache the call
`store(10, 1)` for a new result of the same hash 10 unlinks the previous one, erases the
iterator and then reads through it: the call has no defined result. -/
theorem store_replace_undefined :
    ((QueryCacheDatabaseEntry.create sameHashEntries).store 3 10 0).isSome = true ∧
    (((QueryCacheDatabaseEntry.create sameHashEntries).store 3 10 0).bind
      fun (d : QueryCacheDatabaseEntry) => d.store 3 10 1).isSome = false := by
  decide

/-- C36: for `v >= 1` that is not below the previous limit, when every per-database cache
holds at most `MaxResults` results, `setMaxResults(v)` returns with `MaxResults = v`, the
caches unchanged and each holding at most `v` results; `setMaxResults(0)` changes
nothing. -/
theorem setMaxResults_raises (c : Cache) (v : Nat) (hv : 1 ≤ v) (hle : c.maxResults ≤ v)
    (hinv : ∀ d ∈ c.databases, d.numElements ≤ c.maxResults) :
    c.setMaxResults v = some { c with maxResults := v } ∧
      (∀ d ∈ c.databases, d.numElements ≤ v) ∧ c.setMaxResults 0 = some c := by
  refine ⟨?_, fun d hd => le_trans (hinv d hd) hle, rfl⟩
  unfold Cache.setMaxResults
  have hv0 : (v == 0) = false := by
    cases v with
    | zero => omega
    | succ n => rfl
  rw [hv0]
  simp only [Bool.false_eq_true, if_false]
  by_cases hgt : v > c.maxResults
  · rw [if_pos hgt]
    unfold Cache.enforceMaxResults
    rw [mapM_same _ _ (fun d hd => enforceMaxResults_le d v (le_trans (hinv d hd) hle))]
    rfl
  · rw [if_neg hgt]
    rfl

theorem setMaxResults_raises_witness :
    exampleCache.setMaxResults 5 = some { exampleCache with maxResults := 5 } ∧
      (∀ d ∈ exampleCache.databases, d.numElements ≤ 5) ∧
      exampleCache.setMaxResults 0 = some exampleCache :=
  setMaxResults_raises exampleCache 5 (by decide) (by decide)
    (fun d hd => by
      have hd1 : d = exampleDatabase := List.mem_singleton.1 hd
      rw [hd1]
      decide)

/-- C36, lowering the limit: the cache of the example, with `MaxResults = 3` and a database
that holds three results, holds three results after `setMaxResults(1)` as well, while
`MaxResults` is 1. -/
theorem setMaxResults_lowering :
    exampleCache.maxResults = 3 ∧
      exampleCache.databases.map (fun d => d.numElements) = [3] ∧
      (exampleCache.setMaxResults 1).map
        (fun c => (c.maxResults, c.databases.map fun d => d.numElements)) = some (1, [3]) := by
  decide

end QueryCache
